import Mathlib

/-!
# Standard-cell placement legalizer: embedding of `legalizer.cpp`

The legalization engine of `src/legalizer.cpp` (subrow occupancy, the initial
placer, the refinement pass and the displacement reporter) as Lean functions,
followed by the properties of the specification that were checked against it.

## Modelling conventions

The source is embedded twice.

* The exact model (`canPlaceAt`, `initialPlacement`, `optimizePlacement`, ...)
  computes with exact rationals (`ℚ`) for `double` and unbounded integers (`ℤ`)
  for `int`; `1e-6` is `eps = 1/1000000`.  It carries the invariants of the
  occupancy data and the properties of the control flow: which blocks a pass
  touches, how often the loops run, what `insertBlock` and `removeBlock` do to
  a subrow, that the displacement of a cell never grows.
* The model in `double` arithmetic (`Fp.initialPlacement`,
  `Fp.optimizePlacement`, ...) is the same code with every `double` operation
  rounded by a function `rd` and every conversion of a `double` to `int`
  defined only inside the range of a 32-bit `int`.  `fl` is the rounding of
  IEEE binary64.  The properties that depend on the arithmetic (site
  alignment, containment, overlaps, the search window, the choice of the
  target, the order of the rows) are stated on `Fp` with `rd = fl`, for inputs
  on the integer grid `OnGrid`: every number an integer of magnitude at most
  `2^20`, site widths between `1` and `2^19`.  On the grid every operation of
  the passes is exact and the two models agree (`fp_legalize`,
  `fp_optimizeBlock`, `fp_placeBlock`); off the grid the counterexamples
  `roundedInput`, `edgeInput`, `driftInput`, `slipInput`, `farInput` and
  `castInput` show the run in `double` arithmetic breaking these properties.

Both models share the following conventions.

* `unordered_map<string, Block>` is the list of its entries in iteration
  order; a `Block*` is the index of the entry in that list.
* `std::sort` is the insertion sort `sortBy` driven by the source comparator.
  An insertion sort is stable and `std::sort` is not: the theorems assert of a
  sorted order only that it is a permutation of its input in ascending key
  order, or they concern keys that are pairwise distinct, so that the sorted
  order is the same for every sorting algorithm.  The concrete inputs sort at
  most 16 elements, on which the `std::sort` of libstdc++ is an insertion
  sort.  The cell comparator of
  `initialPlacement` compares `origY` with the tolerance; the order of the
  cells is stated for inputs on which the comparator is the lexicographic
  order.
* A `std::string` is the list of its characters, and the file map of the
  `.aux` reader is a record of its five possible keys.
* Reading `occupiedSites` outside the vector is undefined in the source; the
  models return `none` there and every caller propagates it, so `none` as the
  result of a pass means that the run performs such a read (or, in the model in
  `double` arithmetic, a conversion to `int` out of range).  Writes to
  `occupiedSites` are guarded by `0 <= i < numSites` in the source and are
  modelled by `List.set`.
* The three mutations of the passes are `moveTo` (assignment to `x`, `y`),
  `insertAt` and `removeAt` (the calls of `insertBlock` and `removeBlock`).

## Layout

Definitions come first: the exact model of the passes and the model in
`double` arithmetic, the predicates of the properties and the concrete inputs,
then the `.aux` reader and the definitions of the properties of the single
operations and of the two searches, then the states in which the refinement
attempts a cell, the unrestricted search, the rounding `fl` and the grid.
`Legal` is the invariant of the occupancy data; it is
established by `initialPlacement` on every `WellFormed` input and kept by
`optimizePlacement` on inputs that are `Separated` (`legalize_legal`).
-/

namespace Legalizer



/-- The ring structure of `ℚ`, read off its commutative ring and offered ahead
of the instances that reach it through the normed field of `ℚ`: the arithmetic
tactics then build their terms in the ordered field alone. -/
instance (priority := 100000) ratRing : Ring ℚ := Rat.commRing.toRing

/-- The tolerance `1e-6` used by every comparison of the source. -/
def eps : ℚ := 1 / 1000000

/-- The `Block` record of the source (a placeable module). -/
structure Block where
  name : String
  width : ℚ
  height : ℚ
  x : ℚ
  y : ℚ
  origX : ℚ
  origY : ℚ
  isFixed : Bool
deriving DecidableEq, Repr

instance : Inhabited Block := ⟨⟨"", 0, 0, 0, 0, 0, 0, false⟩⟩

/-- The `SubRow` record of the source; `placedBlocks` holds block handles. -/
structure SubRow where
  xStart : ℚ
  xEnd : ℚ
  siteWidth : ℚ
  numSites : ℤ
  occupiedSites : List Bool
  placedBlocks : List ℕ
deriving DecidableEq, Repr

/-- The constructor `SubRow(xs, num, sw)` of the source. -/
def SubRow.new (xs : ℚ) (num : ℤ) (sw : ℚ) : SubRow :=
  ⟨xs, xs + num * sw, sw, num, List.replicate num.toNat false, []⟩

instance : Inhabited SubRow := ⟨SubRow.new 0 0 0⟩

/-- The `Row` record of the source. -/
structure Row where
  yStart : ℚ
  height : ℚ
  siteWidth : ℚ
  siteSpacing : ℚ
  subRows : List SubRow
deriving DecidableEq, Repr

instance : Inhabited Row := ⟨⟨0, 0, 0, 0, []⟩⟩

/-- The `Placement` record of the source. -/
structure Placement where
  blocks : List Block
  rows : List Row
  maxX : ℚ
  maxY : ℚ
deriving DecidableEq, Repr

/-- Dereference of a block handle. -/
def Placement.block (p : Placement) (i : ℕ) : Block := p.blocks.getD i default

/-- Insertion of one element into a list ordered by the strict comparator `lt`,
after the elements that are smaller and before those that are not. -/
def orderedInsert {α : Type} (lt : α → α → Bool) (a : α) : List α → List α
  | [] => [a]
  | b :: l => if lt b a then b :: orderedInsert lt a l else a :: b :: l

/-- Model of `std::sort(first, last, lt)`: insertion sort.  It returns a
permutation of the input in which no element is smaller than an earlier one;
among equal elements it keeps the input order, which `std::sort` does not
promise. -/
def sortBy {α : Type} (lt : α → α → Bool) : List α → List α
  | [] => []
  | a :: l => orderedInsert lt a (sortBy lt l)

/-- One read `occupiedSites[i]`; `none` when `i` is outside the vector. -/
def readSite (occ : List Bool) (i : ℤ) : Option Bool :=
  if i < 0 then none else occ.get? i.toNat

/-- The loop `for (i = ...; ...; ++i) if (i >= 0 && i < numSites) occupiedSites[i] = v`
of `insertBlock` and `removeBlock`, with `k` iterations left from index `i`. -/
def markSites (numSites : ℤ) (v : Bool) : ℤ → ℕ → List Bool → List Bool
  | _, 0, occ => occ
  | i, k + 1, occ =>
    markSites numSites v (i + 1) k (if 0 ≤ i ∧ i < numSites then occ.set i.toNat v else occ)

/-- The loop of `canPlaceAt` over `k` remaining sites from index `i`. -/
def scanFree (occ : List Bool) : ℤ → ℕ → Option Bool
  | _, 0 => some true
  | i, k + 1 =>
    match readSite occ i with
    | none => none
    | some true => some false
    | some false => scanFree occ (i + 1) k

/-- The method `SubRow::canPlaceAt(startSite, sitesNeeded)`. -/
def SubRow.canPlaceAt (sr : SubRow) (startSite sitesNeeded : ℤ) : Option Bool :=
  if startSite + sitesNeeded > sr.numSites then some false
  else scanFree sr.occupiedSites startSite sitesNeeded.toNat

/-- The method `SubRow::insertBlock(block, startSite, sitesNeeded)`; `blocks`
is the block table the handles of `placedBlocks` point into. -/
def SubRow.insertBlock (sr : SubRow) (blocks : List Block) (block : ℕ)
    (startSite sitesNeeded : ℤ) : SubRow :=
  { sr with
    placedBlocks :=
      sortBy (fun a b => decide ((blocks.getD a default).x < (blocks.getD b default).x))
        (sr.placedBlocks ++ [block])
    occupiedSites := markSites sr.numSites true startSite sitesNeeded.toNat sr.occupiedSites }

/-- The method `SubRow::removeBlock(block, startSite, sitesNeeded)`. -/
def SubRow.removeBlock (sr : SubRow) (block : ℕ) (startSite sitesNeeded : ℤ) : SubRow :=
  { sr with
    placedBlocks := sr.placedBlocks.erase block
    occupiedSites := markSites sr.numSites false startSite sitesNeeded.toNat sr.occupiedSites }

/-- Handles of the blocks with `isFixed == false`, in map iteration order. -/
def movableBlocks (p : Placement) : List ℕ :=
  (List.range p.blocks.length).filter (fun i => !(p.block i).isFixed)

/-- Comparator of the cell sort in `initialPlacement`. -/
def origLess (a b : Block) : Bool :=
  if |a.origY - b.origY| > eps then decide (a.origY < b.origY) else decide (a.origX < b.origX)

/-- Manhattan displacement `|x - origX| + |y - origY|` of a block. -/
def Block.disp (b : Block) : ℚ := |b.x - b.origX| + |b.y - b.origY|

/-- Replace subrow `subIdx` of row `idx`. -/
def setSubRow (rows : List Row) (idx subIdx : ℕ) (sr : SubRow) : List Row :=
  match rows.get? idx with
  | none => rows
  | some row => rows.set idx { row with subRows := row.subRows.set subIdx sr }

/-- Subrow `subIdx` of row `idx`, when both exist. -/
def subRowAt (rows : List Row) (idx subIdx : ℕ) : Option SubRow :=
  match rows.get? idx with
  | none => none
  | some row => row.subRows.get? subIdx

/-- The site loop of `initialPlacement`: `k` start sites left from `startSite`;
the result is the first site that `canPlaceAt` accepts and whose right edge fits. -/
def findSite (sr : SubRow) (width : ℚ) (sitesNeeded : ℤ) : ℤ → ℕ → Option (Option ℤ)
  | _, 0 => some none
  | startSite, k + 1 =>
    match sr.canPlaceAt startSite sitesNeeded with
    | none => none
    | some true =>
      if sr.xStart + startSite * sr.siteWidth + width > sr.xEnd + eps then
        findSite sr width sitesNeeded (startSite + 1) k
      else some (some startSite)
    | some false => findSite sr width sitesNeeded (startSite + 1) k

/-- The assignments `block->x = x; block->y = y`. -/
def moveTo (p : Placement) (block : ℕ) (x y : ℚ) : Placement :=
  { p with blocks := p.blocks.set block { p.block block with x := x, y := y } }

/-- The call `subrow.insertBlock(block, startSite, sitesNeeded)` on subrow
`subIdx` of row `idx`. -/
def insertAt (p : Placement) (block idx subIdx : ℕ) (startSite sitesNeeded : ℤ) : Placement :=
  { p with
    rows := setSubRow p.rows idx subIdx
      (((p.rows.getD idx default).subRows.getD subIdx default).insertBlock
        p.blocks block startSite sitesNeeded) }

/-- The call `subrow.removeBlock(block, startSite, sitesOccupied)` on subrow
`subIdx` of row `idx`. -/
def removeAt (p : Placement) (block idx subIdx : ℕ) (startSite sitesOccupied : ℤ) : Placement :=
  { p with
    rows := setSubRow p.rows idx subIdx
      (((p.rows.getD idx default).subRows.getD subIdx default).removeBlock
        block startSite sitesOccupied) }

/-- The placement step of `initialPlacement`: move the block to the aligned
position of the site and insert it into the subrow. -/
def placeAt (p : Placement) (block idx subIdx : ℕ) (startSite sitesNeeded : ℤ) : Placement :=
  let row := p.rows.getD idx default
  let subrow := row.subRows.getD subIdx default
  insertAt (moveTo p block (subrow.xStart + startSite * subrow.siteWidth) row.yStart)
    block idx subIdx startSite sitesNeeded

/-- The subrow loop of `initialPlacement` over the sorted subrow indices. -/
def placeInSubRows (p : Placement) (block idx : ℕ) (sitesNeeded : ℤ) :
    List ℕ → Option (Option Placement)
  | [] => some none
  | subIdx :: rest =>
    let subrow := (p.rows.getD idx default).subRows.getD subIdx default
    match findSite subrow (p.block block).width sitesNeeded 0
        (subrow.numSites - sitesNeeded + 1).toNat with
    | none => none
    | some (some startSite) => some (some (placeAt p block idx subIdx startSite sitesNeeded))
    | some none => placeInSubRows p block idx sitesNeeded rest

/-- Subrow indices of a row sorted by the distance of the subrow centre to `origX`. -/
def subrowOrder (row : Row) (origX : ℚ) : List ℕ :=
  sortBy (fun a b =>
      decide (|((row.subRows.getD a default).xStart + (row.subRows.getD a default).xEnd) / 2 - origX|
        < |((row.subRows.getD b default).xStart + (row.subRows.getD b default).xEnd) / 2 - origX|))
    (List.range row.subRows.length)

/-- Row indices sorted by the distance of `yStart` to `origY`. -/
def rowOrder (p : Placement) (origY : ℚ) : List ℕ :=
  sortBy (fun a b =>
      decide (|(p.rows.getD a default).yStart - origY| < |(p.rows.getD b default).yStart - origY|))
    (List.range p.rows.length)

/-- The row loop of `initialPlacement` over the sorted row indices. -/
def placeInRows (p : Placement) (block : ℕ) : List ℕ → Option (Option Placement)
  | [] => some none
  | idx :: rest =>
    let row := p.rows.getD idx default
    if (p.block block).height > row.height + eps then placeInRows p block rest
    else
      match placeInSubRows p block idx ⌈(p.block block).width / row.siteWidth⌉
          (subrowOrder row (p.block block).origX) with
      | none => none
      | some (some p') => some (some p')
      | some none => placeInRows p block rest

/-- Body of the cell loop of `initialPlacement`: the new state and `placed`. -/
def placeBlock (p : Placement) (block : ℕ) : Option (Placement × Bool) :=
  match placeInRows p block (rowOrder p (p.block block).origY) with
  | none => none
  | some (some p') => some (p', true)
  | some none => some (p, false)

/-- The cell loop of `initialPlacement` over a given processing order. -/
def placeAll : List ℕ → Placement → Option Placement
  | [], p => some p
  | block :: rest, p =>
    match placeBlock p block with
    | none => none
    | some (p', _) => placeAll rest p'

/-- The processing order of `initialPlacement`. -/
def initialOrder (p : Placement) : List ℕ :=
  sortBy (fun a b => origLess (p.block a) (p.block b)) (movableBlocks p)

/-- The function `initialPlacement`. -/
def initialPlacement (p : Placement) : Option Placement :=
  placeAll (initialOrder p) p

/-- The running best candidate of the relocation search in `optimizePlacement`
(`bestRowIdx`, `bestX`, `bestY`, `bestDisp`). -/
structure Best where
  rowIdx : ℕ
  x : ℚ
  y : ℚ
  disp : ℚ
deriving DecidableEq, Repr

/-- The candidate-site loop of `optimizePlacement`: `k` sites left from `siteIdx`. -/
def scanSites (sr : SubRow) (b : Block) (rowIdx : ℕ) (yStart : ℚ) (sitesNeeded : ℤ) :
    ℤ → ℕ → Best → Option Best
  | _, 0, best => some best
  | siteIdx, k + 1, best =>
    match sr.canPlaceAt siteIdx sitesNeeded with
    | none => none
    | some false => scanSites sr b rowIdx yStart sitesNeeded (siteIdx + 1) k best
    | some true =>
      if sr.xStart + siteIdx * sr.siteWidth + b.width > sr.xEnd + eps then
        scanSites sr b rowIdx yStart sitesNeeded (siteIdx + 1) k best
      else
        scanSites sr b rowIdx yStart sitesNeeded (siteIdx + 1) k
          (if |sr.xStart + siteIdx * sr.siteWidth - b.origX| + |yStart - b.origY| < best.disp - eps
           then ⟨rowIdx, sr.xStart + siteIdx * sr.siteWidth, yStart,
                  |sr.xStart + siteIdx * sr.siteWidth - b.origX| + |yStart - b.origY|⟩
           else best)

/-- First candidate site `minSite` of a subrow for the window `[minX, maxXPos]`. -/
def minSiteOf (sr : SubRow) (minX : ℚ) : ℤ :=
  max ⌊(minX - sr.xStart) / sr.siteWidth + eps⌋ 0

/-- Last candidate site `maxSite` of a subrow for the window `[minX, maxXPos]`. -/
def maxSiteOf (sr : SubRow) (b : Block) (sitesNeeded : ℤ) (maxXPos : ℚ) : ℤ :=
  min ⌊(maxXPos - sr.xStart - b.width) / sr.siteWidth + eps⌋ (sr.numSites - sitesNeeded)

/-- The subrow loop of the relocation search. -/
def scanSubRows (b : Block) (rowIdx : ℕ) (yStart : ℚ) (sitesNeeded : ℤ) (minX maxXPos : ℚ) :
    List SubRow → Best → Option Best
  | [], best => some best
  | sr :: rest, best =>
    match scanSites sr b rowIdx yStart sitesNeeded (minSiteOf sr minX)
        (maxSiteOf sr b sitesNeeded maxXPos - minSiteOf sr minX + 1).toNat best with
    | none => none
    | some best' => scanSubRows b rowIdx yStart sitesNeeded minX maxXPos rest best'

/-- The row loop of the relocation search, rows taken in index order from `rowIdx`. -/
def scanRows (b : Block) (originalDisp : ℚ) : ℕ → List Row → Best → Option Best
  | _, [], best => some best
  | rowIdx, row :: rest, best =>
    if |row.yStart - b.origY| > originalDisp + 20 then
      scanRows b originalDisp (rowIdx + 1) rest best
    else if originalDisp + 20 - |row.yStart - b.origY| < 0 then
      scanRows b originalDisp (rowIdx + 1) rest best
    else if b.height > row.height + eps then
      scanRows b originalDisp (rowIdx + 1) rest best
    else
      match scanSubRows b rowIdx row.yStart ⌈b.width / row.siteWidth⌉
          (b.origX - (originalDisp + 20 - |row.yStart - b.origY|))
          (b.origX + (originalDisp + 20 - |row.yStart - b.origY|)) row.subRows best with
      | none => none
      | some best' => scanRows b originalDisp (rowIdx + 1) rest best'

/-- Search of the subrow holding the block inside one row (removal step of
`optimizePlacement`): index of the subrow, start site and site count. -/
def locateSubRow (b : Block) : ℕ → List SubRow → Option (Option (ℕ × ℤ × ℤ))
  | _, [] => some none
  | subIdx, sr :: rest =>
    if b.x ≥ sr.xStart - eps ∧ b.x + b.width ≤ sr.xEnd + eps then
      if ⌊(b.x - sr.xStart) / sr.siteWidth + eps⌋ ≥ 0
          ∧ ⌊(b.x - sr.xStart) / sr.siteWidth + eps⌋ < sr.numSites then
        match readSite sr.occupiedSites ⌊(b.x - sr.xStart) / sr.siteWidth + eps⌋ with
        | none => none
        | some true =>
          some (some (subIdx, ⌊(b.x - sr.xStart) / sr.siteWidth + eps⌋, ⌈b.width / sr.siteWidth⌉))
        | some false => locateSubRow b (subIdx + 1) rest
      else locateSubRow b (subIdx + 1) rest
    else locateSubRow b (subIdx + 1) rest

/-- Search of the row and subrow holding the block (removal step). -/
def locateRow (b : Block) : ℕ → List Row → Option (Option (ℕ × ℕ × ℤ × ℤ))
  | _, [] => some none
  | rowIdx, row :: rest =>
    if |row.yStart - b.y| < eps then
      match locateSubRow b 0 row.subRows with
      | none => none
      | some (some (subIdx, startSite, sitesOccupied)) =>
        some (some (rowIdx, subIdx, startSite, sitesOccupied))
      | some none => locateRow b (rowIdx + 1) rest
    else locateRow b (rowIdx + 1) rest

/-- Search of the subrow of the target row that takes the moved block
(re-insertion step of `optimizePlacement`). -/
def reinsertSubRow (b : Block) : ℕ → List SubRow → Option (Option (ℕ × ℤ × ℤ))
  | _, [] => some none
  | subIdx, sr :: rest =>
    if b.x ≥ sr.xStart - eps ∧ b.x + b.width ≤ sr.xEnd + eps then
      match sr.canPlaceAt ⌊(b.x - sr.xStart) / sr.siteWidth + eps⌋ ⌈b.width / sr.siteWidth⌉ with
      | none => none
      | some true =>
        some (some (subIdx, ⌊(b.x - sr.xStart) / sr.siteWidth + eps⌋, ⌈b.width / sr.siteWidth⌉))
      | some false => reinsertSubRow b (subIdx + 1) rest
    else reinsertSubRow b (subIdx + 1) rest

/-- Body of the cell loop of `optimizePlacement`: the new state and whether the
block was relocated (whether `improvement = true` was executed). -/
def optimizeBlock (p : Placement) (block : ℕ) : Option (Placement × Bool) :=
  let b := p.block block
  match scanRows b b.disp 0 p.rows ⟨p.rows.length, b.x, b.y, b.disp⟩ with
  | none => none
  | some best =>
    if best.disp < b.disp - eps then
      match locateRow b 0 p.rows with
      | none => none
      | some none => some (p, false)
      | some (some (rowIdx, subIdx, startSite, sitesOccupied)) =>
        let p1 := moveTo (removeAt p block rowIdx subIdx startSite sitesOccupied)
          block best.x best.y
        match reinsertSubRow (p1.block block) 0 (p1.rows.getD best.rowIdx default).subRows with
        | none => none
        | some none => some (p1, false)
        | some (some (newSubIdx, newStart, sitesNeeded)) =>
          some (insertAt p1 block best.rowIdx newSubIdx newStart sitesNeeded, true)
    else some (p, false)

/-- The cell loop of one iteration of `optimizePlacement`, threading `improvement`. -/
def optimizeBlocks : List ℕ → Placement → Bool → Option (Placement × Bool)
  | [], p, improvement => some (p, improvement)
  | block :: rest, p, improvement =>
    match optimizeBlock p block with
    | none => none
    | some (p', moved) => optimizeBlocks rest p' (improvement || moved)

/-- Processing order of one iteration: movable blocks by descending displacement. -/
def optimizeOrder (p : Placement) : List ℕ :=
  sortBy (fun a b => decide ((p.block a).disp > (p.block b).disp)) (movableBlocks p)

/-- One execution of the body of the outer loop of `optimizePlacement`: the new
state and the final value of `improvement`. -/
def optimizeIteration (p : Placement) : Option (Placement × Bool) :=
  optimizeBlocks (optimizeOrder p) p false

/-- The outer loop `while (improvement && currentIteration < maxIterations)` with
`k` iterations left; the result carries the number of executed iterations. -/
def optimizeLoop : ℕ → Placement → Option (Placement × ℕ)
  | 0, p => some (p, 0)
  | k + 1, p =>
    match optimizeIteration p with
    | none => none
    | some (p', true) =>
      match optimizeLoop k p' with
      | none => none
      | some (p'', c) => some (p'', c + 1)
    | some (p', false) => some (p', 1)

/-- The function `optimizePlacement` (`maxIterations = 6`). -/
def optimizePlacement (p : Placement) : Option Placement :=
  (optimizeLoop 6 p).map Prod.fst

/-- The function `calculateTotalDisplacement`: the pair
`(totalDisplacement, maxDisplacement)` accumulated over the blocks. -/
def calculateTotalDisplacement (p : Placement) : ℚ × ℚ :=
  p.blocks.foldl
    (fun acc b =>
      if !b.isFixed then (acc.1 + b.disp, if b.disp > acc.2 then b.disp else acc.2) else acc)
    (0, 0)

/-- The two passes as `main` runs them: `initialPlacement` then `optimizePlacement`. -/
def legalize (p : Placement) : Option Placement :=
  match initialPlacement p with
  | none => none
  | some p1 => optimizePlacement p1

/-! ## The passes in `double` arithmetic

The definitions above compute with exact rationals.  The definitions `Fp.*`
below are the same functions of the source with every `double` operation
rounded by a function `rd : ℚ → ℚ` and every conversion of a `double` to `int`
defined only inside the range of a 32-bit `int`.  A `double` is the rational
it denotes; `fabs`, comparisons, `floor` and `ceil` are exact on doubles, the
conversion of an `int` to `double` is exact, and the literals `20.0` and `2.0`
are doubles.  `fl` is the rounding of IEEE binary64 (round to nearest, ties to
even) for values in the normal range. -/

/-- The conversion of an integral `double` to `int` (`static_cast<int>` and the
implicit conversion of `int n = ceil(...)`): the value when a 32-bit `int`
holds it, undefined otherwise. -/
def Fp.toInt (z : ℤ) : Option ℤ :=
  if -2147483648 ≤ z ∧ z ≤ 2147483647 then some z else none

/-- The constructor `SubRow(xs, num, sw)` of the source: `xEnd(xs + num * sw)`. -/
def Fp.newSubRow (rd : ℚ → ℚ) (xs : ℚ) (num : ℤ) (sw : ℚ) : SubRow :=
  ⟨xs, rd (xs + rd (num * sw)), sw, num, List.replicate num.toNat false, []⟩

/-- The expression `ceil(block->width / siteWidth)` converted to `int`. -/
def Fp.sitesNeeded (rd : ℚ → ℚ) (width siteWidth : ℚ) : Option ℤ :=
  Fp.toInt ⌈rd (width / siteWidth)⌉

/-- The expression `static_cast<int>(floor((x - xStart) / siteWidth + 1e-6))`. -/
def Fp.siteOf (rd : ℚ → ℚ) (x xStart siteWidth : ℚ) : Option ℤ :=
  Fp.toInt ⌊rd (rd (rd (x - xStart) / siteWidth) + rd eps)⌋

/-- The expression `subrow.xStart + startSite * subrow.siteWidth`. -/
def Fp.alignedX (rd : ℚ → ℚ) (sr : SubRow) (startSite : ℤ) : ℚ :=
  rd (sr.xStart + rd (startSite * sr.siteWidth))

/-- Comparator of the cell sort in `initialPlacement`. -/
def Fp.origLess (rd : ℚ → ℚ) (a b : Block) : Bool :=
  if |rd (a.origY - b.origY)| > rd eps then decide (a.origY < b.origY)
  else decide (a.origX < b.origX)

/-- The expression `abs(x - origX) + abs(y - origY)` of a block. -/
def Fp.disp (rd : ℚ → ℚ) (b : Block) : ℚ :=
  rd (|rd (b.x - b.origX)| + |rd (b.y - b.origY)|)

/-- The site loop of `initialPlacement`, `k` start sites left from `startSite`. -/
def Fp.findSite (rd : ℚ → ℚ) (sr : SubRow) (width : ℚ) (sitesNeeded : ℤ) :
    ℤ → ℕ → Option (Option ℤ)
  | _, 0 => some none
  | startSite, k + 1 =>
    match sr.canPlaceAt startSite sitesNeeded with
    | none => none
    | some true =>
      if rd (Fp.alignedX rd sr startSite + width) > rd (sr.xEnd + rd eps) then
        Fp.findSite rd sr width sitesNeeded (startSite + 1) k
      else some (some startSite)
    | some false => Fp.findSite rd sr width sitesNeeded (startSite + 1) k

/-- The placement step of `initialPlacement`. -/
def Fp.placeAt (rd : ℚ → ℚ) (p : Placement) (block idx subIdx : ℕ)
    (startSite sitesNeeded : ℤ) : Placement :=
  let row := p.rows.getD idx default
  let subrow := row.subRows.getD subIdx default
  insertAt (moveTo p block (Fp.alignedX rd subrow startSite) row.yStart)
    block idx subIdx startSite sitesNeeded

/-- The subrow loop of `initialPlacement` over the sorted subrow indices. -/
def Fp.placeInSubRows (rd : ℚ → ℚ) (p : Placement) (block idx : ℕ) (sitesNeeded : ℤ) :
    List ℕ → Option (Option Placement)
  | [] => some none
  | subIdx :: rest =>
    let subrow := (p.rows.getD idx default).subRows.getD subIdx default
    match Fp.findSite rd subrow (p.block block).width sitesNeeded 0
        (subrow.numSites - sitesNeeded + 1).toNat with
    | none => none
    | some (some startSite) =>
      some (some (Fp.placeAt rd p block idx subIdx startSite sitesNeeded))
    | some none => Fp.placeInSubRows rd p block idx sitesNeeded rest

/-- The value `xDiff` of the subrow sort: distance of the subrow centre to `origX`. -/
def Fp.centreDist (rd : ℚ → ℚ) (row : Row) (origX : ℚ) (a : ℕ) : ℚ :=
  |rd (rd (rd ((row.subRows.getD a default).xStart + (row.subRows.getD a default).xEnd) / 2)
    - origX)|

/-- Subrow indices of a row sorted by `xDiff`. -/
def Fp.subrowOrder (rd : ℚ → ℚ) (row : Row) (origX : ℚ) : List ℕ :=
  sortBy (fun a b => decide (Fp.centreDist rd row origX a < Fp.centreDist rd row origX b))
    (List.range row.subRows.length)

/-- The value `yDiff` of the row sort: `abs(rows[a].yStart - origY)`. -/
def Fp.rowDist (rd : ℚ → ℚ) (p : Placement) (origY : ℚ) (a : ℕ) : ℚ :=
  |rd ((p.rows.getD a default).yStart - origY)|

/-- Row indices sorted by `yDiff`. -/
def Fp.rowOrder (rd : ℚ → ℚ) (p : Placement) (origY : ℚ) : List ℕ :=
  sortBy (fun a b => decide (Fp.rowDist rd p origY a < Fp.rowDist rd p origY b))
    (List.range p.rows.length)

/-- The row loop of `initialPlacement` over the sorted row indices. -/
def Fp.placeInRows (rd : ℚ → ℚ) (p : Placement) (block : ℕ) :
    List ℕ → Option (Option Placement)
  | [] => some none
  | idx :: rest =>
    if (p.block block).height > rd ((p.rows.getD idx default).height + rd eps) then
      Fp.placeInRows rd p block rest
    else
      match Fp.sitesNeeded rd (p.block block).width (p.rows.getD idx default).siteWidth with
      | none => none
      | some sitesNeeded =>
        match Fp.placeInSubRows rd p block idx sitesNeeded
            (Fp.subrowOrder rd (p.rows.getD idx default) (p.block block).origX) with
        | none => none
        | some (some p') => some (some p')
        | some none => Fp.placeInRows rd p block rest

/-- Body of the cell loop of `initialPlacement`: the new state and `placed`. -/
def Fp.placeBlock (rd : ℚ → ℚ) (p : Placement) (block : ℕ) : Option (Placement × Bool) :=
  match Fp.placeInRows rd p block (Fp.rowOrder rd p (p.block block).origY) with
  | none => none
  | some (some p') => some (p', true)
  | some none => some (p, false)

/-- The cell loop of `initialPlacement` over a given processing order. -/
def Fp.placeAll (rd : ℚ → ℚ) : List ℕ → Placement → Option Placement
  | [], p => some p
  | block :: rest, p =>
    match Fp.placeBlock rd p block with
    | none => none
    | some (p', _) => Fp.placeAll rd rest p'

/-- The processing order of `initialPlacement`. -/
def Fp.initialOrder (rd : ℚ → ℚ) (p : Placement) : List ℕ :=
  sortBy (fun a b => Fp.origLess rd (p.block a) (p.block b)) (movableBlocks p)

/-- The function `initialPlacement`. -/
def Fp.initialPlacement (rd : ℚ → ℚ) (p : Placement) : Option Placement :=
  Fp.placeAll rd (Fp.initialOrder rd p) p

/-- The candidate-site loop of `optimizePlacement`: `k` sites left from `siteIdx`. -/
def Fp.scanSites (rd : ℚ → ℚ) (sr : SubRow) (b : Block) (rowIdx : ℕ) (yStart : ℚ)
    (sitesNeeded : ℤ) : ℤ → ℕ → Best → Option Best
  | _, 0, best => some best
  | siteIdx, k + 1, best =>
    match sr.canPlaceAt siteIdx sitesNeeded with
    | none => none
    | some false => Fp.scanSites rd sr b rowIdx yStart sitesNeeded (siteIdx + 1) k best
    | some true =>
      if rd (Fp.alignedX rd sr siteIdx + b.width) > rd (sr.xEnd + rd eps) then
        Fp.scanSites rd sr b rowIdx yStart sitesNeeded (siteIdx + 1) k best
      else
        Fp.scanSites rd sr b rowIdx yStart sitesNeeded (siteIdx + 1) k
          (if rd (|rd (Fp.alignedX rd sr siteIdx - b.origX)| + |rd (yStart - b.origY)|)
              < rd (best.disp - rd eps)
           then ⟨rowIdx, Fp.alignedX rd sr siteIdx, yStart,
                  rd (|rd (Fp.alignedX rd sr siteIdx - b.origX)| + |rd (yStart - b.origY)|)⟩
           else best)

/-- First candidate site `minSite` of a subrow for the window `[minX, maxXPos]`. -/
def Fp.minSiteOf (rd : ℚ → ℚ) (sr : SubRow) (minX : ℚ) : Option ℤ :=
  (Fp.siteOf rd minX sr.xStart sr.siteWidth).map (fun s => max s 0)

/-- Last candidate site `maxSite` of a subrow for the window `[minX, maxXPos]`. -/
def Fp.maxSiteOf (rd : ℚ → ℚ) (sr : SubRow) (b : Block) (sitesNeeded : ℤ) (maxXPos : ℚ) :
    Option ℤ :=
  (Fp.toInt ⌊rd (rd (rd (rd (maxXPos - sr.xStart) - b.width) / sr.siteWidth) + rd eps)⌋).map
    (fun s => min s (sr.numSites - sitesNeeded))

/-- The subrow loop of the relocation search. -/
def Fp.scanSubRows (rd : ℚ → ℚ) (b : Block) (rowIdx : ℕ) (yStart : ℚ) (sitesNeeded : ℤ)
    (minX maxXPos : ℚ) : List SubRow → Best → Option Best
  | [], best => some best
  | sr :: rest, best =>
    match Fp.minSiteOf rd sr minX, Fp.maxSiteOf rd sr b sitesNeeded maxXPos with
    | some minSite, some maxSite =>
      match Fp.scanSites rd sr b rowIdx yStart sitesNeeded minSite
          (maxSite - minSite + 1).toNat best with
      | none => none
      | some best' => Fp.scanSubRows rd b rowIdx yStart sitesNeeded minX maxXPos rest best'
    | _, _ => none

/-- The row loop of the relocation search, rows taken in index order from
`rowIdx`; `maxDist` is `maxManhattanDist`. -/
def Fp.scanRows (rd : ℚ → ℚ) (b : Block) (maxDist : ℚ) : ℕ → List Row → Best → Option Best
  | _, [], best => some best
  | rowIdx, row :: rest, best =>
    if |rd (row.yStart - b.origY)| > maxDist then
      Fp.scanRows rd b maxDist (rowIdx + 1) rest best
    else
      match Fp.sitesNeeded rd b.width row.siteWidth with
      | none => none
      | some sitesNeeded =>
        if rd (maxDist - |rd (row.yStart - b.origY)|) < 0 then
          Fp.scanRows rd b maxDist (rowIdx + 1) rest best
        else if b.height > rd (row.height + rd eps) then
          Fp.scanRows rd b maxDist (rowIdx + 1) rest best
        else
          match Fp.scanSubRows rd b rowIdx row.yStart sitesNeeded
              (rd (b.origX - rd (maxDist - |rd (row.yStart - b.origY)|)))
              (rd (b.origX + rd (maxDist - |rd (row.yStart - b.origY)|))) row.subRows best with
          | none => none
          | some best' => Fp.scanRows rd b maxDist (rowIdx + 1) rest best'

/-- Search of the subrow holding the block inside one row (removal step). -/
def Fp.locateSubRow (rd : ℚ → ℚ) (b : Block) : ℕ → List SubRow → Option (Option (ℕ × ℤ × ℤ))
  | _, [] => some none
  | subIdx, sr :: rest =>
    match Fp.siteOf rd b.x sr.xStart sr.siteWidth, Fp.sitesNeeded rd b.width sr.siteWidth with
    | some startSite, some sitesOccupied =>
      if b.x ≥ rd (sr.xStart - rd eps) ∧ rd (b.x + b.width) ≤ rd (sr.xEnd + rd eps) then
        if startSite ≥ 0 ∧ startSite < sr.numSites then
          match readSite sr.occupiedSites startSite with
          | none => none
          | some true => some (some (subIdx, startSite, sitesOccupied))
          | some false => Fp.locateSubRow rd b (subIdx + 1) rest
        else Fp.locateSubRow rd b (subIdx + 1) rest
      else Fp.locateSubRow rd b (subIdx + 1) rest
    | _, _ => none

/-- Search of the row and subrow holding the block (removal step). -/
def Fp.locateRow (rd : ℚ → ℚ) (b : Block) : ℕ → List Row → Option (Option (ℕ × ℕ × ℤ × ℤ))
  | _, [] => some none
  | rowIdx, row :: rest =>
    if |rd (row.yStart - b.y)| < rd eps then
      match Fp.locateSubRow rd b 0 row.subRows with
      | none => none
      | some (some (subIdx, startSite, sitesOccupied)) =>
        some (some (rowIdx, subIdx, startSite, sitesOccupied))
      | some none => Fp.locateRow rd b (rowIdx + 1) rest
    else Fp.locateRow rd b (rowIdx + 1) rest

/-- Search of the subrow of the target row that takes the moved block
(re-insertion step). -/
def Fp.reinsertSubRow (rd : ℚ → ℚ) (b : Block) :
    ℕ → List SubRow → Option (Option (ℕ × ℤ × ℤ))
  | _, [] => some none
  | subIdx, sr :: rest =>
    if b.x ≥ rd (sr.xStart - rd eps) ∧ rd (b.x + b.width) ≤ rd (sr.xEnd + rd eps) then
      match Fp.siteOf rd b.x sr.xStart sr.siteWidth, Fp.sitesNeeded rd b.width sr.siteWidth with
      | some startSite, some sitesNeeded =>
        match sr.canPlaceAt startSite sitesNeeded with
        | none => none
        | some true => some (some (subIdx, startSite, sitesNeeded))
        | some false => Fp.reinsertSubRow rd b (subIdx + 1) rest
      | _, _ => none
    else Fp.reinsertSubRow rd b (subIdx + 1) rest

/-- Body of the cell loop of `optimizePlacement`: the new state and whether the
block was relocated. -/
def Fp.optimizeBlock (rd : ℚ → ℚ) (p : Placement) (block : ℕ) : Option (Placement × Bool) :=
  let b := p.block block
  match Fp.scanRows rd b (rd (Fp.disp rd b + 20)) 0 p.rows
      ⟨p.rows.length, b.x, b.y, Fp.disp rd b⟩ with
  | none => none
  | some best =>
    if best.disp < rd (Fp.disp rd b - rd eps) then
      match Fp.locateRow rd b 0 p.rows with
      | none => none
      | some none => some (p, false)
      | some (some (rowIdx, subIdx, startSite, sitesOccupied)) =>
        let p1 := moveTo (removeAt p block rowIdx subIdx startSite sitesOccupied)
          block best.x best.y
        match Fp.reinsertSubRow rd (p1.block block) 0
            (p1.rows.getD best.rowIdx default).subRows with
        | none => none
        | some none => some (p1, false)
        | some (some (newSubIdx, newStart, sitesNeeded)) =>
          some (insertAt p1 block best.rowIdx newSubIdx newStart sitesNeeded, true)
    else some (p, false)

/-- The cell loop of one iteration of `optimizePlacement`, threading `improvement`. -/
def Fp.optimizeBlocks (rd : ℚ → ℚ) : List ℕ → Placement → Bool → Option (Placement × Bool)
  | [], p, improvement => some (p, improvement)
  | block :: rest, p, improvement =>
    match Fp.optimizeBlock rd p block with
    | none => none
    | some (p', moved) => Fp.optimizeBlocks rd rest p' (improvement || moved)

/-- Processing order of one iteration: movable blocks by descending displacement. -/
def Fp.optimizeOrder (rd : ℚ → ℚ) (p : Placement) : List ℕ :=
  sortBy (fun a b => decide (Fp.disp rd (p.block a) > Fp.disp rd (p.block b)))
    (movableBlocks p)

/-- One execution of the body of the outer loop of `optimizePlacement`. -/
def Fp.optimizeIteration (rd : ℚ → ℚ) (p : Placement) : Option (Placement × Bool) :=
  Fp.optimizeBlocks rd (Fp.optimizeOrder rd p) p false

/-- The outer loop of `optimizePlacement` with `k` iterations left. -/
def Fp.optimizeLoop (rd : ℚ → ℚ) : ℕ → Placement → Option (Placement × ℕ)
  | 0, p => some (p, 0)
  | k + 1, p =>
    match Fp.optimizeIteration rd p with
    | none => none
    | some (p', true) =>
      match Fp.optimizeLoop rd k p' with
      | none => none
      | some (p'', c) => some (p'', c + 1)
    | some (p', false) => some (p', 1)

/-- The function `optimizePlacement` (`maxIterations = 6`). -/
def Fp.optimizePlacement (rd : ℚ → ℚ) (p : Placement) : Option Placement :=
  (Fp.optimizeLoop rd 6 p).map Prod.fst

/-- The two passes as `main` runs them. -/
def Fp.legalize (rd : ℚ → ℚ) (p : Placement) : Option Placement :=
  match Fp.initialPlacement rd p with
  | none => none
  | some p1 => Fp.optimizePlacement rd p1

/-- Row `ri` of `rows` is `r` and its subrow `si` is `sr`. -/
def IsSub (rows : List Row) (ri si : ℕ) (r : Row) (sr : SubRow) : Prop :=
  rows[ri]? = some r ∧ r.subRows[si]? = some sr

/-- Block `i` is in the placed-cell list of some subrow. -/
def Listed (rows : List Row) (i : ℕ) : Prop :=
  ∃ ri si r sr, IsSub rows ri si r sr ∧ i ∈ sr.placedBlocks

/-- The two records describe the same cell: only `x` and `y` may differ. -/
def SameCell (b b' : Block) : Prop :=
  b'.name = b.name ∧ b'.width = b.width ∧ b'.height = b.height ∧
    b'.origX = b.origX ∧ b'.origY = b.origY ∧ b'.isFixed = b.isFixed

/-- The block tables hold the same cells, possibly at other coordinates. -/
def SameCells (p p' : Placement) : Prop :=
  p'.blocks.length = p.blocks.length ∧ ∀ j, SameCell (p.block j) (p'.block j)

/-- Between `p` and `p'` block `i` kept its record and entered no placed-cell list. -/
def Untouched (i : ℕ) (p p' : Placement) : Prop :=
  p'.block i = p.block i ∧
    ∀ ri si r' sr', IsSub p'.rows ri si r' sr' → i ∈ sr'.placedBlocks →
      ∃ r sr, IsSub p.rows ri si r sr ∧ i ∈ sr.placedBlocks

/-- The running best candidate records its own displacement from the origin of `b`. -/
def BestInv (b : Block) (best : Best) : Prop :=
  best.disp = |best.x - b.origX| + |best.y - b.origY|

/-- No block is farther from its origin in `p'` than in `p`. -/
def DispLE (p p' : Placement) : Prop :=
  ∀ i, (p'.block i).disp ≤ (p.block i).disp

/-- The state `p'` is reached from `p` by assignments to the coordinates of, and
`insertBlock`/`removeBlock` calls for, blocks that satisfy `M` only. -/
inductive Updates (M : ℕ → Prop) : Placement → Placement → Prop
  | refl (p : Placement) : Updates M p p
  | move {p q : Placement} (h : Updates M p q) (j : ℕ) (hj : M j) (x y : ℚ) :
      Updates M p (moveTo q j x y)
  | insert {p q : Placement} (h : Updates M p q) (j : ℕ) (hj : M j) (ri si : ℕ) (s n : ℤ) :
      Updates M p (insertAt q j ri si s n)
  | remove {p q : Placement} (h : Updates M p q) (j : ℕ) (hj : M j) (ri si : ℕ) (s n : ℤ) :
      Updates M p (removeAt q j ri si s n)

/-- The state after `k` executions of the body of the outer loop of
`optimizePlacement`, whatever `improvement` was. -/
def iterations : ℕ → Placement → Option Placement
  | 0, p => some p
  | k + 1, p =>
    match optimizeIteration p with
    | none => none
    | some (p', _) => iterations k p'

/-- Start site `floor((x - xStart) / siteWidth)` of a block on a subrow. -/
def startOf (sr : SubRow) (b : Block) : ℤ := ⌊(b.x - sr.xStart) / sr.siteWidth⌋

/-- Site count `ceil(width / siteWidth)` of a block on a subrow. -/
def sitesOf (sr : SubRow) (b : Block) : ℤ := ⌈b.width / sr.siteWidth⌉

/-- The unchanging part of a subrow record is as the constructor built it. -/
structure SubGeom (r : Row) (sr : SubRow) : Prop where
  sw_pos : 0 < r.siteWidth
  sw_eq : sr.siteWidth = r.siteWidth
  xEnd_eq : sr.xEnd = sr.xStart + sr.numSites * sr.siteWidth
  num_nonneg : 0 ≤ sr.numSites
  len : sr.occupiedSites.length = sr.numSites.toNat

/-- Invariant of one subrow: every listed block is a movable cell sitting on a
site range inside the subrow at the height of the row, the occupied bits are
the union of these ranges, the ranges are pairwise disjoint, and the list has no
duplicates and is sorted by `x`. -/
structure SubOK (blocks : List Block) (r : Row) (sr : SubRow) : Prop where
  placed : ∀ i ∈ sr.placedBlocks,
    i < blocks.length ∧ (blocks.getD i default).isFixed = false ∧
    0 < (blocks.getD i default).width ∧
    (blocks.getD i default).height ≤ r.height + eps ∧
    (blocks.getD i default).y = r.yStart ∧
    0 ≤ startOf sr (blocks.getD i default) ∧
    startOf sr (blocks.getD i default) + sitesOf sr (blocks.getD i default) ≤ sr.numSites ∧
    (blocks.getD i default).x
      = sr.xStart + startOf sr (blocks.getD i default) * sr.siteWidth
  bits : ∀ k : ℤ, 0 ≤ k → k < sr.numSites →
    (readSite sr.occupiedSites k = some true ↔
      ∃ i ∈ sr.placedBlocks, startOf sr (blocks.getD i default) ≤ k ∧
        k < startOf sr (blocks.getD i default) + sitesOf sr (blocks.getD i default))
  nodup : sr.placedBlocks.Nodup
  disjoint : ∀ i ∈ sr.placedBlocks, ∀ j ∈ sr.placedBlocks, i ≠ j →
    startOf sr (blocks.getD i default) + sitesOf sr (blocks.getD i default)
        ≤ startOf sr (blocks.getD j default) ∨
    startOf sr (blocks.getD j default) + sitesOf sr (blocks.getD j default)
        ≤ startOf sr (blocks.getD i default)
  sorted : sr.placedBlocks.Pairwise
    (fun i j => (blocks.getD i default).x ≤ (blocks.getD j default).x)

/-- The subrow `sr'` has the unchanging fields of `sr` and a bitmap of the same length. -/
def SameSub (sr sr' : SubRow) : Prop :=
  sr'.xStart = sr.xStart ∧ sr'.xEnd = sr.xEnd ∧ sr'.siteWidth = sr.siteWidth ∧
    sr'.numSites = sr.numSites ∧ sr'.occupiedSites.length = sr.occupiedSites.length

/-- Every row and subrow of `rows'` is a row or subrow of `rows` at the same
position with the same unchanging fields. -/
def SameRows (rows rows' : List Row) : Prop :=
  (∀ (ri : ℕ) (r' : Row), rows'[ri]? = some r' →
    ∃ r : Row, rows[ri]? = some r ∧ r.yStart = r'.yStart ∧ r.height = r'.height ∧
      r.siteWidth = r'.siteWidth) ∧
  (∀ (ri si : ℕ) (r' : Row) (sr' : SubRow), IsSub rows' ri si r' sr' →
    ∃ (r : Row) (sr : SubRow), IsSub rows ri si r sr ∧ r.yStart = r'.yStart ∧ r.height = r'.height ∧
      r.siteWidth = r'.siteWidth ∧ SameSub sr sr')

/-- Geometry of the rows: every subrow record is as constructed and the subrows
of a row are pairwise disjoint. -/
structure Static (rows : List Row) : Prop where
  geom : ∀ ri si r sr, IsSub rows ri si r sr → SubGeom r sr
  apart : ∀ ri si sj r sr sr', IsSub rows ri si r sr → IsSub rows ri sj r sr' → si ≠ sj →
    sr.xEnd ≤ sr'.xStart ∨ sr'.xEnd ≤ sr.xStart

/-- Position form of `Separated`: rows at least `eps` apart in `yStart`, and in
a row with a site width of at most `eps` the subrows are listed from left to right. -/
structure Apart (rows : List Row) : Prop where
  rowsApart : ∀ (ri rj : ℕ) (r r' : Row), rows[ri]? = some r → rows[rj]? = some r' → ri ≠ rj →
    eps ≤ |r.yStart - r'.yStart|
  ordered : ∀ ri si sj r sr sr', IsSub rows ri si r sr → IsSub rows ri sj r sr' → si < sj →
    eps < r.siteWidth ∨ sr.xEnd ≤ sr'.xStart

/-- Invariant of the occupancy data: the geometry, the invariant of every
subrow, and no block in two placed-cell lists. -/
structure Lists (p : Placement) : Prop where
  stat : Static p.rows
  sub : ∀ ri si r sr, IsSub p.rows ri si r sr → SubOK p.blocks r sr
  unique : ∀ i ri si r sr rj sj r' sr', IsSub p.rows ri si r sr → IsSub p.rows rj sj r' sr' →
    i ∈ sr.placedBlocks → i ∈ sr'.placedBlocks → ri = rj ∧ si = sj

/-- Legal state: the occupancy invariant, and every block outside the lists is
at its original coordinates. -/
structure Legal (p : Placement) : Prop where
  lists : Lists p
  home : ∀ i, ¬ Listed p.rows i →
    (p.block i).x = (p.block i).origX ∧ (p.block i).y = (p.block i).origY

/-- A running best candidate that beats the current displacement of block `i`
by more than `eps` names a site of a subrow of row `best.rowIdx` that
`canPlaceAt` accepts for the block in state `p`, in a row high enough. -/
def CandOK (p : Placement) (i : ℕ) (best : Best) : Prop :=
  best.disp < (p.block i).disp - eps →
    ∃ (sb : ℕ) (r : Row) (sr : SubRow) (s : ℤ), IsSub p.rows best.rowIdx sb r sr ∧ 0 ≤ s ∧
      sr.canPlaceAt s ⌈(p.block i).width / r.siteWidth⌉ = some true ∧
      best.x = sr.xStart + s * sr.siteWidth ∧ best.y = r.yStart ∧
      (p.block i).height ≤ r.height + eps ∧
      best.x + (p.block i).width ≤ sr.xEnd + eps

/-- The run returned a state, and that state satisfies `P`. -/
def Returns (o : Option Placement) (P : Placement → Prop) : Prop :=
  ∃ p, o = some p ∧ P p

instance (o : Option Placement) (P : Placement → Prop) [DecidablePred P] :
    Decidable (Returns o P) :=
  match o with
  | none => isFalse (fun h => by obtain ⟨p, hp, _⟩ := h; cases hp)
  | some p =>
    if h : P p then isTrue ⟨p, rfl, h⟩
    else isFalse (fun h' => by
      obtain ⟨q, hq, hP⟩ := h'
      simp only [Option.some.injEq] at hq
      subst hq
      exact h hP)

/-- Well-formed input: positive site widths, every subrow as its constructor
built it from the site width of its row (empty bitmap, empty list) with a
nonnegative site count, subrows of a row pairwise disjoint (one ends where or
before the other starts), rows with pairwise distinct `yStart`, positive cell
sizes, and every cell at its original coordinates. -/
def WellFormed (p : Placement) : Prop :=
  (∀ r ∈ p.rows, 0 < r.siteWidth ∧
    ∀ sr ∈ r.subRows, 0 ≤ sr.numSites ∧ sr = SubRow.new sr.xStart sr.numSites r.siteWidth) ∧
  (∀ r ∈ p.rows, r.subRows.Pairwise (fun a b => a.xEnd ≤ b.xStart ∨ b.xEnd ≤ a.xStart)) ∧
  p.rows.Pairwise (fun a b => a.yStart ≠ b.yStart) ∧
  (∀ b ∈ p.blocks, 0 < b.width ∧ 0 < b.height ∧ b.x = b.origX ∧ b.y = b.origY)

instance (p : Placement) : Decidable (WellFormed p) := by
  unfold WellFormed; infer_instance

/-- Rows and subrows can be told apart by the `1e-6` comparisons of the
refinement pass: the `yStart` of two rows differ by at least `1e-6`, and every
row has a site width above `1e-6` or lists its subrows from left to right. -/
def Separated (p : Placement) : Prop :=
  p.rows.Pairwise (fun a b => eps ≤ |a.yStart - b.yStart|) ∧
  ∀ r ∈ p.rows, eps < r.siteWidth ∨ r.subRows.Pairwise (fun a b => a.xEnd ≤ b.xStart)

instance (p : Placement) : Decidable (Separated p) := by
  unfold Separated; infer_instance

/-- The block sits on a site of a subrow of a row with `y = yStart`, inside the
subrow and fitting the row height. -/
def SitsLegally (p : Placement) (b : Block) : Prop :=
  ∃ r ∈ p.rows, ∃ sr ∈ r.subRows, b.y = r.yStart ∧ b.height ≤ r.height + eps ∧
    ∃ k : ℤ, 0 ≤ k ∧ k + ⌈b.width / sr.siteWidth⌉ ≤ sr.numSites ∧
      b.x = sr.xStart + k * sr.siteWidth

/-- The input placement is already legal: every movable cell sits legally and no
two movable cells of the same row overlap. -/
def AlreadyLegal (p : Placement) : Prop :=
  (∀ i ∈ movableBlocks p, SitsLegally p (p.block i)) ∧
  ∀ i ∈ movableBlocks p, ∀ j ∈ movableBlocks p, i ≠ j → (p.block i).y = (p.block j).y →
    (p.block i).x + (p.block i).width ≤ (p.block j).x ∨
    (p.block j).x + (p.block j).width ≤ (p.block i).x

/-- Every block has the coordinates it has in `p`. -/
def SameCoordinates (p p' : Placement) : Prop :=
  ∀ i, (p'.block i).x = (p.block i).x ∧ (p'.block i).y = (p.block i).y

/-- Site coordinate `(x - xStart) / siteWidth` of a block on a subrow. -/
def siteCoord (sr : SubRow) (b : Block) : ℚ := (b.x - sr.xStart) / sr.siteWidth

/-- No overlap: two distinct cells of the placed-cell list of a subrow occupy
disjoint site ranges `[s, s + n)` and disjoint horizontal extents `[x, x + width)`. -/
def NoOverlap (p : Placement) : Prop :=
  ∀ r ∈ p.rows, ∀ sr ∈ r.subRows, ∀ i ∈ sr.placedBlocks, ∀ j ∈ sr.placedBlocks, i ≠ j →
    (siteCoord sr (p.block i) + sitesOf sr (p.block i) ≤ siteCoord sr (p.block j) ∨
     siteCoord sr (p.block j) + sitesOf sr (p.block j) ≤ siteCoord sr (p.block i)) ∧
    ((p.block i).x + (p.block i).width ≤ (p.block j).x ∨
     (p.block j).x + (p.block j).width ≤ (p.block i).x)

instance (p : Placement) : Decidable (NoOverlap p) := by
  unfold NoOverlap; infer_instance

/-- Containment: every cell of a placed-cell list lies inside the subrow and
fits the height of the row. -/
def Contained (p : Placement) : Prop :=
  ∀ r ∈ p.rows, ∀ sr ∈ r.subRows, ∀ i ∈ sr.placedBlocks,
    (p.block i).x + (p.block i).width ≤ sr.xEnd + eps ∧ sr.xStart ≤ (p.block i).x ∧
    (p.block i).height ≤ r.height + eps

instance (p : Placement) : Decidable (Contained p) := by
  unfold Contained; infer_instance

/-- Site alignment: exactly one subrow lists block `i`, the block sits on an
integer site `k` of it with `0 <= k <= numSites - n`, and on the `yStart` of its row. -/
def Pinned (p : Placement) (i : ℕ) : Prop :=
  ∃ (ri si : ℕ) (r : Row) (sr : SubRow), IsSub p.rows ri si r sr ∧ i ∈ sr.placedBlocks ∧
    (∀ (rj sj : ℕ) (r' : Row) (sr' : SubRow), IsSub p.rows rj sj r' sr' →
      i ∈ sr'.placedBlocks → rj = ri ∧ sj = si) ∧
    (∃ k : ℤ, siteCoord sr (p.block i) = k ∧ 0 ≤ k ∧ k ≤ sr.numSites - sitesOf sr (p.block i)) ∧
    (p.block i).y = r.yStart

/-- Bitmap and list agree: in every subrow the set bits are the union of the
site ranges of the listed cells, and the list is sorted by ascending `x`. -/
def BitmapConsistent (p : Placement) : Prop :=
  ∀ r ∈ p.rows, ∀ sr ∈ r.subRows,
    (∀ k : ℕ, sr.occupiedSites.get? k = some true ↔
      ∃ i ∈ sr.placedBlocks, siteCoord sr (p.block i) ≤ k ∧
        (k : ℚ) < siteCoord sr (p.block i) + sitesOf sr (p.block i)) ∧
    sr.placedBlocks.Pairwise (fun i j => (p.block i).x ≤ (p.block j).x)

/-- The single-cell scenario: one row with one empty subrow of `num` sites from
`xs`, and one movable cell at its original coordinates that fits the row height
and needs at most `num` sites. -/
def SingleCell (p : Placement) (r : Row) (xs : ℚ) (num : ℤ) (b : Block) : Prop :=
  p.rows = [r] ∧ p.blocks = [b] ∧ 0 < r.siteWidth ∧ 0 ≤ num ∧
    r.subRows = [SubRow.new xs num r.siteWidth] ∧ b.isFixed = false ∧
    0 < b.width ∧ 0 < b.height ∧ b.height ≤ r.height + eps ∧
    ⌈b.width / r.siteWidth⌉ ≤ num ∧ b.x = b.origX ∧ b.y = b.origY

/-- The cell sits on `yStart` and on the site of `[0, num - n]` nearest to
`origX`, the lower site winning a tie. -/
def OnNearestSite (r : Row) (xs : ℚ) (num : ℤ) (b : Block) : Prop :=
  b.y = r.yStart ∧
  ∃ s : ℤ, 0 ≤ s ∧ s ≤ num - ⌈b.width / r.siteWidth⌉ ∧ b.x = xs + s * r.siteWidth ∧
    ∀ t : ℤ, 0 ≤ t → t ≤ num - ⌈b.width / r.siteWidth⌉ →
      |xs + s * r.siteWidth - b.origX| < |xs + t * r.siteWidth - b.origX| ∨
      (|xs + s * r.siteWidth - b.origX| = |xs + t * r.siteWidth - b.origX| ∧ s ≤ t)

/-- Two rows whose `yStart` differ by `5e-7`: cells `a` and `b` want site 0 of
the first row, cell `c` wants `x = 2` on the second row, which has two sites. -/
def nearInput : Placement :=
  ⟨[⟨"a", 1, 10, 0, 0, 0, 0, false⟩, ⟨"b", 1, 10, 0, 0, 0, 0, false⟩,
    ⟨"c", 1, 10, 2, 1 / 2000000, 2, 1 / 2000000, false⟩],
   [⟨0, 10, 1, 1, [SubRow.new 0 4 1]⟩, ⟨1 / 2000000, 10, 1, 1, [SubRow.new 0 2 1]⟩], 4, 10⟩

/-- State of `nearInput` after the initial placer. -/
def nearMid : Placement := (initialPlacement nearInput).getD nearInput

/-- State of `nearInput` after both passes. -/
def nearOut : Placement := (optimizePlacement nearMid).getD nearMid

/-- A row with site width `1e-7` that lists its right subrow first: the cell at
`(12, 4.9)` is first put on the far row and then sent to the left subrow. -/
def tinyInput : Placement :=
  ⟨[⟨"c", 1 / 10000000, 1, 12, 49 / 10, 12, 49 / 10, false⟩,
    ⟨"a", 1 / 10000000, 1, 12 + 1 / 10000000, 10, 12 + 1 / 10000000, 10, false⟩],
   [⟨0, 1, 1, 1, [SubRow.new 0 3 1]⟩,
    ⟨10, 1, 1 / 10000000, 1 / 10000000,
      [SubRow.new (12 + 1 / 10000000) 1 (1 / 10000000), SubRow.new 12 1 (1 / 10000000)]⟩],
   13, 11⟩

instance (p : Placement) (r : Row) (xs : ℚ) (num : ℤ) (b : Block) :
    Decidable (SingleCell p r xs num b) := by
  unfold SingleCell; infer_instance

/-- Input with a fixed cell at `(5, 10)` between the two subrows of its row and
a movable cell that wants to sit next to it. -/
def fixedInput : Placement :=
  ⟨[⟨"t", 4, 10, 5, 10, 5, 10, true⟩, ⟨"a", 3, 10, 27 / 5, 10, 27 / 5, 10, false⟩],
   [⟨0, 10, 1, 1, [SubRow.new 0 8 1]⟩, ⟨10, 10, 1, 1, [SubRow.new 0 5 1, SubRow.new 9 4 1]⟩],
   13, 20⟩

/-- State of `fixedInput` after the initial placer. -/
def fixedMid : Placement := (initialPlacement fixedInput).getD fixedInput

/-- State of `fixedInput` after both passes. -/
def fixedOut : Placement := (optimizePlacement fixedMid).getD fixedMid

/-- Scenario S4: two cells of width 5 on a 20-site row with origins `(3, 0)` and `(4, 0)`. -/
def crowdedInput : Placement :=
  ⟨[⟨"a", 5, 10, 3, 0, 3, 0, false⟩, ⟨"b", 5, 10, 4, 0, 4, 0, false⟩],
   [⟨0, 10, 1, 1, [SubRow.new 0 20 1]⟩], 20, 10⟩

/-- State of `crowdedInput` after the initial placer. -/
def crowdedMid : Placement := (initialPlacement crowdedInput).getD crowdedInput

/-- State of `crowdedInput` after both passes. -/
def crowdedOut : Placement := (optimizePlacement crowdedMid).getD crowdedMid

/-- Scenario S5: one subrow of 3 sites, a cell that needs 4 sites and a cell that fits. -/
def tightInput : Placement :=
  ⟨[⟨"big", 4, 10, 0, 0, 0, 0, false⟩, ⟨"small", 2, 10, 1, 0, 1, 0, false⟩],
   [⟨0, 10, 1, 1, [SubRow.new 0 3 1]⟩], 3, 10⟩

/-- State of `tightInput` after the initial placer. -/
def tightMid : Placement := (initialPlacement tightInput).getD tightInput

/-- State of `tightInput` after both passes. -/
def tightOut : Placement := (optimizePlacement tightMid).getD tightMid

/-- A legal input that the passes do not reproduce: one cell of width 2 on
site 1 of an empty 10-site subrow. -/
def shiftedInput : Placement :=
  ⟨[⟨"a", 2, 10, 1, 0, 1, 0, false⟩], [⟨0, 10, 1, 1, [SubRow.new 0 10 1]⟩], 10, 10⟩

/-- A legal input packed to the left: two cells of width 2 on sites 0 and 2. -/
def packedInput : Placement :=
  ⟨[⟨"a", 2, 10, 0, 0, 0, 0, false⟩, ⟨"b", 2, 10, 2, 0, 2, 0, false⟩],
   [⟨0, 10, 1, 1, [SubRow.new 0 10 1]⟩], 10, 10⟩

/-- The row of scenarios S1 and S2: `yStart = 0`, height 10, site width 1, one
empty subrow of 100 sites from `x = 0`. -/
def singleRow : Row := ⟨0, 10, 1, 1, [SubRow.new 0 100 1]⟩

/-- The cell of scenario S1: width 3, height 10, `origX = 5.4`, `origY = 0`. -/
def singleBlock : Block := ⟨"a", 3, 10, 27 / 5, 0, 27 / 5, 0, false⟩

/-- Scenario S1: one cell of width 3 at `origX = 5.4` on an empty 100-site subrow. -/
def singleInput : Placement := ⟨[singleBlock], [singleRow], 100, 10⟩

/-- State of `singleInput` after the initial placer. -/
def singleMid : Placement := (initialPlacement singleInput).getD singleInput

/-- State of `singleInput` after both passes. -/
def singleOut : Placement := (optimizePlacement singleMid).getD singleMid

/-! ## The `.aux` reader

A `std::string` is the list of its characters.  The substring tests
`file.find(ext) != string::npos` are the infix relation on lists, and
`parseAuxFile` is given the lines of the file that `getline` returns (a file
that cannot be opened ends the program before any parsing). -/

/-- The file map `files` of `main`: its five possible keys with their values. -/
structure AuxFiles where
  nodes : Option (List Char)
  pl : Option (List Char)
  scl : Option (List Char)
  nets : Option (List Char)
  wts : Option (List Char)
deriving DecidableEq, Repr

/-- The empty file map. -/
def AuxFiles.empty : AuxFiles := ⟨none, none, none, none, none⟩

/-- The text `.nodes`. -/
def dotNodes : List Char := ['.', 'n', 'o', 'd', 'e', 's']

/-- The text `.pl`. -/
def dotPl : List Char := ['.', 'p', 'l']

/-- The text `.scl`. -/
def dotScl : List Char := ['.', 's', 'c', 'l']

/-- The text `.nets`. -/
def dotNets : List Char := ['.', 'n', 'e', 't', 's']

/-- The text `.wts`. -/
def dotWts : List Char := ['.', 'w', 't', 's']

/-- The separators of `iss >> file`: space, tab, line feed, vertical tab, form
feed and carriage return. -/
def isSpace (c : Char) : Bool :=
  c = ' ' || c = Char.ofNat 9 || c = Char.ofNat 10 || c = Char.ofNat 11 || c = Char.ofNat 12
    || c = Char.ofNat 13

/-- The words that repeated `iss >> file` extracts from a text: the maximal runs
of characters that are not separators; `cur` is the word being read, reversed. -/
def words (cur : List Char) : List Char → List (List Char)
  | [] => if cur = [] then [] else [cur.reverse]
  | c :: cs =>
    if isSpace c then (if cur = [] then words [] cs else cur.reverse :: words [] cs)
    else words (c :: cur) cs

/-- The text after the first occurrence of `pat`: `s.substr(s.find(pat) + pat.size())`,
and `none` when `s.find(pat)` is `npos`. -/
def afterFirst (pat : List Char) : List Char → Option (List Char)
  | [] => if pat = [] then some [] else none
  | c :: cs => if pat <+: c :: cs then some ((c :: cs).drop pat.length) else afterFirst pat cs

/-- The `if`/`else if` chain of `parseAuxFile` on one file name. -/
def recordFile (files : AuxFiles) (file : List Char) : AuxFiles :=
  if dotNodes <:+: file then { files with nodes := some file }
  else if dotPl <:+: file then { files with pl := some file }
  else if dotScl <:+: file then { files with scl := some file }
  else if dotNets <:+: file then { files with nets := some file }
  else if dotWts <:+: file then { files with wts := some file }
  else files

/-- The body of the `getline` loop of `parseAuxFile` on one line. -/
def parseAuxLine (files : AuxFiles) (line : List Char) : AuxFiles :=
  if line = [] ∨ line.head? = some '#' then files
  else
    match afterFirst [' ', ':', ' '] line with
    | none => files
    | some fileList => (words [] fileList).foldl recordFile files

/-- The function `parseAuxFile` on the lines of the file, from the empty map. -/
def parseAuxFile (lines : List (List Char)) : AuxFiles :=
  lines.foldl parseAuxLine AuxFiles.empty

/-- The check of `main` after `parseAuxFile`: `true` when the fatal error
"missing file" is reported. -/
def auxIncomplete (files : AuxFiles) : Bool :=
  files.nodes.isNone || files.pl.isNone || files.scl.isNone || files.nets.isNone
    || files.wts.isNone

/-- Block table of the subrow examples: cells `a` (width 2 at `x = 0`) and `b`
(width 2 at `x = 3`). -/
def pairBlocks : List Block :=
  [⟨"a", 2, 10, 0, 0, 0, 0, false⟩, ⟨"b", 2, 10, 3, 0, 3, 0, false⟩]

/-- An empty subrow of 6 sites of width 1 from `x = 0`. -/
def emptySub : SubRow := SubRow.new 0 6 1

/-- The subrow `emptySub` after `insertBlock` of cell `b` on sites `[3, 5)`. -/
def oneSub : SubRow := emptySub.insertBlock pairBlocks 1 3 2

/-- The movable blocks of a placement, in map iteration order. -/
def movableCells (p : Placement) : List Block := p.blocks.filter (fun b => !b.isFixed)

/-- Distance `|row.yStart - origY|` of row `a` from the origin of a cell, the key
of the row sort in `initialPlacement`. -/
def rowDist (p : Placement) (origY : ℚ) (a : ℕ) : ℚ := |(p.rows.getD a default).yStart - origY|

/-- Two rows listed with the higher one first (`yStart = 10`, then `yStart = 0`)
and one cell with `origY = 5`, equidistant from both. -/
def tiedRowsInput : Placement :=
  ⟨[⟨"a", 1, 10, 0, 5, 0, 5, false⟩],
   [⟨10, 10, 1, 1, [SubRow.new 0 4 1]⟩, ⟨0, 10, 1, 1, [SubRow.new 0 4 1]⟩], 4, 20⟩

/-- The rows of `tiedRowsInput` listed with the lower one first. -/
def tiedRowsSwapped : Placement :=
  ⟨[⟨"a", 1, 10, 0, 5, 0, 5, false⟩],
   [⟨0, 10, 1, 1, [SubRow.new 0 4 1]⟩, ⟨10, 10, 1, 1, [SubRow.new 0 4 1]⟩], 4, 20⟩

/-- Site `s` is feasible on subrow `sr` for a cell of width `w` that needs `n`
sites: `s` is in `[0, numSites - n]`, `canPlaceAt(s, n)` answers `true`, and the
right edge fits (`xStart + s * siteWidth + w <= xEnd + 1e-6`). -/
def Feasible (sr : SubRow) (w : ℚ) (n s : ℤ) : Prop :=
  0 ≤ s ∧ s ≤ sr.numSites - n ∧ sr.canPlaceAt s n = some true ∧
    sr.xStart + s * sr.siteWidth + w ≤ sr.xEnd + eps

/-- Subrow `si` of `row` has a feasible site for block `b`. -/
def SubTakes (row : Row) (b : Block) (si : ℕ) : Prop :=
  ∃ s, Feasible (row.subRows.getD si default) b.width ⌈b.width / row.siteWidth⌉ s

/-- Row `ri` can take block `b`: `row.height >= b.height - 1e-6` and one of its
subrows has a feasible site. -/
def RowTakes (p : Placement) (b : Block) (ri : ℕ) : Prop :=
  b.height ≤ (p.rows.getD ri default).height + eps ∧
    ∃ si, si < (p.rows.getD ri default).subRows.length ∧ SubTakes (p.rows.getD ri default) b si

/-- Distance `|(xStart + xEnd)/2 - origX|` of the centre of subrow `a` of `row`
from the origin of a cell, the key of the subrow sort in `initialPlacement`. -/
def subDist (row : Row) (origX : ℚ) (a : ℕ) : ℚ :=
  |((row.subRows.getD a default).xStart + (row.subRows.getD a default).xEnd) / 2 - origX|

/-- The subrow has `n` consecutive free sites from site `s`. -/
def FreeRun (sr : SubRow) (s n : ℤ) : Prop :=
  0 ≤ s ∧ s + n ≤ sr.numSites ∧
    ∀ k, s ≤ k → k < s + n → readSite sr.occupiedSites k = some false

/-- Some row with `row.height >= b.height - 1e-6` has a subrow that contains
`ceil(b.width / siteWidth)` consecutive free sites. -/
def HasRoom (p : Placement) (b : Block) : Prop :=
  ∃ r ∈ p.rows, b.height ≤ r.height + eps ∧
    ∃ sr ∈ r.subRows, ∃ s, FreeRun sr s ⌈b.width / r.siteWidth⌉

/-- A cell of height 10 with `origY = 1` and two rows: `(yStart 0, height 8)`,
nearer but too low, and `(yStart 10, height 12)`. -/
def lowRowInput : Placement :=
  ⟨[⟨"a", 2, 10, 3, 1, 3, 1, false⟩],
   [⟨0, 8, 1, 1, [SubRow.new 0 10 1]⟩, ⟨10, 12, 1, 1, [SubRow.new 0 10 1]⟩], 10, 22⟩

/-- State of `lowRowInput` after the initial placer. -/
def lowRowMid : Placement := (initialPlacement lowRowInput).getD lowRowInput

/-- The relocation candidate of site `s` of subrow `sr` in row `rowIdx` for
block `b`: the row, the aligned `x`, the `yStart` of the row, and the
displacement `D' = |x - origX| + |yStart - origY|`. -/
def candidateAt (sr : SubRow) (b : Block) (rowIdx : ℕ) (yStart : ℚ) (s : ℤ) : Best :=
  ⟨rowIdx, sr.xStart + s * sr.siteWidth, yStart,
    |sr.xStart + s * sr.siteWidth - b.origX| + |yStart - b.origY|⟩

/-- The candidates of one subrow in ascending site order, `k` sites from `s`:
the sites that pass `canPlaceAt` and the right-edge check (`none` when a
`canPlaceAt` call has no defined result). -/
def siteCandidates (sr : SubRow) (b : Block) (rowIdx : ℕ) (yStart : ℚ) (n : ℤ) :
    ℤ → ℕ → Option (List Best)
  | _, 0 => some []
  | s, k + 1 =>
    match sr.canPlaceAt s n, siteCandidates sr b rowIdx yStart n (s + 1) k with
    | none, _ => none
    | _, none => none
    | some ok, some l =>
      if ok = true ∧ ¬ (sr.xStart + s * sr.siteWidth + b.width > sr.xEnd + eps) then
        some (candidateAt sr b rowIdx yStart s :: l)
      else some l

/-- The candidates of the subrows of one row, in subrow-index order, each
subrow over its window of sites `[minSite, maxSite]`. -/
def subRowCandidates (b : Block) (rowIdx : ℕ) (yStart : ℚ) (n : ℤ) (minX maxXPos : ℚ) :
    List SubRow → Option (List Best)
  | [] => some []
  | sr :: rest =>
    match siteCandidates sr b rowIdx yStart n (minSiteOf sr minX)
        (maxSiteOf sr b n maxXPos - minSiteOf sr minX + 1).toNat,
      subRowCandidates b rowIdx yStart n minX maxXPos rest with
    | some l, some l' => some (l ++ l')
    | _, _ => none

/-- The candidates of a cell with current displacement `originalDisp` in scan
order: rows in index order from `rowIdx`, skipping the rows farther than
`R = originalDisp + 20` from `origY` and the rows that are too low. -/
def rowCandidates (b : Block) (originalDisp : ℚ) : ℕ → List Row → Option (List Best)
  | _, [] => some []
  | rowIdx, row :: rest =>
    if |row.yStart - b.origY| > originalDisp + 20 ∨ b.height > row.height + eps then
      rowCandidates b originalDisp (rowIdx + 1) rest
    else
      match subRowCandidates b rowIdx row.yStart ⌈b.width / row.siteWidth⌉
          (b.origX - (originalDisp + 20 - |row.yStart - b.origY|))
          (b.origX + (originalDisp + 20 - |row.yStart - b.origY|)) row.subRows,
        rowCandidates b originalDisp (rowIdx + 1) rest with
      | some l, some l' => some (l ++ l')
      | _, _ => none

/-- The update of the running best by one candidate: the candidate replaces
the best when its displacement is smaller by more than `1e-6`. -/
def pick (best c : Best) : Best := if c.disp < best.disp - eps then c else best

/-- The candidates of block `i` in state `p`. -/
def candidatesOf (p : Placement) (i : ℕ) : Option (List Best) :=
  rowCandidates (p.block i) (p.block i).disp 0 p.rows

/-- Two rows `5e-7` apart whose subrows start at `x = 0` and `x = 0.5`: cell `a`
(width 3, origin `(2.4, 0)`) and cell `c` (width 1, origin `(5.5, 5e-7)`). -/
def strayInput : Placement :=
  ⟨[⟨"a", 3, 10, 12 / 5, 0, 12 / 5, 0, false⟩,
    ⟨"c", 1, 10, 11 / 2, 1 / 2000000, 11 / 2, 1 / 2000000, false⟩],
   [⟨0, 10, 1, 1, [SubRow.new 0 8 1]⟩, ⟨1 / 2000000, 10, 1, 1, [SubRow.new (1 / 2) 8 1]⟩],
   9, 10⟩

/-- State of `strayInput` after the initial placer. -/
def strayMid : Placement := (initialPlacement strayInput).getD strayInput

/-- State of `strayInput` after the first cell step of the refinement (cell `c`). -/
def strayStep : Placement := ((optimizeBlock strayMid 1).getD (strayMid, false)).1

/-- A cell `x` of width 25 with origin `(0, 0)` and a cell `y` of width 10 with
origin `(40, -4)`; the row at `yStart = 0` has one subrow of 34 sites from
`x = 6`, the row at `yStart = -10` one of 50 sites from `x = 0`. -/
def windowInput : Placement :=
  ⟨[⟨"x", 25, 10, 0, 0, 0, 0, false⟩, ⟨"y", 10, 10, 40, -4, 40, -4, false⟩],
   [⟨0, 10, 1, 1, [SubRow.new 6 34 1]⟩, ⟨-10, 10, 1, 1, [SubRow.new 0 50 1]⟩], 50, 10⟩

/-- State of `windowInput` after the initial placer. -/
def windowMid : Placement := (initialPlacement windowInput).getD windowInput

/-- State of `windowInput` after both passes. -/
def windowOut : Placement := (optimizePlacement windowMid).getD windowMid

/-- Site `s` of subrow `sr` of `row` is in the search window of block `b` as the
specification words it: the row is within the radius `R = D0 + 20` and high
enough, `s` is in `[0, numSites - n]`, and the aligned left edge
`xStart + s * siteWidth` lies in `[origX - H, origX + H]` with `H = R - V`. -/
def InLeftEdgeWindow (b : Block) (row : Row) (sr : SubRow) (s : ℤ) : Prop :=
  |row.yStart - b.origY| ≤ b.disp + 20 ∧ b.height ≤ row.height + eps ∧
  0 ≤ s ∧ s ≤ sr.numSites - ⌈b.width / row.siteWidth⌉ ∧
  b.origX - (b.disp + 20 - |row.yStart - b.origY|) ≤ sr.xStart + s * sr.siteWidth ∧
  sr.xStart + s * sr.siteWidth ≤ b.origX + (b.disp + 20 - |row.yStart - b.origY|)

instance (b : Block) (row : Row) (sr : SubRow) (s : ℤ) :
    Decidable (InLeftEdgeWindow b row sr s) := by
  unfold InLeftEdgeWindow; infer_instance

/-- Site `s` of subrow `sr` of `row` is in the search window of block `b` with
the whole cell inside it: as `InLeftEdgeWindow`, but with the right edge
`xStart + s * siteWidth + width` at most `origX + H`. -/
def InWindow (b : Block) (row : Row) (sr : SubRow) (s : ℤ) : Prop :=
  |row.yStart - b.origY| ≤ b.disp + 20 ∧ b.height ≤ row.height + eps ∧
  0 ≤ s ∧ s ≤ sr.numSites - ⌈b.width / row.siteWidth⌉ ∧
  b.origX - (b.disp + 20 - |row.yStart - b.origY|) ≤ sr.xStart + s * sr.siteWidth ∧
  sr.xStart + s * sr.siteWidth + b.width ≤ b.origX + (b.disp + 20 - |row.yStart - b.origY|)

instance (b : Block) (row : Row) (sr : SubRow) (s : ℤ) : Decidable (InWindow b row sr s) := by
  unfold InWindow; infer_instance

/-- The file names of a list joined by single spaces. -/
def joinNames : List (List Char) → List Char
  | [] => []
  | [a] => a
  | a :: b :: rest => a ++ ' ' :: joinNames (b :: rest)

/-- The `.aux` line `RowBasedPlacement : <names>`. -/
def auxLineOf (names : List (List Char)) : List Char :=
  "RowBasedPlacement : ".toList ++ joinNames names

/-- The five extensions in the order of the `.aux` line of the specification. -/
def auxKinds : List (List Char) := [dotNodes, dotNets, dotWts, dotPl, dotScl]

/-- The `.aux` line `RowBasedPlacement : P.nodes P.nets P.wts P.pl P.scl`. -/
def auxLine (P : List Char) : List Char := auxLineOf (auxKinds.map (fun e => P ++ e))

/-- The prefix contains none of the texts `.nodes`, `.pl`, `.scl`, `.nets`. -/
def CleanPrefix (P : List Char) : Prop :=
  ¬ dotNodes <:+: P ∧ ¬ dotPl <:+: P ∧ ¬ dotScl <:+: P ∧ ¬ dotNets <:+: P

instance (P : List Char) : Decidable (CleanPrefix P) := by
  unfold CleanPrefix; infer_instance

/-- The prefix `chip.placed`, which contains the text `.pl`. -/
def placedPrefix : List Char := "chip.placed".toList

/-- The prefix `bench`. -/
def benchPrefix : List Char := "bench".toList

/-! ## Definitions for the processing order, the removal search, the
re-insertion, the footprint, the unrestricted scan and the per-cell bounds -/

/-- The ascending lexicographic order of `(origY, origX)` as the specification
words it, with exact comparisons. -/
def LexBefore (a b : Block) : Prop :=
  a.origY < b.origY ∨ (a.origY = b.origY ∧ a.origX < b.origX)

instance (a b : Block) : Decidable (LexBefore a b) := by
  unfold LexBefore; infer_instance

/-- Handle `a` occurs before handle `b` in the processing order `order`. -/
def VisitedBefore (order : List ℕ) (a b : ℕ) : Prop := List.Sublist [a, b] order

instance (order : List ℕ) (a b : ℕ) : Decidable (VisitedBefore order a b) := by
  unfold VisitedBefore; infer_instance

/-- The `origY` of two movable cells are equal or more than `1e-6` apart. -/
def LevelsApart (p : Placement) : Prop :=
  ∀ a ∈ movableBlocks p, ∀ b ∈ movableBlocks p,
    (p.block a).origY = (p.block b).origY ∨ eps < |(p.block a).origY - (p.block b).origY|

instance (p : Placement) : Decidable (LevelsApart p) := by
  unfold LevelsApart; infer_instance

/-- One row with one subrow of 8 sites; cell `a` (width 2, origin `(5, 0)`) and
cell `b` (width 2, origin `(0, 5e-7)`). -/
def closeInput : Placement :=
  ⟨[⟨"a", 2, 10, 5, 0, 5, 0, false⟩,
    ⟨"b", 2, 10, 0, 1 / 2000000, 0, 1 / 2000000, false⟩],
   [⟨0, 10, 1, 1, [SubRow.new 0 8 1]⟩], 8, 10⟩

/-- State of `closeInput` after the initial placer. -/
def closeMid : Placement := (initialPlacement closeInput).getD closeInput

/-- State `q` is one in which the refinement started on `p1` attempts cell `i`:
`q` is reached by `k` sweeps of the cell loop followed by the cell steps of the
cells `pre` that the next sweep lists before `i`. -/
def Attempts (p1 q : Placement) (i : ℕ) : Prop :=
  ∃ (k : ℕ) (q0 : Placement) (pre post : List ℕ) (imp : Bool),
    iterations k p1 = some q0 ∧ optimizeOrder q0 = pre ++ i :: post ∧
    optimizeBlocks pre q0 false = some (q, imp)

/-- Two rows `5e-7` apart with one 8-site subrow each from `x = 0`; cell `a`
(width 2, origin `(1, 0)`) and cell `c` (width 2, origin `(5, 5e-7)`). -/
def overlapInput : Placement :=
  ⟨[⟨"a", 2, 10, 1, 0, 1, 0, false⟩,
    ⟨"c", 2, 10, 5, 1 / 2000000, 5, 1 / 2000000, false⟩],
   [⟨0, 10, 1, 1, [SubRow.new 0 8 1]⟩, ⟨1 / 2000000, 10, 1, 1, [SubRow.new 0 8 1]⟩],
   8, 10⟩

/-- State of `overlapInput` after the initial placer. -/
def overlapMid : Placement := (initialPlacement overlapInput).getD overlapInput

/-- State of `overlapInput` after the first cell step of the refinement (cell `c`). -/
def overlapStep : Placement := ((optimizeBlock overlapMid 1).getD (overlapMid, false)).1

/-- State of `overlapInput` after the second cell step of the refinement (cell `a`). -/
def overlapOut : Placement := ((optimizeBlock overlapStep 0).getD (overlapStep, false)).1

/-- State of `shiftedInput` after the initial placer. -/
def shiftedMid : Placement := (initialPlacement shiftedInput).getD shiftedInput

/-- State of `tinyInput` after the initial placer. -/
def tinyMid : Placement := (initialPlacement tinyInput).getD tinyInput

/-- The target that the search of the first cell step of the refinement on
`tinyMid` ends with: site 0 of the subrow from `x = 12` in row 1. -/
def tinyBest : Best := ⟨1, 12, 10, 51 / 10⟩

/-- State of `tinyInput` in the first cell step of the refinement after the
removal of cell `c` from row 0 and the assignment of the target coordinates. -/
def tinyGone : Placement := moveTo (removeAt tinyMid 0 0 0 0 1) 0 tinyBest.x tinyBest.y

/-- Every site of every subrow at which cell `i` would be more than `1e-6`
nearer to its origin than it is now lies in subrow `si` of row `ri` and its
site range overlaps the range the cell occupies there. -/
def OnlyOverlapping (q : Placement) (i ri si : ℕ) : Prop :=
  ∀ rj ∈ List.range q.rows.length,
    ∀ sj ∈ List.range (q.rows.getD rj default).subRows.length,
      ∀ t ∈ List.range ((q.rows.getD rj default).subRows.getD sj default).numSites.toNat,
        (candidateAt ((q.rows.getD rj default).subRows.getD sj default) (q.block i) rj
            (q.rows.getD rj default).yStart (t : ℤ)).disp < (q.block i).disp - eps →
          rj = ri ∧ sj = si ∧
          (t : ℤ) < startOf ((q.rows.getD ri default).subRows.getD si default) (q.block i)
              + sitesOf ((q.rows.getD ri default).subRows.getD si default) (q.block i) ∧
          startOf ((q.rows.getD ri default).subRows.getD si default) (q.block i)
            < (t : ℤ) + sitesOf ((q.rows.getD ri default).subRows.getD si default) (q.block i)

instance (q : Placement) (i ri si : ℕ) : Decidable (OnlyOverlapping q i ri si) := by
  unfold OnlyOverlapping; infer_instance

/-- The subrow loop of the unrestricted relocation search of the
specification: every subrow is scanned over all its sites `0 .. numSites - 1`,
each site handled as in the candidate-site loop of `optimizePlacement`. -/
def scanSubRowsAll (b : Block) (rowIdx : ℕ) (yStart : ℚ) (sitesNeeded : ℤ) :
    List SubRow → Best → Option Best
  | [], best => some best
  | sr :: rest, best =>
    match scanSites sr b rowIdx yStart sitesNeeded 0 sr.numSites.toNat best with
    | none => none
    | some best' => scanSubRowsAll b rowIdx yStart sitesNeeded rest best'

/-- The row loop of the unrestricted relocation search of the specification:
every row that is high enough for the block is scanned, whatever its distance
from the origin of the block. -/
def scanRowsAll (b : Block) : ℕ → List Row → Best → Option Best
  | _, [], best => some best
  | rowIdx, row :: rest, best =>
    if b.height > row.height + eps then scanRowsAll b (rowIdx + 1) rest best
    else
      match scanSubRowsAll b rowIdx row.yStart ⌈b.width / row.siteWidth⌉ row.subRows best with
      | none => none
      | some best' => scanRowsAll b (rowIdx + 1) rest best'

/-- The part of the cell step of `optimizePlacement` after the search, for the
target `best` the search ended with: the relocation test, the removal, the
assignment of the coordinates and the re-insertion. -/
def relocateTo (p : Placement) (block : ℕ) (best : Best) : Option (Placement × Bool) :=
  let b := p.block block
  if best.disp < b.disp - eps then
    match locateRow b 0 p.rows with
    | none => none
    | some none => some (p, false)
    | some (some (rowIdx, subIdx, startSite, sitesOccupied)) =>
      let p1 := moveTo (removeAt p block rowIdx subIdx startSite sitesOccupied)
        block best.x best.y
      match reinsertSubRow (p1.block block) 0 (p1.rows.getD best.rowIdx default).subRows with
      | none => none
      | some none => some (p1, false)
      | some (some (newSubIdx, newStart, sitesNeeded)) =>
        some (insertAt p1 block best.rowIdx newSubIdx newStart sitesNeeded, true)
  else some (p, false)

/-- The cell step of `optimizePlacement` with the unrestricted search
`scanRowsAll` in the place of the windowed search `scanRows`. -/
def optimizeBlockAll (p : Placement) (block : ℕ) : Option (Placement × Bool) :=
  let b := p.block block
  (scanRowsAll b 0 p.rows ⟨p.rows.length, b.x, b.y, b.disp⟩).bind (relocateTo p block)

/-! ## The rounding of binary64 and the integer grid -/

/-- Nearest integer of a rational, ties to the even one. -/
def roundEven (q : ℚ) : ℤ :=
  if q - ⌊q⌋ < 1 / 2 then ⌊q⌋
  else if 1 / 2 < q - ⌊q⌋ then ⌊q⌋ + 1
  else if ⌊q⌋ % 2 = 0 then ⌊q⌋ else ⌊q⌋ + 1

/-- The power `2 ^ e` of an integer exponent. -/
def pow2 (e : ℤ) : ℚ :=
  if 0 ≤ e then ((2 ^ e.toNat : ℕ) : ℚ) else 1 / ((2 ^ (-e).toNat : ℕ) : ℚ)

/-- The number of halvings that bring `n` below 2, at most `k` of them. -/
def halvings : ℕ → ℕ → ℕ
  | 0, _ => 0
  | k + 1, n => if 2 ≤ n then halvings k (n / 2) + 1 else 0

/-- The position of the leading binary digit of a natural number. -/
def bitLog (n : ℕ) : ℕ := halvings n n

/-- The binary exponent of a nonzero rational: the `e` with `2 ^ e ≤ |q| < 2 ^ (e + 1)`. -/
def expOf (q : ℚ) : ℤ :=
  if pow2 ((bitLog q.num.natAbs : ℤ) - (bitLog q.den : ℤ)) ≤ |q| then
    (bitLog q.num.natAbs : ℤ) - (bitLog q.den : ℤ)
  else (bitLog q.num.natAbs : ℤ) - (bitLog q.den : ℤ) - 1

/-- Rounding to the nearest binary64 value (53 significant bits, ties to even). -/
def fl (q : ℚ) : ℚ :=
  if q = 0 then 0 else (roundEven (q / pow2 (expOf q - 52)) : ℚ) * pow2 (expOf q - 52)

/-- The properties of the rounding of binary64 that the proofs use: it is
monotone, it leaves the integers and half-integers `m / 2` with `|m| ≤ 2^53`
as they are, and it moves a value of magnitude at most `2^26` by at most
`2^-27`. -/
structure IsRounding (rd : ℚ → ℚ) : Prop where
  mono : ∀ a b : ℚ, a ≤ b → rd a ≤ rd b
  exact : ∀ m : ℤ, |m| ≤ 9007199254740992 → rd ((m : ℚ) / 2) = (m : ℚ) / 2
  near : ∀ v : ℚ, |v| ≤ 67108864 → |rd v - v| ≤ 1 / 134217728

/-- The value is an integer of magnitude at most `2^20`. -/
def GridValue (q : ℚ) : Prop := q.den = 1 ∧ |q| ≤ 1048576

instance (q : ℚ) : Decidable (GridValue q) := by unfold GridValue; infer_instance

/-- The numbers of the block are on the integer grid and its width is not negative. -/
def GridBlock (b : Block) : Prop :=
  GridValue b.width ∧ 0 ≤ b.width ∧ GridValue b.height ∧ GridValue b.x ∧ GridValue b.y ∧
    GridValue b.origX ∧ GridValue b.origY

instance (b : Block) : Decidable (GridBlock b) := by unfold GridBlock; infer_instance

/-- The numbers of the subrow are on the integer grid, its site width is at
most `2^19` and it has at most `2^21` sites. -/
def GridSubRow (sr : SubRow) : Prop :=
  GridValue sr.xStart ∧ GridValue sr.xEnd ∧ GridValue sr.siteWidth ∧ 1 ≤ sr.siteWidth ∧
    sr.siteWidth ≤ 524288 ∧ 0 ≤ sr.numSites ∧ sr.numSites ≤ 2097152

instance (sr : SubRow) : Decidable (GridSubRow sr) := by unfold GridSubRow; infer_instance

/-- The numbers of the row and of its subrows are on the integer grid. -/
def GridRow (r : Row) : Prop :=
  GridValue r.yStart ∧ GridValue r.height ∧ GridValue r.siteWidth ∧ 1 ≤ r.siteWidth ∧
    r.siteWidth ≤ 524288 ∧ ∀ sr ∈ r.subRows, GridSubRow sr

instance (r : Row) : Decidable (GridRow r) := by unfold GridRow; infer_instance

/-- The running best candidate holds grid coordinates and an integer
displacement of magnitude at most `2^22`. -/
def GridBest (best : Best) : Prop :=
  GridValue best.x ∧ GridValue best.y ∧ best.disp.den = 1 ∧ |best.disp| ≤ 4194304

/-- Every number of the placement is an integer of magnitude at most `2^20`,
with site widths between `1` and `2^19`: the inputs on which every `double`
operation of the two passes is exact or decided as in exact arithmetic. -/
def OnGrid (p : Placement) : Prop :=
  (∀ b ∈ p.blocks, GridBlock b) ∧ ∀ r ∈ p.rows, GridRow r

instance (p : Placement) : Decidable (OnGrid p) := by unfold OnGrid; infer_instance

/-! ## Inputs and attempted states of the passes in `double` arithmetic -/

/-- Well-formed input of the run in `double` arithmetic: as `WellFormed`, with
every subrow as the constructor of the source builds it, `xEnd` being the
rounded `xStart + numSites * siteWidth`. -/
def Fp.WellFormed (rd : ℚ → ℚ) (p : Placement) : Prop :=
  (∀ r ∈ p.rows, 0 < r.siteWidth ∧
    ∀ sr ∈ r.subRows, 0 ≤ sr.numSites ∧
      sr = Fp.newSubRow rd sr.xStart sr.numSites r.siteWidth) ∧
  (∀ r ∈ p.rows, r.subRows.Pairwise (fun a b => a.xEnd ≤ b.xStart ∨ b.xEnd ≤ a.xStart)) ∧
  p.rows.Pairwise (fun a b => a.yStart ≠ b.yStart) ∧
  (∀ b ∈ p.blocks, 0 < b.width ∧ 0 < b.height ∧ b.x = b.origX ∧ b.y = b.origY)

instance (rd : ℚ → ℚ) (p : Placement) : Decidable (Fp.WellFormed rd p) := by
  unfold Fp.WellFormed; infer_instance

/-- The state after `k` executions of the body of the outer loop of
`optimizePlacement` in `double` arithmetic, whatever `improvement` was. -/
def Fp.iterations (rd : ℚ → ℚ) : ℕ → Placement → Option Placement
  | 0, p => some p
  | k + 1, p =>
    match Fp.optimizeIteration rd p with
    | none => none
    | some (p', _) => Fp.iterations rd k p'

/-- State `q` is one in which the refinement in `double` arithmetic started on
`p1` attempts cell `i`: `q` is reached by `k` sweeps of the cell loop followed
by the cell steps of the cells `pre` that the next sweep lists before `i`. -/
def Fp.Attempts (rd : ℚ → ℚ) (p1 q : Placement) (i : ℕ) : Prop :=
  ∃ (k : ℕ) (q0 : Placement) (pre post : List ℕ) (imp : Bool),
    Fp.iterations rd k p1 = some q0 ∧ Fp.optimizeOrder rd q0 = pre ++ i :: post ∧
    Fp.optimizeBlocks rd pre q0 false = some (q, imp)

/-- The relocation search of the cell step of `optimizePlacement` for block `i`
in `double` arithmetic: the value of `best` after the row loop, started from the
current position and displacement of the block with
`maxManhattanDist = originalDisp + 20.0`. -/
def Fp.searchOf (rd : ℚ → ℚ) (p : Placement) (i : ℕ) : Option Best :=
  Fp.scanRows rd (p.block i) (rd (Fp.disp rd (p.block i) + 20)) 0 p.rows
    ⟨p.rows.length, (p.block i).x, (p.block i).y, Fp.disp rd (p.block i)⟩

/-- The left end `minX = origX - remainingDist` of the window of block `b` in
`row`, with `remainingDist = maxManhattanDist - yDist`. -/
def Fp.minXOf (rd : ℚ → ℚ) (b : Block) (row : Row) : ℚ :=
  rd (b.origX - rd (rd (Fp.disp rd b + 20) - |rd (row.yStart - b.origY)|))

/-- The right end `maxX = origX + remainingDist` of the window of block `b` in
`row`. -/
def Fp.maxXOf (rd : ℚ → ℚ) (b : Block) (row : Row) : ℚ :=
  rd (b.origX + rd (rd (Fp.disp rd b + 20) - |rd (row.yStart - b.origY)|))

/-- One row of site width `0.15` (the double nearest to it) with one subrow of
8 sites from `x = 0`, and two cells of width `0.45` with origin `(0, 0)`. -/
def roundedInput : Placement :=
  ⟨[⟨"a", fl (9 / 20), 10, 0, 0, 0, 0, false⟩, ⟨"b", fl (9 / 20), 10, 0, 0, 0, 0, false⟩],
   [⟨0, 10, fl (3 / 20), 1, [Fp.newSubRow fl 0 8 (fl (3 / 20))]⟩], 2, 10⟩

/-- State of `roundedInput` after both passes in `double` arithmetic. -/
def roundedOut : Placement := (Fp.legalize fl roundedInput).getD roundedInput

/-- A row at `yStart = 0` of site width `2^-19` that lists the subrow of 4
sites from `x = 2^34` before the subrow of one site from `x = 2^34 - 2^-19`,
and a row at `yStart = 10` with a subrow from `x = 2^34 - 50`.  Cell `a` has
its origin at `(2^34 - 50, -4)`, cell `b` at `(2^34 - 2^-19, 0)`. -/
def edgeInput : Placement :=
  ⟨[⟨"a", 1 / 524288, 10, 17179869134, -4, 17179869134, -4, false⟩,
    ⟨"b", 1 / 524288, 10, 17179869184 - 1 / 524288, 0, 17179869184 - 1 / 524288, 0, false⟩],
   [⟨0, 10, 1 / 524288, 1,
      [Fp.newSubRow fl 17179869184 4 (1 / 524288),
       Fp.newSubRow fl (17179869184 - 1 / 524288) 1 (1 / 524288)]⟩,
    ⟨10, 10, 1 / 524288, 1, [Fp.newSubRow fl 17179869134 4 (1 / 524288)]⟩], 0, 20⟩

/-- One row of site width `1e-5` (the double nearest to it) with one subrow of 4
sites from `x = 250000`.  Cell `a` has its origin on site 3 and one unit below
the row, cell `b` has its origin on site 0 of the row. -/
def driftInput : Placement :=
  ⟨[⟨"a", fl (1 / 100000), 10, fl (250000 + 3 / 100000), -1, fl (250000 + 3 / 100000), -1,
      false⟩,
    ⟨"b", fl (1 / 100000), 10, 250000, 0, 250000, 0, false⟩],
   [⟨0, 10, fl (1 / 100000), 1, [Fp.newSubRow fl 250000 4 (fl (1 / 100000))]⟩], 0, 10⟩

/-- State of `driftInput` after the initial placer in `double` arithmetic. -/
def driftMid : Placement := (Fp.initialPlacement fl driftInput).getD driftInput

/-- State of `driftInput` after the first cell step of the refinement (cell `a`). -/
def driftStep : Placement := ((Fp.optimizeBlock fl driftMid 0).getD (driftMid, false)).1

/-- One row of site width `1e-5` (the double nearest to it) with one subrow of
20 sites from `x = 250000`: a cell `f` of 12 sites with its origin on site 0,
a cell `c` of 2 sites with its origin on site 13 and a cell `n` of 2 sites with
its origin on site 18. -/
def slipInput : Placement :=
  ⟨[⟨"f", fl (12 * fl (1 / 100000)), 10, 250000, 0, 250000, 0, false⟩,
    ⟨"c", fl (2 * fl (1 / 100000)), 10, fl (250000 + fl (13 * fl (1 / 100000))), 0,
      fl (250000 + fl (13 * fl (1 / 100000))), 0, false⟩,
    ⟨"n", fl (2 * fl (1 / 100000)), 10, fl (250000 + fl (18 * fl (1 / 100000))), 0,
      fl (250000 + fl (18 * fl (1 / 100000))), 0, false⟩],
   [⟨0, 10, fl (1 / 100000), 1, [Fp.newSubRow fl 250000 20 (fl (1 / 100000))]⟩], 0, 10⟩

/-- State of `slipInput` after the initial placer in `double` arithmetic. -/
def slipMid : Placement := (Fp.initialPlacement fl slipInput).getD slipInput

/-- State of `slipInput` after the first cell step of the refinement (cell `n`). -/
def slipStep : Placement := ((Fp.optimizeBlock fl slipMid 2).getD (slipMid, false)).1

/-- State of `slipInput` after the second cell step of the refinement (cell `c`). -/
def slipOut : Placement := ((Fp.optimizeBlock fl slipStep 1).getD (slipStep, false)).1

/-- One row of site width `0.1` (the double nearest to it) with one subrow of
two sites from `x = 2^36`, and two cells of width `0.1` with their origin at
the start of the subrow. -/
def farInput : Placement :=
  ⟨[⟨"a", fl (1 / 10), 10, 68719476736, 0, 68719476736, 0, false⟩,
    ⟨"b", fl (1 / 10), 10, 68719476736, 0, 68719476736, 0, false⟩],
   [⟨0, 10, fl (1 / 10), 1, [Fp.newSubRow fl 68719476736 2 (fl (1 / 10))]⟩], 0, 10⟩

/-- State of `farInput` when the initial placer in `double` arithmetic reaches
cell `b`, after cell `a`. -/
def farMid : Placement := (Fp.placeAll fl [0] farInput).getD farInput

/-- One row of site width 1 with one subrow of 10 sites from `x = 0`, and a
cell of width 1 with its origin at `x = 5e9`. -/
def castInput : Placement :=
  ⟨[⟨"a", 1, 10, 5000000000, 0, 5000000000, 0, false⟩],
   [⟨0, 10, 1, 1, [Fp.newSubRow fl 0 10 1]⟩], 10, 10⟩

/-- State of `castInput` after the initial placer in `double` arithmetic. -/
def castMid : Placement := (Fp.initialPlacement fl castInput).getD castInput

/-- One row of site width 1 with one subrow of 12 sites from `x = 0`, and a cell
of width 3 with its origin at `(5, 0)`. -/
def hopInput : Placement :=
  ⟨[⟨"a", 3, 10, 5, 0, 5, 0, false⟩], [⟨0, 10, 1, 1, [Fp.newSubRow fl 0 12 1]⟩], 12, 10⟩

/-- State of `hopInput` after the initial placer in `double` arithmetic. -/
def hopMid : Placement := (Fp.initialPlacement fl hopInput).getD hopInput

/-- State of `hopInput` after both passes in `double` arithmetic. -/
def hopOut : Placement := (Fp.optimizePlacement fl hopMid).getD hopMid

/-! ## Inputs that are legal and packed to the left -/

/-- Cell `i` sits on subrow `si` of row `ri`: on the `yStart` of the row,
fitting its height, on a site of the subrow with all its sites inside it. -/
def HomeAt (p : Placement) (i ri si : ℕ) : Prop :=
  ri < p.rows.length ∧ si < (p.rows.getD ri default).subRows.length ∧
  (p.block i).y = (p.rows.getD ri default).yStart ∧
  (p.block i).height ≤ (p.rows.getD ri default).height + eps ∧
  0 ≤ startOf ((p.rows.getD ri default).subRows.getD si default) (p.block i) ∧
  startOf ((p.rows.getD ri default).subRows.getD si default) (p.block i)
      + sitesOf ((p.rows.getD ri default).subRows.getD si default) (p.block i)
    ≤ ((p.rows.getD ri default).subRows.getD si default).numSites ∧
  (p.block i).x = ((p.rows.getD ri default).subRows.getD si default).xStart
    + startOf ((p.rows.getD ri default).subRows.getD si default) (p.block i)
      * ((p.rows.getD ri default).subRows.getD si default).siteWidth

instance (p : Placement) (i ri si : ℕ) : Decidable (HomeAt p i ri si) := by
  unfold HomeAt; infer_instance

/-- The placement is legal and packed to the left: every movable cell sits on
a subrow of a row (`HomeAt`), this subrow is the one of the row whose centre is
strictly nearest to the cell, every site of the subrow to the left of the cell
is covered by another movable cell sitting on the subrow, and the site ranges
of two movable cells sitting on one subrow are disjoint. -/
def Packed (p : Placement) : Prop :=
  ∀ i ∈ movableBlocks p, ∃ ri ∈ List.range p.rows.length,
    ∃ si ∈ List.range (p.rows.getD ri default).subRows.length,
      HomeAt p i ri si ∧
      (∀ sj ∈ List.range (p.rows.getD ri default).subRows.length, sj ≠ si →
        subDist (p.rows.getD ri default) (p.block i).origX si
          < subDist (p.rows.getD ri default) (p.block i).origX sj) ∧
      (∀ t ∈ List.range
          (startOf ((p.rows.getD ri default).subRows.getD si default) (p.block i)).toNat,
        ∃ j ∈ movableBlocks p, j ≠ i ∧ HomeAt p j ri si ∧
          startOf ((p.rows.getD ri default).subRows.getD si default) (p.block j) ≤ (t : ℤ) ∧
          (t : ℤ) < startOf ((p.rows.getD ri default).subRows.getD si default) (p.block j)
            + sitesOf ((p.rows.getD ri default).subRows.getD si default) (p.block j)) ∧
      (∀ j ∈ movableBlocks p, j ≠ i → HomeAt p j ri si →
        startOf ((p.rows.getD ri default).subRows.getD si default) (p.block j)
            + sitesOf ((p.rows.getD ri default).subRows.getD si default) (p.block j)
          ≤ startOf ((p.rows.getD ri default).subRows.getD si default) (p.block i) ∨
        startOf ((p.rows.getD ri default).subRows.getD si default) (p.block i)
            + sitesOf ((p.rows.getD ri default).subRows.getD si default) (p.block i)
          ≤ startOf ((p.rows.getD ri default).subRows.getD si default) (p.block j))

instance (p : Placement) : Decidable (Packed p) := by
  unfold Packed; infer_instance

/-- The rows of `q` are the rows of `p` up to the bitmaps and the placed-cell
lists: the same number of rows and subrows with the same unchanging fields. -/
def SameGeom (p q : Placement) : Prop :=
  q.rows.length = p.rows.length ∧
  ∀ ri, (q.rows.getD ri default).yStart = (p.rows.getD ri default).yStart ∧
    (q.rows.getD ri default).height = (p.rows.getD ri default).height ∧
    (q.rows.getD ri default).siteWidth = (p.rows.getD ri default).siteWidth ∧
    (q.rows.getD ri default).subRows.length = (p.rows.getD ri default).subRows.length ∧
    ∀ si, SameSub ((p.rows.getD ri default).subRows.getD si default)
      ((q.rows.getD ri default).subRows.getD si default)

/-- State of the single-cell scenario with the cell listed on site `a`: a
legal state with one row `rq` and one subrow `sq` that have the geometry of the
input, and the one cell, listed on the subrow with start site `a`. -/
structure SingleAt (q : Placement) (r : Row) (xs : ℚ) (num : ℤ) (b : Block) (rq : Row)
    (sq : SubRow) (a : ℤ) : Prop where
  legal : Legal q
  apart : Apart q.rows
  rows : q.rows = [rq]
  subs : rq.subRows = [sq]
  yStart : rq.yStart = r.yStart
  height : rq.height = r.height
  rowWidth : rq.siteWidth = r.siteWidth
  xStart : sq.xStart = xs
  numSites : sq.numSites = num
  blocks : q.blocks.length = 1
  cell : SameCell b (q.block 0)
  listed : 0 ∈ sq.placedBlocks
  site : startOf sq (q.block 0) = a

/-- The cell sits on `yStart` and on the site nearest to `origX` among site 0
and the sites of `[n, num - n]` with `n = ceil(width / siteWidth)`, the lower
site winning a tie: the sites `1 .. n - 1`, which overlap the cell placed on
site 0, are left out. -/
def OnNearestFreeSite (r : Row) (xs : ℚ) (num : ℤ) (b : Block) : Prop :=
  b.y = r.yStart ∧
  ∃ s : ℤ, (s = 0 ∨ ⌈b.width / r.siteWidth⌉ ≤ s) ∧ s ≤ num - ⌈b.width / r.siteWidth⌉ ∧
    b.x = xs + s * r.siteWidth ∧
    ∀ t : ℤ, (t = 0 ∨ ⌈b.width / r.siteWidth⌉ ≤ t) → t ≤ num - ⌈b.width / r.siteWidth⌉ →
      |xs + s * r.siteWidth - b.origX| < |xs + t * r.siteWidth - b.origX| ∨
      (|xs + s * r.siteWidth - b.origX| = |xs + t * r.siteWidth - b.origX| ∧ s ≤ t)

/-- A row at `yStart = 0` of height 10 with one empty 12-site subrow of site width 5. -/
def strideRow : Row := ⟨0, 10, 5, 1, [SubRow.new 0 12 5]⟩

/-- A movable cell of width 15 (3 sites) with `origX = 12`. -/
def strideBlock : Block := ⟨"a", 15, 10, 12, 0, 12, 0, false⟩

/-- The cell `strideBlock` on the row `strideRow`. -/
def strideInput : Placement := ⟨[strideBlock], [strideRow], 60, 10⟩

/-- A row at `yStart = 0` of height 10 with one empty 64-site subrow of site width 1. -/
def broadRow : Row := ⟨0, 10, 1, 1, [SubRow.new 0 64 1]⟩

/-- A movable cell of width 30 with `origX = 16`. -/
def broadBlock : Block := ⟨"a", 30, 10, 16, 0, 16, 0, false⟩

/-- The cell `broadBlock` on the row `broadRow`. -/
def broadInput : Placement := ⟨[broadBlock], [broadRow], 64, 10⟩

/-- A row at `yStart = 0` of height 10 with one empty 12-site subrow of site width 2. -/
def evenRow : Row := ⟨0, 10, 2, 1, [SubRow.new 0 12 2]⟩

/-- A movable cell of width 4 (2 sites) with `origX = 7`, midway between the
sites 3 and 4. -/
def evenBlock : Block := ⟨"a", 4, 10, 7, 0, 7, 0, false⟩

/-- The cell `evenBlock` on the row `evenRow`. -/
def evenInput : Placement := ⟨[evenBlock], [evenRow], 24, 10⟩

/-- Scenario S1 as the parser reads it: the row of 100 sites of width 1 and one
cell of width 3 whose `origX` is the double nearest to `5.4`. -/
def nearestInput : Placement :=
  ⟨[⟨"a", 3, 10, fl (27 / 5), 0, fl (27 / 5), 0, false⟩],
   [⟨0, 10, 1, 1, [Fp.newSubRow fl 0 100 1]⟩], 100, 10⟩

/-- Scenario S2: the same row and one cell of width 2 at `origX = 10.5`. -/
def halfwayInput : Placement :=
  ⟨[⟨"a", 2, 10, 21 / 2, 0, 21 / 2, 0, false⟩],
   [⟨0, 10, 1, 1, [Fp.newSubRow fl 0 100 1]⟩], 100, 10⟩

/-! ## Sorting -/

theorem orderedInsert_perm {α : Type} (lt : α → α → Bool) (a : α) (l : List α) :
    (orderedInsert lt a l).Perm (a :: l) := by
  induction l with
  | nil => simp [orderedInsert]
  | cons b l ih =>
    simp only [orderedInsert]
    split
    · exact (List.Perm.cons b ih).trans (List.Perm.swap a b l)
    · exact List.Perm.refl _

theorem sortBy_perm {α : Type} (lt : α → α → Bool) (l : List α) : (sortBy lt l).Perm l := by
  induction l with
  | nil => simp [sortBy]
  | cons a l ih =>
    simp only [sortBy]
    exact (orderedInsert_perm lt a _).trans (List.Perm.cons a ih)

theorem mem_sortBy {α : Type} (lt : α → α → Bool) (l : List α) (a : α) :
    a ∈ sortBy lt l ↔ a ∈ l :=
  (sortBy_perm lt l).mem_iff

theorem orderedInsert_sorted {α : Type} (key : α → ℚ) (a : α) (l : List α)
    (h : l.Pairwise (fun u v => key u ≤ key v)) :
    (orderedInsert (fun u v => decide (key u < key v)) a l).Pairwise
      (fun u v => key u ≤ key v) := by
  induction l with
  | nil => simp [orderedInsert]
  | cons b l ih =>
    simp only [orderedInsert]
    rw [List.pairwise_cons] at h
    split
    · rename_i hlt
      have hlt' : key b < key a := by simpa using hlt
      rw [List.pairwise_cons]
      refine ⟨?_, ih h.2⟩
      intro c hc
      have hc' : c = a ∨ c ∈ l := by simpa using (orderedInsert_perm _ a l).mem_iff.1 hc
      rcases hc' with rfl | hc'
      · exact le_of_lt hlt'
      · exact h.1 c hc'
    · rename_i hlt
      have hle : key a ≤ key b := by simpa using hlt
      rw [List.pairwise_cons]
      refine ⟨?_, List.pairwise_cons.2 h⟩
      intro c hc
      simp at hc
      rcases hc with rfl | hc
      · exact hle
      · exact le_trans hle (h.1 c hc)

theorem sortBy_sorted {α : Type} (key : α → ℚ) (l : List α) :
    (sortBy (fun u v => decide (key u < key v)) l).Pairwise (fun u v => key u ≤ key v) := by
  induction l with
  | nil => simp [sortBy]
  | cons a l ih => exact orderedInsert_sorted key a _ ih

/-! ## Site bitmap -/

theorem markSites_length (numSites : ℤ) (v : Bool) (i : ℤ) (k : ℕ) (occ : List Bool) :
    (markSites numSites v i k occ).length = occ.length := by
  induction k generalizing i occ with
  | zero => rfl
  | succ k ih =>
    simp only [markSites]
    rw [ih]
    split <;> simp

theorem readSite_set (occ : List Bool) (i j : ℤ) (v : Bool) (hi : 0 ≤ i)
    (hlen : i.toNat < occ.length) :
    readSite (occ.set i.toNat v) j = if j = i then some v else readSite occ j := by
  unfold readSite
  by_cases hj : j < 0
  · have : j ≠ i := by omega
    simp [hj, this]
  · simp only [hj, if_false, List.get?_eq_getElem?]
    by_cases hji : j = i
    · subst hji
      simp [List.getElem?_set_self hlen]
    · have : i.toNat ≠ j.toNat := by omega
      simp [hji, List.getElem?_set_ne this]

theorem readSite_markSites (numSites : ℤ) (v : Bool) (i : ℤ) (k : ℕ) (occ : List Bool)
    (hlen : occ.length = numSites.toNat) (j : ℤ) :
    readSite (markSites numSites v i k occ) j =
      if i ≤ j ∧ j < i + k ∧ 0 ≤ j ∧ j < numSites then some v else readSite occ j := by
  induction k generalizing i occ with
  | zero =>
    have : ¬ (i ≤ j ∧ j < i ∧ 0 ≤ j ∧ j < numSites) := by
      intro h; have := h.1; have := h.2.1; omega
    simp [markSites, this]
  | succ k ih =>
    simp only [markSites]
    by_cases hi : 0 ≤ i ∧ i < numSites
    · have hl : i.toNat < occ.length := by omega
      rw [if_pos hi, ih _ _ (by simpa using hlen), readSite_set occ i j v hi.1 hl]
      by_cases hj : j = i
      · subst hj
        have h1 : ¬ (j + 1 ≤ j ∧ j < j + 1 + (k : ℤ) ∧ 0 ≤ j ∧ j < numSites) := by omega
        have h2 : (j ≤ j ∧ j < j + ((k + 1 : ℕ) : ℤ) ∧ 0 ≤ j ∧ j < numSites) := by
          push_cast; omega
        simp [h1, h2]
      · have : (i + 1 ≤ j ∧ j < i + 1 + (k : ℤ) ∧ 0 ≤ j ∧ j < numSites) ↔
            (i ≤ j ∧ j < i + ((k + 1 : ℕ) : ℤ) ∧ 0 ≤ j ∧ j < numSites) := by
          push_cast; omega
        simp only [hj, if_false]
        by_cases hc : (i + 1 ≤ j ∧ j < i + 1 + (k : ℤ) ∧ 0 ≤ j ∧ j < numSites)
        · rw [if_pos hc, if_pos (this.1 hc)]
        · rw [if_neg hc, if_neg (fun h => hc (this.2 h))]
    · rw [if_neg hi, ih _ _ hlen]
      have : (i + 1 ≤ j ∧ j < i + 1 + (k : ℤ) ∧ 0 ≤ j ∧ j < numSites) ↔
          (i ≤ j ∧ j < i + ((k + 1 : ℕ) : ℤ) ∧ 0 ≤ j ∧ j < numSites) := by
        push_cast; omega
      by_cases hc : (i + 1 ≤ j ∧ j < i + 1 + (k : ℤ) ∧ 0 ≤ j ∧ j < numSites)
      · rw [if_pos hc, if_pos (this.1 hc)]
      · rw [if_neg hc, if_neg (fun h => hc (this.2 h))]

theorem readSite_isSome (occ : List Bool) (j : ℤ) (h0 : 0 ≤ j) (h1 : j.toNat < occ.length) :
    ∃ v, readSite occ j = some v := by
  unfold readSite
  have : ¬ j < 0 := by omega
  simp only [this, if_false, List.get?_eq_getElem?]
  exact ⟨occ[j.toNat], List.getElem?_eq_getElem h1⟩

theorem scanFree_eq_true (occ : List Bool) (i : ℤ) (k : ℕ) :
    scanFree occ i k = some true ↔ ∀ j, i ≤ j → j < i + k → readSite occ j = some false := by
  induction k generalizing i with
  | zero =>
    simp only [scanFree, true_iff]
    intro j h1 h2
    exfalso; push_cast at h2; omega
  | succ k ih =>
    simp only [scanFree]
    constructor
    · intro h j h1 h2
      cases hr : readSite occ i with
      | none => simp [hr] at h
      | some v =>
        cases v with
        | true => simp [hr] at h
        | false =>
          simp only [hr] at h
          by_cases hj : j = i
          · subst hj; exact hr
          · exact (ih (i + 1)).1 h j (by omega) (by push_cast at h2; omega)
    · intro h
      have hr := h i (le_refl _) (by push_cast; omega)
      simp only [hr]
      exact (ih (i + 1)).2 (fun j h1 h2 => h j (by omega) (by push_cast; omega))

theorem scanFree_ne_none (occ : List Bool) (i : ℤ) (k : ℕ) (h0 : 0 ≤ i)
    (h1 : i + k ≤ occ.length) : scanFree occ i k ≠ none := by
  induction k generalizing i with
  | zero => simp [scanFree]
  | succ k ih =>
    simp only [scanFree]
    obtain ⟨v, hv⟩ := readSite_isSome occ i h0 (by push_cast at h1; omega)
    rw [hv]
    cases v with
    | true => simp
    | false => exact ih (i + 1) (by omega) (by push_cast at h1 ⊢; omega)

theorem getElem?_setSubRow (rows : List Row) (ri si : ℕ) (new : SubRow) (rj : ℕ) :
    (setSubRow rows ri si new)[rj]? =
      if rj = ri then (rows[ri]?).map (fun r => { r with subRows := r.subRows.set si new })
      else rows[rj]? := by
  unfold setSubRow
  simp only [List.get?_eq_getElem?]
  cases h : rows[ri]? with
  | none =>
    by_cases hj : rj = ri
    · subst hj; simp [h]
    · simp [hj]
  | some r =>
    have hlt : ri < rows.length := by
      by_contra hc
      rw [List.getElem?_eq_none (by omega)] at h
      cases h
    by_cases hj : rj = ri
    · subst hj; simp [List.getElem?_set_self hlt]
    · have : ri ≠ rj := fun e => hj e.symm
      simp [hj, List.getElem?_set_ne this]

theorem length_setSubRow (rows : List Row) (ri si : ℕ) (new : SubRow) :
    (setSubRow rows ri si new).length = rows.length := by
  unfold setSubRow
  split <;> simp

/-- Every subrow of the updated rows is the new subrow at the updated position
or an old subrow elsewhere; the row keeps its own fields. -/
theorem isSub_setSubRow {rows : List Row} {ri si : ℕ} {new : SubRow} {rj sj : ℕ}
    {r' : Row} {sr' : SubRow} (h : IsSub (setSubRow rows ri si new) rj sj r' sr') :
    ∃ r, r.yStart = r'.yStart ∧ r.height = r'.height ∧ r.siteWidth = r'.siteWidth ∧
      ((rj = ri ∧ sj = si ∧ sr' = new ∧ ∃ old, IsSub rows rj sj r old) ∨
       (¬ (rj = ri ∧ sj = si) ∧ IsSub rows rj sj r sr')) := by
  obtain ⟨h1, h2⟩ := h
  rw [getElem?_setSubRow] at h1
  by_cases hj : rj = ri
  · subst hj
    simp only [if_true] at h1
    cases hr : rows[rj]? with
    | none => simp [hr] at h1
    | some r =>
      simp only [hr, Option.map_some', Option.some.injEq] at h1
      subst h1
      refine ⟨r, rfl, rfl, rfl, ?_⟩
      simp only [List.getElem?_set] at h2
      by_cases hs : si = sj
      · subst hs
        simp only [if_true] at h2
        by_cases hl : si < r.subRows.length
        · simp only [hl, if_true, Option.some.injEq] at h2
          left
          exact ⟨rfl, rfl, h2.symm, r.subRows[si], hr, List.getElem?_eq_getElem hl⟩
        · simp [hl] at h2
      · simp only [hs, if_false] at h2
        right
        exact ⟨fun hc => hs hc.2.symm, hr, h2⟩
  · simp only [hj, if_false] at h1
    exact ⟨r', rfl, rfl, rfl, Or.inr ⟨fun hc => hj hc.1, h1, h2⟩⟩

/-- Every old subrow is still there after the update, replaced at the updated position. -/
theorem isSub_setSubRow_of {rows : List Row} (ri si : ℕ) (new : SubRow) {rj sj : ℕ}
    {r : Row} {sr : SubRow} (h : IsSub rows rj sj r sr) :
    ∃ r', r.yStart = r'.yStart ∧ r.height = r'.height ∧ r.siteWidth = r'.siteWidth ∧
      IsSub (setSubRow rows ri si new) rj sj r' (if rj = ri ∧ sj = si then new else sr) := by
  obtain ⟨h1, h2⟩ := h
  have hl : sj < r.subRows.length := by
    by_contra hc
    rw [List.getElem?_eq_none (by omega)] at h2
    cases h2
  by_cases hj : rj = ri
  · subst hj
    refine ⟨{ r with subRows := r.subRows.set si new }, rfl, rfl, rfl, ?_, ?_⟩
    · rw [getElem?_setSubRow]; simp [h1]
    · by_cases hs : sj = si
      · subst hs
        simp [List.getElem?_set_self hl]
      · have : si ≠ sj := fun e => hs e.symm
        simp [hs, List.getElem?_set_ne this, h2]
  · refine ⟨r, rfl, rfl, rfl, ?_, ?_⟩
    · rw [getElem?_setSubRow]; simp [hj, h1]
    · simp [hj, h2]

theorem block_set (p : Placement) (j : ℕ) (b' : Block) (i : ℕ) :
    (p.blocks.set j b').getD i default =
      if i = j ∧ j < p.blocks.length then b' else p.block i := by
  unfold Placement.block
  simp only [List.getD_eq_getElem?_getD, List.getElem?_set]
  by_cases hij : i = j
  · subst hij
    by_cases hl : i < p.blocks.length
    · simp [hl]
    · simp [hl, List.getElem?_eq_none (not_lt.1 hl)]
  · have : ¬ j = i := fun e => hij e.symm
    simp [hij, this]

theorem getD_of_isSub {rows : List Row} {ri si : ℕ} {r : Row} {sr : SubRow}
    (h : IsSub rows ri si r sr) :
    rows.getD ri default = r ∧ (rows.getD ri default).subRows.getD si default = sr := by
  obtain ⟨h1, h2⟩ := h
  have e1 : rows.getD ri default = r := by simp [List.getD_eq_getElem?_getD, h1]
  refine ⟨e1, ?_⟩
  rw [e1]; simp [List.getD_eq_getElem?_getD, h2]

theorem subD_of_isSub {rows : List Row} {ri si : ℕ} {r : Row} {sr : SubRow}
    (h : IsSub rows ri si r sr) : (rows.getD ri default).subRows.getD si default = sr :=
  (getD_of_isSub h).2

theorem rowD_of_isSub {rows : List Row} {ri si : ℕ} {r : Row} {sr : SubRow}
    (h : IsSub rows ri si r sr) : rows.getD ri default = r :=
  (getD_of_isSub h).1

theorem sameCell_refl (b : Block) : SameCell b b := ⟨rfl, rfl, rfl, rfl, rfl, rfl⟩

theorem sameCell_trans {a b c : Block} (h1 : SameCell a b) (h2 : SameCell b c) :
    SameCell a c :=
  ⟨h2.1.trans h1.1, h2.2.1.trans h1.2.1, h2.2.2.1.trans h1.2.2.1,
    h2.2.2.2.1.trans h1.2.2.2.1, h2.2.2.2.2.1.trans h1.2.2.2.2.1,
    h2.2.2.2.2.2.trans h1.2.2.2.2.2⟩

theorem sameCells_refl (p : Placement) : SameCells p p := ⟨rfl, fun _ => sameCell_refl _⟩

theorem sameCells_trans {p q r : Placement} (h1 : SameCells p q) (h2 : SameCells q r) :
    SameCells p r :=
  ⟨h2.1.trans h1.1, fun j => sameCell_trans (h1.2 j) (h2.2 j)⟩

theorem untouched_refl (i : ℕ) (p : Placement) : Untouched i p p :=
  ⟨rfl, fun _ _ r' sr' h hm => ⟨r', sr', h, hm⟩⟩

theorem untouched_trans {i : ℕ} {p q r : Placement} (h1 : Untouched i p q)
    (h2 : Untouched i q r) : Untouched i p r := by
  refine ⟨h2.1.trans h1.1, ?_⟩
  intro ri si r' sr' hs hm
  obtain ⟨r1, sr1, hs1, hm1⟩ := h2.2 ri si r' sr' hs hm
  exact h1.2 ri si r1 sr1 hs1 hm1

/-! ## What one state update changes -/

theorem moveTo_block (p : Placement) (j : ℕ) (x y : ℚ) (i : ℕ) :
    (moveTo p j x y).block i =
      if i = j ∧ j < p.blocks.length then { p.block j with x := x, y := y } else p.block i := by
  show ((p.blocks.set j _).getD i default) = _
  exact block_set p j _ i

theorem insertAt_block (p : Placement) (j ri si : ℕ) (s n : ℤ) (i : ℕ) :
    (insertAt p j ri si s n).block i = p.block i := rfl

theorem removeAt_block (p : Placement) (j ri si : ℕ) (s n : ℤ) (i : ℕ) :
    (removeAt p j ri si s n).block i = p.block i := rfl

theorem moveTo_sameCells (p : Placement) (j : ℕ) (x y : ℚ) : SameCells p (moveTo p j x y) := by
  refine ⟨by simp [moveTo], fun i => ?_⟩
  rw [moveTo_block]
  split
  · rename_i h
    rw [h.1]
    exact ⟨rfl, rfl, rfl, rfl, rfl, rfl⟩
  · exact sameCell_refl _

theorem insertAt_sameCells (p : Placement) (j ri si : ℕ) (s n : ℤ) :
    SameCells p (insertAt p j ri si s n) :=
  ⟨rfl, fun _ => sameCell_refl _⟩

theorem removeAt_sameCells (p : Placement) (j ri si : ℕ) (s n : ℤ) :
    SameCells p (removeAt p j ri si s n) :=
  ⟨rfl, fun _ => sameCell_refl _⟩

theorem moveTo_untouched (p : Placement) (j : ℕ) (x y : ℚ) (i : ℕ) (h : i ≠ j) :
    Untouched i p (moveTo p j x y) := by
  refine ⟨?_, fun ri si r' sr' hs hm => ⟨r', sr', hs, hm⟩⟩
  rw [moveTo_block]
  simp [h]

theorem insertAt_untouched (p : Placement) (j ri si : ℕ) (s n : ℤ) (i : ℕ) (h : i ≠ j) :
    Untouched i p (insertAt p j ri si s n) := by
  refine ⟨rfl, ?_⟩
  intro rj sj r' sr' hs hm
  obtain ⟨r, _, _, _, hcase⟩ := isSub_setSubRow hs
  rcases hcase with ⟨h1, h2, h3, old, hold⟩ | ⟨_, hsub⟩
  · subst h1; subst h2
    refine ⟨r, old, hold, ?_⟩
    rw [h3, subD_of_isSub hold] at hm
    simp only [SubRow.insertBlock, mem_sortBy, List.mem_append, List.mem_singleton] at hm
    rcases hm with hm | hm
    · exact hm
    · exact absurd hm h
  · exact ⟨r, sr', hsub, hm⟩

theorem removeAt_untouched (p : Placement) (j ri si : ℕ) (s n : ℤ) (i : ℕ) :
    Untouched i p (removeAt p j ri si s n) := by
  refine ⟨rfl, ?_⟩
  intro rj sj r' sr' hs hm
  obtain ⟨r, _, _, _, hcase⟩ := isSub_setSubRow hs
  rcases hcase with ⟨h1, h2, h3, old, hold⟩ | ⟨_, hsub⟩
  · subst h1; subst h2
    refine ⟨r, old, hold, ?_⟩
    rw [h3, subD_of_isSub hold] at hm
    exact List.mem_of_mem_erase hm
  · exact ⟨r, sr', hsub, hm⟩

theorem placeAt_sameCells (p : Placement) (j ri si : ℕ) (s n : ℤ) :
    SameCells p (placeAt p j ri si s n) :=
  sameCells_trans (moveTo_sameCells p j _ _) (insertAt_sameCells _ j ri si s n)

theorem placeAt_untouched (p : Placement) (j ri si : ℕ) (s n : ℤ) (i : ℕ) (h : i ≠ j) :
    Untouched i p (placeAt p j ri si s n) :=
  untouched_trans (moveTo_untouched p j _ _ i h) (insertAt_untouched _ j ri si s n i h)

theorem not_listed_of_untouched {i : ℕ} {p p' : Placement} (h : Untouched i p p')
    (hn : ¬ Listed p.rows i) : ¬ Listed p'.rows i := by
  rintro ⟨ri, si, r', sr', hs, hm⟩
  obtain ⟨r, sr, hs0, hm0⟩ := h.2 ri si r' sr' hs hm
  exact hn ⟨ri, si, r, sr, hs0, hm0⟩

/-! ## Inversion of the search loops -/

theorem findSite_some {sr : SubRow} {w : ℚ} {n s0 : ℤ} {k : ℕ} {s : ℤ}
    (h : findSite sr w n s0 k = some (some s)) :
    s0 ≤ s ∧ s < s0 + k ∧ sr.canPlaceAt s n = some true ∧
      sr.xStart + s * sr.siteWidth + w ≤ sr.xEnd + eps ∧
      ∀ t, s0 ≤ t → t < s →
        ¬ (sr.canPlaceAt t n = some true ∧ sr.xStart + t * sr.siteWidth + w ≤ sr.xEnd + eps) := by
  induction k generalizing s0 with
  | zero => simp [findSite] at h
  | succ k ih =>
    simp only [findSite] at h
    cases hc : sr.canPlaceAt s0 n with
    | none => simp [hc] at h
    | some v =>
      cases v with
      | false =>
        simp only [hc] at h
        obtain ⟨h1, h2, h3, h4, h5⟩ := ih h
        refine ⟨by omega, by push_cast; omega, h3, h4, ?_⟩
        intro t ht1 ht2
        by_cases ht : t = s0
        · subst ht; simp [hc]
        · exact h5 t (by omega) ht2
      | true =>
        simp only [hc] at h
        by_cases hfit : sr.xStart + s0 * sr.siteWidth + w > sr.xEnd + eps
        · rw [if_pos hfit] at h
          obtain ⟨h1, h2, h3, h4, h5⟩ := ih h
          refine ⟨by omega, by push_cast; omega, h3, h4, ?_⟩
          intro t ht1 ht2
          by_cases ht : t = s0
          · subst ht
            intro hh
            exact absurd hh.2 (not_le.2 hfit)
          · exact h5 t (by omega) ht2
        · rw [if_neg hfit] at h
          simp only [Option.some.injEq] at h
          subst h
          refine ⟨le_refl _, by push_cast; omega, hc, not_lt.1 hfit, ?_⟩
          intro t ht1 ht2
          omega

theorem placeInSubRows_some {p : Placement} {j ri : ℕ} {n : ℤ} {order : List ℕ}
    {p' : Placement} (h : placeInSubRows p j ri n order = some (some p')) :
    ∃ si ∈ order, ∃ s,
      findSite ((p.rows.getD ri default).subRows.getD si default) (p.block j).width n 0
        ((((p.rows.getD ri default).subRows.getD si default).numSites - n + 1).toNat)
        = some (some s) ∧ p' = placeAt p j ri si s n := by
  induction order with
  | nil => simp [placeInSubRows] at h
  | cons si rest ih =>
    simp only [placeInSubRows] at h
    split at h
    · cases h
    · rename_i s hs
      simp only [Option.some.injEq] at h
      exact ⟨si, List.mem_cons_self _ _, s, hs, h.symm⟩
    · obtain ⟨si', hm, s, hs, hp⟩ := ih h
      exact ⟨si', List.mem_cons_of_mem _ hm, s, hs, hp⟩

theorem placeInRows_some {p : Placement} {j : ℕ} {order : List ℕ} {p' : Placement}
    (h : placeInRows p j order = some (some p')) :
    ∃ ri ∈ order, (p.block j).height ≤ (p.rows.getD ri default).height + eps ∧
      ∃ si ∈ subrowOrder (p.rows.getD ri default) (p.block j).origX, ∃ s,
        findSite ((p.rows.getD ri default).subRows.getD si default) (p.block j).width
          ⌈(p.block j).width / (p.rows.getD ri default).siteWidth⌉ 0
          ((((p.rows.getD ri default).subRows.getD si default).numSites
              - ⌈(p.block j).width / (p.rows.getD ri default).siteWidth⌉ + 1).toNat)
          = some (some s) ∧
        p' = placeAt p j ri si s ⌈(p.block j).width / (p.rows.getD ri default).siteWidth⌉ := by
  induction order with
  | nil => simp [placeInRows] at h
  | cons ri rest ih =>
    simp only [placeInRows] at h
    split at h
    · obtain ⟨ri', hm, rest'⟩ := ih h
      exact ⟨ri', List.mem_cons_of_mem _ hm, rest'⟩
    · rename_i hh
      split at h
      · cases h
      · rename_i q hq
        simp only [Option.some.injEq] at h
        subst h
        obtain ⟨si, hm, s, hs, hp⟩ := placeInSubRows_some hq
        exact ⟨ri, List.mem_cons_self _ _, not_lt.1 hh, si, hm, s, hs, hp⟩
      · obtain ⟨ri', hm, rest'⟩ := ih h
        exact ⟨ri', List.mem_cons_of_mem _ hm, rest'⟩

/-- A cell step of `initialPlacement` either leaves the state as it is (cell
not placed) or is one `placeAt` at a site that `findSite` returned. -/
theorem placeBlock_cases {p : Placement} {j : ℕ} {p' : Placement} {placed : Bool}
    (h : placeBlock p j = some (p', placed)) :
    (placed = false ∧ p' = p) ∨
    (placed = true ∧ ∃ ri ∈ rowOrder p (p.block j).origY,
      (p.block j).height ≤ (p.rows.getD ri default).height + eps ∧
      ∃ si ∈ subrowOrder (p.rows.getD ri default) (p.block j).origX, ∃ s,
        findSite ((p.rows.getD ri default).subRows.getD si default) (p.block j).width
          ⌈(p.block j).width / (p.rows.getD ri default).siteWidth⌉ 0
          ((((p.rows.getD ri default).subRows.getD si default).numSites
              - ⌈(p.block j).width / (p.rows.getD ri default).siteWidth⌉ + 1).toNat)
          = some (some s) ∧
        p' = placeAt p j ri si s ⌈(p.block j).width / (p.rows.getD ri default).siteWidth⌉) := by
  unfold placeBlock at h
  split at h
  · cases h
  · rename_i q hq
    simp only [Option.some.injEq, Prod.mk.injEq] at h
    obtain ⟨h1, h2⟩ := h
    subst h1
    exact Or.inr ⟨h2.symm, placeInRows_some hq⟩
  · simp only [Option.some.injEq, Prod.mk.injEq] at h
    exact Or.inl ⟨h.2.symm, h.1.symm⟩

/-- A cell step of `optimizePlacement` leaves the state as it is, or removes
the block and moves it; in the second case it re-inserts the block unless the
re-insertion search fails. -/
theorem optimizeBlock_cases {p : Placement} {j : ℕ} {p' : Placement} {moved : Bool}
    (h : optimizeBlock p j = some (p', moved)) :
    (moved = false ∧ p' = p) ∨
    ∃ best ri si s n,
      scanRows (p.block j) (p.block j).disp 0 p.rows
        ⟨p.rows.length, (p.block j).x, (p.block j).y, (p.block j).disp⟩ = some best ∧
      best.disp < (p.block j).disp - eps ∧
      locateRow (p.block j) 0 p.rows = some (some (ri, si, s, n)) ∧
      ((moved = false ∧
          reinsertSubRow ((moveTo (removeAt p j ri si s n) j best.x best.y).block j) 0
            ((moveTo (removeAt p j ri si s n) j best.x best.y).rows.getD
              best.rowIdx default).subRows = some none ∧
          p' = moveTo (removeAt p j ri si s n) j best.x best.y) ∨
       (moved = true ∧ ∃ si' s' n',
          reinsertSubRow ((moveTo (removeAt p j ri si s n) j best.x best.y).block j) 0
            ((moveTo (removeAt p j ri si s n) j best.x best.y).rows.getD
              best.rowIdx default).subRows = some (some (si', s', n')) ∧
          p' = insertAt (moveTo (removeAt p j ri si s n) j best.x best.y) j
            best.rowIdx si' s' n')) := by
  unfold optimizeBlock at h
  simp only at h
  split at h
  · cases h
  · rename_i best hbest
    split at h
    · rename_i hlt
      split at h
      · cases h
      · simp only [Option.some.injEq, Prod.mk.injEq] at h
        exact Or.inl ⟨h.2.symm, h.1.symm⟩
      · rename_i ri si s n hloc
        right
        refine ⟨best, ri, si, s, n, hbest, hlt, hloc, ?_⟩
        split at h
        · cases h
        · rename_i hre
          simp only [Option.some.injEq, Prod.mk.injEq] at h
          exact Or.inl ⟨h.2.symm, hre, h.1.symm⟩
        · rename_i si' s' n' hre
          simp only [Option.some.injEq, Prod.mk.injEq] at h
          exact Or.inr ⟨h.2.symm, si', s', n', hre, h.1.symm⟩
    · simp only [Option.some.injEq, Prod.mk.injEq] at h
      exact Or.inl ⟨h.2.symm, h.1.symm⟩

/-! ## Rounded arithmetic on the integer grid -/

theorem whole_int {q : ℚ} (h : q.den = 1) : ∃ k : ℤ, q = k :=
  ⟨q.num, ((Rat.den_eq_one_iff q).1 h).symm⟩

/-- Sums, differences, products and absolute values of integers are integers. -/
theorem whole_ops {a b : ℚ} (ha : a.den = 1) (hb : b.den = 1) :
    (a + b).den = 1 ∧ (a - b).den = 1 ∧ (a * b).den = 1 ∧ |a|.den = 1 := by
  obtain ⟨k, rfl⟩ := whole_int ha
  obtain ⟨l, rfl⟩ := whole_int hb
  refine ⟨?_, ?_, ?_, ?_⟩
  · rw [← Int.cast_add]; exact Rat.den_intCast _
  · rw [← Int.cast_sub]; exact Rat.den_intCast _
  · rw [← Int.cast_mul]; exact Rat.den_intCast _
  · rw [← Int.cast_abs]; exact Rat.den_intCast _

/-- Two integers that differ are at least one apart. -/
theorem whole_lt {a b : ℚ} (ha : a.den = 1) (hb : b.den = 1) (h : a < b) : a + 1 ≤ b := by
  obtain ⟨k, rfl⟩ := whole_int ha
  obtain ⟨l, rfl⟩ := whole_int hb
  have : k + 1 ≤ l := by exact_mod_cast h
  exact_mod_cast this

/-- The rounding leaves an integer of magnitude up to `2^52` as it is. -/
theorem rd_whole {rd : ℚ → ℚ} (hrd : IsRounding rd) {q : ℚ} (h : q.den = 1)
    (hb : |q| ≤ 4503599627370496) : rd q = q := by
  obtain ⟨k, rfl⟩ := whole_int h
  have hk : |2 * k| ≤ 9007199254740992 := by
    have h1 : |(k : ℚ)| ≤ 4503599627370496 := hb
    have h2 : |k| ≤ 4503599627370496 := by exact_mod_cast h1
    rw [abs_le] at h2 ⊢
    omega
  have := hrd.exact (2 * k) hk
  have e : ((2 * k : ℤ) : ℚ) / 2 = (k : ℚ) := by push_cast; ring
  rwa [e] at this

/-- The rounded tolerance lies within `2^-27` of `1e-6`. -/
theorem rd_eps {rd : ℚ → ℚ} (hrd : IsRounding rd) :
    0 ≤ rd eps ∧ eps - 1 / 134217728 ≤ rd eps ∧ rd eps ≤ eps + 1 / 134217728 := by
  have h0 : rd 0 = 0 := by simpa using hrd.exact 0 (by norm_num)
  have hpos : (0 : ℚ) ≤ eps := by unfold eps; norm_num
  have h1 := hrd.mono 0 eps hpos
  rw [h0] at h1
  have h2 := hrd.near eps (by unfold eps; rw [abs_of_nonneg (by norm_num)]; norm_num)
  rw [abs_le] at h2
  exact ⟨h1, by linarith [h2.1], by linarith [h2.2]⟩

/-- Adding or subtracting the rounded tolerance at an integer of magnitude up
to `2^25` stays within the unit interval above or below it. -/
theorem rd_tol {rd : ℚ → ℚ} (hrd : IsRounding rd) {b : ℚ} (h : b.den = 1)
    (hb : |b| ≤ 33554432) :
    b ≤ rd (b + rd eps) ∧ rd (b + rd eps) < b + 1 ∧
    b - 1 < rd (b - rd eps) ∧ rd (b - rd eps) ≤ b := by
  obtain ⟨he0, he1, he2⟩ := rd_eps hrd
  have hbb := rd_whole hrd h (le_trans hb (by norm_num))
  have heps : eps = 1 / 1000000 := rfl
  rw [abs_le] at hb
  have n1 := hrd.near (b + rd eps) (by rw [abs_le]; constructor <;> linarith [hb.1, hb.2])
  have n2 := hrd.near (b - rd eps) (by rw [abs_le]; constructor <;> linarith [hb.1, hb.2])
  rw [abs_le] at n1 n2
  have m1 := hrd.mono b (b + rd eps) (by linarith)
  have m2 := hrd.mono (b - rd eps) b (by linarith)
  rw [hbb] at m1 m2
  refine ⟨m1, ?_, ?_, m2⟩
  · linarith [n1.2]
  · linarith [n2.1]

/-- The comparisons of the source against `b + 1e-6` and `b - 1e-6` come out in
`double` as in exact arithmetic when both sides are integers. -/
theorem cmp_tol {rd : ℚ → ℚ} (hrd : IsRounding rd) {a b : ℚ} (ha : a.den = 1)
    (h : b.den = 1) (hb : |b| ≤ 33554432) :
    (a > rd (b + rd eps) ↔ a > b + eps) ∧ (a ≤ rd (b + rd eps) ↔ a ≤ b + eps) ∧
    (a ≥ rd (b - rd eps) ↔ a ≥ b - eps) ∧ (a < rd (b - rd eps) ↔ a < b - eps) := by
  obtain ⟨t1, t2, t3, t4⟩ := rd_tol hrd h hb
  have heps : eps = 1 / 1000000 := rfl
  have key1 : a > rd (b + rd eps) ↔ a > b + eps := by
    constructor
    · intro h1
      have : b + 1 ≤ a := whole_lt h ha (lt_of_le_of_lt t1 h1)
      linarith
    · intro h1
      have : b + 1 ≤ a := whole_lt h ha (by linarith)
      exact lt_of_lt_of_le t2 this
  have key2 : a < rd (b - rd eps) ↔ a < b - eps := by
    constructor
    · intro h1
      have : a + 1 ≤ b := whole_lt ha h (lt_of_lt_of_le h1 t4)
      linarith
    · intro h1
      have : a + 1 ≤ b := whole_lt ha h (by linarith)
      linarith
  refine ⟨key1, ?_, ?_, key2⟩
  · rw [← not_lt, ← not_lt]; exact not_congr key1
  · rw [ge_iff_le, ge_iff_le, ← not_lt, ← not_lt]; exact not_congr key2

/-- The test `fabs(a - b) > 1e-6` and the test `fabs(a - b) < 1e-6` on grid values. -/
theorem cmp_abs {rd : ℚ → ℚ} (hrd : IsRounding rd) {a b : ℚ} (ha : GridValue a)
    (hb : GridValue b) :
    rd (a - b) = a - b ∧ (|rd (a - b)| > rd eps ↔ |a - b| > eps) ∧
    (|rd (a - b)| < rd eps ↔ |a - b| < eps) := by
  obtain ⟨he0, he1, he2⟩ := rd_eps hrd
  have heps : eps = 1 / 1000000 := rfl
  have hw := (whole_ops ha.1 hb.1).2.1
  have hab : |a - b| ≤ 2097152 := by
    have := abs_sub a b
    linarith [ha.2, hb.2]
  have e := rd_whole hrd hw (le_trans hab (by norm_num))
  have hw' : |a - b|.den = 1 := (whole_ops hw hw).2.2.2
  have h0 : (0 : ℚ).den = 1 := rfl
  rw [e]
  refine ⟨rfl, ?_, ?_⟩
  · constructor
    · intro h1
      have : (0 : ℚ) + 1 ≤ |a - b| := whole_lt h0 hw' (lt_of_le_of_lt he0 h1)
      linarith
    · intro h1
      have : (0 : ℚ) + 1 ≤ |a - b| := whole_lt h0 hw' (by linarith)
      linarith
  · constructor
    · intro h1
      rcases lt_or_le 0 |a - b| with h2 | h2
      · have : (0 : ℚ) + 1 ≤ |a - b| := whole_lt h0 hw' h2
        linarith
      · linarith
    · intro h1
      rcases lt_or_le 0 |a - b| with h2 | h2
      · have : (0 : ℚ) + 1 ≤ |a - b| := whole_lt h0 hw' h2
        linarith
      · linarith

/-- The quotient of two integers, rounded, plus the rounded tolerance, rounded,
has the floor of the exact quotient plus `1e-6`, and the rounded quotient has
the ceiling of the exact one; both are within the range of `int`. -/
theorem quot_grid {rd : ℚ → ℚ} (hrd : IsRounding rd) {a b : ℚ} (ha : a.den = 1)
    (hb : b.den = 1) (hab : |a| ≤ 16777216) (hb1 : 1 ≤ b) (hb2 : b ≤ 524288) :
    ⌊rd (rd (a / b) + rd eps)⌋ = ⌊a / b + eps⌋ ∧ ⌈rd (a / b)⌉ = ⌈a / b⌉ ∧
    |⌊a / b + eps⌋| ≤ 16777216 ∧ |⌈a / b⌉| ≤ 16777216 := by
  obtain ⟨he0, he1, he2⟩ := rd_eps hrd
  have heps : eps = 1 / 1000000 := rfl
  obtain ⟨k, rfl⟩ := whole_int ha
  obtain ⟨l, rfl⟩ := whole_int hb
  have hl1 : (1 : ℤ) ≤ l := by exact_mod_cast hb1
  have hlpos : (0 : ℚ) < (l : ℚ) := by linarith
  have hk : |k| ≤ 16777216 := by exact_mod_cast hab
  rw [abs_le] at hk hab
  -- the quotient lies in `[n, n + 1 - 1/l]` for `n` its floor
  have hinv : (1 : ℚ) / 524288 ≤ 1 / (l : ℚ) := one_div_le_one_div_of_le hlpos hb2
  have hq1 : -16777216 ≤ (k : ℚ) / l := by
    rw [le_div_iff₀ hlpos]
    linarith [hab.1]
  have hq2 : (k : ℚ) / l ≤ 16777216 := by
    rw [div_le_iff₀ hlpos]
    linarith [hab.2]
  have hfl := Int.floor_le ((k : ℚ) / l)
  have hfl2 : (k : ℚ) / l + 1 / l ≤ ⌊(k : ℚ) / l⌋ + 1 := by
    have h1 := Int.lt_floor_add_one ((k : ℚ) / l)
    rw [div_lt_iff₀ hlpos] at h1
    have h2 : k < (⌊(k : ℚ) / l⌋ + 1) * l := by exact_mod_cast h1
    have h3 : k + 1 ≤ (⌊(k : ℚ) / l⌋ + 1) * l := h2
    have h4 : ((k : ℚ) + 1) ≤ (⌊(k : ℚ) / l⌋ + 1) * l := by exact_mod_cast h3
    rw [← add_div, div_le_iff₀ hlpos]
    exact h4
  have hce := Int.le_ceil ((k : ℚ) / l)
  have hce2 : (⌈(k : ℚ) / l⌉ : ℚ) - 1 + 1 / l ≤ (k : ℚ) / l := by
    have h1 := Int.ceil_lt_add_one ((k : ℚ) / l)
    have h1' : (⌈(k : ℚ) / l⌉ : ℚ) - 1 < (k : ℚ) / l := by linarith
    rw [lt_div_iff₀ hlpos] at h1'
    have h2 : (⌈(k : ℚ) / l⌉ - 1) * l < k := by exact_mod_cast h1'
    have h3 : (⌈(k : ℚ) / l⌉ - 1) * l + 1 ≤ k := h2
    have h4 : ((⌈(k : ℚ) / l⌉ : ℚ) - 1) * l + 1 ≤ k := by exact_mod_cast h3
    have h5 : ((⌈(k : ℚ) / l⌉ : ℚ) - 1) + 1 / l = (((⌈(k : ℚ) / l⌉ : ℚ) - 1) * l + 1) / l := by
      field_simp
    rw [h5]
    exact div_le_div_of_nonneg_right h4 (le_of_lt hlpos)
  have hfb : |⌊(k : ℚ) / l⌋| ≤ 16777216 := by
    rw [abs_le]
    constructor
    · exact Int.le_floor.2 (by push_cast; exact hq1)
    · have : (⌊(k : ℚ) / l⌋ : ℚ) ≤ 16777216 := le_trans hfl hq2
      exact_mod_cast this
  have hcb : |⌈(k : ℚ) / l⌉| ≤ 16777216 := by
    rw [abs_le]
    constructor
    · have : (-16777216 : ℚ) ≤ ⌈(k : ℚ) / l⌉ := le_trans hq1 hce
      exact_mod_cast this
    · exact Int.ceil_le.2 (by push_cast; exact hq2)
  have hfbq : |(⌊(k : ℚ) / l⌋ : ℚ)| ≤ 16777216 := by exact_mod_cast hfb
  have hcbq : |(⌈(k : ℚ) / l⌉ : ℚ)| ≤ 16777216 := by exact_mod_cast hcb
  have nq := hrd.near ((k : ℚ) / l) (by rw [abs_le]; constructor <;> linarith)
  rw [abs_le] at nq
  have rfloor := rd_whole hrd (Rat.den_intCast ⌊(k : ℚ) / l⌋) (le_trans hfbq (by norm_num))
  have rceil := rd_whole hrd (Rat.den_intCast ⌈(k : ℚ) / l⌉) (le_trans hcbq (by norm_num))
  have mq1 := hrd.mono _ _ hfl
  have mq2 := hrd.mono _ _ hce
  rw [rfloor] at mq1
  rw [rceil] at mq2
  have e1 : ⌊(k : ℚ) / l + eps⌋ = ⌊(k : ℚ) / l⌋ := by
    rw [Int.floor_eq_iff]
    constructor <;> linarith
  have nt := hrd.near (rd ((k : ℚ) / l) + rd eps)
    (by rw [abs_le]; constructor <;> linarith [nq.1, nq.2])
  rw [abs_le] at nt
  have mt := hrd.mono (⌊(k : ℚ) / l⌋ : ℚ) (rd ((k : ℚ) / l) + rd eps) (by linarith)
  rw [rfloor] at mt
  refine ⟨?_, ?_, by rw [e1]; exact hfb, hcb⟩
  · rw [e1, Int.floor_eq_iff]
    constructor
    · exact mt
    · linarith [nt.2, nq.2]
  · rw [Int.ceil_eq_iff]
    constructor
    · linarith [nq.1]
    · exact mq2

/-- A value in the range of `int` is converted to itself. -/
theorem toInt_small {z : ℤ} (h : |z| ≤ 16777216) : Fp.toInt z = some z := by
  rw [abs_le] at h
  unfold Fp.toInt
  rw [if_pos ⟨by omega, by omega⟩]

/-! ## The rounding `fl` has the properties `IsRounding` -/

theorem pow2_eq (e : ℤ) : pow2 e = (2 : ℚ) ^ e := by
  unfold pow2
  split
  · rename_i h
    have h1 : ((e.toNat : ℕ) : ℤ) = e := Int.toNat_of_nonneg h
    conv_rhs => rw [← h1]
    rw [zpow_natCast]
    push_cast
    rfl
  · rename_i h
    have h1 : e = -(((-e).toNat : ℕ) : ℤ) := by omega
    conv_rhs => rw [h1, zpow_neg, zpow_natCast]
    push_cast
    rw [one_div]

/-- `roundEven x` is within `1/2` of `x`, between the integers around `x`. -/
theorem roundEven_spec (x : ℚ) :
    |(roundEven x : ℚ) - x| ≤ 1 / 2 ∧ (∀ k : ℤ, (k : ℚ) ≤ x → k ≤ roundEven x) ∧
    ∀ k : ℤ, x ≤ (k : ℚ) → roundEven x ≤ k := by
  have h1 := Int.floor_le x
  have h2 := Int.lt_floor_add_one x
  refine ⟨?_, ?_, ?_⟩
  · unfold roundEven
    rw [abs_le]
    split_ifs <;> push_cast <;> constructor <;> linarith
  · intro k hk
    have : k ≤ ⌊x⌋ := Int.le_floor.2 hk
    unfold roundEven
    split_ifs <;> omega
  · intro k hk
    have hfk : ⌊x⌋ ≤ k := by
      have : (⌊x⌋ : ℚ) ≤ k := le_trans h1 hk
      exact_mod_cast this
    rcases hfk.lt_or_eq with hlt | heq
    · unfold roundEven
      split_ifs <;> omega
    · have hx : x = ⌊x⌋ := le_antisymm (by rw [heq]; exact hk) h1
      have h0 : x - ⌊x⌋ < 1 / 2 := by rw [← hx]; norm_num
      unfold roundEven
      rw [if_pos h0]
      omega

theorem roundEven_mono {x y : ℚ} (h : x ≤ y) : roundEven x ≤ roundEven y := by
  have hf := Int.floor_mono h
  rcases hf.lt_or_eq with hlt | heq
  · have h1 : roundEven x ≤ ⌊x⌋ + 1 := by unfold roundEven; split_ifs <;> omega
    have h2 : ⌊y⌋ ≤ roundEven y := by unfold roundEven; split_ifs <;> omega
    omega
  · unfold roundEven
    rw [heq]
    split_ifs <;> first | omega | (exfalso; linarith)

/-- The binary exponent of a nonzero rational brackets its magnitude. -/
theorem bitLog_eq (n : ℕ) : bitLog n = Nat.log2 n := by
  have h : ∀ k n : ℕ, n ≤ k → halvings k n = Nat.log2 n := by
    intro k
    induction k with
    | zero =>
      intro n hn
      have : n = 0 := by omega
      subst this
      rw [Nat.log2]
      simp [halvings]
    | succ f ih =>
      intro n hn
      rw [Nat.log2]
      simp only [halvings]
      by_cases h2 : 2 ≤ n
      · rw [if_pos h2, if_pos h2, ih (n / 2) (by omega)]
      · rw [if_neg h2, if_neg h2]
  exact h n n (le_refl n)

theorem expOf_spec {q : ℚ} (hq : q ≠ 0) :
    (2 : ℚ) ^ expOf q ≤ |q| ∧ |q| < (2 : ℚ) ^ (expOf q + 1) := by
  have hn : q.num.natAbs ≠ 0 := by
    rw [Ne, Int.natAbs_eq_zero, Rat.num_eq_zero]; exact hq
  have hd : q.den ≠ 0 := q.den_nz
  have habs : |q| = (q.num.natAbs : ℚ) / (q.den : ℚ) := by
    rw [Rat.abs_def, Rat.divInt_eq_div]
    push_cast
    rw [Nat.cast_natAbs, Int.cast_abs]
  have n1 : ((2 : ℚ) ^ (Nat.log2 q.num.natAbs : ℤ)) ≤ (q.num.natAbs : ℚ) := by
    rw [zpow_natCast]
    exact_mod_cast Nat.log2_self_le hn
  have n2 : (q.num.natAbs : ℚ) < (2 : ℚ) ^ ((Nat.log2 q.num.natAbs : ℤ) + 1) := by
    have : (q.num.natAbs : ℚ) < (2 : ℚ) ^ (Nat.log2 q.num.natAbs + 1) := by
      exact_mod_cast @Nat.lt_log2_self q.num.natAbs
    rw [show ((Nat.log2 q.num.natAbs : ℤ) + 1) = ((Nat.log2 q.num.natAbs + 1 : ℕ) : ℤ) by
      push_cast; rfl, zpow_natCast]
    exact this
  have d1 : ((2 : ℚ) ^ (Nat.log2 q.den : ℤ)) ≤ (q.den : ℚ) := by
    rw [zpow_natCast]
    exact_mod_cast Nat.log2_self_le hd
  have d2 : (q.den : ℚ) < (2 : ℚ) ^ ((Nat.log2 q.den : ℤ) + 1) := by
    have : (q.den : ℚ) < (2 : ℚ) ^ (Nat.log2 q.den + 1) := by
      exact_mod_cast @Nat.lt_log2_self q.den
    rw [show ((Nat.log2 q.den : ℤ) + 1) = ((Nat.log2 q.den + 1 : ℕ) : ℤ) by
      push_cast; rfl, zpow_natCast]
    exact this
  have hdpos : (0 : ℚ) < (q.den : ℚ) := by exact_mod_cast q.den_pos
  have h2 : (2 : ℚ) ≠ 0 := by norm_num
  have hp : ∀ e : ℤ, (0 : ℚ) < (2 : ℚ) ^ e := fun e => zpow_pos (by norm_num) e
  -- `|q|` lies strictly between `2 ^ (e0 - 1)` and `2 ^ (e0 + 1)`
  have lo : (2 : ℚ) ^ ((Nat.log2 q.num.natAbs : ℤ) - (Nat.log2 q.den : ℤ) - 1) ≤ |q| := by
    rw [habs, le_div_iff₀ hdpos]
    have e1 : (2 : ℚ) ^ ((Nat.log2 q.num.natAbs : ℤ) - (Nat.log2 q.den : ℤ) - 1)
        * (2 : ℚ) ^ ((Nat.log2 q.den : ℤ) + 1) = (2 : ℚ) ^ (Nat.log2 q.num.natAbs : ℤ) := by
      rw [← zpow_add₀ h2]
      congr 1
      ring
    have := mul_le_mul_of_nonneg_left (le_of_lt d2)
      (le_of_lt (hp ((Nat.log2 q.num.natAbs : ℤ) - (Nat.log2 q.den : ℤ) - 1)))
    linarith
  have hi : |q| < (2 : ℚ) ^ ((Nat.log2 q.num.natAbs : ℤ) - (Nat.log2 q.den : ℤ) + 1) := by
    rw [habs, div_lt_iff₀ hdpos]
    have e1 : (2 : ℚ) ^ ((Nat.log2 q.num.natAbs : ℤ) - (Nat.log2 q.den : ℤ) + 1)
        * (2 : ℚ) ^ (Nat.log2 q.den : ℤ) = (2 : ℚ) ^ ((Nat.log2 q.num.natAbs : ℤ) + 1) := by
      rw [← zpow_add₀ h2]
      congr 1
      ring
    have := mul_le_mul_of_nonneg_left d1
      (le_of_lt (hp ((Nat.log2 q.num.natAbs : ℤ) - (Nat.log2 q.den : ℤ) + 1)))
    linarith
  unfold expOf
  rw [bitLog_eq, bitLog_eq]
  rw [pow2_eq]
  split
  · rename_i h
    exact ⟨h, hi⟩
  · rename_i h
    refine ⟨lo, ?_⟩
    rw [sub_add_cancel]
    exact not_le.1 h

/-- A nonzero rational is rounded to the product of the unit of its binade and
a 53-bit integer of the same sign; the result stays in the closed binade. -/
theorem fl_bounds {q : ℚ} (hq : q ≠ 0) :
    fl q = (roundEven (q / (2 : ℚ) ^ (expOf q - 52)) : ℚ) * (2 : ℚ) ^ (expOf q - 52) ∧
    (0 < q → (2 : ℚ) ^ expOf q ≤ fl q ∧ fl q ≤ (2 : ℚ) ^ (expOf q + 1)) ∧
    (q < 0 → -(2 : ℚ) ^ (expOf q + 1) ≤ fl q ∧ fl q ≤ -(2 : ℚ) ^ expOf q) := by
  obtain ⟨s1, s2⟩ := expOf_spec hq
  have h2 : (2 : ℚ) ≠ 0 := by norm_num
  have hu : (0 : ℚ) < (2 : ℚ) ^ (expOf q - 52) := zpow_pos (by norm_num) _
  have e52 : (2 : ℚ) ^ expOf q = (4503599627370496 : ℚ) * (2 : ℚ) ^ (expOf q - 52) := by
    have h52 : (2 : ℚ) ^ (52 : ℤ) = 4503599627370496 := by norm_num
    rw [zpow_sub₀ h2, h52]
    field_simp
  have e53 : (2 : ℚ) ^ (expOf q + 1) = (9007199254740992 : ℚ) * (2 : ℚ) ^ (expOf q - 52) := by
    rw [zpow_add_one₀ h2, e52]
    ring
  have efl : fl q
      = (roundEven (q / (2 : ℚ) ^ (expOf q - 52)) : ℚ) * (2 : ℚ) ^ (expOf q - 52) := by
    unfold fl
    rw [if_neg hq, pow2_eq]
  obtain ⟨_, rlo, rhi⟩ := roundEven_spec (q / (2 : ℚ) ^ (expOf q - 52))
  refine ⟨efl, ?_, ?_⟩
  · intro hpos
    rw [abs_of_pos hpos] at s1 s2
    have a1 : ((4503599627370496 : ℤ) : ℚ) ≤ q / (2 : ℚ) ^ (expOf q - 52) := by
      rw [le_div_iff₀ hu]; push_cast; linarith
    have a2 : q / (2 : ℚ) ^ (expOf q - 52) ≤ ((9007199254740992 : ℤ) : ℚ) := by
      rw [div_le_iff₀ hu]; push_cast; linarith
    have b1 : ((4503599627370496 : ℤ) : ℚ) ≤ roundEven (q / (2 : ℚ) ^ (expOf q - 52)) := by
      exact_mod_cast rlo _ a1
    have b2 : (roundEven (q / (2 : ℚ) ^ (expOf q - 52)) : ℚ) ≤ ((9007199254740992 : ℤ) : ℚ) := by
      exact_mod_cast rhi _ a2
    rw [efl, e52, e53]
    push_cast at b1 b2
    exact ⟨mul_le_mul_of_nonneg_right b1 (le_of_lt hu),
      mul_le_mul_of_nonneg_right b2 (le_of_lt hu)⟩
  · intro hneg
    rw [abs_of_neg hneg] at s1 s2
    have a1 : ((-9007199254740992 : ℤ) : ℚ) ≤ q / (2 : ℚ) ^ (expOf q - 52) := by
      rw [le_div_iff₀ hu]; push_cast; linarith
    have a2 : q / (2 : ℚ) ^ (expOf q - 52) ≤ ((-4503599627370496 : ℤ) : ℚ) := by
      rw [div_le_iff₀ hu]; push_cast; linarith
    have b1 : ((-9007199254740992 : ℤ) : ℚ) ≤ roundEven (q / (2 : ℚ) ^ (expOf q - 52)) := by
      exact_mod_cast rlo _ a1
    have b2 : (roundEven (q / (2 : ℚ) ^ (expOf q - 52)) : ℚ) ≤ ((-4503599627370496 : ℤ) : ℚ) := by
      exact_mod_cast rhi _ a2
    rw [efl, e52, e53]
    push_cast at b1 b2
    have c1 := mul_le_mul_of_nonneg_right b1 (le_of_lt hu)
    have c2 := mul_le_mul_of_nonneg_right b2 (le_of_lt hu)
    constructor <;> linarith

theorem fl_mono (a b : ℚ) (h : a ≤ b) : fl a ≤ fl b := by
  have hp : ∀ e : ℤ, (0 : ℚ) < (2 : ℚ) ^ e := fun e => zpow_pos (by norm_num) e
  have hmono : ∀ {e f : ℤ}, e ≤ f → (2 : ℚ) ^ e ≤ (2 : ℚ) ^ f :=
    fun h => zpow_le_zpow_right₀ (by norm_num) h
  have hexp : ∀ {e f : ℤ}, (2 : ℚ) ^ e < (2 : ℚ) ^ f → e < f :=
    fun h => (zpow_lt_zpow_iff_right₀ (by norm_num)).1 h
  have h0 : fl 0 = 0 := by unfold fl; rw [if_pos rfl]
  have hsame : ∀ {x y : ℚ}, x ≠ 0 → y ≠ 0 → x ≤ y → expOf x = expOf y → fl x ≤ fl y := by
    intro x y hx hy hxy he
    rw [(fl_bounds hx).1, (fl_bounds hy).1, he]
    have hu := hp (expOf y - 52)
    have := roundEven_mono (div_le_div_of_nonneg_right hxy (le_of_lt hu))
    exact mul_le_mul_of_nonneg_right (by exact_mod_cast this) (le_of_lt hu)
  rcases lt_trichotomy a 0 with ha | ha | ha
  · obtain ⟨na1, na2⟩ := (fl_bounds (ne_of_lt ha)).2.2 ha
    rcases lt_trichotomy b 0 with hb | hb | hb
    · obtain ⟨nb1, nb2⟩ := (fl_bounds (ne_of_lt hb)).2.2 hb
      obtain ⟨sa1, sa2⟩ := expOf_spec (ne_of_lt ha)
      obtain ⟨sb1, sb2⟩ := expOf_spec (ne_of_lt hb)
      rw [abs_of_neg ha] at sa1 sa2
      rw [abs_of_neg hb] at sb1 sb2
      have h1 : expOf b < expOf a + 1 := hexp (by linarith)
      rcases (show expOf b ≤ expOf a by omega).lt_or_eq with hlt | heq
      · have := hmono (show expOf b + 1 ≤ expOf a by omega)
        linarith
      · exact hsame (ne_of_lt ha) (ne_of_lt hb) h heq.symm
    · rw [hb, h0]; linarith [hp (expOf a)]
    · have := ((fl_bounds (ne_of_gt hb)).2.1 hb).1
      linarith [hp (expOf a), hp (expOf b)]
  · rw [ha] at h ⊢
    rw [h0]
    rcases h.lt_or_eq with hb | hb
    · linarith [((fl_bounds (ne_of_gt hb)).2.1 hb).1, hp (expOf b)]
    · rw [← hb, h0]
  · have hb : 0 < b := lt_of_lt_of_le ha h
    obtain ⟨na1, na2⟩ := (fl_bounds (ne_of_gt ha)).2.1 ha
    obtain ⟨nb1, nb2⟩ := (fl_bounds (ne_of_gt hb)).2.1 hb
    obtain ⟨sa1, sa2⟩ := expOf_spec (ne_of_gt ha)
    obtain ⟨sb1, sb2⟩ := expOf_spec (ne_of_gt hb)
    rw [abs_of_pos ha] at sa1 sa2
    rw [abs_of_pos hb] at sb1 sb2
    have h1 : expOf a < expOf b + 1 := hexp (by linarith)
    rcases (show expOf a ≤ expOf b by omega).lt_or_eq with hlt | heq
    · have := hmono (show expOf a + 1 ≤ expOf b by omega)
      linarith
    · exact hsame (ne_of_gt ha) (ne_of_gt hb) h heq

theorem fl_exact (m : ℤ) (hm : |m| ≤ 9007199254740992) : fl ((m : ℚ) / 2) = (m : ℚ) / 2 := by
  by_cases h0 : m = 0
  · subst h0
    unfold fl
    rw [if_pos (by norm_num)]
    norm_num
  have hq : (m : ℚ) / 2 ≠ 0 := by
    intro h
    apply h0
    have : (m : ℚ) = 0 := by linarith
    exact_mod_cast this
  obtain ⟨efl, _, _⟩ := fl_bounds hq
  obtain ⟨s1, _⟩ := expOf_spec hq
  have h2 : (2 : ℚ) ≠ 0 := by norm_num
  have hmq : |(m : ℚ)| ≤ 9007199254740992 := by exact_mod_cast hm
  have habs : |(m : ℚ) / 2| = |(m : ℚ)| / 2 := by
    rw [abs_div, abs_of_pos (by norm_num : (0 : ℚ) < 2)]
  have he : expOf ((m : ℚ) / 2) ≤ 52 := by
    have h52 : (2 : ℚ) ^ (52 : ℤ) = 4503599627370496 := by norm_num
    have : (2 : ℚ) ^ expOf ((m : ℚ) / 2) ≤ (2 : ℚ) ^ (52 : ℤ) := by
      rw [h52]; rw [habs] at s1; linarith
    exact (zpow_le_zpow_iff_right₀ (by norm_num)).1 this
  -- the scaled value is an integer
  have hint : ∃ z : ℤ, (m : ℚ) / 2 / (2 : ℚ) ^ (expOf ((m : ℚ) / 2) - 52) = z := by
    obtain ⟨n, hn⟩ : ∃ n : ℕ, expOf ((m : ℚ) / 2) - 52 = -(n : ℤ) :=
      ⟨(52 - expOf ((m : ℚ) / 2)).toNat, by omega⟩
    rw [hn, zpow_neg, zpow_natCast, div_inv_eq_mul]
    cases n with
    | zero =>
      have he52 : expOf ((m : ℚ) / 2) = 52 := by push_cast at hn; omega
      rw [he52, habs] at s1
      have h52 : (2 : ℚ) ^ (52 : ℤ) = 4503599627370496 := by norm_num
      rw [h52] at s1
      have hm2 : (9007199254740992 : ℚ) ≤ |(m : ℚ)| := by linarith
      have hm3 : (9007199254740992 : ℤ) ≤ |m| := by exact_mod_cast hm2
      obtain ⟨z, hz⟩ : ∃ z : ℤ, m = 2 * z := by
        rcases abs_cases m with ⟨h1, _⟩ | ⟨h1, _⟩
        · exact ⟨4503599627370496, by omega⟩
        · exact ⟨-4503599627370496, by omega⟩
      refine ⟨z, ?_⟩
      rw [hz]
      push_cast
      ring
    | succ k =>
      refine ⟨m * 2 ^ k, ?_⟩
      push_cast
      ring
  obtain ⟨z, hz⟩ := hint
  obtain ⟨_, rlo, rhi⟩ := roundEven_spec ((m : ℚ) / 2 / (2 : ℚ) ^ (expOf ((m : ℚ) / 2) - 52))
  have hr : roundEven ((m : ℚ) / 2 / (2 : ℚ) ^ (expOf ((m : ℚ) / 2) - 52)) = z :=
    le_antisymm (rhi z (le_of_eq hz)) (rlo z (le_of_eq hz.symm))
  have hu : (0 : ℚ) < (2 : ℚ) ^ (expOf ((m : ℚ) / 2) - 52) := zpow_pos (by norm_num) _
  rw [efl, hr, ← hz]
  field_simp
  ring

theorem fl_near (v : ℚ) (hv : |v| ≤ 67108864) : |fl v - v| ≤ 1 / 134217728 := by
  by_cases h0 : v = 0
  · subst h0
    unfold fl
    rw [if_pos rfl]
    norm_num
  obtain ⟨efl, _, _⟩ := fl_bounds h0
  obtain ⟨s1, _⟩ := expOf_spec h0
  have hu : (0 : ℚ) < (2 : ℚ) ^ (expOf v - 52) := zpow_pos (by norm_num) _
  have he : expOf v ≤ 26 := by
    have h26 : (2 : ℚ) ^ (26 : ℤ) = 67108864 := by norm_num
    have : (2 : ℚ) ^ expOf v ≤ (2 : ℚ) ^ (26 : ℤ) := by rw [h26]; linarith
    exact (zpow_le_zpow_iff_right₀ (by norm_num)).1 this
  have hub : (2 : ℚ) ^ (expOf v - 52) ≤ 1 / 67108864 := by
    have h26 : (2 : ℚ) ^ (-26 : ℤ) = 1 / 67108864 := by norm_num
    rw [← h26]
    exact zpow_le_zpow_right₀ (by norm_num) (by omega)
  obtain ⟨r1, _, _⟩ := roundEven_spec (v / (2 : ℚ) ^ (expOf v - 52))
  have e : fl v - v = ((roundEven (v / (2 : ℚ) ^ (expOf v - 52)) : ℚ)
      - v / (2 : ℚ) ^ (expOf v - 52)) * (2 : ℚ) ^ (expOf v - 52) := by
    rw [efl]
    field_simp
  rw [e, abs_mul, abs_of_pos hu]
  have := mul_le_mul_of_nonneg_right r1 (le_of_lt hu)
  linarith

/-- The rounding of binary64 has the three properties the proofs use. -/
theorem fl_isRounding : IsRounding fl := ⟨fl_mono, fl_exact, fl_near⟩

/-! ## The rounded operations on grid values -/

theorem getD_mem_of_lt {α : Type} (l : List α) (d : α) {i : ℕ} (h : i < l.length) :
    l.getD i d ∈ l := by
  rw [List.getD_eq_getElem?_getD, List.getElem?_eq_getElem h]
  exact List.getElem_mem _

/-- Blocks, rows and subrows read from a placement on the grid are on the grid. -/
theorem grid_access {p : Placement} (hg : OnGrid p) :
    (∀ i, GridBlock (p.block i)) ∧
    (∀ ri, ri < p.rows.length → GridRow (p.rows.getD ri default)) ∧
    (∀ ri, ∀ sr ∈ (p.rows.getD ri default).subRows, GridSubRow sr) := by
  have hrow : ∀ ri, ri < p.rows.length → GridRow (p.rows.getD ri default) := by
    intro ri h
    apply hg.2
    rw [List.getD_eq_getElem?_getD, List.getElem?_eq_getElem h]
    exact List.getElem_mem _
  refine ⟨?_, hrow, ?_⟩
  · intro i
    unfold Placement.block
    by_cases h : i < p.blocks.length
    · apply hg.1
      rw [List.getD_eq_getElem?_getD, List.getElem?_eq_getElem h]
      exact List.getElem_mem _
    · rw [List.getD_eq_getElem?_getD, List.getElem?_eq_none (not_lt.1 h)]
      decide
  · intro ri sr hsr
    by_cases h : ri < p.rows.length
    · exact (hrow ri h).2.2.2.2.2 sr hsr
    · rw [List.getD_eq_getElem?_getD, List.getElem?_eq_none (not_lt.1 h)] at hsr
      cases hsr

/-- The site count `ceil(width / siteWidth)` in `double` is the exact one. -/
theorem fp_sitesNeeded {rd : ℚ → ℚ} (hrd : IsRounding rd) {w sw : ℚ} (hw : GridValue w)
    (hs : GridValue sw) (h1 : 1 ≤ sw) (h2 : sw ≤ 524288) :
    Fp.sitesNeeded rd w sw = some ⌈w / sw⌉ := by
  obtain ⟨_, e, _, hb⟩ := quot_grid hrd hw.1 hs.1 (le_trans hw.2 (by norm_num)) h1 h2
  unfold Fp.sitesNeeded
  rw [e]
  exact toInt_small hb

/-- The site index `floor((x - xStart) / siteWidth + 1e-6)` in `double` is the
exact one. -/
theorem fp_siteOf {rd : ℚ → ℚ} (hrd : IsRounding rd) {x xs sw : ℚ} (hx : x.den = 1)
    (hxs : xs.den = 1) (hb : |x - xs| ≤ 16777216) (hs : GridValue sw) (h1 : 1 ≤ sw)
    (h2 : sw ≤ 524288) :
    Fp.siteOf rd x xs sw = some ⌊(x - xs) / sw + eps⌋ ∧
    |⌊(x - xs) / sw + eps⌋| ≤ 16777216 := by
  have hw := (whole_ops hx hxs).2.1
  obtain ⟨e, _, hfb, _⟩ := quot_grid hrd hw hs.1 hb h1 h2
  unfold Fp.siteOf
  rw [rd_whole hrd hw (le_trans hb (by norm_num)), e]
  exact ⟨toInt_small hfb, hfb⟩

/-- The aligned coordinate of a site is computed exactly, and the right-edge
test against `xEnd + 1e-6` comes out as in exact arithmetic. -/
theorem fp_aligned {rd : ℚ → ℚ} (hrd : IsRounding rd) {sr : SubRow} (hsr : GridSubRow sr)
    {w : ℚ} (hw : GridValue w) {s : ℤ} (hs : |s| ≤ 2147483648) :
    Fp.alignedX rd sr s = sr.xStart + s * sr.siteWidth ∧
    (sr.xStart + s * sr.siteWidth).den = 1 ∧
    (rd (Fp.alignedX rd sr s + w) > rd (sr.xEnd + rd eps)
      ↔ sr.xStart + s * sr.siteWidth + w > sr.xEnd + eps) := by
  obtain ⟨hxs, hxe, hsw, hsw1, hsw2, _, _⟩ := hsr
  have hsq : |(s : ℚ)| ≤ 2147483648 := by exact_mod_cast hs
  have hprod : |(s : ℚ) * sr.siteWidth| ≤ 1125899906842624 := by
    rw [abs_mul, abs_of_nonneg (by linarith : (0 : ℚ) ≤ sr.siteWidth)]
    have := mul_le_mul_of_nonneg_right hsq (by linarith : (0 : ℚ) ≤ sr.siteWidth)
    linarith
  have hwp : ((s : ℚ) * sr.siteWidth).den = 1 := (whole_ops (Rat.den_intCast s) hsw.1).2.2.1
  have e1 := rd_whole hrd hwp (le_trans hprod (by norm_num))
  have hwa : (sr.xStart + (s : ℚ) * sr.siteWidth).den = 1 := (whole_ops hxs.1 hwp).1
  have hsum : |sr.xStart + (s : ℚ) * sr.siteWidth| ≤ 1125899907891200 := by
    have := abs_add sr.xStart ((s : ℚ) * sr.siteWidth)
    linarith [hxs.2]
  have e2 := rd_whole hrd hwa (le_trans hsum (by norm_num))
  have ea : Fp.alignedX rd sr s = sr.xStart + s * sr.siteWidth := by
    unfold Fp.alignedX
    rw [e1, e2]
  have hwe : (sr.xStart + (s : ℚ) * sr.siteWidth + w).den = 1 := (whole_ops hwa hw.1).1
  have hsum2 : |sr.xStart + (s : ℚ) * sr.siteWidth + w| ≤ 1125899908939776 := by
    have := abs_add (sr.xStart + (s : ℚ) * sr.siteWidth) w
    linarith [hw.2]
  refine ⟨ea, hwa, ?_⟩
  rw [ea, rd_whole hrd hwe (le_trans hsum2 (by norm_num))]
  exact (cmp_tol hrd hwe hxe.1 (le_trans hxe.2 (by norm_num))).1

/-- The displacement of a grid position from the origin of a grid block is
computed exactly; it is an integer between `0` and `2^22`. -/
theorem fp_cand {rd : ℚ → ℚ} (hrd : IsRounding rd) {b : Block} (hb : GridBlock b) {x y : ℚ}
    (hx : GridValue x) (hy : GridValue y) :
    rd (|rd (x - b.origX)| + |rd (y - b.origY)|) = |x - b.origX| + |y - b.origY| ∧
    (|x - b.origX| + |y - b.origY|).den = 1 ∧ 0 ≤ |x - b.origX| + |y - b.origY| ∧
    |x - b.origX| + |y - b.origY| ≤ 4194304 := by
  obtain ⟨_, _, _, _, _, hox, hoy⟩ := hb
  have e1 := (cmp_abs hrd hx hox).1
  have e2 := (cmp_abs hrd hy hoy).1
  have w1 : |x - b.origX|.den = 1 := by
    have := (whole_ops hx.1 hox.1).2.1
    exact (whole_ops this this).2.2.2
  have w2 : |y - b.origY|.den = 1 := by
    have := (whole_ops hy.1 hoy.1).2.1
    exact (whole_ops this this).2.2.2
  have b1 : |x - b.origX| ≤ 2097152 := by
    have := abs_sub x b.origX
    linarith [hx.2, hox.2]
  have b2 : |y - b.origY| ≤ 2097152 := by
    have := abs_sub y b.origY
    linarith [hy.2, hoy.2]
  have n1 := abs_nonneg (x - b.origX)
  have n2 := abs_nonneg (y - b.origY)
  have hw := (whole_ops w1 w2).1
  rw [e1, e2]
  refine ⟨rd_whole hrd hw ?_, hw, by linarith, by linarith⟩
  rw [abs_of_nonneg (by linarith)]
  linarith

/-- The displacement of a grid block is computed exactly. -/
theorem fp_disp {rd : ℚ → ℚ} (hrd : IsRounding rd) {b : Block} (hb : GridBlock b) :
    Fp.disp rd b = b.disp ∧ b.disp.den = 1 ∧ 0 ≤ b.disp ∧ b.disp ≤ 4194304 :=
  fp_cand hrd hb hb.2.2.2.1 hb.2.2.2.2.1

/-- Sorting with two comparators that agree on the elements of the list gives
the same result. -/
theorem sortBy_congr {α : Type} (lt lt' : α → α → Bool) (l : List α)
    (h : ∀ a ∈ l, ∀ b ∈ l, lt a b = lt' a b) : sortBy lt l = sortBy lt' l := by
  have ins : ∀ (a : α) (m : List α), (∀ b ∈ m, lt b a = lt' b a) →
      orderedInsert lt a m = orderedInsert lt' a m := by
    intro a m
    induction m with
    | nil => intro _; rfl
    | cons c m ih =>
      intro hm
      simp only [orderedInsert]
      rw [hm c (List.mem_cons_self _ _), ih (fun b hb => hm b (List.mem_cons_of_mem _ hb))]
  induction l with
  | nil => rfl
  | cons a l ih =>
    simp only [sortBy]
    rw [ih (fun x hx y hy => h x (List.mem_cons_of_mem _ hx) y (List.mem_cons_of_mem _ hy))]
    apply ins
    intro b hb
    exact h b (List.mem_cons_of_mem _ ((mem_sortBy lt' l b).1 hb)) a (List.mem_cons_self _ _)

/-! ## State updates keep the grid -/

/-- Replacing a subrow by a record with the same numbers keeps the rows on the grid. -/
theorem gridRows_update {rows : List Row} (h : ∀ r ∈ rows, GridRow r) (ri si : ℕ)
    (f : SubRow → SubRow) (hf : ∀ sr, GridSubRow sr → GridSubRow (f sr)) :
    ∀ r ∈ setSubRow rows ri si (f ((rows.getD ri default).subRows.getD si default)),
      GridRow r := by
  intro r hr
  unfold setSubRow at hr
  rw [List.get?_eq_getElem?] at hr
  cases hrow : rows[ri]? with
  | none => rw [hrow] at hr; exact h r hr
  | some row =>
    rw [hrow] at hr
    have hmem : row ∈ rows := by
      obtain ⟨hlt, he⟩ := List.getElem?_eq_some.1 hrow
      rw [← he]; exact List.getElem_mem _
    have hgrow := h row hmem
    rcases List.mem_or_eq_of_mem_set hr with hr | hr
    · exact h r hr
    · subst hr
      refine ⟨hgrow.1, hgrow.2.1, hgrow.2.2.1, hgrow.2.2.2.1, hgrow.2.2.2.2.1, ?_⟩
      intro sr hsr
      have hsr' : sr ∈ row.subRows.set si
          (f ((rows.getD ri default).subRows.getD si default)) := hsr
      rcases List.mem_or_eq_of_mem_set hsr' with h1 | h1
      · exact hgrow.2.2.2.2.2 sr h1
      · by_cases hl : si < row.subRows.length
        · rw [h1]
          apply hf
          apply hgrow.2.2.2.2.2
          simp only [List.getD_eq_getElem?_getD, hrow, Option.getD_some,
            List.getElem?_eq_getElem hl]
          exact List.getElem_mem _
        · rw [List.set_eq_of_length_le (not_lt.1 hl)] at hsr'
          exact hgrow.2.2.2.2.2 sr hsr'

/-- The three mutations of the passes keep the placement on the grid when the
coordinates assigned are grid values. -/
theorem onGrid_updates {p : Placement} (hg : OnGrid p) (j ri si : ℕ) (s n : ℤ) :
    OnGrid (insertAt p j ri si s n) ∧ OnGrid (removeAt p j ri si s n) ∧
    ∀ x y, GridValue x → GridValue y → OnGrid (moveTo p j x y) := by
  refine ⟨⟨hg.1, ?_⟩, ⟨hg.1, ?_⟩, ?_⟩
  · exact gridRows_update hg.2 ri si (fun sr => sr.insertBlock p.blocks j s n) (fun _ h => h)
  · exact gridRows_update hg.2 ri si (fun sr => sr.removeBlock j s n) (fun _ h => h)
  · intro x y hx hy
    refine ⟨?_, hg.2⟩
    intro b hb
    have hb' : b ∈ p.blocks.set j { p.block j with x := x, y := y } := hb
    rcases List.mem_or_eq_of_mem_set hb' with h1 | h1
    · exact hg.1 b h1
    · subst h1
      obtain ⟨a1, a2, a3, _, _, a6, a7⟩ := (grid_access hg).1 j
      exact ⟨a1, a2, a3, hx, hy, a6, a7⟩

/-- An aligned position that `canPlaceAt` and the right-edge test accept for a
block of width at least zero is a grid value. -/
theorem grid_aligned {sr : SubRow} (hsr : GridSubRow sr) {w : ℚ} (hw0 : 0 ≤ w) {s : ℤ} (hs : 0 ≤ s)
    (hfit : sr.xStart + s * sr.siteWidth + w ≤ sr.xEnd + eps) :
    GridValue (sr.xStart + s * sr.siteWidth) := by
  obtain ⟨hxs, hxe, hsw, hsw1, hsw2, _, _⟩ := hsr
  have hwp : ((s : ℚ) * sr.siteWidth).den = 1 := (whole_ops (Rat.den_intCast s) hsw.1).2.2.1
  have hwa : (sr.xStart + (s : ℚ) * sr.siteWidth).den = 1 := (whole_ops hxs.1 hwp).1
  have h0 : (0 : ℚ) ≤ (s : ℚ) * sr.siteWidth :=
    Rat.mul_nonneg (by exact_mod_cast hs) (by linarith)
  have heps : eps = 1 / 1000000 := rfl
  have hle : sr.xStart + (s : ℚ) * sr.siteWidth ≤ sr.xEnd := by
    by_contra hc
    have := whole_lt hxe.1 hwa (not_le.1 hc)
    linarith
  have b1 := abs_le.1 hxs.2
  have b2 := abs_le.1 hxe.2
  exact ⟨hwa, abs_le.2 ⟨by linarith, by linarith⟩⟩

/-! ## The initial placer in `double` arithmetic -/

theorem fp_findSite {rd : ℚ → ℚ} (hrd : IsRounding rd) {sr : SubRow} (hsr : GridSubRow sr)
    {w : ℚ} (hw : GridValue w) (n : ℤ) :
    ∀ (k : ℕ) (s : ℤ), 0 ≤ s → s + k ≤ 2147483648 →
      Fp.findSite rd sr w n s k = findSite sr w n s k := by
  intro k
  induction k with
  | zero => intro s _ _; rfl
  | succ k ih =>
    intro s hs hk
    have hsb : |s| ≤ 2147483648 := by rw [abs_le]; push_cast at hk; omega
    have hrec := ih (s + 1) (by omega) (by push_cast at hk ⊢; omega)
    have htest := (fp_aligned hrd hsr hw hsb).2.2
    simp only [Fp.findSite, findSite, hrec]
    cases sr.canPlaceAt s n with
    | none => rfl
    | some v =>
      cases v with
      | false => rfl
      | true =>
        by_cases hc : sr.xStart + (s : ℚ) * sr.siteWidth + w > sr.xEnd + eps
        · rw [if_pos hc, if_pos (htest.2 hc)]
        · rw [if_neg hc, if_neg (fun h => hc (htest.1 h))]

/-- The centre distance of a subrow is computed exactly. -/
theorem fp_centre {rd : ℚ → ℚ} (hrd : IsRounding rd) {sr : SubRow} (hsr : GridSubRow sr)
    {x : ℚ} (hx : GridValue x) :
    rd (rd (rd (sr.xStart + sr.xEnd) / 2) - x) = (sr.xStart + sr.xEnd) / 2 - x := by
  obtain ⟨hxs, hxe, _⟩ := hsr
  obtain ⟨k1, e1⟩ := whole_int hxs.1
  obtain ⟨k2, e2⟩ := whole_int hxe.1
  obtain ⟨k3, e3⟩ := whole_int hx.1
  have b1 : |k1| ≤ 1048576 := by have := hxs.2; rw [e1] at this; exact_mod_cast this
  have b2 : |k2| ≤ 1048576 := by have := hxe.2; rw [e2] at this; exact_mod_cast this
  have b3 : |k3| ≤ 1048576 := by have := hx.2; rw [e3] at this; exact_mod_cast this
  rw [abs_le] at b1 b2 b3
  rw [e1, e2, e3]
  have s1 : rd ((k1 : ℚ) + k2) = ((k1 + k2 : ℤ) : ℚ) := by
    rw [← Int.cast_add]
    apply rd_whole hrd (Rat.den_intCast _)
    have : |k1 + k2| ≤ 4503599627370496 := by rw [abs_le]; omega
    exact_mod_cast this
  have s2 := hrd.exact (k1 + k2) (by rw [abs_le]; omega)
  have s3 := hrd.exact (k1 + k2 - 2 * k3) (by rw [abs_le]; omega)
  have e4 : ((k1 + k2 - 2 * k3 : ℤ) : ℚ) / 2 = ((k1 + k2 : ℤ) : ℚ) / 2 - k3 := by
    push_cast; ring
  rw [s1, s2, ← e4, s3]
  push_cast
  ring

/-- The four sorts of the passes order their lists in `double` as in exact
arithmetic. -/
theorem fp_orders {rd : ℚ → ℚ} (hrd : IsRounding rd) {p : Placement} (hg : OnGrid p) :
    (∀ y, GridValue y → Fp.rowOrder rd p y = rowOrder p y) ∧
    (∀ ri x, GridValue x →
      Fp.subrowOrder rd (p.rows.getD ri default) x = subrowOrder (p.rows.getD ri default) x) ∧
    Fp.initialOrder rd p = initialOrder p ∧ Fp.optimizeOrder rd p = optimizeOrder p := by
  obtain ⟨hblock, hrow, hsub⟩ := grid_access hg
  refine ⟨?_, ?_, ?_, ?_⟩
  · intro y hy
    unfold Fp.rowOrder rowOrder
    apply sortBy_congr
    intro a ha b hb
    rw [List.mem_range] at ha hb
    unfold Fp.rowDist
    rw [(cmp_abs hrd (hrow a ha).1 hy).1, (cmp_abs hrd (hrow b hb).1 hy).1]
  · intro ri x hx
    unfold Fp.subrowOrder subrowOrder
    apply sortBy_congr
    intro a ha b hb
    rw [List.mem_range] at ha hb
    have ma := getD_mem_of_lt (p.rows.getD ri default).subRows default ha
    have mb := getD_mem_of_lt (p.rows.getD ri default).subRows default hb
    unfold Fp.centreDist
    rw [fp_centre hrd (hsub ri _ ma) hx, fp_centre hrd (hsub ri _ mb) hx]
  · unfold Fp.initialOrder initialOrder
    apply sortBy_congr
    intro a _ b _
    unfold Fp.origLess origLess
    have h := (cmp_abs hrd (hblock a).2.2.2.2.2.2 (hblock b).2.2.2.2.2.2).2.1
    by_cases hc : |(p.block a).origY - (p.block b).origY| > eps
    · rw [if_pos hc, if_pos (h.2 hc)]
    · rw [if_neg hc, if_neg (fun h' => hc (h.1 h'))]
  · unfold Fp.optimizeOrder optimizeOrder
    apply sortBy_congr
    intro a _ b _
    rw [(fp_disp hrd (hblock a)).1, (fp_disp hrd (hblock b)).1]

theorem fp_placeInSubRows {rd : ℚ → ℚ} (hrd : IsRounding rd) {p : Placement} (hg : OnGrid p)
    (block idx : ℕ) {n : ℤ} (hn : 0 ≤ n) :
    ∀ order : List ℕ, (∀ si ∈ order, si < (p.rows.getD idx default).subRows.length) →
      Fp.placeInSubRows rd p block idx n order = placeInSubRows p block idx n order := by
  obtain ⟨hblock, hrow, hsub⟩ := grid_access hg
  intro order
  induction order with
  | nil => intro _; rfl
  | cons si rest ih =>
    intro hv
    have hsi := hv si (List.mem_cons_self _ _)
    have hsr : GridSubRow ((p.rows.getD idx default).subRows.getD si default) :=
      hsub idx _ (getD_mem_of_lt _ default hsi)
    have hw := (hblock block).1
    have hnum := hsr.2.2.2.2.2.2
    have hfs := fp_findSite hrd hsr hw n
      (((p.rows.getD idx default).subRows.getD si default).numSites - n + 1).toNat 0 le_rfl
      (by omega)
    simp only [Fp.placeInSubRows, placeInSubRows, hfs]
    cases hf : findSite ((p.rows.getD idx default).subRows.getD si default) (p.block block).width
        n 0 (((p.rows.getD idx default).subRows.getD si default).numSites - n + 1).toNat with
    | none => rfl
    | some o =>
      cases o with
      | none => exact ih (fun t ht => hv t (List.mem_cons_of_mem _ ht))
      | some s =>
        obtain ⟨h0, h1, _⟩ := findSite_some hf
        have hsb : |s| ≤ 2147483648 := by rw [abs_le]; omega
        show some (some (Fp.placeAt rd p block idx si s n)) = some (some (placeAt p block idx si s n))
        unfold Fp.placeAt placeAt
        simp only [(fp_aligned hrd hsr hw hsb).1]

theorem fp_placeInRows {rd : ℚ → ℚ} (hrd : IsRounding rd) {p : Placement} (hg : OnGrid p)
    (block : ℕ) :
    ∀ order : List ℕ, (∀ ri ∈ order, ri < p.rows.length) →
      Fp.placeInRows rd p block order = placeInRows p block order := by
  obtain ⟨hblock, hrow, hsub⟩ := grid_access hg
  obtain ⟨hw, hw0, hh, _, _, hox, _⟩ := hblock block
  intro order
  induction order with
  | nil => intro _; rfl
  | cons ri rest ih =>
    intro hv
    have hri := hv ri (List.mem_cons_self _ _)
    have hrec := ih (fun t ht => hv t (List.mem_cons_of_mem _ ht))
    obtain ⟨_, hrh, hsw, hsw1, hsw2, _⟩ := hrow ri hri
    have htest := (cmp_tol hrd hh.1 hrh.1 (le_trans hrh.2 (by norm_num))).1
    have hn : 0 ≤ ⌈(p.block block).width / (p.rows.getD ri default).siteWidth⌉ :=
      Int.ceil_nonneg (div_nonneg hw0 (by linarith))
    have hsub' := fp_placeInSubRows hrd hg block ri hn
      (subrowOrder (p.rows.getD ri default) (p.block block).origX)
      (fun si hsi => by
        unfold subrowOrder at hsi
        rw [mem_sortBy, List.mem_range] at hsi
        exact hsi)
    simp only [Fp.placeInRows, placeInRows, hrec, fp_sitesNeeded hrd hw hsw hsw1 hsw2,
      (fp_orders hrd hg).2.1 ri _ hox, hsub']
    by_cases hc : (p.block block).height > (p.rows.getD ri default).height + eps
    · rw [if_pos hc, if_pos (htest.2 hc)]
    · rw [if_neg hc, if_neg (fun h => hc (htest.1 h))]

/-- The step of the initial placer for one cell gives in `double` the result of
exact arithmetic, and its result is on the grid. -/
theorem fp_placeBlock {rd : ℚ → ℚ} (hrd : IsRounding rd) {p : Placement} (hg : OnGrid p)
    (block : ℕ) :
    Fp.placeBlock rd p block = placeBlock p block ∧
    ∀ p' placed, placeBlock p block = some (p', placed) → OnGrid p' := by
  obtain ⟨hblock, hrow, hsub⟩ := grid_access hg
  obtain ⟨hw, hw0, hh, _, _, hox, hoy⟩ := hblock block
  constructor
  · unfold Fp.placeBlock placeBlock
    rw [(fp_orders hrd hg).1 _ hoy, fp_placeInRows hrd hg block _ (fun ri hri => by
      unfold rowOrder at hri
      rw [mem_sortBy, List.mem_range] at hri
      exact hri)]
  · intro p' placed h
    rcases placeBlock_cases h with ⟨_, rfl⟩ | ⟨_, ri, hri, _, si, hsi, s, hf, rfl⟩
    · exact hg
    · unfold rowOrder at hri
      rw [mem_sortBy, List.mem_range] at hri
      unfold subrowOrder at hsi
      rw [mem_sortBy, List.mem_range] at hsi
      have hsr : GridSubRow ((p.rows.getD ri default).subRows.getD si default) :=
        hsub ri _ (getD_mem_of_lt _ default hsi)
      obtain ⟨h0, _, _, hfit, _⟩ := findSite_some hf
      have hx := grid_aligned hsr hw0 h0 hfit
      unfold placeAt
      exact (onGrid_updates ((onGrid_updates hg block ri si s 0).2.2 _ _ hx (hrow ri hri).1)
        block ri si s _).1

/-- The cell loop of the initial placer gives in `double` the result of exact
arithmetic, and its result is on the grid. -/
theorem fp_placeAll {rd : ℚ → ℚ} (hrd : IsRounding rd) (order : List ℕ) :
    ∀ p : Placement, OnGrid p →
      Fp.placeAll rd order p = placeAll order p ∧
      ∀ p', placeAll order p = some p' → OnGrid p' := by
  induction order with
  | nil =>
    intro p hg
    refine ⟨rfl, fun p' h => ?_⟩
    simp only [placeAll, Option.some.injEq] at h
    subst h; exact hg
  | cons b rest ih =>
    intro p hg
    obtain ⟨e, hpres⟩ := fp_placeBlock hrd hg b
    simp only [Fp.placeAll, placeAll, e]
    cases hpb : placeBlock p b with
    | none => exact ⟨rfl, fun p' h => by cases h⟩
    | some r =>
      obtain ⟨p1, placed⟩ := r
      exact ih p1 (hpres p1 placed hpb)

/-! ## The refinement in `double` arithmetic -/

/-- The site loop of the relocation search gives in `double` the result of
exact arithmetic, and its result holds grid coordinates. -/
theorem fp_scanSites {rd : ℚ → ℚ} (hrd : IsRounding rd) {sr : SubRow} (hsr : GridSubRow sr)
    {b : Block} (hb : GridBlock b) (rowIdx : ℕ) {yStart : ℚ} (hy : GridValue yStart) (n : ℤ) :
    ∀ (k : ℕ) (s : ℤ) (best : Best), 0 ≤ s → s + k ≤ 2147483648 → GridBest best →
      Fp.scanSites rd sr b rowIdx yStart n s k best = scanSites sr b rowIdx yStart n s k best ∧
      ∀ best', scanSites sr b rowIdx yStart n s k best = some best' → GridBest best' := by
  intro k
  induction k with
  | zero =>
    intro s best _ _ hbest
    refine ⟨rfl, fun best' h => ?_⟩
    simp only [scanSites, Option.some.injEq] at h
    subst h; exact hbest
  | succ k ih =>
    intro s best hs hk hbest
    have hsb : |s| ≤ 2147483648 := by rw [abs_le]; push_cast at hk; omega
    have hk' : s + 1 + (k : ℤ) ≤ 2147483648 := by push_cast at hk; omega
    obtain ⟨ea, _, htest⟩ := fp_aligned hrd hsr hb.1 hsb
    simp only [Fp.scanSites, scanSites, ea]
    cases sr.canPlaceAt s n with
    | none => exact ⟨rfl, fun best' h => by cases h⟩
    | some v =>
      cases v with
      | false => exact ih (s + 1) best (by omega) hk' hbest
      | true =>
        rw [ea] at htest
        by_cases hc : sr.xStart + (s : ℚ) * sr.siteWidth + b.width > sr.xEnd + eps
        · rw [if_pos hc, if_pos (htest.2 hc)]
          exact ih (s + 1) best (by omega) hk' hbest
        · rw [if_neg hc, if_neg (fun h => hc (htest.1 h))]
          have hx := grid_aligned hsr hb.2.1 hs (not_lt.1 hc)
          obtain ⟨ed, hdw, hd0, hd1⟩ := fp_cand hrd hb hx hy
          have hcmp := (cmp_tol hrd hdw hbest.2.2.1
            (le_trans hbest.2.2.2 (by norm_num))).2.2.2
          rw [ed]
          by_cases hd : |sr.xStart + (s : ℚ) * sr.siteWidth - b.origX| + |yStart - b.origY|
              < best.disp - eps
          · rw [if_pos hd, if_pos (hcmp.2 hd)]
            exact ih (s + 1) _ (by omega) hk'
              ⟨hx, hy, hdw, by rw [abs_of_nonneg hd0]; exact hd1⟩
          · rw [if_neg hd, if_neg (fun h => hd (hcmp.1 h))]
            exact ih (s + 1) best (by omega) hk' hbest

/-- The subrow loop of the relocation search gives in `double` the result of
exact arithmetic, for window bounds that are integers of magnitude up to
`6 * 2^20`. -/
theorem fp_scanSubRows {rd : ℚ → ℚ} (hrd : IsRounding rd) {b : Block} (hb : GridBlock b)
    (rowIdx : ℕ) {yStart : ℚ} (hy : GridValue yStart) (n : ℤ) {minX maxXPos : ℚ}
    (hmin : minX.den = 1 ∧ |minX| ≤ 6291456) (hmax : maxXPos.den = 1 ∧ |maxXPos| ≤ 6291456) :
    ∀ subs : List SubRow, (∀ sr ∈ subs, GridSubRow sr) → ∀ best, GridBest best →
      Fp.scanSubRows rd b rowIdx yStart n minX maxXPos subs best
        = scanSubRows b rowIdx yStart n minX maxXPos subs best ∧
      ∀ best', scanSubRows b rowIdx yStart n minX maxXPos subs best = some best' →
        GridBest best' := by
  intro subs
  induction subs with
  | nil =>
    intro _ best hbest
    refine ⟨rfl, fun best' h => ?_⟩
    simp only [scanSubRows, Option.some.injEq] at h
    subst h; exact hbest
  | cons sr rest ih =>
    intro hsubs best hbest
    have hsr := hsubs sr (List.mem_cons_self _ _)
    obtain ⟨hxs, hxe, hsw, hsw1, hsw2, hn0, hn1⟩ := hsr
    have bxs := abs_le.1 hxs.2
    have bw := abs_le.1 hb.1.2
    have bmin := abs_le.1 hmin.2
    have bmax := abs_le.1 hmax.2
    obtain ⟨e1, f1⟩ := fp_siteOf hrd hmin.1 hxs.1
      (abs_le.2 ⟨by linarith, by linarith⟩) hsw hsw1 hsw2
    have hw1 : (maxXPos - sr.xStart).den = 1 := (whole_ops hmax.1 hxs.1).2.1
    have hw2 : (maxXPos - sr.xStart - b.width).den = 1 := (whole_ops hw1 hb.1.1).2.1
    have hb2 : |maxXPos - sr.xStart - b.width| ≤ 16777216 :=
      abs_le.2 ⟨by linarith, by linarith⟩
    obtain ⟨e2, _, f2, _⟩ := quot_grid hrd hw2 hsw.1 hb2 hsw1 hsw2
    have emin : Fp.minSiteOf rd sr minX = some (minSiteOf sr minX) := by
      unfold Fp.minSiteOf minSiteOf
      rw [e1]; rfl
    have emax : Fp.maxSiteOf rd sr b n maxXPos = some (maxSiteOf sr b n maxXPos) := by
      unfold Fp.maxSiteOf maxSiteOf
      rw [rd_whole hrd hw1 (abs_le.2 ⟨by linarith, by linarith⟩),
        rd_whole hrd hw2 (le_trans hb2 (by norm_num)), e2, toInt_small f2]
      rfl
    have hlo : 0 ≤ minSiteOf sr minX := by unfold minSiteOf; exact le_max_right _ _
    have hhi : minSiteOf sr minX + ((maxSiteOf sr b n maxXPos - minSiteOf sr minX + 1).toNat : ℤ)
        ≤ 2147483648 := by
      have a1 : minSiteOf sr minX ≤ 16777216 := by
        unfold minSiteOf
        rw [abs_le] at f1
        exact max_le f1.2 (by norm_num)
      have a2 : maxSiteOf sr b n maxXPos ≤ 16777216 := by
        unfold maxSiteOf
        rw [abs_le] at f2
        exact le_trans (min_le_left _ _) f2.2
      omega
    obtain ⟨es, hs⟩ := fp_scanSites hrd (hsubs sr (List.mem_cons_self _ _)) hb rowIdx hy n
      (maxSiteOf sr b n maxXPos - minSiteOf sr minX + 1).toNat (minSiteOf sr minX) best hlo hhi
      hbest
    simp only [Fp.scanSubRows, scanSubRows, emin, emax, es]
    cases hsc : scanSites sr b rowIdx yStart n (minSiteOf sr minX)
        (maxSiteOf sr b n maxXPos - minSiteOf sr minX + 1).toNat best with
    | none => exact ⟨rfl, fun best' h => by cases h⟩
    | some best1 =>
      exact ih (fun t ht => hsubs t (List.mem_cons_of_mem _ ht)) best1 (hs best1 hsc)

/-- The row loop of the relocation search gives in `double` the result of exact
arithmetic, for a block on the grid and its displacement `D`. -/
theorem fp_scanRows {rd : ℚ → ℚ} (hrd : IsRounding rd) {b : Block} (hb : GridBlock b)
    {D : ℚ} (hD : D.den = 1 ∧ 0 ≤ D ∧ D ≤ 4194304) :
    ∀ rows : List Row, (∀ r ∈ rows, GridRow r) → ∀ (rowIdx : ℕ) (best : Best), GridBest best →
      Fp.scanRows rd b (rd (D + 20)) rowIdx rows best = scanRows b D rowIdx rows best ∧
      ∀ best', scanRows b D rowIdx rows best = some best' → GridBest best' := by
  have h20 : (20 : ℚ).den = 1 := rfl
  have hDw : (D + 20).den = 1 := (whole_ops hD.1 h20).1
  have eD : rd (D + 20) = D + 20 :=
    rd_whole hrd hDw (abs_le.2 ⟨by linarith [hD.2.1], by linarith [hD.2.2]⟩)
  obtain ⟨hw, hw0, hh, _, _, hox, hoy⟩ := hb
  have box := abs_le.1 hox.2
  rw [eD]
  intro rows
  induction rows with
  | nil =>
    intro _ rowIdx best hbest
    refine ⟨rfl, fun best' h => ?_⟩
    simp only [scanRows, Option.some.injEq] at h
    subst h; exact hbest
  | cons row rest ih =>
    intro hrows rowIdx best hbest
    obtain ⟨hys, hrh, hsw, hsw1, hsw2, hsubs⟩ := hrows row (List.mem_cons_self _ _)
    have hrec := ih (fun t ht => hrows t (List.mem_cons_of_mem _ ht)) (rowIdx + 1)
    obtain ⟨eV, _, _⟩ := cmp_abs hrd hys hoy
    have hVw : |row.yStart - b.origY|.den = 1 := by
      have := (whole_ops hys.1 hoy.1).2.1
      exact (whole_ops this this).2.2.2
    have hV0 := abs_nonneg (row.yStart - b.origY)
    have hV1 : |row.yStart - b.origY| ≤ 2097152 := by
      have := abs_sub row.yStart b.origY
      linarith [hys.2, hoy.2]
    have hRw : (D + 20 - |row.yStart - b.origY|).den = 1 := (whole_ops hDw hVw).2.1
    have eR : rd (D + 20 - |row.yStart - b.origY|) = D + 20 - |row.yStart - b.origY| :=
      rd_whole hrd hRw (abs_le.2 ⟨by linarith [hD.2.1], by linarith [hD.2.2]⟩)
    have htest := (cmp_tol hrd hh.1 hrh.1 (le_trans hrh.2 (by norm_num))).1
    simp only [Fp.scanRows, scanRows, eV, eR, fp_sitesNeeded hrd hw hsw hsw1 hsw2]
    by_cases h1 : |row.yStart - b.origY| > D + 20
    · rw [if_pos h1, if_pos h1]
      exact hrec best hbest
    · rw [if_neg h1, if_neg h1]
      by_cases h2 : D + 20 - |row.yStart - b.origY| < 0
      · rw [if_pos h2, if_pos h2]
        exact hrec best hbest
      · rw [if_neg h2, if_neg h2]
        by_cases h3 : b.height > row.height + eps
        · rw [if_pos h3, if_pos (htest.2 h3)]
          exact hrec best hbest
        · rw [if_neg h3, if_neg (fun h => h3 (htest.1 h))]
          have hminw : (b.origX - (D + 20 - |row.yStart - b.origY|)).den = 1 :=
            (whole_ops hox.1 hRw).2.1
          have hmaxw : (b.origX + (D + 20 - |row.yStart - b.origY|)).den = 1 :=
            (whole_ops hox.1 hRw).1
          have hminb : |b.origX - (D + 20 - |row.yStart - b.origY|)| ≤ 6291456 :=
            abs_le.2 ⟨by linarith [hD.2.2], by linarith [hD.2.2]⟩
          have hmaxb : |b.origX + (D + 20 - |row.yStart - b.origY|)| ≤ 6291456 :=
            abs_le.2 ⟨by linarith [hD.2.2], by linarith [hD.2.2]⟩
          rw [rd_whole hrd hminw (le_trans hminb (by norm_num)),
            rd_whole hrd hmaxw (le_trans hmaxb (by norm_num))]
          obtain ⟨es, hs⟩ := fp_scanSubRows hrd ⟨hw, hw0, hh, ‹_›, ‹_›, hox, hoy⟩ rowIdx hys
            ⌈b.width / row.siteWidth⌉ ⟨hminw, hminb⟩ ⟨hmaxw, hmaxb⟩ row.subRows hsubs best hbest
          rw [es]
          cases hsc : scanSubRows b rowIdx row.yStart ⌈b.width / row.siteWidth⌉
              (b.origX - (D + 20 - |row.yStart - b.origY|))
              (b.origX + (D + 20 - |row.yStart - b.origY|)) row.subRows best with
          | none => exact ⟨rfl, fun best' h => by cases h⟩
          | some best1 => exact hrec best1 (hs best1 hsc)

/-- The searches of the removal and re-insertion steps give in `double` the
result of exact arithmetic. -/
theorem fp_locate {rd : ℚ → ℚ} (hrd : IsRounding rd) {b : Block} (hb : GridBlock b) :
    (∀ subs : List SubRow, (∀ sr ∈ subs, GridSubRow sr) → ∀ subIdx : ℕ,
      Fp.locateSubRow rd b subIdx subs = locateSubRow b subIdx subs ∧
      Fp.reinsertSubRow rd b subIdx subs = reinsertSubRow b subIdx subs) ∧
    ∀ rows : List Row, (∀ r ∈ rows, GridRow r) → ∀ rowIdx : ℕ,
      Fp.locateRow rd b rowIdx rows = locateRow b rowIdx rows := by
  obtain ⟨hw, hw0, hh, hx, hy, hox, hoy⟩ := hb
  have bx := abs_le.1 hx.2
  have bw := abs_le.1 hw.2
  have hsubs : ∀ subs : List SubRow, (∀ sr ∈ subs, GridSubRow sr) → ∀ subIdx : ℕ,
      Fp.locateSubRow rd b subIdx subs = locateSubRow b subIdx subs ∧
      Fp.reinsertSubRow rd b subIdx subs = reinsertSubRow b subIdx subs := by
    intro subs
    induction subs with
    | nil => intro _ _; exact ⟨rfl, rfl⟩
    | cons sr rest ih =>
      intro hg subIdx
      obtain ⟨hxs, hxe, hsw, hsw1, hsw2, _, _⟩ := hg sr (List.mem_cons_self _ _)
      have bxs := abs_le.1 hxs.2
      obtain ⟨i1, i2⟩ := ih (fun t ht => hg t (List.mem_cons_of_mem _ ht)) (subIdx + 1)
      obtain ⟨e1, _⟩ := fp_siteOf hrd hx.1 hxs.1 (abs_le.2 ⟨by linarith, by linarith⟩)
        hsw hsw1 hsw2
      have e2 := fp_sitesNeeded hrd hw hsw hsw1 hsw2
      have hsum : (b.x + b.width).den = 1 := (whole_ops hx.1 hw.1).1
      have e3 : rd (b.x + b.width) = b.x + b.width :=
        rd_whole hrd hsum (abs_le.2 ⟨by linarith, by linarith⟩)
      have t1 := (cmp_tol hrd hx.1 hxs.1 (le_trans hxs.2 (by norm_num))).2.2.1
      have t2 := (cmp_tol hrd hsum hxe.1 (le_trans hxe.2 (by norm_num))).2.1
      have ht : (b.x ≥ rd (sr.xStart - rd eps) ∧ b.x + b.width ≤ rd (sr.xEnd + rd eps))
          ↔ (b.x ≥ sr.xStart - eps ∧ b.x + b.width ≤ sr.xEnd + eps) := and_congr t1 t2
      constructor
      · simp only [Fp.locateSubRow, locateSubRow, e1, e2, e3, i1]
        by_cases hc : b.x ≥ sr.xStart - eps ∧ b.x + b.width ≤ sr.xEnd + eps
        · rw [if_pos hc, if_pos (ht.2 hc)]
        · rw [if_neg hc, if_neg (fun h => hc (ht.1 h))]
      · simp only [Fp.reinsertSubRow, reinsertSubRow, e1, e2, e3, i2]
        by_cases hc : b.x ≥ sr.xStart - eps ∧ b.x + b.width ≤ sr.xEnd + eps
        · rw [if_pos hc, if_pos (ht.2 hc)]
        · rw [if_neg hc, if_neg (fun h => hc (ht.1 h))]
  refine ⟨hsubs, ?_⟩
  intro rows
  induction rows with
  | nil => intro _ _; rfl
  | cons row rest ih =>
    intro hg rowIdx
    obtain ⟨hys, _, _, _, _, hsr⟩ := hg row (List.mem_cons_self _ _)
    have hrec := ih (fun t ht => hg t (List.mem_cons_of_mem _ ht)) (rowIdx + 1)
    have ht := (cmp_abs hrd hys hy).2.2
    simp only [Fp.locateRow, locateRow, hrec, (hsubs row.subRows hsr 0).1]
    by_cases hc : |row.yStart - b.y| < eps
    · rw [if_pos hc, if_pos (ht.2 hc)]
    · rw [if_neg hc, if_neg (fun h => hc (ht.1 h))]

/-- The step of the refinement for one cell gives in `double` the result of
exact arithmetic, and its result is on the grid. -/
theorem fp_optimizeBlock {rd : ℚ → ℚ} (hrd : IsRounding rd) {p : Placement} (hg : OnGrid p)
    (i : ℕ) :
    Fp.optimizeBlock rd p i = optimizeBlock p i ∧
    ∀ p' moved, optimizeBlock p i = some (p', moved) → OnGrid p' := by
  obtain ⟨hblock, hrow, hsub⟩ := grid_access hg
  have hb := hblock i
  obtain ⟨ed, hdw, hd0, hd1⟩ := fp_disp hrd hb
  have hbest0 : GridBest ⟨p.rows.length, (p.block i).x, (p.block i).y, (p.block i).disp⟩ :=
    ⟨hb.2.2.2.1, hb.2.2.2.2.1, hdw, by rw [abs_of_nonneg hd0]; exact hd1⟩
  obtain ⟨es, hs⟩ := fp_scanRows hrd hb ⟨hdw, hd0, hd1⟩ p.rows hg.2 0 _ hbest0
  have hmoved : ∀ best ri si s n, GridBest best →
      OnGrid (moveTo (removeAt p i ri si s n) i best.x best.y) := fun best ri si s n hgb =>
    (onGrid_updates (onGrid_updates hg i ri si s n).2.1 i ri si s n).2.2 _ _ hgb.1 hgb.2.1
  constructor
  · unfold Fp.optimizeBlock optimizeBlock
    simp only [ed, es]
    cases hsc : scanRows (p.block i) (p.block i).disp 0 p.rows
        ⟨p.rows.length, (p.block i).x, (p.block i).y, (p.block i).disp⟩ with
    | none => rfl
    | some best =>
      have hgb := hs best hsc
      have ht := (cmp_tol hrd hgb.2.2.1 hdw
        (abs_le.2 ⟨by linarith, by linarith⟩)).2.2.2
      simp only [(fp_locate hrd hb).2 p.rows hg.2 0]
      by_cases hc : best.disp < (p.block i).disp - eps
      · rw [if_pos hc, if_pos (ht.2 hc)]
        cases locateRow (p.block i) 0 p.rows with
        | none => rfl
        | some o =>
          cases o with
          | none => rfl
          | some t =>
            obtain ⟨ri, si, s, n⟩ := t
            have hp1 := hmoved best ri si s n hgb
            simp only [((fp_locate hrd ((grid_access hp1).1 i)).1 _
              ((grid_access hp1).2.2 best.rowIdx) 0).2]
      · rw [if_neg hc, if_neg (fun h => hc (ht.1 h))]
  · intro p' moved h
    rcases optimizeBlock_cases h with ⟨_, rfl⟩ | ⟨best, ri, si, s, n, hsc, _, _, hre⟩
    · exact hg
    · have hp1 := hmoved best ri si s n (hs best hsc)
      rcases hre with ⟨_, _, rfl⟩ | ⟨_, si', s', n', _, rfl⟩
      · exact hp1
      · exact (onGrid_updates hp1 i best.rowIdx si' s' n').1

/-- The cell loop of one sweep gives in `double` the result of exact
arithmetic, and its result is on the grid. -/
theorem fp_optimizeBlocks {rd : ℚ → ℚ} (hrd : IsRounding rd) (order : List ℕ) :
    ∀ (p : Placement) (imp : Bool), OnGrid p →
      Fp.optimizeBlocks rd order p imp = optimizeBlocks order p imp ∧
      ∀ p' imp', optimizeBlocks order p imp = some (p', imp') → OnGrid p' := by
  induction order with
  | nil =>
    intro p imp hg
    refine ⟨rfl, fun p' imp' h => ?_⟩
    simp only [optimizeBlocks, Option.some.injEq, Prod.mk.injEq] at h
    rw [← h.1]; exact hg
  | cons b rest ih =>
    intro p imp hg
    obtain ⟨e, hpres⟩ := fp_optimizeBlock hrd hg b
    simp only [Fp.optimizeBlocks, optimizeBlocks, e]
    cases hob : optimizeBlock p b with
    | none => exact ⟨rfl, fun p' imp' h => by cases h⟩
    | some r =>
      obtain ⟨p1, moved⟩ := r
      exact ih p1 (imp || moved) (hpres p1 moved hob)

/-- The outer loop of the refinement gives in `double` the result of exact
arithmetic, and its result is on the grid. -/
theorem fp_optimizeLoop {rd : ℚ → ℚ} (hrd : IsRounding rd) (k : ℕ) :
    ∀ p : Placement, OnGrid p →
      Fp.optimizeLoop rd k p = optimizeLoop k p ∧
      ∀ p' c, optimizeLoop k p = some (p', c) → OnGrid p' := by
  induction k with
  | zero =>
    intro p hg
    refine ⟨rfl, fun p' c h => ?_⟩
    simp only [optimizeLoop, Option.some.injEq, Prod.mk.injEq] at h
    rw [← h.1]; exact hg
  | succ k ih =>
    intro p hg
    obtain ⟨e, hpres⟩ := fp_optimizeBlocks hrd (optimizeOrder p) p false hg
    have eit : Fp.optimizeIteration rd p = optimizeIteration p := by
      unfold Fp.optimizeIteration optimizeIteration
      rw [(fp_orders hrd hg).2.2.2, e]
    simp only [Fp.optimizeLoop, optimizeLoop, eit]
    cases hit : optimizeIteration p with
    | none => exact ⟨rfl, fun p' c h => by cases h⟩
    | some r =>
      obtain ⟨p1, imp⟩ := r
      have hg1 : OnGrid p1 := hpres p1 imp hit
      cases imp with
      | false =>
        refine ⟨rfl, fun p' c h => ?_⟩
        simp only [Option.some.injEq, Prod.mk.injEq] at h
        rw [← h.1]; exact hg1
      | true =>
        obtain ⟨e1, h1⟩ := ih p1 hg1
        dsimp only
        rw [e1]
        refine ⟨rfl, fun p' c h => ?_⟩
        cases hl : optimizeLoop k p1 with
        | none => rw [hl] at h; cases h
        | some r2 =>
          obtain ⟨p2, c2⟩ := r2
          rw [hl] at h
          simp only [Option.some.injEq, Prod.mk.injEq] at h
          rw [← h.1]; exact h1 p2 c2 hl

/-- On a placement on the grid the two passes give in `double` arithmetic the
results of exact arithmetic, and these are on the grid. -/
theorem fp_legalize {rd : ℚ → ℚ} (hrd : IsRounding rd) {p : Placement} (hg : OnGrid p) :
    Fp.initialPlacement rd p = initialPlacement p ∧
    (∀ p1, initialPlacement p = some p1 → OnGrid p1) ∧
    Fp.optimizePlacement rd p = optimizePlacement p ∧
    (∀ p2, optimizePlacement p = some p2 → OnGrid p2) ∧
    Fp.legalize rd p = legalize p ∧ (∀ p2, legalize p = some p2 → OnGrid p2) := by
  have hopt : ∀ q : Placement, OnGrid q →
      Fp.optimizePlacement rd q = optimizePlacement q ∧
      ∀ p2, optimizePlacement q = some p2 → OnGrid p2 := by
    intro q hq
    obtain ⟨e, h⟩ := fp_optimizeLoop hrd 6 q hq
    unfold Fp.optimizePlacement optimizePlacement
    rw [e]
    refine ⟨rfl, fun p2 h2 => ?_⟩
    cases hl : optimizeLoop 6 q with
    | none => rw [hl] at h2; cases h2
    | some r =>
      obtain ⟨p', c⟩ := r
      rw [hl] at h2
      simp only [Option.map_some', Option.some.injEq] at h2
      rw [← h2]; exact h p' c hl
  have hini : Fp.initialPlacement rd p = initialPlacement p ∧
      ∀ p1, initialPlacement p = some p1 → OnGrid p1 := by
    unfold Fp.initialPlacement initialPlacement
    rw [(fp_orders hrd hg).2.2.1]
    exact fp_placeAll hrd _ p hg
  refine ⟨hini.1, hini.2, (hopt p hg).1, (hopt p hg).2, ?_, ?_⟩
  · unfold Fp.legalize legalize
    rw [hini.1]
    cases h1 : initialPlacement p with
    | none => rfl
    | some p1 => exact (hopt p1 (hini.2 p1 h1)).1
  · intro p2 h2
    unfold legalize at h2
    cases h1 : initialPlacement p with
    | none => rw [h1] at h2; cases h2
    | some p1 =>
      rw [h1] at h2
      exact (hopt p1 (hini.2 p1 h1)).2 p2 h2

/-! ## The running best candidate -/

theorem scanSites_bestInv {sr : SubRow} {b : Block} {rowIdx : ℕ} {yStart : ℚ} {n : ℤ}
    {s : ℤ} {k : ℕ} {best best' : Best} (hb : BestInv b best)
    (h : scanSites sr b rowIdx yStart n s k best = some best') : BestInv b best' := by
  induction k generalizing s best with
  | zero =>
    simp only [scanSites, Option.some.injEq] at h
    subst h; exact hb
  | succ k ih =>
    simp only [scanSites] at h
    split at h
    · cases h
    · exact ih hb h
    · split at h
      · exact ih hb h
      · refine ih ?_ h
        split
        · rfl
        · exact hb

theorem scanSubRows_bestInv {b : Block} {rowIdx : ℕ} {yStart : ℚ} {n : ℤ} {minX maxX : ℚ}
    {subs : List SubRow} {best best' : Best} (hb : BestInv b best)
    (h : scanSubRows b rowIdx yStart n minX maxX subs best = some best') : BestInv b best' := by
  induction subs generalizing best with
  | nil =>
    simp only [scanSubRows, Option.some.injEq] at h
    subst h; exact hb
  | cons sr rest ih =>
    simp only [scanSubRows] at h
    split at h
    · cases h
    · rename_i b1 hb1
      exact ih (scanSites_bestInv hb hb1) h

theorem scanRows_bestInv {b : Block} {d : ℚ} {rowIdx : ℕ} {rows : List Row}
    {best best' : Best} (hb : BestInv b best)
    (h : scanRows b d rowIdx rows best = some best') : BestInv b best' := by
  induction rows generalizing rowIdx best with
  | nil =>
    simp only [scanRows, Option.some.injEq] at h
    subst h; exact hb
  | cons row rest ih =>
    simp only [scanRows] at h
    split at h
    · exact ih hb h
    · split at h
      · exact ih hb h
      · split at h
        · exact ih hb h
        · split at h
          · cases h
          · rename_i b1 hb1
            exact ih (scanSubRows_bestInv hb hb1) h

theorem bestInv_init (b : Block) (k : ℕ) : BestInv b ⟨k, b.x, b.y, b.disp⟩ := rfl

theorem disp_nonneg (b : Block) : 0 ≤ b.disp := by
  unfold Block.disp
  positivity

theorem eps_pos : 0 < eps := by norm_num [eps]

/-! ## Frame of one cell step -/

theorem optimizeBlock_sameCells {p : Placement} {j : ℕ} {p' : Placement} {moved : Bool}
    (h : optimizeBlock p j = some (p', moved)) : SameCells p p' := by
  rcases optimizeBlock_cases h with ⟨_, rfl⟩ | ⟨best, ri, si, s, n, _, _, _, hc⟩
  · exact sameCells_refl _
  · have h1 : SameCells p (moveTo (removeAt p j ri si s n) j best.x best.y) :=
      sameCells_trans (removeAt_sameCells p j ri si s n) (moveTo_sameCells _ j _ _)
    rcases hc with ⟨_, _, rfl⟩ | ⟨_, si', s', n', _, rfl⟩
    · exact h1
    · exact sameCells_trans h1 (insertAt_sameCells _ j _ _ _ _)

theorem optimizeBlock_untouched {p : Placement} {j : ℕ} {p' : Placement} {moved : Bool}
    (h : optimizeBlock p j = some (p', moved)) (i : ℕ) (hi : i ≠ j) : Untouched i p p' := by
  rcases optimizeBlock_cases h with ⟨_, rfl⟩ | ⟨best, ri, si, s, n, _, _, _, hc⟩
  · exact untouched_refl _ _
  · have h1 : Untouched i p (moveTo (removeAt p j ri si s n) j best.x best.y) :=
      untouched_trans (removeAt_untouched p j ri si s n i) (moveTo_untouched _ j _ _ i hi)
    rcases hc with ⟨_, _, rfl⟩ | ⟨_, si', s', n', _, rfl⟩
    · exact h1
    · exact untouched_trans h1 (insertAt_untouched _ j _ _ _ _ i hi)

/-- A block that sits at its original coordinates is not relocated. -/
theorem optimizeBlock_home {p : Placement} {j : ℕ} {p' : Placement} {moved : Bool}
    (h : optimizeBlock p j = some (p', moved)) (hd : (p.block j).disp = 0) :
    moved = false ∧ p' = p := by
  rcases optimizeBlock_cases h with hc | ⟨best, ri, si, s, n, hscan, hlt, _⟩
  · exact hc
  · exfalso
    have hb : BestInv (p.block j) best := scanRows_bestInv (bestInv_init _ _) hscan
    have h0 : 0 ≤ best.disp := by
      rw [hb]; positivity
    have := eps_pos
    rw [hd] at hlt
    linarith

theorem moveTo_disp (p : Placement) (j : ℕ) (x y : ℚ) (hl : j < p.blocks.length) :
    ((moveTo p j x y).block j).disp = |x - (p.block j).origX| + |y - (p.block j).origY| := by
  rw [moveTo_block]
  simp [hl, Block.disp]

theorem optimizeBlock_dispLE {p : Placement} {j : ℕ} {p' : Placement} {moved : Bool}
    (h : optimizeBlock p j = some (p', moved)) : DispLE p p' := by
  intro i
  by_cases hi : i = j
  · subst hi
    rcases optimizeBlock_cases h with ⟨_, rfl⟩ | ⟨best, ri, si, s, n, hscan, hlt, _, hc⟩
    · exact le_refl _
    · have hb : BestInv (p.block i) best := scanRows_bestInv (bestInv_init _ _) hscan
      have key : ((moveTo (removeAt p i ri si s n) i best.x best.y).block i).disp
          ≤ (p.block i).disp := by
        by_cases hl : i < p.blocks.length
        · rw [moveTo_disp _ _ _ _ (by simpa [removeAt] using hl), removeAt_block, ← hb]
          have := eps_pos
          linarith
        · rw [moveTo_block]
          have : ¬ (i = i ∧ i < (removeAt p i ri si s n).blocks.length) := by
            simpa [removeAt] using hl
          rw [if_neg this, removeAt_block]
      rcases hc with ⟨_, _, rfl⟩ | ⟨_, si', s', n', _, rfl⟩
      · exact key
      · rw [insertAt_block]; exact key
  · rw [(optimizeBlock_untouched h i hi).1]

/-! ## Frames of the loops -/

theorem dispLE_refl (p : Placement) : DispLE p p := fun _ => le_refl _

theorem dispLE_trans {p q r : Placement} (h1 : DispLE p q) (h2 : DispLE q r) : DispLE p r :=
  fun i => le_trans (h2 i) (h1 i)

theorem mem_movableBlocks (p : Placement) (j : ℕ) :
    j ∈ movableBlocks p ↔ j < p.blocks.length ∧ (p.block j).isFixed = false := by
  simp [movableBlocks]

theorem placeBlock_sameCells {p : Placement} {j : ℕ} {p' : Placement} {placed : Bool}
    (h : placeBlock p j = some (p', placed)) : SameCells p p' := by
  rcases placeBlock_cases h with ⟨_, rfl⟩ | ⟨_, ri, _, _, si, _, s, _, rfl⟩
  · exact sameCells_refl _
  · exact placeAt_sameCells _ _ _ _ _ _

theorem placeBlock_untouched {p : Placement} {j : ℕ} {p' : Placement} {placed : Bool}
    (h : placeBlock p j = some (p', placed)) (i : ℕ) (hi : i ≠ j) : Untouched i p p' := by
  rcases placeBlock_cases h with ⟨_, rfl⟩ | ⟨_, ri, _, _, si, _, s, _, rfl⟩
  · exact untouched_refl _ _
  · exact placeAt_untouched _ _ _ _ _ _ i hi

theorem placeAll_sameCells {order : List ℕ} {p p' : Placement}
    (h : placeAll order p = some p') : SameCells p p' := by
  induction order generalizing p with
  | nil =>
    simp only [placeAll, Option.some.injEq] at h
    subst h; exact sameCells_refl _
  | cons j rest ih =>
    simp only [placeAll] at h
    split at h
    · cases h
    · rename_i p1 b hb
      exact sameCells_trans (placeBlock_sameCells hb) (ih h)

theorem placeAll_untouched {order : List ℕ} {p p' : Placement}
    (h : placeAll order p = some p') (i : ℕ) (hi : i ∉ order) : Untouched i p p' := by
  induction order generalizing p with
  | nil =>
    simp only [placeAll, Option.some.injEq] at h
    subst h; exact untouched_refl _ _
  | cons j rest ih =>
    simp only [placeAll] at h
    split at h
    · cases h
    · rename_i p1 b hb
      have hij : i ≠ j := fun e => hi (e ▸ List.mem_cons_self _ _)
      exact untouched_trans (placeBlock_untouched hb i hij)
        (ih h (fun hm => hi (List.mem_cons_of_mem _ hm)))

theorem placeAll_append {pre post : List ℕ} {p : Placement} :
    placeAll (pre ++ post) p =
      match placeAll pre p with
      | none => none
      | some q => placeAll post q := by
  induction pre generalizing p with
  | nil => simp [placeAll]
  | cons j rest ih =>
    simp only [List.cons_append, placeAll]
    split
    · rfl
    · exact ih

theorem optimizeBlocks_sameCells {order : List ℕ} {p p' : Placement} {imp imp' : Bool}
    (h : optimizeBlocks order p imp = some (p', imp')) : SameCells p p' := by
  induction order generalizing p imp with
  | nil =>
    simp only [optimizeBlocks, Option.some.injEq, Prod.mk.injEq] at h
    rw [← h.1]; exact sameCells_refl _
  | cons j rest ih =>
    simp only [optimizeBlocks] at h
    split at h
    · cases h
    · rename_i p1 m hm
      exact sameCells_trans (optimizeBlock_sameCells hm) (ih h)

theorem optimizeBlocks_dispLE {order : List ℕ} {p p' : Placement} {imp imp' : Bool}
    (h : optimizeBlocks order p imp = some (p', imp')) : DispLE p p' := by
  induction order generalizing p imp with
  | nil =>
    simp only [optimizeBlocks, Option.some.injEq, Prod.mk.injEq] at h
    rw [← h.1]; exact dispLE_refl _
  | cons j rest ih =>
    simp only [optimizeBlocks] at h
    split at h
    · cases h
    · rename_i p1 m hm
      exact dispLE_trans (optimizeBlock_dispLE hm) (ih h)

theorem optimizeBlocks_untouched {order : List ℕ} {p p' : Placement} {imp imp' : Bool}
    (i : ℕ) (hstep : ∀ j ∈ order, j ≠ i ∨ (p.block i).disp = 0)
    (h : optimizeBlocks order p imp = some (p', imp')) : Untouched i p p' := by
  induction order generalizing p imp with
  | nil =>
    simp only [optimizeBlocks, Option.some.injEq, Prod.mk.injEq] at h
    rw [← h.1]; exact untouched_refl _ _
  | cons j rest ih =>
    simp only [optimizeBlocks] at h
    split at h
    · cases h
    · rename_i p1 m hm
      have h1 : Untouched i p p1 := by
        rcases hstep j (List.mem_cons_self _ _) with hne | hd
        · exact optimizeBlock_untouched hm i (fun e => hne e.symm)
        · by_cases hji : j = i
          · subst hji
            rw [(optimizeBlock_home hm hd).2]; exact untouched_refl _ _
          · exact optimizeBlock_untouched hm i (fun e => hji e.symm)
      refine untouched_trans h1 (ih ?_ h)
      intro j' hj'
      rw [h1.1]
      exact hstep j' (List.mem_cons_of_mem _ hj')

theorem optimizeIteration_sameCells {p p' : Placement} {imp : Bool}
    (h : optimizeIteration p = some (p', imp)) : SameCells p p' :=
  optimizeBlocks_sameCells h

theorem optimizeIteration_dispLE {p p' : Placement} {imp : Bool}
    (h : optimizeIteration p = some (p', imp)) : DispLE p p' :=
  optimizeBlocks_dispLE h

/-- One iteration leaves a fixed block, and a block at its original coordinates, alone. -/
theorem optimizeIteration_untouched {p p' : Placement} {imp : Bool} (i : ℕ)
    (hi : (p.block i).isFixed = true ∨ (p.block i).disp = 0)
    (h : optimizeIteration p = some (p', imp)) : Untouched i p p' := by
  refine optimizeBlocks_untouched i ?_ h
  intro j hj
  rcases hi with hf | hd
  · left
    intro e
    subst e
    have := ((mem_movableBlocks p j).1 ((mem_sortBy _ _ _).1 hj)).2
    rw [hf] at this
    cases this
  · exact Or.inr hd

theorem optimizeLoop_sameCells {k : ℕ} {p p' : Placement} {c : ℕ}
    (h : optimizeLoop k p = some (p', c)) : SameCells p p' := by
  induction k generalizing p p' c with
  | zero =>
    simp only [optimizeLoop, Option.some.injEq, Prod.mk.injEq] at h
    rw [← h.1]; exact sameCells_refl _
  | succ k ih =>
    simp only [optimizeLoop] at h
    split at h
    · cases h
    · rename_i p1 hit
      split at h
      · cases h
      · rename_i p2 c2 hl
        simp only [Option.some.injEq, Prod.mk.injEq] at h
        rw [← h.1]
        exact sameCells_trans (optimizeIteration_sameCells hit) (ih hl)
    · rename_i p1 hit
      simp only [Option.some.injEq, Prod.mk.injEq] at h
      rw [← h.1]
      exact optimizeIteration_sameCells hit

theorem optimizeLoop_dispLE {k : ℕ} {p p' : Placement} {c : ℕ}
    (h : optimizeLoop k p = some (p', c)) : DispLE p p' := by
  induction k generalizing p p' c with
  | zero =>
    simp only [optimizeLoop, Option.some.injEq, Prod.mk.injEq] at h
    rw [← h.1]; exact dispLE_refl _
  | succ k ih =>
    simp only [optimizeLoop] at h
    split at h
    · cases h
    · rename_i p1 hit
      split at h
      · cases h
      · rename_i p2 c2 hl
        simp only [Option.some.injEq, Prod.mk.injEq] at h
        rw [← h.1]
        exact dispLE_trans (optimizeIteration_dispLE hit) (ih hl)
    · rename_i p1 hit
      simp only [Option.some.injEq, Prod.mk.injEq] at h
      rw [← h.1]
      exact optimizeIteration_dispLE hit

theorem optimizeLoop_untouched {k : ℕ} {p p' : Placement} {c : ℕ} (i : ℕ)
    (hi : (p.block i).isFixed = true ∨ (p.block i).disp = 0)
    (h : optimizeLoop k p = some (p', c)) : Untouched i p p' := by
  induction k generalizing p p' c with
  | zero =>
    simp only [optimizeLoop, Option.some.injEq, Prod.mk.injEq] at h
    rw [← h.1]; exact untouched_refl _ _
  | succ k ih =>
    simp only [optimizeLoop] at h
    split at h
    · cases h
    · rename_i p1 hit
      have h1 := optimizeIteration_untouched i hi hit
      split at h
      · cases h
      · rename_i p2 c2 hl
        simp only [Option.some.injEq, Prod.mk.injEq] at h
        rw [← h.1]
        exact untouched_trans h1 (ih (by rw [h1.1]; exact hi) hl)
    · rename_i p1 hit
      simp only [Option.some.injEq, Prod.mk.injEq] at h
      rw [← h.1]
      exact optimizeIteration_untouched i hi hit

theorem optimizePlacement_some {p p' : Placement} (h : optimizePlacement p = some p') :
    ∃ c, optimizeLoop 6 p = some (p', c) := by
  unfold optimizePlacement at h
  cases hl : optimizeLoop 6 p with
  | none => simp [hl] at h
  | some r =>
    obtain ⟨q, c⟩ := r
    simp only [hl, Option.map_some', Option.some.injEq] at h
    exact ⟨c, by rw [← h]⟩

theorem optimizePlacement_sameCells {p p' : Placement} (h : optimizePlacement p = some p') :
    SameCells p p' := by
  obtain ⟨c, hc⟩ := optimizePlacement_some h
  exact optimizeLoop_sameCells hc

theorem optimizePlacement_dispLE {p p' : Placement} (h : optimizePlacement p = some p') :
    DispLE p p' := by
  obtain ⟨c, hc⟩ := optimizePlacement_some h
  exact optimizeLoop_dispLE hc

theorem optimizePlacement_untouched {p p' : Placement} (i : ℕ)
    (hi : (p.block i).isFixed = true ∨ (p.block i).disp = 0)
    (h : optimizePlacement p = some p') : Untouched i p p' := by
  obtain ⟨c, hc⟩ := optimizePlacement_some h
  exact optimizeLoop_untouched i hi hc

theorem initialPlacement_sameCells {p p' : Placement} (h : initialPlacement p = some p') :
    SameCells p p' :=
  placeAll_sameCells h

/-- The initial placer leaves a fixed block alone. -/
theorem initialPlacement_untouched {p p' : Placement} (i : ℕ)
    (hi : (p.block i).isFixed = true) (h : initialPlacement p = some p') :
    Untouched i p p' := by
  refine placeAll_untouched h i ?_
  intro hm
  have := ((mem_movableBlocks p i).1 ((mem_sortBy _ _ _).1 hm)).2
  rw [hi] at this
  cases this

theorem initialOrder_nodup (p : Placement) : (initialOrder p).Nodup := by
  unfold initialOrder
  rw [(sortBy_perm _ _).nodup_iff]
  unfold movableBlocks
  exact (List.nodup_range _).filter _

theorem disp_eq_zero {b : Block} (hx : b.x = b.origX) (hy : b.y = b.origY) : b.disp = 0 := by
  simp [Block.disp, hx, hy]

theorem not_listed_of_empty {p : Placement} {i : ℕ}
    (h : ∀ r ∈ p.rows, ∀ sr ∈ r.subRows, sr.placedBlocks = []) : ¬ Listed p.rows i := by
  rintro ⟨ri, si, r, sr, ⟨h1, h2⟩, hm⟩
  have hr : r ∈ p.rows := List.getElem?_mem h1
  have hsr : sr ∈ r.subRows := List.getElem?_mem h2
  rw [h r hr sr hsr] at hm
  cases hm

/-! ## Displacement totals -/

theorem foldl_disp_le (bs bs' : List Block)
    (h : List.Forall₂ (fun b b' => b'.isFixed = b.isFixed ∧ b'.disp ≤ b.disp) bs bs')
    (acc acc' : ℚ × ℚ) (h1 : acc'.1 ≤ acc.1) (h2 : acc'.2 ≤ acc.2) :
    (bs'.foldl (fun acc b =>
        if !b.isFixed then (acc.1 + b.disp, if b.disp > acc.2 then b.disp else acc.2) else acc)
      acc').1 ≤
    (bs.foldl (fun acc b =>
        if !b.isFixed then (acc.1 + b.disp, if b.disp > acc.2 then b.disp else acc.2) else acc)
      acc).1 ∧
    (bs'.foldl (fun acc b =>
        if !b.isFixed then (acc.1 + b.disp, if b.disp > acc.2 then b.disp else acc.2) else acc)
      acc').2 ≤
    (bs.foldl (fun acc b =>
        if !b.isFixed then (acc.1 + b.disp, if b.disp > acc.2 then b.disp else acc.2) else acc)
      acc).2 := by
  induction h generalizing acc acc' with
  | nil => exact ⟨h1, h2⟩
  | @cons b b' l l' hb _ ih =>
    simp only [List.foldl_cons]
    apply ih
    · rw [hb.1]
      cases b.isFixed
      · simp only [Bool.not_false, if_true]
        linarith [hb.2]
      · simpa using h1
    · rw [hb.1]
      cases b.isFixed
      · simp only [Bool.not_false, if_true]
        have := hb.2
        split <;> split <;> linarith
      · simpa using h2

theorem forall₂_blocks {p p' : Placement} (hs : SameCells p p') (hd : DispLE p p') :
    List.Forall₂ (fun b b' => b'.isFixed = b.isFixed ∧ b'.disp ≤ b.disp) p.blocks p'.blocks := by
  rw [List.forall₂_iff_get]
  refine ⟨hs.1.symm, ?_⟩
  intro i h1 h2
  have e1 : p.block i = p.blocks.get ⟨i, h1⟩ := by
    simp [Placement.block, List.getD_eq_getElem?_getD, List.getElem?_eq_getElem h1]
  have e2 : p'.block i = p'.blocks.get ⟨i, h2⟩ := by
    simp [Placement.block, List.getD_eq_getElem?_getD, List.getElem?_eq_getElem h2]
  rw [← e1, ← e2]
  exact ⟨(hs.2 i).2.2.2.2.2, hd i⟩

theorem total_le_of_dispLE {p p' : Placement} (hs : SameCells p p') (hd : DispLE p p') :
    (calculateTotalDisplacement p').1 ≤ (calculateTotalDisplacement p).1 ∧
    (calculateTotalDisplacement p').2 ≤ (calculateTotalDisplacement p).2 :=
  foldl_disp_le _ _ (forall₂_blocks hs hd) (0, 0) (0, 0) (le_refl _) (le_refl _)

/-! ## Only movable blocks are handled -/

theorem updates_trans {M : ℕ → Prop} {p q r : Placement} (h1 : Updates M p q)
    (h2 : Updates M q r) : Updates M p r := by
  induction h2 with
  | refl => exact h1
  | move _ j hj x y ih => exact Updates.move ih j hj x y
  | insert _ j hj ri si s n ih => exact Updates.insert ih j hj ri si s n
  | remove _ j hj ri si s n ih => exact Updates.remove ih j hj ri si s n

theorem updates_mono {M N : ℕ → Prop} (hMN : ∀ j, M j → N j) {p q : Placement}
    (h : Updates M p q) : Updates N p q := by
  induction h with
  | refl => exact Updates.refl _
  | move _ j hj x y ih => exact Updates.move ih j (hMN j hj) x y
  | insert _ j hj ri si s n ih => exact Updates.insert ih j (hMN j hj) ri si s n
  | remove _ j hj ri si s n ih => exact Updates.remove ih j (hMN j hj) ri si s n

theorem placeBlock_updates {M : ℕ → Prop} {p : Placement} {j : ℕ} {p' : Placement}
    {placed : Bool} (hj : M j) (h : placeBlock p j = some (p', placed)) : Updates M p p' := by
  rcases placeBlock_cases h with ⟨_, rfl⟩ | ⟨_, ri, _, _, si, _, s, _, rfl⟩
  · exact Updates.refl _
  · exact Updates.insert (Updates.move (Updates.refl _) j hj _ _) j hj _ _ _ _

theorem placeAll_updates {M : ℕ → Prop} {order : List ℕ} {p p' : Placement}
    (hM : ∀ j ∈ order, M j) (h : placeAll order p = some p') : Updates M p p' := by
  induction order generalizing p with
  | nil =>
    simp only [placeAll, Option.some.injEq] at h
    subst h; exact Updates.refl _
  | cons j rest ih =>
    simp only [placeAll] at h
    split at h
    · cases h
    · rename_i p1 b hb
      exact updates_trans (placeBlock_updates (hM j (List.mem_cons_self _ _)) hb)
        (ih (fun j' hj' => hM j' (List.mem_cons_of_mem _ hj')) h)

theorem optimizeBlock_updates {M : ℕ → Prop} {p : Placement} {j : ℕ} {p' : Placement}
    {moved : Bool} (hj : M j) (h : optimizeBlock p j = some (p', moved)) :
    Updates M p p' := by
  rcases optimizeBlock_cases h with ⟨_, rfl⟩ | ⟨best, ri, si, s, n, _, _, _, hc⟩
  · exact Updates.refl _
  · have h1 : Updates M p (moveTo (removeAt p j ri si s n) j best.x best.y) :=
      Updates.move (Updates.remove (Updates.refl _) j hj _ _ _ _) j hj _ _
    rcases hc with ⟨_, _, rfl⟩ | ⟨_, si', s', n', _, rfl⟩
    · exact h1
    · exact Updates.insert h1 j hj _ _ _ _

theorem optimizeBlocks_updates {M : ℕ → Prop} {order : List ℕ} {p p' : Placement}
    {imp imp' : Bool} (hM : ∀ j ∈ order, M j)
    (h : optimizeBlocks order p imp = some (p', imp')) : Updates M p p' := by
  induction order generalizing p imp with
  | nil =>
    simp only [optimizeBlocks, Option.some.injEq, Prod.mk.injEq] at h
    rw [← h.1]; exact Updates.refl _
  | cons j rest ih =>
    simp only [optimizeBlocks] at h
    split at h
    · cases h
    · rename_i p1 m hm
      exact updates_trans (optimizeBlock_updates (hM j (List.mem_cons_self _ _)) hm)
        (ih (fun j' hj' => hM j' (List.mem_cons_of_mem _ hj')) h)

theorem optimizeIteration_updates {p p' : Placement} {imp : Bool}
    (h : optimizeIteration p = some (p', imp)) :
    Updates (fun j => (p.block j).isFixed = false) p p' :=
  optimizeBlocks_updates
    (fun j hj => ((mem_movableBlocks p j).1 ((mem_sortBy _ _ _).1 hj)).2) h

theorem optimizeLoop_updates {k : ℕ} {p p' : Placement} {c : ℕ}
    (h : optimizeLoop k p = some (p', c)) :
    Updates (fun j => (p.block j).isFixed = false) p p' := by
  induction k generalizing p p' c with
  | zero =>
    simp only [optimizeLoop, Option.some.injEq, Prod.mk.injEq] at h
    rw [← h.1]; exact Updates.refl _
  | succ k ih =>
    simp only [optimizeLoop] at h
    split at h
    · cases h
    · rename_i p1 hit
      split at h
      · cases h
      · rename_i p2 c2 hl
        simp only [Option.some.injEq, Prod.mk.injEq] at h
        rw [← h.1]
        refine updates_trans (optimizeIteration_updates hit) (updates_mono ?_ (ih hl))
        intro j hj
        rw [← ((optimizeIteration_sameCells hit).2 j).2.2.2.2.2]
        exact hj
    · rename_i p1 hit
      simp only [Option.some.injEq, Prod.mk.injEq] at h
      rw [← h.1]
      exact optimizeIteration_updates hit

theorem optimizePlacement_updates {p p' : Placement} (h : optimizePlacement p = some p') :
    Updates (fun j => (p.block j).isFixed = false) p p' := by
  obtain ⟨c, hc⟩ := optimizePlacement_some h
  exact optimizeLoop_updates hc

theorem initialPlacement_updates {p p' : Placement} (h : initialPlacement p = some p') :
    Updates (fun j => (p.block j).isFixed = false) p p' :=
  placeAll_updates
    (fun j hj => ((mem_movableBlocks p j).1 ((mem_sortBy _ _ _).1 hj)).2) h

theorem returns_both {o : Option Placement} {P Q : Placement → Prop}
    (h1 : Returns o P) (h2 : Returns o Q) : ∃ p, P p ∧ Q p := by
  obtain ⟨p, hp, hP⟩ := h1
  obtain ⟨q, hq, hQ⟩ := h2
  rw [hp] at hq
  simp only [Option.some.injEq] at hq
  subst hq
  exact ⟨p, hP, hQ⟩

/-! ## One subrow -/

theorem startOf_eq {sr : SubRow} {b : Block} {s : ℤ} (hsw : 0 < sr.siteWidth)
    (hx : b.x = sr.xStart + s * sr.siteWidth) : startOf sr b = s := by
  unfold startOf
  have : (b.x - sr.xStart) / sr.siteWidth = (s : ℚ) := by
    rw [hx]; field_simp
  rw [this, Int.floor_intCast]

theorem sitesOf_pos {sr : SubRow} {b : Block} (hsw : 0 < sr.siteWidth) (hw : 0 < b.width) :
    1 ≤ sitesOf sr b := by
  unfold sitesOf
  have : 0 < ⌈b.width / sr.siteWidth⌉ := Int.ceil_pos.2 (div_pos hw hsw)
  omega

theorem width_le_sites {sr : SubRow} {b : Block} (hsw : 0 < sr.siteWidth) :
    b.width ≤ sitesOf sr b * sr.siteWidth := by
  unfold sitesOf
  have := Int.le_ceil (b.width / sr.siteWidth)
  calc b.width = b.width / sr.siteWidth * sr.siteWidth := by field_simp
    _ ≤ ⌈b.width / sr.siteWidth⌉ * sr.siteWidth :=
        mul_le_mul_of_nonneg_right this (le_of_lt hsw)

theorem canPlaceAt_eq_true {sr : SubRow} {s n : ℤ} (hn : 0 ≤ n) :
    sr.canPlaceAt s n = some true ↔
      s + n ≤ sr.numSites ∧ ∀ j, s ≤ j → j < s + n → readSite sr.occupiedSites j = some false := by
  unfold SubRow.canPlaceAt
  by_cases h : s + n > sr.numSites
  · simp only [h, if_true]
    constructor
    · intro hc; cases hc
    · intro hc; omega
  · simp only [h, if_false, scanFree_eq_true]
    have e : ((n.toNat : ℕ) : ℤ) = n := Int.toNat_of_nonneg hn
    rw [e]
    constructor
    · intro hc; exact ⟨by omega, hc⟩
    · intro hc; exact hc.2

theorem canPlaceAt_ne_none (sr : SubRow) (s n : ℤ) (hs : 0 ≤ s) (hnum : 0 ≤ sr.numSites)
    (hlen : sr.occupiedSites.length = sr.numSites.toNat) : sr.canPlaceAt s n ≠ none := by
  unfold SubRow.canPlaceAt
  by_cases h : s + n > sr.numSites
  · simp [h]
  · simp only [h, if_false]
    rcases le_total n 0 with hn | hn
    · rw [Int.toNat_eq_zero.2 hn]
      simp [scanFree]
    · apply scanFree_ne_none _ _ _ hs
      rw [hlen, Int.toNat_of_nonneg hn, Int.toNat_of_nonneg hnum]
      omega

/-- The subrow invariant only reads the records of the listed blocks. -/
theorem subOK_congr {blocks blocks' : List Block} {r : Row} {sr : SubRow}
    (h : SubOK blocks r sr) (hlen : blocks'.length = blocks.length)
    (heq : ∀ j ∈ sr.placedBlocks, blocks'.getD j default = blocks.getD j default) :
    SubOK blocks' r sr := by
  refine ⟨?_, ?_, h.nodup, ?_, ?_⟩
  · intro i hi
    rw [heq i hi, hlen]
    exact h.placed i hi
  · intro k hk0 hk1
    rw [h.bits k hk0 hk1]
    constructor
    · rintro ⟨i, hi, hc⟩
      exact ⟨i, hi, by rw [heq i hi]; exact hc⟩
    · rintro ⟨i, hi, hc⟩
      exact ⟨i, hi, by rw [heq i hi] at hc; exact hc⟩
  · intro i hi j hj hij
    rw [heq i hi, heq j hj]
    exact h.disjoint i hi j hj hij
  · refine h.sorted.imp_of_mem ?_
    intro a b ha hb hab
    rw [heq a ha, heq b hb]
    exact hab

theorem free_range_disjoint {blocks : List Block} {r : Row} {sr : SubRow} {s n : ℤ}
    (hg : SubGeom r sr) (h : SubOK blocks r sr) (hs : 0 ≤ s) (hn : 1 ≤ n)
    (hfit : s + n ≤ sr.numSites)
    (hfree : ∀ j, s ≤ j → j < s + n → readSite sr.occupiedSites j = some false)
    (j : ℕ) (hj : j ∈ sr.placedBlocks) :
    s + n ≤ startOf sr (blocks.getD j default) ∨
    startOf sr (blocks.getD j default) + sitesOf sr (blocks.getD j default) ≤ s := by
  obtain ⟨_, _, hw, _, _, ht0, ht1, _⟩ := h.placed j hj
  have hsw : 0 < sr.siteWidth := hg.sw_eq ▸ hg.sw_pos
  have hm := @sitesOf_pos sr _ hsw hw
  by_contra hc
  push_neg at hc
  obtain ⟨hc1, hc2⟩ := hc
  have key : ∀ k : ℤ, s ≤ k → k < s + n → startOf sr (blocks.getD j default) ≤ k →
      k < startOf sr (blocks.getD j default) + sitesOf sr (blocks.getD j default) → False := by
    intro k k1 k2 k3 k4
    have hb := (h.bits k (by omega) (by omega)).2 ⟨j, hj, k3, k4⟩
    rw [hfree k k1 k2] at hb
    cases hb
  rcases le_total s (startOf sr (blocks.getD j default)) with hst | hst
  · exact key _ hst hc1 (le_refl _) (by omega)
  · exact key s (le_refl _) (by omega) hst hc2

theorem mem_insertBlock {sr : SubRow} {blocks : List Block} {i : ℕ} {s n : ℤ} {j : ℕ} :
    j ∈ (sr.insertBlock blocks i s n).placedBlocks ↔ j ∈ sr.placedBlocks ∨ j = i := by
  simp [SubRow.insertBlock, mem_sortBy]

/-- Inserting an unlisted movable cell on a free site range keeps the subrow invariant. -/
theorem subOK_insertBlock {blocks : List Block} {r : Row} {sr : SubRow} {i : ℕ} {s : ℤ}
    (hg : SubGeom r sr) (h : SubOK blocks r sr) (hi : i ∉ sr.placedBlocks)
    (hlt : i < blocks.length) (hmov : (blocks.getD i default).isFixed = false)
    (hw : 0 < (blocks.getD i default).width)
    (hh : (blocks.getD i default).height ≤ r.height + eps)
    (hy : (blocks.getD i default).y = r.yStart)
    (hx : (blocks.getD i default).x = sr.xStart + s * sr.siteWidth)
    (hs : 0 ≤ s)
    (hcan : sr.canPlaceAt s (sitesOf sr (blocks.getD i default)) = some true) :
    SubOK blocks r (sr.insertBlock blocks i s (sitesOf sr (blocks.getD i default))) := by
  have hsw : 0 < sr.siteWidth := hg.sw_eq ▸ hg.sw_pos
  have hst : startOf sr (blocks.getD i default) = s := startOf_eq hsw hx
  have hn1 := @sitesOf_pos sr _ hsw hw
  obtain ⟨hfit, hfree⟩ := (canPlaceAt_eq_true (by omega)).1 hcan
  have hdis := free_range_disjoint hg h hs hn1 hfit hfree
  refine ⟨?_, ?_, ?_, ?_, ?_⟩
  · intro j hj
    rcases mem_insertBlock.1 hj with hj | rfl
    · exact h.placed j hj
    · refine ⟨hlt, hmov, hw, hh, hy, ?_, ?_, ?_⟩
      · show 0 ≤ startOf sr _
        rw [hst]; exact hs
      · show startOf sr _ + sitesOf sr _ ≤ sr.numSites
        rw [hst]; exact hfit
      · show _ = sr.xStart + startOf sr _ * sr.siteWidth
        rw [hst]; exact hx
  · intro k hk0 hk1
    show readSite (markSites sr.numSites true s
        (sitesOf sr (blocks.getD i default)).toNat sr.occupiedSites) k = some true ↔
      ∃ j ∈ (sr.insertBlock blocks i s (sitesOf sr (blocks.getD i default))).placedBlocks,
        startOf sr (blocks.getD j default) ≤ k ∧
        k < startOf sr (blocks.getD j default) + sitesOf sr (blocks.getD j default)
    rw [readSite_markSites _ _ _ _ _ hg.len, Int.toNat_of_nonneg (by omega)]
    by_cases hin : s ≤ k ∧ k < s + sitesOf sr (blocks.getD i default)
    · have hc : s ≤ k ∧ k < s + sitesOf sr (blocks.getD i default) ∧ 0 ≤ k ∧ k < sr.numSites :=
        ⟨hin.1, hin.2, hk0, hk1⟩
      rw [if_pos hc]
      simp only [true_iff]
      exact ⟨i, mem_insertBlock.2 (Or.inr rfl), by rw [hst]; exact hin.1, by rw [hst]; exact hin.2⟩
    · have hc : ¬ (s ≤ k ∧ k < s + sitesOf sr (blocks.getD i default) ∧ 0 ≤ k ∧ k < sr.numSites) :=
        fun hc => hin ⟨hc.1, hc.2.1⟩
      rw [if_neg hc, h.bits k hk0 hk1]
      constructor
      · rintro ⟨j, hj, hc⟩
        exact ⟨j, mem_insertBlock.2 (Or.inl hj), hc⟩
      · rintro ⟨j, hj, hc1, hc2⟩
        rcases mem_insertBlock.1 hj with hj | rfl
        · exact ⟨j, hj, hc1, hc2⟩
        · rw [hst] at hc1 hc2
          exact absurd ⟨hc1, hc2⟩ hin
  · show (sortBy _ (sr.placedBlocks ++ [i])).Nodup
    rw [(sortBy_perm _ _).nodup_iff]
    refine List.nodup_append.2 ⟨h.nodup, List.nodup_singleton i, ?_⟩
    intro a ha hb
    simp only [List.mem_singleton] at hb
    subst hb
    exact hi ha
  · intro a ha b hb hab
    show startOf sr _ + sitesOf sr _ ≤ startOf sr _ ∨ startOf sr _ + sitesOf sr _ ≤ startOf sr _
    rcases mem_insertBlock.1 ha with ha' | ha'
    · rcases mem_insertBlock.1 hb with hb' | hb'
      · exact h.disjoint a ha' b hb' hab
      · rw [hb', hst]
        exact (hdis a ha').symm
    · rcases mem_insertBlock.1 hb with hb' | hb'
      · rw [ha', hst]
        exact hdis b hb'
      · exact absurd (ha'.trans hb'.symm) hab
  · exact sortBy_sorted (fun a => (blocks.getD a default).x) _

/-- Removing a listed cell with its own site range keeps the subrow invariant. -/
theorem subOK_removeBlock {blocks : List Block} {r : Row} {sr : SubRow} {i : ℕ}
    (hg : SubGeom r sr) (h : SubOK blocks r sr) (hi : i ∈ sr.placedBlocks) :
    SubOK blocks r (sr.removeBlock i (startOf sr (blocks.getD i default))
      (sitesOf sr (blocks.getD i default))) ∧
    i ∉ (sr.removeBlock i (startOf sr (blocks.getD i default))
      (sitesOf sr (blocks.getD i default))).placedBlocks := by
  have hsw : 0 < sr.siteWidth := hg.sw_eq ▸ hg.sw_pos
  obtain ⟨_, _, hw, _, _, hs0, hs1, _⟩ := h.placed i hi
  have hn1 := @sitesOf_pos sr _ hsw hw
  have hmem : ∀ j, j ∈ sr.placedBlocks.erase i ↔ j ≠ i ∧ j ∈ sr.placedBlocks :=
    fun j => h.nodup.mem_erase_iff
  refine ⟨⟨?_, ?_, ?_, ?_, ?_⟩, ?_⟩
  · intro j hj
    exact h.placed j ((hmem j).1 hj).2
  · intro k hk0 hk1
    show readSite (markSites sr.numSites false (startOf sr (blocks.getD i default))
        (sitesOf sr (blocks.getD i default)).toNat sr.occupiedSites) k = some true ↔
      ∃ j ∈ sr.placedBlocks.erase i,
        startOf sr (blocks.getD j default) ≤ k ∧
        k < startOf sr (blocks.getD j default) + sitesOf sr (blocks.getD j default)
    rw [readSite_markSites _ _ _ _ _ hg.len, Int.toNat_of_nonneg (by omega)]
    by_cases hin : startOf sr (blocks.getD i default) ≤ k ∧
        k < startOf sr (blocks.getD i default) + sitesOf sr (blocks.getD i default)
    · rw [if_pos ⟨hin.1, hin.2, hk0, hk1⟩]
      simp only [Option.some.injEq, Bool.false_eq_true, false_iff]
      rintro ⟨j, hj, hc1, hc2⟩
      obtain ⟨hji, hjm⟩ := (hmem j).1 hj
      rcases h.disjoint j hjm i hi hji with hd | hd <;> omega
    · rw [if_neg (fun hc => hin ⟨hc.1, hc.2.1⟩), h.bits k hk0 hk1]
      constructor
      · rintro ⟨j, hj, hc⟩
        refine ⟨j, (hmem j).2 ⟨?_, hj⟩, hc⟩
        rintro rfl
        exact hin hc
      · rintro ⟨j, hj, hc⟩
        exact ⟨j, ((hmem j).1 hj).2, hc⟩
  · exact h.nodup.sublist (List.erase_sublist _ _)
  · intro a ha b hb hab
    exact h.disjoint a ((hmem a).1 ha).2 b ((hmem b).1 hb).2 hab
  · exact h.sorted.sublist (List.erase_sublist _ _)
  · intro hc
    exact ((hmem i).1 hc).1 rfl

/-! ## The geometry does not change -/

theorem sameSub_refl (sr : SubRow) : SameSub sr sr := ⟨rfl, rfl, rfl, rfl, rfl⟩

theorem sameSub_insertBlock (sr : SubRow) (blocks : List Block) (i : ℕ) (s n : ℤ) :
    SameSub sr (sr.insertBlock blocks i s n) :=
  ⟨rfl, rfl, rfl, rfl, by show (markSites _ _ _ _ _).length = _; rw [markSites_length]⟩

theorem sameSub_removeBlock (sr : SubRow) (i : ℕ) (s n : ℤ) :
    SameSub sr (sr.removeBlock i s n) :=
  ⟨rfl, rfl, rfl, rfl, by show (markSites _ _ _ _ _).length = _; rw [markSites_length]⟩

theorem sameRows_refl (rows : List Row) : SameRows rows rows :=
  ⟨fun _ r' h => ⟨r', h, rfl, rfl, rfl⟩,
   fun _ _ r' sr' h => ⟨r', sr', h, rfl, rfl, rfl, sameSub_refl _⟩⟩

theorem sameRows_setSubRow {rows : List Row} {ri si : ℕ} {r : Row} {old new : SubRow}
    (hold : IsSub rows ri si r old) (hs : SameSub old new) :
    SameRows rows (setSubRow rows ri si new) := by
  constructor
  · intro rj r' h
    rw [getElem?_setSubRow] at h
    by_cases hj : rj = ri
    · subst hj
      simp only [if_true, hold.1, Option.map_some', Option.some.injEq] at h
      subst h
      exact ⟨r, hold.1, rfl, rfl, rfl⟩
    · simp only [hj, if_false] at h
      exact ⟨r', h, rfl, rfl, rfl⟩
  · intro rj sj r' sr' h
    obtain ⟨r0, e1, e2, e3, hc⟩ := isSub_setSubRow h
    rcases hc with ⟨h1, h2, h3, old', hold'⟩ | ⟨_, hsub⟩
    · subst h1; subst h2; subst h3
      have : old' = old := by
        have a := hold'.1.symm.trans hold.1
        simp only [Option.some.injEq] at a
        subst a
        have b := hold'.2.symm.trans hold.2
        simpa using b
      subst this
      exact ⟨r0, old', hold', e1, e2, e3, hs⟩
    · exact ⟨r0, sr', hsub, e1, e2, e3, sameSub_refl _⟩

theorem isSub_row_unique {rows : List Row} {ri si sj : ℕ} {r r' : Row} {sr sr' : SubRow}
    (h : IsSub rows ri si r sr) (h' : IsSub rows ri sj r' sr') : r = r' := by
  have a := h.1.symm.trans h'.1
  simpa using a

theorem isSub_unique {rows : List Row} {ri si : ℕ} {r r' : Row} {sr sr' : SubRow}
    (h : IsSub rows ri si r sr) (h' : IsSub rows ri si r' sr') : r = r' ∧ sr = sr' := by
  have e := isSub_row_unique h h'
  subst e
  have b := h.2.symm.trans h'.2
  exact ⟨rfl, by simpa using b⟩

theorem static_of_sameRows {rows rows' : List Row} (h : Static rows)
    (hs : SameRows rows rows') : Static rows' := by
  constructor
  · intro ri si r' sr' hsub
    obtain ⟨r, sr, h0, _, _, e3, g1, g2, g3, g4, g5⟩ := hs.2 ri si r' sr' hsub
    have g := h.geom ri si r sr h0
    exact ⟨e3 ▸ g.sw_pos, by rw [g3, g.sw_eq, e3], by rw [g2, g1, g4, g3]; exact g.xEnd_eq,
      g4 ▸ g.num_nonneg, by rw [g5, g4]; exact g.len⟩
  · intro ri si sj r' sr1' sr2' h1 h2 hne
    obtain ⟨r1, sr1, a0, _, _, _, a1, a2, _, _, _⟩ := hs.2 ri si r' sr1' h1
    obtain ⟨r2, sr2, b0, _, _, _, b1, b2, _, _, _⟩ := hs.2 ri sj r' sr2' h2
    have e := isSub_row_unique a0 b0
    subst e
    rw [a1, a2, b1, b2]
    exact h.apart ri si sj r1 sr1 sr2 a0 b0 hne

theorem apart_of_sameRows {rows rows' : List Row} (h : Apart rows)
    (hs : SameRows rows rows') : Apart rows' := by
  constructor
  · intro ri rj r1' r2' h1 h2 hne
    obtain ⟨r1, a0, a1, _, _⟩ := hs.1 ri r1' h1
    obtain ⟨r2, b0, b1, _, _⟩ := hs.1 rj r2' h2
    rw [← a1, ← b1]
    exact h.rowsApart ri rj r1 r2 a0 b0 hne
  · intro ri si sj r' sr1' sr2' h1 h2 hlt
    obtain ⟨r1, sr1, a0, _, _, a3, a1, a2, _, _, _⟩ := hs.2 ri si r' sr1' h1
    obtain ⟨r2, sr2, b0, _, _, _, b1, b2, _, _, _⟩ := hs.2 ri sj r' sr2' h2
    have e := isSub_row_unique a0 b0
    subst e
    rw [← a3, a2, b1]
    exact h.ordered ri si sj r1 sr1 sr2 a0 b0 hlt

theorem sameRows_trans {a b c : List Row} (h1 : SameRows a b) (h2 : SameRows b c) :
    SameRows a c := by
  constructor
  · intro ri r' h
    obtain ⟨r1, a0, a1, a2, a3⟩ := h2.1 ri r' h
    obtain ⟨r0, b0, b1, b2, b3⟩ := h1.1 ri r1 a0
    exact ⟨r0, b0, b1.trans a1, b2.trans a2, b3.trans a3⟩
  · intro ri si r' sr' h
    obtain ⟨r1, sr1, a0, a1, a2, a3, c1, c2, c3, c4, c5⟩ := h2.2 ri si r' sr' h
    obtain ⟨r0, sr0, b0, b1, b2, b3, d1, d2, d3, d4, d5⟩ := h1.2 ri si r1 sr1 a0
    exact ⟨r0, sr0, b0, b1.trans a1, b2.trans a2, b3.trans a3,
      c1.trans d1, c2.trans d2, c3.trans d3, c4.trans d4, c5.trans d5⟩

/-- The subrow invariant reads the row only through `yStart` and `height`. -/
theorem subOK_row {blocks : List Block} {r r' : Row} {sr : SubRow} (h : SubOK blocks r sr)
    (e1 : r.yStart = r'.yStart) (e2 : r.height = r'.height) : SubOK blocks r' sr := by
  refine ⟨?_, h.bits, h.nodup, h.disjoint, h.sorted⟩
  intro i hi
  have := h.placed i hi
  rw [e1, e2] at this
  exact this

/-! ## The occupancy invariant under the three state updates -/

theorem lists_moveTo {p : Placement} {i : ℕ} (h : Lists p) (hi : ¬ Listed p.rows i)
    (x y : ℚ) : Lists (moveTo p i x y) := by
  refine ⟨h.stat, ?_, h.unique⟩
  intro ri si r sr hs
  refine subOK_congr (h.sub ri si r sr hs) (by simp [moveTo]) ?_
  intro j hj
  have hji : j ≠ i := fun e => hi ⟨ri, si, r, sr, hs, e ▸ hj⟩
  show (moveTo p i x y).block j = p.block j
  rw [moveTo_block]
  simp [hji]

theorem insertAt_rows {p : Placement} {i ri si : ℕ} {r : Row} {sr : SubRow} (s n : ℤ)
    (hsub : IsSub p.rows ri si r sr) :
    (insertAt p i ri si s n).rows = setSubRow p.rows ri si (sr.insertBlock p.blocks i s n) := by
  show setSubRow p.rows ri si _ = _
  rw [subD_of_isSub hsub]

theorem removeAt_rows {p : Placement} {i ri si : ℕ} {r : Row} {sr : SubRow} (s n : ℤ)
    (hsub : IsSub p.rows ri si r sr) :
    (removeAt p i ri si s n).rows = setSubRow p.rows ri si (sr.removeBlock i s n) := by
  show setSubRow p.rows ri si _ = _
  rw [subD_of_isSub hsub]

/-- Inserting an unlisted movable block on a free site range of a subrow keeps
the occupancy invariant and lists exactly that block in addition. -/
theorem lists_insertAt {p : Placement} {i ri si : ℕ} {r : Row} {sr : SubRow} {s : ℤ}
    (h : Lists p) (hi : ¬ Listed p.rows i) (hsub : IsSub p.rows ri si r sr)
    (hlt : i < p.blocks.length) (hmov : (p.block i).isFixed = false)
    (hw : 0 < (p.block i).width) (hh : (p.block i).height ≤ r.height + eps)
    (hy : (p.block i).y = r.yStart) (hx : (p.block i).x = sr.xStart + s * sr.siteWidth)
    (hs : 0 ≤ s) (hcan : sr.canPlaceAt s (sitesOf sr (p.block i)) = some true) :
    Lists (insertAt p i ri si s (sitesOf sr (p.block i))) ∧
    ∀ j, Listed (insertAt p i ri si s (sitesOf sr (p.block i))).rows j ↔
      Listed p.rows j ∨ j = i := by
  have hrows := insertAt_rows (i := i) s (sitesOf sr (p.block i)) hsub
  have hnotin : i ∉ sr.placedBlocks := fun hm => hi ⟨ri, si, r, sr, hsub, hm⟩
  have hnew : SubOK p.blocks r (sr.insertBlock p.blocks i s (sitesOf sr (p.block i))) :=
    subOK_insertBlock (h.stat.geom ri si r sr hsub) (h.sub ri si r sr hsub) hnotin hlt hmov hw
      hh hy hx hs hcan
  have back : ∀ rj sj r' sr', IsSub (insertAt p i ri si s (sitesOf sr (p.block i))).rows
      rj sj r' sr' → ∀ j ∈ sr'.placedBlocks,
      j = i ∧ rj = ri ∧ sj = si ∨ ∃ r0 sr0, IsSub p.rows rj sj r0 sr0 ∧ j ∈ sr0.placedBlocks := by
    intro rj sj r' sr' hs' j hj
    rw [hrows] at hs'
    obtain ⟨r0, _, _, _, hc⟩ := isSub_setSubRow hs'
    rcases hc with ⟨h1, h2, h3, old, hold⟩ | ⟨_, hsub'⟩
    · subst h1; subst h2
      obtain ⟨rfl, rfl⟩ := isSub_unique hold hsub
      rw [h3] at hj
      rcases mem_insertBlock.1 hj with hj' | hj'
      · exact Or.inr ⟨r0, old, hold, hj'⟩
      · exact Or.inl ⟨hj', rfl, rfl⟩
    · exact Or.inr ⟨r0, sr', hsub', hj⟩
  refine ⟨⟨?_, ?_, ?_⟩, ?_⟩
  · rw [hrows]
    exact static_of_sameRows h.stat (sameRows_setSubRow hsub (sameSub_insertBlock _ _ _ _ _))
  · intro rj sj r' sr' hs'
    rw [hrows] at hs'
    obtain ⟨r0, e1, e2, _, hc⟩ := isSub_setSubRow hs'
    rcases hc with ⟨h1, h2, h3, old, hold⟩ | ⟨_, hsub'⟩
    · subst h1; subst h2
      obtain ⟨rfl, rfl⟩ := isSub_unique hold hsub
      rw [h3]
      exact subOK_row hnew e1 e2
    · exact subOK_row (h.sub rj sj r0 sr' hsub') e1 e2
  · intro x rj sj r1 sr1 rk sk r2 sr2 h1 h2 m1 m2
    rcases back rj sj r1 sr1 h1 x m1 with ⟨_, a1, a2⟩ | ⟨ra, sa, ha, hma⟩
    · rcases back rk sk r2 sr2 h2 x m2 with ⟨_, b1, b2⟩ | ⟨rb, sb, hb, hmb⟩
      · exact ⟨a1.trans b1.symm, a2.trans b2.symm⟩
      · rename_i hxi
        exact absurd ⟨rk, sk, rb, sb, hb, hxi ▸ hmb⟩ hi
    · rcases back rk sk r2 sr2 h2 x m2 with ⟨hxi, _, _⟩ | ⟨rb, sb, hb, hmb⟩
      · exact absurd ⟨rj, sj, ra, sa, ha, hxi ▸ hma⟩ hi
      · exact h.unique x rj sj ra sa rk sk rb sb ha hb hma hmb
  · intro j
    constructor
    · rintro ⟨rj, sj, r', sr', hs', hj⟩
      rcases back rj sj r' sr' hs' j hj with ⟨hji, _, _⟩ | ⟨r0, sr0, h0, hm0⟩
      · exact Or.inr hji
      · exact Or.inl ⟨rj, sj, r0, sr0, h0, hm0⟩
    · rintro (⟨rj, sj, r0, sr0, h0, hm0⟩ | hji)
      · obtain ⟨r', _, _, _, hnew'⟩ :=
          isSub_setSubRow_of ri si
            (sr.insertBlock p.blocks i s (sitesOf sr (p.block i))) h0
        rw [← hrows] at hnew'
        refine ⟨rj, sj, r', _, hnew', ?_⟩
        split
        · rename_i hc
          obtain ⟨rfl, rfl⟩ := hc
          obtain ⟨rfl, rfl⟩ := isSub_unique h0 hsub
          exact mem_insertBlock.2 (Or.inl hm0)
        · exact hm0
      · obtain ⟨r', _, _, _, hnew'⟩ :=
          isSub_setSubRow_of ri si
            (sr.insertBlock p.blocks i s (sitesOf sr (p.block i))) hsub
        rw [← hrows] at hnew'
        refine ⟨ri, si, r', _, hnew', ?_⟩
        simp only [and_self, if_true]
        exact mem_insertBlock.2 (Or.inr hji)

/-- Removing a listed block with its own site range keeps the occupancy
invariant and unlists exactly that block. -/
theorem lists_removeAt {p : Placement} {i ri si : ℕ} {r : Row} {sr : SubRow}
    (h : Lists p) (hsub : IsSub p.rows ri si r sr) (hm : i ∈ sr.placedBlocks) :
    Lists (removeAt p i ri si (startOf sr (p.block i)) (sitesOf sr (p.block i))) ∧
    ¬ Listed (removeAt p i ri si (startOf sr (p.block i)) (sitesOf sr (p.block i))).rows i ∧
    ∀ j, j ≠ i →
      (Listed (removeAt p i ri si (startOf sr (p.block i)) (sitesOf sr (p.block i))).rows j ↔
        Listed p.rows j) := by
  have hrows := removeAt_rows (i := i) (startOf sr (p.block i)) (sitesOf sr (p.block i)) hsub
  obtain ⟨hnew, hgone⟩ :=
    subOK_removeBlock (h.stat.geom ri si r sr hsub) (h.sub ri si r sr hsub) hm
  have back : ∀ rj sj r' sr',
      IsSub (removeAt p i ri si (startOf sr (p.block i)) (sitesOf sr (p.block i))).rows
        rj sj r' sr' → ∀ j ∈ sr'.placedBlocks,
      j ≠ i ∧ ∃ r0 sr0, IsSub p.rows rj sj r0 sr0 ∧ j ∈ sr0.placedBlocks := by
    intro rj sj r' sr' hs' j hj
    rw [hrows] at hs'
    obtain ⟨r0, _, _, _, hc⟩ := isSub_setSubRow hs'
    rcases hc with ⟨h1, h2, h3, old, hold⟩ | ⟨hne, hsub'⟩
    · subst h1; subst h2
      obtain ⟨rfl, rfl⟩ := isSub_unique hold hsub
      rw [h3] at hj
      refine ⟨?_, r0, old, hold, List.mem_of_mem_erase hj⟩
      rintro rfl
      exact hgone hj
    · refine ⟨?_, r0, sr', hsub', hj⟩
      rintro rfl
      exact hne (h.unique j rj sj r0 sr' ri si r sr hsub' hsub hj hm)
  refine ⟨⟨?_, ?_, ?_⟩, ?_, ?_⟩
  · rw [hrows]
    exact static_of_sameRows h.stat (sameRows_setSubRow hsub (sameSub_removeBlock _ _ _ _))
  · intro rj sj r' sr' hs'
    rw [hrows] at hs'
    obtain ⟨r0, e1, e2, _, hc⟩ := isSub_setSubRow hs'
    rcases hc with ⟨h1, h2, h3, old, hold⟩ | ⟨_, hsub'⟩
    · subst h1; subst h2
      obtain ⟨rfl, rfl⟩ := isSub_unique hold hsub
      rw [h3]
      exact subOK_row hnew e1 e2
    · exact subOK_row (h.sub rj sj r0 sr' hsub') e1 e2
  · intro x rj sj r1 sr1 rk sk r2 sr2 h1 h2 m1 m2
    obtain ⟨_, ra, sa, ha, hma⟩ := back rj sj r1 sr1 h1 x m1
    obtain ⟨_, rb, sb, hb, hmb⟩ := back rk sk r2 sr2 h2 x m2
    exact h.unique x rj sj ra sa rk sk rb sb ha hb hma hmb
  · rintro ⟨rj, sj, r', sr', hs', hj⟩
    exact (back rj sj r' sr' hs' i hj).1 rfl
  · intro j hji
    constructor
    · rintro ⟨rj, sj, r', sr', hs', hj⟩
      obtain ⟨_, r0, sr0, h0, hm0⟩ := back rj sj r' sr' hs' j hj
      exact ⟨rj, sj, r0, sr0, h0, hm0⟩
    · rintro ⟨rj, sj, r0, sr0, h0, hm0⟩
      obtain ⟨r', _, _, _, hnew'⟩ :=
        isSub_setSubRow_of ri si
          (sr.removeBlock i (startOf sr (p.block i)) (sitesOf sr (p.block i))) h0
      rw [← hrows] at hnew'
      refine ⟨rj, sj, r', _, hnew', ?_⟩
      split
      · rename_i hc
        obtain ⟨rfl, rfl⟩ := hc
        obtain ⟨rfl, rfl⟩ := isSub_unique h0 hsub
        exact (h.sub rj sj r0 sr0 h0).nodup.mem_erase_iff.2 ⟨hji, hm0⟩
      · exact hm0

/-! ## The initial placer keeps the state legal -/

theorem subD_geom {rows : List Row} (h : Static rows) (ri si : ℕ) :
    0 ≤ ((rows.getD ri default).subRows.getD si default).numSites ∧
    ((rows.getD ri default).subRows.getD si default).occupiedSites.length
      = ((rows.getD ri default).subRows.getD si default).numSites.toNat := by
  cases hr : rows[ri]? with
  | none =>
    have : rows.getD ri default = default := by simp [List.getD_eq_getElem?_getD, hr]
    rw [this]
    exact ⟨le_refl _, rfl⟩
  | some r =>
    have e : rows.getD ri default = r := by simp [List.getD_eq_getElem?_getD, hr]
    rw [e]
    cases hs : r.subRows[si]? with
    | none =>
      have : r.subRows.getD si default = default := by simp [List.getD_eq_getElem?_getD, hs]
      rw [this]
      exact ⟨le_refl _, rfl⟩
    | some sr =>
      have e2 : r.subRows.getD si default = sr := by simp [List.getD_eq_getElem?_getD, hs]
      rw [e2]
      have g := h.geom ri si r sr ⟨hr, hs⟩
      exact ⟨g.num_nonneg, g.len⟩

theorem findSite_ne_none (sr : SubRow) (w : ℚ) (n : ℤ) (s0 : ℤ) (k : ℕ) (hs0 : 0 ≤ s0)
    (hnum : 0 ≤ sr.numSites) (hlen : sr.occupiedSites.length = sr.numSites.toNat) :
    findSite sr w n s0 k ≠ none := by
  induction k generalizing s0 with
  | zero => simp [findSite]
  | succ k ih =>
    simp only [findSite]
    have hc := canPlaceAt_ne_none sr s0 n hs0 hnum hlen
    cases hv : sr.canPlaceAt s0 n with
    | none => exact absurd hv hc
    | some v =>
      cases v with
      | false => exact ih (s0 + 1) (by omega)
      | true =>
        simp only
        split
        · exact ih (s0 + 1) (by omega)
        · simp

theorem placeInSubRows_ne_none {p : Placement} (hst : Static p.rows) (j ri : ℕ) (n : ℤ)
    (order : List ℕ) : placeInSubRows p j ri n order ≠ none := by
  induction order with
  | nil => simp [placeInSubRows]
  | cons si rest ih =>
    simp only [placeInSubRows]
    obtain ⟨g1, g2⟩ := subD_geom hst ri si
    have := findSite_ne_none ((p.rows.getD ri default).subRows.getD si default)
      (p.block j).width n 0
      ((((p.rows.getD ri default).subRows.getD si default).numSites - n + 1).toNat)
      (le_refl _) g1 g2
    split
    · rename_i hnone
      exact absurd hnone this
    · simp
    · exact ih

theorem placeInRows_ne_none {p : Placement} (hst : Static p.rows) (j : ℕ) (order : List ℕ) :
    placeInRows p j order ≠ none := by
  induction order with
  | nil => simp [placeInRows]
  | cons ri rest ih =>
    simp only [placeInRows]
    split
    · exact ih
    · split
      · rename_i hnone
        exact absurd hnone (placeInSubRows_ne_none hst _ _ _ _)
      · simp
      · exact ih

theorem placeBlock_ne_none {p : Placement} (hst : Static p.rows) (j : ℕ) :
    placeBlock p j ≠ none := by
  unfold placeBlock
  split
  · rename_i hnone
    exact absurd hnone (placeInRows_ne_none hst _ _)
  · simp
  · simp

theorem isSub_of_mem_order {p : Placement} {ri si : ℕ} {x y : ℚ}
    (hri : ri ∈ rowOrder p y) (hsi : si ∈ subrowOrder (p.rows.getD ri default) x) :
    IsSub p.rows ri si (p.rows.getD ri default)
      ((p.rows.getD ri default).subRows.getD si default) := by
  have h1 : ri < p.rows.length := by
    have := (mem_sortBy _ _ _).1 hri
    simpa using this
  have h2 : si < (p.rows.getD ri default).subRows.length := by
    have := (mem_sortBy _ _ _).1 hsi
    simpa using this
  constructor
  · rw [List.getD_eq_getElem?_getD, List.getElem?_eq_getElem h1]; rfl
  · rw [List.getD_eq_getElem?_getD (l := (p.rows.getD ri default).subRows),
      List.getElem?_eq_getElem h2]; rfl

/-- Putting an unlisted movable block on a site that `canPlaceAt` accepts keeps
the state legal and lists the block. -/
theorem legal_placeAt {p : Placement} {i ri si : ℕ} {r : Row} {sr : SubRow} {s : ℤ}
    (h : Legal p) (hi : ¬ Listed p.rows i) (hsub : IsSub p.rows ri si r sr)
    (hlt : i < p.blocks.length) (hmov : (p.block i).isFixed = false)
    (hw : 0 < (p.block i).width) (hh : (p.block i).height ≤ r.height + eps)
    (hs : 0 ≤ s)
    (hcan : sr.canPlaceAt s ⌈(p.block i).width / r.siteWidth⌉ = some true) :
    Legal (placeAt p i ri si s ⌈(p.block i).width / r.siteWidth⌉) ∧
    Listed (placeAt p i ri si s ⌈(p.block i).width / r.siteWidth⌉).rows i := by
  have hg := h.lists.stat.geom ri si r sr hsub
  have e : placeAt p i ri si s ⌈(p.block i).width / r.siteWidth⌉ =
      insertAt (moveTo p i (sr.xStart + s * sr.siteWidth) r.yStart) i ri si s
        ⌈(p.block i).width / r.siteWidth⌉ := by
    have e2 : r.subRows.getD si default = sr := by
      simp [List.getD_eq_getElem?_getD, hsub.2]
    unfold placeAt
    simp only [rowD_of_isSub hsub, e2]
  have hb : (moveTo p i (sr.xStart + s * sr.siteWidth) r.yStart).block i =
      { p.block i with x := sr.xStart + s * sr.siteWidth, y := r.yStart } := by
    rw [moveTo_block]; simp [hlt]
  have hn : sitesOf sr ((moveTo p i (sr.xStart + s * sr.siteWidth) r.yStart).block i)
      = ⌈(p.block i).width / r.siteWidth⌉ := by
    rw [hb]; unfold sitesOf; rw [hg.sw_eq]
  have hl1 := lists_moveTo h.lists hi (sr.xStart + s * sr.siteWidth) r.yStart
  have key := @lists_insertAt (moveTo p i (sr.xStart + s * sr.siteWidth) r.yStart)
    i ri si r sr s hl1 hi hsub
    (by simpa [moveTo] using hlt) (by rw [hb]; exact hmov) (by rw [hb]; exact hw)
    (by rw [hb]; exact hh) (by rw [hb]) (by rw [hb]) hs (by rw [hn]; exact hcan)
  rw [hn] at key
  rw [e]
  refine ⟨⟨key.1, ?_⟩, (key.2 i).2 (Or.inr rfl)⟩
  intro j hj
  have hj' : ¬ (Listed p.rows j ∨ j = i) := fun hc => hj ((key.2 j).2 hc)
  push_neg at hj'
  have : (insertAt (moveTo p i (sr.xStart + s * sr.siteWidth) r.yStart) i ri si s
      ⌈(p.block i).width / r.siteWidth⌉).block j = p.block j := by
    rw [insertAt_block, moveTo_block]; simp [hj'.2]
  rw [this]
  exact h.home j hj'.1

/-- One cell step of the initial placer returns a legal state. -/
theorem placeBlock_legal {p : Placement} {i : ℕ} (h : Legal p) (hi : ¬ Listed p.rows i)
    (hlt : i < p.blocks.length) (hmov : (p.block i).isFixed = false)
    (hw : 0 < (p.block i).width) :
    ∃ p' placed, placeBlock p i = some (p', placed) ∧ Legal p' ∧
      (placed = true → Listed p'.rows i) := by
  cases hpb : placeBlock p i with
  | none => exact absurd hpb (placeBlock_ne_none h.lists.stat i)
  | some res =>
    obtain ⟨p', placed⟩ := res
    refine ⟨p', placed, rfl, ?_⟩
    rcases placeBlock_cases hpb with ⟨hf, rfl⟩ | ⟨_, ri, hri, hh, si, hsi, s, hfs, rfl⟩
    · exact ⟨h, fun hc => by rw [hf] at hc; cases hc⟩
    · have hsub := isSub_of_mem_order hri hsi
      obtain ⟨hs0, _, hcan, _, _⟩ := findSite_some hfs
      have := legal_placeAt h hi hsub hlt hmov hw hh hs0 hcan
      exact ⟨this.1, fun _ => this.2⟩

theorem placeAll_legal {order : List ℕ} {p : Placement} (h : Legal p) (hnd : order.Nodup)
    (hord : ∀ i ∈ order, i < p.blocks.length ∧ (p.block i).isFixed = false ∧
      0 < (p.block i).width ∧ ¬ Listed p.rows i) :
    ∃ p', placeAll order p = some p' ∧ Legal p' := by
  induction order generalizing p with
  | nil => exact ⟨p, rfl, h⟩
  | cons i rest ih =>
    obtain ⟨hlt, hmov, hw, hi⟩ := hord i (List.mem_cons_self _ _)
    obtain ⟨p1, placed, hpb, hl1, _⟩ := placeBlock_legal h hi hlt hmov hw
    have hsc := placeBlock_sameCells hpb
    obtain ⟨hni, hnd'⟩ := List.nodup_cons.1 hnd
    obtain ⟨p', hp', hl'⟩ := ih hl1 hnd' (by
      intro j hj
      obtain ⟨a, b, c, d⟩ := hord j (List.mem_cons_of_mem _ hj)
      have hji : j ≠ i := fun e => hni (e ▸ hj)
      refine ⟨hsc.1 ▸ a, ?_, ?_, not_listed_of_untouched (placeBlock_untouched hpb j hji) d⟩
      · rw [(hsc.2 j).2.2.2.2.2]; exact b
      · rw [(hsc.2 j).2.1]; exact c)
    exact ⟨p', by simp only [placeAll, hpb]; exact hp', hl'⟩

/-! ## A well-formed input is a legal state -/

theorem pairwise_getElem? {α : Type} {R : α → α → Prop} {l : List α} (h : l.Pairwise R)
    {i j : ℕ} {a b : α} (hi : l[i]? = some a) (hj : l[j]? = some b) (hij : i < j) : R a b := by
  rw [List.pairwise_iff_getElem] at h
  obtain ⟨hi1, hi2⟩ := List.getElem?_eq_some.1 hi
  obtain ⟨hj1, hj2⟩ := List.getElem?_eq_some.1 hj
  have := h i j hi1 hj1 hij
  rw [hi2, hj2] at this
  exact this

theorem readSite_replicate (n : ℕ) (k : ℤ) : readSite (List.replicate n false) k ≠ some true := by
  unfold readSite
  split
  · simp
  · rw [List.get?_eq_getElem?, List.getElem?_replicate]
    split <;> simp

theorem static_of_wellFormed {p : Placement} (h : WellFormed p) : Static p.rows := by
  obtain ⟨h1, h2, _, _⟩ := h
  constructor
  · intro ri si r sr hs
    have hr : r ∈ p.rows := List.getElem?_mem hs.1
    have hsr : sr ∈ r.subRows := List.getElem?_mem hs.2
    obtain ⟨hsw, hall⟩ := h1 r hr
    obtain ⟨hnum, hnew⟩ := hall sr hsr
    refine ⟨hsw, ?_, ?_, hnum, ?_⟩
    · exact congrArg SubRow.siteWidth hnew
    · have a := congrArg SubRow.xEnd hnew
      have b := congrArg SubRow.siteWidth hnew
      rw [a, b]; rfl
    · have a := congrArg SubRow.occupiedSites hnew
      rw [a]; simp [SubRow.new]
  · intro ri si sj r sr sr' hs hs' hne
    have hr : r ∈ p.rows := List.getElem?_mem hs.1
    have hp := h2 r hr
    rcases Nat.lt_or_gt_of_ne hne with hlt | hgt
    · exact pairwise_getElem? hp hs.2 hs'.2 hlt
    · exact (pairwise_getElem? hp hs'.2 hs.2 hgt).symm

theorem legal_of_wellFormed {p : Placement} (h : WellFormed p) : Legal p := by
  have hst := static_of_wellFormed h
  obtain ⟨h1, _, _, h4⟩ := h
  have hempty : ∀ ri si r sr, IsSub p.rows ri si r sr →
      sr.placedBlocks = [] ∧ ∃ n, sr.occupiedSites = List.replicate n false := by
    intro ri si r sr hs
    have hr : r ∈ p.rows := List.getElem?_mem hs.1
    have hsr : sr ∈ r.subRows := List.getElem?_mem hs.2
    obtain ⟨_, hnew⟩ := (h1 r hr).2 sr hsr
    exact ⟨by rw [congrArg SubRow.placedBlocks hnew]; rfl,
      _, by rw [congrArg SubRow.occupiedSites hnew]; rfl⟩
  refine ⟨⟨hst, ?_, ?_⟩, ?_⟩
  · intro ri si r sr hs
    obtain ⟨he, n, hocc⟩ := hempty ri si r sr hs
    refine ⟨?_, ?_, ?_, ?_, ?_⟩
    · intro i hi; rw [he] at hi; cases hi
    · intro k _ _
      rw [hocc, he]
      constructor
      · intro hc; exact absurd hc (readSite_replicate n k)
      · rintro ⟨i, hi, _⟩; cases hi
    · rw [he]; exact List.nodup_nil
    · intro i hi; rw [he] at hi; cases hi
    · rw [he]; exact List.Pairwise.nil
  · intro i ri si r sr rj sj r' sr' hs _ hm _
    rw [(hempty ri si r sr hs).1] at hm
    cases hm
  · intro i _
    unfold Placement.block
    rw [List.getD_eq_getElem?_getD]
    cases hb : p.blocks[i]? with
    | none => exact ⟨rfl, rfl⟩
    | some b =>
      obtain ⟨_, _, hx, hy⟩ := h4 b (List.getElem?_mem hb)
      exact ⟨hx, hy⟩

theorem not_listed_of_wellFormed {p : Placement} (h : WellFormed p) (i : ℕ) :
    ¬ Listed p.rows i := by
  apply not_listed_of_empty
  intro r hr sr hsr
  obtain ⟨_, hnew⟩ := (h.1 r hr).2 sr hsr
  rw [congrArg SubRow.placedBlocks hnew]; rfl

/-- The initial placer returns a legal state on every well-formed input. -/
theorem initialPlacement_legal {p : Placement} (h : WellFormed p) :
    ∃ p1, initialPlacement p = some p1 ∧ Legal p1 := by
  refine placeAll_legal (legal_of_wellFormed h) (initialOrder_nodup p) ?_
  intro i hi
  obtain ⟨hlt, hmov⟩ := (mem_movableBlocks p i).1 ((mem_sortBy _ _ _).1 hi)
  refine ⟨hlt, hmov, ?_, not_listed_of_wellFormed h i⟩
  have hb : p.block i ∈ p.blocks := by
    unfold Placement.block
    rw [List.getD_eq_getElem?_getD, List.getElem?_eq_getElem hlt]
    exact List.getElem_mem _
  exact (h.2.2.2 _ hb).1

/-! ## The relocation search returns a placeable candidate -/

theorem scanSites_cand {p : Placement} {i rowIdx sb : ℕ} {r : Row} {sr : SubRow}
    (hsub : IsSub p.rows rowIdx sb r sr) (hg : SubGeom r sr)
    (hh : (p.block i).height ≤ r.height + eps) (s : ℤ) (k : ℕ) (hs : 0 ≤ s) (best : Best)
    (hb : CandOK p i best) :
    ∃ best', scanSites sr (p.block i) rowIdx r.yStart ⌈(p.block i).width / r.siteWidth⌉
        s k best = some best' ∧ CandOK p i best' := by
  induction k generalizing s best with
  | zero => exact ⟨best, rfl, hb⟩
  | succ k ih =>
    simp only [scanSites]
    have hc := canPlaceAt_ne_none sr s
      ⌈(p.block i).width / r.siteWidth⌉ hs hg.num_nonneg hg.len
    cases hv : sr.canPlaceAt s ⌈(p.block i).width / r.siteWidth⌉ with
    | none => exact absurd hv hc
    | some v =>
      cases v with
      | false => exact ih (s + 1) (by omega) best hb
      | true =>
        simp only
        split
        · exact ih (s + 1) (by omega) best hb
        · rename_i hfit
          apply ih (s + 1) (by omega)
          split
          · intro _
            exact ⟨sb, r, sr, s, hsub, hs, hv, rfl, rfl, hh, not_lt.1 hfit⟩
          · exact hb

theorem scanSubRows_cand {p : Placement} {i rowIdx : ℕ} {r : Row}
    (hst : Static p.rows) (hh : (p.block i).height ≤ r.height + eps) (minX maxX : ℚ)
    (subs : List SubRow) (hsubs : ∀ sr ∈ subs, ∃ sb, IsSub p.rows rowIdx sb r sr)
    (best : Best) (hb : CandOK p i best) :
    ∃ best', scanSubRows (p.block i) rowIdx r.yStart ⌈(p.block i).width / r.siteWidth⌉
        minX maxX subs best = some best' ∧ CandOK p i best' := by
  induction subs generalizing best with
  | nil => exact ⟨best, rfl, hb⟩
  | cons sr rest ih =>
    simp only [scanSubRows]
    obtain ⟨sb, hsub⟩ := hsubs sr (List.mem_cons_self _ _)
    obtain ⟨b1, h1, hb1⟩ := scanSites_cand hsub (hst.geom _ _ _ _ hsub) hh
      (minSiteOf sr minX)
      (maxSiteOf sr (p.block i) ⌈(p.block i).width / r.siteWidth⌉ maxX
        - minSiteOf sr minX + 1).toNat
      (le_max_right _ _) best hb
    rw [h1]
    exact ih (fun sr' h' => hsubs sr' (List.mem_cons_of_mem _ h')) b1 hb1

theorem scanRows_cand {p : Placement} {i : ℕ} (hst : Static p.rows) (d : ℚ) (k : ℕ)
    (rest : List Row) (hrest : ∀ j row, rest[j]? = some row → p.rows[k + j]? = some row)
    (best : Best) (hb : CandOK p i best) :
    ∃ best', scanRows (p.block i) d k rest best = some best' ∧ CandOK p i best' := by
  induction rest generalizing k best with
  | nil => exact ⟨best, rfl, hb⟩
  | cons row rest ih =>
    have htail : ∀ j row', rest[j]? = some row' → p.rows[k + 1 + j]? = some row' := by
      intro j row' hj
      have := hrest (j + 1) row' (by simpa using hj)
      rw [show k + 1 + j = k + (j + 1) by omega]
      exact this
    have hrow : p.rows[k]? = some row := by
      have := hrest 0 row (by simp)
      simpa using this
    simp only [scanRows]
    split
    · exact ih (k + 1) htail best hb
    · split
      · exact ih (k + 1) htail best hb
      · split
        · exact ih (k + 1) htail best hb
        · rename_i hh
          obtain ⟨b1, h1, hb1⟩ := @scanSubRows_cand p i k row hst (not_lt.1 hh)
            ((p.block i).origX - (d + 20 - |row.yStart - (p.block i).origY|))
            ((p.block i).origX + (d + 20 - |row.yStart - (p.block i).origY|))
            row.subRows
            (fun sr hsr => by
              obtain ⟨sb, hsb⟩ := List.mem_iff_getElem?.1 hsr
              exact ⟨sb, hrow, hsb⟩)
            best hb
          rw [h1]
          exact ih (k + 1) htail b1 hb1

theorem candOK_init (p : Placement) (i : ℕ) :
    CandOK p i ⟨p.rows.length, (p.block i).x, (p.block i).y, (p.block i).disp⟩ := by
  intro h
  have := eps_pos
  simp only at h
  linarith

/-- In a state with well-built subrows the candidate search of a cell step
returns, and a returned improvement is a placeable site. -/
theorem scan_cand {p : Placement} (hst : Static p.rows) (i : ℕ) :
    ∃ best, scanRows (p.block i) (p.block i).disp 0 p.rows
        ⟨p.rows.length, (p.block i).x, (p.block i).y, (p.block i).disp⟩ = some best ∧
      CandOK p i best :=
  scanRows_cand hst _ 0 p.rows (fun j row h => by simpa using h) _ (candOK_init p i)

/-! ## The removal step finds the subrow that lists the block -/

theorem eps_lt_one : eps < 1 := by norm_num [eps]

theorem eps_pos' : 0 < eps := by norm_num [eps]

theorem floor_site {sw x xs : ℚ} {s : ℤ} (hsw : 0 < sw) (hx : x = xs + s * sw) :
    ⌊(x - xs) / sw + eps⌋ = s := by
  have e : (x - xs) / sw = (s : ℚ) := by rw [hx]; field_simp
  rw [e, Int.floor_eq_iff]
  have := eps_pos'
  have := eps_lt_one
  constructor <;> linarith

/-- Seen from another subrow of the same row, the start site computed for a
placed block is outside the subrow. -/
theorem floor_site_other {sw x : ℚ} {s n : ℤ} {axs axe bxs bxe : ℚ} {anum bnum : ℤ}
    (hsw : 0 < sw) (hx : x = bxs + s * sw) (hs : 0 ≤ s) (hn : 1 ≤ n) (hfit : s + n ≤ bnum)
    (hae : axe = axs + anum * sw) (hbe : bxe = bxs + bnum * sw)
    (hdis : axe ≤ bxs ∨ bxe ≤ axs) :
    ¬ (⌊(x - axs) / sw + eps⌋ ≥ 0 ∧ ⌊(x - axs) / sw + eps⌋ < anum) := by
  have he0 := eps_pos'
  have he1 := eps_lt_one
  have hs' : (0 : ℚ) ≤ s := by exact_mod_cast hs
  have hn' : (1 : ℚ) ≤ n := by exact_mod_cast hn
  have hfit' : (s : ℚ) + n ≤ bnum := by exact_mod_cast hfit
  rintro ⟨h0, h1⟩
  rcases hdis with hd | hd
  · have : (anum : ℚ) ≤ (x - axs) / sw + eps := by
      have h2 : (anum : ℚ) ≤ (x - axs) / sw := by
        rw [le_div_iff₀ hsw]
        have : 0 ≤ (s : ℚ) * sw := Rat.mul_nonneg hs' (le_of_lt hsw)
        linarith
      linarith
    have := Int.le_floor.2 this
    omega
  · have : (x - axs) / sw + eps < ((0 : ℤ) : ℚ) := by
      have h2 : (x - axs) / sw ≤ -1 := by
        rw [div_le_iff₀ hsw]
        have h3 : ((s : ℚ) + n) * sw ≤ bnum * sw :=
          mul_le_mul_of_nonneg_right hfit' (le_of_lt hsw)
        have h4 : sw ≤ n * sw := by
          have := mul_le_mul_of_nonneg_right hn' (le_of_lt hsw)
          linarith
        linarith
      push_cast
      linarith
    have := Int.floor_lt.2 this
    omega

theorem locateSubRow_skip (b : Block) (k : ℕ) (a : SubRow) (rest : List SubRow)
    (h : ¬ (⌊(b.x - a.xStart) / a.siteWidth + eps⌋ ≥ 0 ∧
      ⌊(b.x - a.xStart) / a.siteWidth + eps⌋ < a.numSites)) :
    locateSubRow b k (a :: rest) = locateSubRow b (k + 1) rest := by
  by_cases hext : b.x ≥ a.xStart - eps ∧ b.x + b.width ≤ a.xEnd + eps
  · simp only [locateSubRow, if_pos hext, if_neg h]
  · simp only [locateSubRow, if_neg hext]

theorem locateSubRow_found {blocks : List Block} {r : Row} {i si : ℕ} {sr : SubRow}
    (hgeom : ∀ (sj : ℕ) (a : SubRow), r.subRows[sj]? = some a → SubGeom r a)
    (hapart : ∀ (sj : ℕ) (a : SubRow), r.subRows[sj]? = some a → sj ≠ si →
      a.xEnd ≤ sr.xStart ∨ sr.xEnd ≤ a.xStart)
    (hsr : r.subRows[si]? = some sr) (hok : SubOK blocks r sr) (hi : i ∈ sr.placedBlocks)
    (k : ℕ) (rest : List SubRow) (hk : k ≤ si)
    (hrest : ∀ j, rest[j]? = r.subRows[k + j]?) :
    locateSubRow (blocks.getD i default) k rest =
      some (some (si, startOf sr (blocks.getD i default), sitesOf sr (blocks.getD i default))) := by
  have hg := hgeom si sr hsr
  have hsw : 0 < sr.siteWidth := hg.sw_eq ▸ hg.sw_pos
  obtain ⟨_, _, hw, _, _, hs0, hs1, hx⟩ := hok.placed i hi
  have hn1 := @sitesOf_pos sr _ hsw hw
  induction rest generalizing k with
  | nil =>
    have := hrest (si - k)
    rw [show k + (si - k) = si by omega, hsr] at this
    simp at this
  | cons a rest ih =>
    have ha : r.subRows[k]? = some a := by
      have := hrest 0
      simpa using this.symm
    have htail : ∀ j, rest[j]? = r.subRows[k + 1 + j]? := by
      intro j
      have := hrest (j + 1)
      rw [show k + 1 + j = k + (j + 1) by omega]
      simpa using this
    rcases Nat.lt_or_ge k si with hlt | hge
    · have hga := hgeom k a ha
      have hskip := @floor_site_other sr.siteWidth
        (blocks.getD i default).x (startOf sr (blocks.getD i default))
        (sitesOf sr (blocks.getD i default)) a.xStart a.xEnd
        sr.xStart sr.xEnd a.numSites sr.numSites
        hsw hx hs0 hn1 hs1
        (by rw [hga.xEnd_eq, hga.sw_eq, hg.sw_eq]) hg.xEnd_eq
        (hapart k a ha (by omega))
      rw [locateSubRow_skip _ _ _ _ (by rw [hga.sw_eq, ← hg.sw_eq]; exact hskip)]
      exact ih (k + 1) (by omega) htail
    · have hks : k = si := by omega
      subst hks
      have hasr : a = sr := by
        have := ha.symm.trans hsr
        simpa using this
      subst hasr
      have hfl := @floor_site _ _ a.xStart _ hsw hx
      have he0 := eps_pos'
      have hwle := @width_le_sites a (blocks.getD i default) hsw
      have hs0' : (0 : ℚ) ≤ startOf a (blocks.getD i default) := by exact_mod_cast hs0
      have hs1' : (startOf a (blocks.getD i default) : ℚ)
          + sitesOf a (blocks.getD i default) ≤ a.numSites := by exact_mod_cast hs1
      have hext : (blocks.getD i default).x ≥ a.xStart - eps ∧
          (blocks.getD i default).x + (blocks.getD i default).width ≤ a.xEnd + eps := by
        constructor
        · have : 0 ≤ (startOf a (blocks.getD i default) : ℚ) * a.siteWidth :=
            Rat.mul_nonneg hs0' (le_of_lt hsw)
          linarith
        · rw [hg.xEnd_eq]
          have := mul_le_mul_of_nonneg_right hs1' (le_of_lt hsw)
          linarith
      have hbit : readSite a.occupiedSites (startOf a (blocks.getD i default)) = some true :=
        (hok.bits _ hs0 (by omega)).2 ⟨i, hi, le_refl _, by omega⟩
      simp only [locateSubRow]
      rw [if_pos hext, hfl, if_pos ⟨hs0, by omega⟩, hbit]
      rfl

theorem locateRow_skip (b : Block) (k : ℕ) (row : Row) (rest : List Row)
    (h : ¬ |row.yStart - b.y| < eps) :
    locateRow b k (row :: rest) = locateRow b (k + 1) rest := by
  simp only [locateRow]
  rw [if_neg h]

/-- In a legal state with rows at least `eps` apart the removal step locates a
listed block in the subrow that lists it, with the site range it occupies. -/
theorem locateRow_found {p : Placement} (hl : Lists p) (ha : Apart p.rows) {i ri si : ℕ}
    {r : Row} {sr : SubRow} (hsub : IsSub p.rows ri si r sr) (hi : i ∈ sr.placedBlocks)
    (k : ℕ) (rest : List Row) (hk : k ≤ ri) (hrest : ∀ j, rest[j]? = p.rows[k + j]?) :
    locateRow (p.block i) k rest =
      some (some (ri, si, startOf sr (p.block i), sitesOf sr (p.block i))) := by
  have hok := hl.sub ri si r sr hsub
  obtain ⟨_, _, _, _, hy, _, _, _⟩ := hok.placed i hi
  induction rest generalizing k with
  | nil =>
    have := hrest (ri - k)
    rw [show k + (ri - k) = ri by omega, hsub.1] at this
    simp at this
  | cons row rest ih =>
    have hrow : p.rows[k]? = some row := by
      have := hrest 0
      simpa using this.symm
    have htail : ∀ j, rest[j]? = p.rows[k + 1 + j]? := by
      intro j
      have := hrest (j + 1)
      rw [show k + 1 + j = k + (j + 1) by omega]
      simpa using this
    rcases Nat.lt_or_ge k ri with hlt | hge
    · have hfar := ha.rowsApart k ri row r hrow hsub.1 (by omega)
      rw [locateRow_skip _ _ _ _ (by
        show ¬ |row.yStart - (p.blocks.getD i default).y| < eps
        rw [hy]; exact not_lt.2 hfar)]
      exact ih (k + 1) (by omega) htail
    · have hks : k = ri := by omega
      subst hks
      have hrr : row = r := by
        have := hrow.symm.trans hsub.1
        simpa using this
      subst hrr
      have hnear : |row.yStart - (p.block i).y| < eps := by
        show |row.yStart - (p.blocks.getD i default).y| < eps
        rw [hy]; simp [eps_pos']
      have hfound := @locateSubRow_found p.blocks row i si sr
        (fun sj a hsa => hl.stat.geom k sj row a ⟨hrow, hsa⟩)
        (fun sj a hsa hne => hl.stat.apart k sj si row a sr ⟨hrow, hsa⟩ hsub hne)
        hsub.2 hok hi 0 row.subRows (Nat.zero_le _) (fun j => by simp)
      simp only [locateRow]
      rw [if_pos hnear]
      show (match locateSubRow (p.blocks.getD i default) 0 row.subRows with
        | none => none
        | some (some (subIdx, startSite, sitesOccupied)) =>
          some (some (k, subIdx, startSite, sitesOccupied))
        | some none => locateRow (p.block i) (k + 1) rest) = _
      rw [hfound]
      rfl

/-! ## The re-insertion step finds the subrow of the chosen site -/

theorem canPlaceAt_removeBlock {sr : SubRow} {s n : ℤ} (i : ℕ) (s' n' : ℤ) (hn : 0 ≤ n)
    (hlen : sr.occupiedSites.length = sr.numSites.toNat)
    (h : sr.canPlaceAt s n = some true) : (sr.removeBlock i s' n').canPlaceAt s n = some true := by
  obtain ⟨h1, h2⟩ := (canPlaceAt_eq_true hn).1 h
  refine (canPlaceAt_eq_true hn).2 ⟨h1, ?_⟩
  intro j hj1 hj2
  show readSite (markSites sr.numSites false s' n'.toNat sr.occupiedSites) j = some false
  rw [readSite_markSites _ _ _ _ _ hlen]
  split
  · rfl
  · exact h2 j hj1 hj2

theorem reinsertSubRow_skip (b : Block) (k : ℕ) (a : SubRow) (rest : List SubRow)
    (h : b.x ≥ a.xStart - eps ∧ b.x + b.width ≤ a.xEnd + eps →
      a.canPlaceAt ⌊(b.x - a.xStart) / a.siteWidth + eps⌋ ⌈b.width / a.siteWidth⌉ = some false) :
    reinsertSubRow b k (a :: rest) = reinsertSubRow b (k + 1) rest := by
  by_cases hext : b.x ≥ a.xStart - eps ∧ b.x + b.width ≤ a.xEnd + eps
  · simp only [reinsertSubRow, if_pos hext, h hext]
  · simp only [reinsertSubRow, if_neg hext]

/-- The re-insertion search over the subrows of the target row stops at the
subrow of the chosen site, with that site. -/
theorem reinsertSubRow_found {r : Row} {b : Block} {sb : ℕ} {sr : SubRow} {s : ℤ}
    (hgeom : ∀ (sj : ℕ) (a : SubRow), r.subRows[sj]? = some a → SubGeom r a)
    (hapart : ∀ (sj : ℕ) (a : SubRow), r.subRows[sj]? = some a → sj ≠ sb →
      a.xEnd ≤ sr.xStart ∨ sr.xEnd ≤ a.xStart)
    (hord : ∀ (sj : ℕ) (a : SubRow), r.subRows[sj]? = some a → sj < sb →
      eps < r.siteWidth ∨ a.xEnd ≤ sr.xStart)
    (hsr : r.subRows[sb]? = some sr) (hw : 0 < b.width)
    (hx : b.x = sr.xStart + s * sr.siteWidth) (hs : 0 ≤ s)
    (hcan : sr.canPlaceAt s (sitesOf sr b) = some true)
    (k : ℕ) (rest : List SubRow) (hk : k ≤ sb)
    (hrest : ∀ j, rest[j]? = r.subRows[k + j]?) :
    reinsertSubRow b k rest = some (some (sb, s, sitesOf sr b)) := by
  have hg := hgeom sb sr hsr
  have hsw : 0 < sr.siteWidth := hg.sw_eq ▸ hg.sw_pos
  have hn1 := @sitesOf_pos sr b hsw hw
  obtain ⟨hfit, _⟩ := (canPlaceAt_eq_true (by omega)).1 hcan
  have he0 := eps_pos'
  have hs' : (0 : ℚ) ≤ s := by exact_mod_cast hs
  have hn' : (1 : ℚ) ≤ sitesOf sr b := by exact_mod_cast hn1
  have hfit' : (s : ℚ) + sitesOf sr b ≤ sr.numSites := by exact_mod_cast hfit
  have hmul : ((s : ℚ) + sitesOf sr b) * sr.siteWidth ≤ sr.numSites * sr.siteWidth :=
    mul_le_mul_of_nonneg_right hfit' (le_of_lt hsw)
  have hswn : sr.siteWidth ≤ sitesOf sr b * sr.siteWidth := by
    have := mul_le_mul_of_nonneg_right hn' (le_of_lt hsw)
    linarith
  induction rest generalizing k with
  | nil =>
    have := hrest (sb - k)
    rw [show k + (sb - k) = sb by omega, hsr] at this
    simp at this
  | cons a rest ih =>
    have ha : r.subRows[k]? = some a := by
      have := hrest 0
      simpa using this.symm
    have htail : ∀ j, rest[j]? = r.subRows[k + 1 + j]? := by
      intro j
      have := hrest (j + 1)
      rw [show k + 1 + j = k + (j + 1) by omega]
      simpa using this
    rcases Nat.lt_or_ge k sb with hlt | hge
    · have hga := hgeom k a ha
      have hswa : a.siteWidth = sr.siteWidth := by rw [hga.sw_eq, hg.sw_eq]
      rw [reinsertSubRow_skip _ _ _ _ ?_]
      · exact ih (k + 1) (by omega) htail
      · intro hext
        have hleft : a.xEnd ≤ sr.xStart := by
          rcases hord k a ha hlt with hbig | hl
          · rcases hapart k a ha (by omega) with hl | hr
            · exact hl
            · exfalso
              rw [hg.xEnd_eq] at hr
              have hbig' : eps < sr.siteWidth := by rw [hg.sw_eq]; exact hbig
              have := hext.1
              linarith
          · exact hl
        have hstart : a.numSites ≤ ⌊(b.x - a.xStart) / a.siteWidth + eps⌋ := by
          apply Int.le_floor.2
          have h2 : (a.numSites : ℚ) ≤ (b.x - a.xStart) / a.siteWidth := by
            rw [hswa, le_div_iff₀ hsw]
            rw [hga.xEnd_eq, hswa] at hleft
            have : 0 ≤ (s : ℚ) * sr.siteWidth := Rat.mul_nonneg hs' (le_of_lt hsw)
            linarith
          linarith
        have hna : 1 ≤ ⌈b.width / a.siteWidth⌉ := by
          rw [hswa]; exact hn1
        unfold SubRow.canPlaceAt
        rw [if_pos (by omega)]
    · have hks : k = sb := by omega
      subst hks
      have hasr : a = sr := by
        have := ha.symm.trans hsr
        simpa using this
      subst hasr
      have hfl := @floor_site _ _ a.xStart _ hsw hx
      have hwle := @width_le_sites a b hsw
      have hext : b.x ≥ a.xStart - eps ∧ b.x + b.width ≤ a.xEnd + eps := by
        constructor
        · have : 0 ≤ (s : ℚ) * a.siteWidth := Rat.mul_nonneg hs' (le_of_lt hsw)
          linarith
        · rw [hg.xEnd_eq]
          linarith
      simp only [reinsertSubRow]
      rw [if_pos hext, hfl]
      have : a.canPlaceAt s ⌈b.width / a.siteWidth⌉ = some true := hcan
      rw [this]
      rfl

/-! ## Every update keeps the shape of the rows -/

theorem setSubRow_invalid {rows : List Row} {ri si : ℕ} (new : SubRow)
    (h : ¬ ∃ r old, IsSub rows ri si r old) : setSubRow rows ri si new = rows := by
  unfold setSubRow
  rw [List.get?_eq_getElem?]
  cases hr : rows[ri]? with
  | none => rfl
  | some r =>
    simp only
    have hs : r.subRows[si]? = none := by
      cases hsr : r.subRows[si]? with
      | none => rfl
      | some old => exact absurd ⟨r, old, hr, hsr⟩ h
    have hlen : r.subRows.length ≤ si := List.getElem?_eq_none_iff.1 hs
    rw [List.set_eq_of_length_le hlen]
    apply List.ext_getElem?
    intro j
    rw [List.getElem?_set]
    split
    · rename_i hj
      subst hj
      have hlt : ri < rows.length := by
        by_contra hc
        rw [List.getElem?_eq_none (by omega)] at hr
        cases hr
      rw [if_pos hlt, hr]
    · rfl

theorem sameRows_setSubRow_getD (rows : List Row) (ri si : ℕ) (new : SubRow)
    (h : SameSub ((rows.getD ri default).subRows.getD si default) new) :
    SameRows rows (setSubRow rows ri si new) := by
  by_cases hv : ∃ r old, IsSub rows ri si r old
  · obtain ⟨r, old, hold⟩ := hv
    rw [subD_of_isSub hold] at h
    exact sameRows_setSubRow hold h
  · rw [setSubRow_invalid new hv]
    exact sameRows_refl _

theorem insertAt_sameRows (p : Placement) (i ri si : ℕ) (s n : ℤ) :
    SameRows p.rows (insertAt p i ri si s n).rows :=
  sameRows_setSubRow_getD _ _ _ _ (sameSub_insertBlock _ _ _ _ _)

theorem removeAt_sameRows (p : Placement) (i ri si : ℕ) (s n : ℤ) :
    SameRows p.rows (removeAt p i ri si s n).rows :=
  sameRows_setSubRow_getD _ _ _ _ (sameSub_removeBlock _ _ _ _)

/-! ## A relocation keeps the state legal -/

/-- After the removal of a listed block and the move to a placeable candidate,
the re-insertion search returns the site of the candidate and the insertion
gives a legal state that lists the same blocks as before. -/
theorem relocate_legal {p p1 p2 : Placement} {i ri si rbi sb : ℕ} {r rb : Row}
    {sr srb : SubRow} {s : ℤ} {x y : ℚ}
    (hl : Legal p) (ha : Apart p.rows) (hsub : IsSub p.rows ri si r sr)
    (hi : i ∈ sr.placedBlocks)
    (hp1 : p1 = removeAt p i ri si (startOf sr (p.block i)) (sitesOf sr (p.block i)))
    (hp2 : p2 = moveTo p1 i x y)
    (hsubb : IsSub p.rows rbi sb rb srb) (hs0 : 0 ≤ s)
    (hcan : srb.canPlaceAt s ⌈(p.block i).width / rb.siteWidth⌉ = some true)
    (hbx : x = srb.xStart + s * srb.siteWidth) (hby : y = rb.yStart)
    (hbh : (p.block i).height ≤ rb.height + eps) :
    reinsertSubRow (p2.block i) 0 (p2.rows.getD rbi default).subRows
      = some (some (sb, s, ⌈(p.block i).width / rb.siteWidth⌉)) ∧
    Legal (insertAt p2 i rbi sb s ⌈(p.block i).width / rb.siteWidth⌉) ∧
    ∀ j, Listed (insertAt p2 i rbi sb s ⌈(p.block i).width / rb.siteWidth⌉).rows j ↔
      Listed p.rows j := by
  have hpl := (hl.lists.sub ri si r sr hsub).placed i hi
  have hilt : i < p.blocks.length := hpl.1
  have hmov : (p.block i).isFixed = false := hpl.2.1
  have hw : 0 < (p.block i).width := hpl.2.2.1
  obtain ⟨hl1, hnl1, hiff1⟩ := lists_removeAt hl.lists hsub hi
  rw [← hp1] at hl1 hnl1 hiff1
  have hl2 : Lists p2 := hp2 ▸ lists_moveTo hl1 hnl1 x y
  have hrows2 : p2.rows = p1.rows := by rw [hp2]; rfl
  have hnl2 : ¬ Listed p2.rows i := by rw [hrows2]; exact hnl1
  have hlen1 : p1.blocks.length = p.blocks.length := by rw [hp1]; rfl
  have hb2 : p2.block i = { p.block i with x := x, y := y } := by
    rw [hp2, moveTo_block, if_pos ⟨rfl, by rw [hlen1]; exact hilt⟩, hp1]
    rfl
  have hother : ∀ j, j ≠ i → p2.block j = p.block j := by
    intro j hj
    rw [hp2, moveTo_block, if_neg (fun hc => hj hc.1), hp1]
    rfl
  have hrows1 : p1.rows = setSubRow p.rows ri si
      (sr.removeBlock i (startOf sr (p.block i)) (sitesOf sr (p.block i))) := by
    rw [hp1]; exact removeAt_rows _ _ hsub
  have hgb := hl.lists.stat.geom rbi sb rb srb hsubb
  obtain ⟨rb', e1, e2, e3, hsubb'⟩ := isSub_setSubRow_of ri si
    (sr.removeBlock i (startOf sr (p.block i)) (sitesOf sr (p.block i))) hsubb
  rw [← hrows1, ← hrows2] at hsubb'
  have hsw' : 0 < srb.siteWidth := hgb.sw_eq ▸ hgb.sw_pos
  have hn0 : 0 ≤ ⌈(p.block i).width / rb.siteWidth⌉ := by
    have := Int.ceil_pos.2 (div_pos hw hgb.sw_pos)
    omega
  -- the subrow of the candidate after the removal
  generalize hdef : (if rbi = ri ∧ sb = si then
      sr.removeBlock i (startOf sr (p.block i)) (sitesOf sr (p.block i)) else srb) = srb'
    at hsubb'
  have hsame : srb'.xStart = srb.xStart ∧ srb'.siteWidth = srb.siteWidth ∧
      srb'.canPlaceAt s ⌈(p.block i).width / rb.siteWidth⌉ = some true := by
    by_cases hc : rbi = ri ∧ sb = si
    · rw [if_pos hc] at hdef
      obtain ⟨rfl, rfl⟩ := hc
      obtain ⟨rfl, rfl⟩ := isSub_unique hsubb hsub
      rw [← hdef]
      exact ⟨rfl, rfl, canPlaceAt_removeBlock _ _ _ hn0 hgb.len hcan⟩
    · rw [if_neg hc] at hdef
      rw [← hdef]
      exact ⟨rfl, rfl, hcan⟩
  obtain ⟨hxs, hsws, hcan'⟩ := hsame
  have hx2 : (p2.block i).x = srb'.xStart + s * srb'.siteWidth := by
    rw [hb2, hxs, hsws]; exact hbx
  have hn2 : sitesOf srb' (p2.block i) = ⌈(p.block i).width / rb.siteWidth⌉ := by
    unfold sitesOf
    rw [hb2, hsws, hgb.sw_eq]
  have hw2 : 0 < (p2.block i).width := by rw [hb2]; exact hw
  have hap2 : Apart p2.rows := by
    rw [hrows2, hp1]
    exact apart_of_sameRows ha (removeAt_sameRows _ _ _ _ _ _)
  have hre := @reinsertSubRow_found rb' (p2.block i) sb srb' s
    (fun sj a hsa => hl2.stat.geom rbi sj rb' a ⟨hsubb'.1, hsa⟩)
    (fun sj a hsa hne => hl2.stat.apart rbi sj sb rb' a srb' ⟨hsubb'.1, hsa⟩ hsubb' hne)
    (fun sj a hsa hlt => hap2.ordered rbi sj sb rb' a srb' ⟨hsubb'.1, hsa⟩ hsubb' hlt)
    hsubb'.2 hw2 hx2 hs0 (by rw [hn2]; exact hcan') 0 rb'.subRows (Nat.zero_le _)
    (fun j => by simp)
  rw [hn2] at hre
  have hins := @lists_insertAt p2 i rbi sb rb' srb' s
    hl2 hnl2 hsubb' (by rw [hp2]; simp [moveTo, hlen1, hilt])
    (by rw [hb2]; exact hmov) hw2 (by rw [hb2, ← e2]; exact hbh)
    (by rw [hb2, ← e1]; exact hby) hx2 hs0 (by rw [hn2]; exact hcan')
  rw [hn2] at hins
  refine ⟨by rw [rowD_of_isSub hsubb']; exact hre, ⟨hins.1, ?_⟩, ?_⟩
  · intro j hj
    have hj' : ¬ (Listed p2.rows j ∨ j = i) := fun hc => hj ((hins.2 j).2 hc)
    push_neg at hj'
    rw [insertAt_block, hother j hj'.2]
    apply hl.home j
    rw [hrows2] at hj'
    exact fun hc => hj'.1 ((hiff1 j hj'.2).2 hc)
  · intro j
    rw [hins.2 j, hrows2]
    by_cases hji : j = i
    · subst hji
      exact ⟨fun _ => ⟨ri, si, r, sr, hsub, hi⟩, fun _ => Or.inr rfl⟩
    · rw [hiff1 j hji]
      exact ⟨fun h => h.resolve_right hji, Or.inl⟩

/-- One cell step of the refinement returns a legal state with the same blocks listed. -/
theorem optimizeBlock_legal {p : Placement} (hl : Legal p) (ha : Apart p.rows) (i : ℕ) :
    ∃ p' moved, optimizeBlock p i = some (p', moved) ∧ Legal p' ∧ Apart p'.rows ∧
      ∀ j, Listed p'.rows j ↔ Listed p.rows j := by
  obtain ⟨best, hscan, hcand⟩ := scan_cand hl.lists.stat i
  by_cases hlt : best.disp < (p.block i).disp - eps
  swap
  · refine ⟨p, false, ?_, hl, ha, fun j => Iff.rfl⟩
    unfold optimizeBlock
    simp only [hscan]
    rw [if_neg hlt]
  · obtain ⟨sb, rb, srb, s, hsubb, hs0, hcan, hbx, hby, hbh, _⟩ := hcand hlt
    have hbinv : BestInv (p.block i) best := scanRows_bestInv (bestInv_init _ _) hscan
    have hlisted : Listed p.rows i := by
      by_contra hn
      obtain ⟨hx, hy⟩ := hl.home i hn
      have hd := disp_eq_zero hx hy
      have h0 : 0 ≤ best.disp := by rw [hbinv]; positivity
      have := eps_pos
      rw [hd] at hlt
      linarith
    obtain ⟨ri, si, r, sr, hsub, hi⟩ := hlisted
    have hloc := locateRow_found hl.lists ha hsub hi 0 p.rows (Nat.zero_le _)
      (fun j => by simp)
    obtain ⟨hre, hlegal, hiff⟩ := relocate_legal (x := best.x) (y := best.y) hl ha hsub hi
      rfl rfl hsubb hs0 hcan hbx hby hbh
    refine ⟨_, true, ?_, hlegal, ?_, hiff⟩
    · unfold optimizeBlock
      simp only [hscan]
      rw [if_pos hlt]
      simp only [hloc, hre]
    · exact apart_of_sameRows ha (sameRows_trans (removeAt_sameRows _ _ _ _ _ _)
        (insertAt_sameRows _ _ _ _ _ _))

theorem optimizeBlocks_legal {order : List ℕ} {p : Placement} (hl : Legal p)
    (ha : Apart p.rows) (imp : Bool) :
    ∃ p' imp', optimizeBlocks order p imp = some (p', imp') ∧ Legal p' ∧ Apart p'.rows ∧
      ∀ j, Listed p'.rows j ↔ Listed p.rows j := by
  induction order generalizing p imp with
  | nil => exact ⟨p, imp, rfl, hl, ha, fun j => Iff.rfl⟩
  | cons i rest ih =>
    obtain ⟨p1, m, h1, hl1, ha1, hiff1⟩ := optimizeBlock_legal hl ha i
    obtain ⟨p', imp', h', hl', ha', hiff'⟩ := ih hl1 ha1 (imp || m)
    refine ⟨p', imp', ?_, hl', ha', fun j => (hiff' j).trans (hiff1 j)⟩
    simp only [optimizeBlocks, h1]
    exact h'

theorem optimizeLoop_legal (k : ℕ) {p : Placement} (hl : Legal p) (ha : Apart p.rows) :
    ∃ p' c, optimizeLoop k p = some (p', c) ∧ Legal p' ∧ Apart p'.rows ∧
      ∀ j, Listed p'.rows j ↔ Listed p.rows j := by
  induction k generalizing p with
  | zero => exact ⟨p, 0, rfl, hl, ha, fun j => Iff.rfl⟩
  | succ k ih =>
    obtain ⟨p1, imp, h1, hl1, ha1, hiff1⟩ :=
      @optimizeBlocks_legal (optimizeOrder p) p hl ha false
    have hit : optimizeIteration p = some (p1, imp) := h1
    cases imp with
    | false =>
      refine ⟨p1, 1, ?_, hl1, ha1, hiff1⟩
      simp only [optimizeLoop, hit]
    | true =>
      obtain ⟨p', c, h', hl', ha', hiff'⟩ := ih hl1 ha1
      refine ⟨p', c + 1, ?_, hl', ha', fun j => (hiff' j).trans (hiff1 j)⟩
      simp only [optimizeLoop, hit, h']

/-- The refinement pass returns a legal state that lists the blocks it found listed. -/
theorem optimizePlacement_legal {p : Placement} (hl : Legal p) (ha : Apart p.rows) :
    ∃ p', optimizePlacement p = some p' ∧ Legal p' ∧
      ∀ j, Listed p'.rows j ↔ Listed p.rows j := by
  obtain ⟨p', c, h, hl', _, hiff⟩ := optimizeLoop_legal 6 hl ha
  exact ⟨p', by simp [optimizePlacement, h], hl', hiff⟩

theorem apart_of_separated {p : Placement} (h : Separated p) : Apart p.rows := by
  obtain ⟨h1, h2⟩ := h
  constructor
  · intro ri rj r r' hr hr' hne
    rcases Nat.lt_or_gt_of_ne hne with hlt | hgt
    · exact pairwise_getElem? h1 hr hr' hlt
    · have := pairwise_getElem? h1 hr' hr hgt
      rw [abs_sub_comm]; exact this
  · intro ri si sj r sr sr' hs hs' hlt
    rcases h2 r (List.getElem?_mem hs.1) with hbig | hord
    · exact Or.inl hbig
    · exact Or.inr (pairwise_getElem? hord hs.2 hs'.2 hlt)

theorem placeBlock_sameRows {p : Placement} {j : ℕ} {p' : Placement} {placed : Bool}
    (h : placeBlock p j = some (p', placed)) : SameRows p.rows p'.rows := by
  rcases placeBlock_cases h with ⟨_, rfl⟩ | ⟨_, ri, _, _, si, _, s, _, rfl⟩
  · exact sameRows_refl _
  · exact insertAt_sameRows _ _ _ _ _ _

theorem placeAll_sameRows {order : List ℕ} {p p' : Placement}
    (h : placeAll order p = some p') : SameRows p.rows p'.rows := by
  induction order generalizing p with
  | nil =>
    simp only [placeAll, Option.some.injEq] at h
    subst h; exact sameRows_refl _
  | cons j rest ih =>
    simp only [placeAll] at h
    split at h
    · cases h
    · rename_i p1 b hb
      exact sameRows_trans (placeBlock_sameRows hb) (ih h)

/-- Main invariant: on a well-formed input whose rows and subrows are separated
the two passes return a legal state, and the refinement keeps every block that
the initial placer listed in a list. -/
theorem legalize_legal {p : Placement} (hw : WellFormed p) (hs : Separated p) :
    ∃ p1 p2, initialPlacement p = some p1 ∧ optimizePlacement p1 = some p2 ∧
      legalize p = some p2 ∧ Legal p1 ∧ Legal p2 ∧
      ∀ j, Listed p2.rows j ↔ Listed p1.rows j := by
  obtain ⟨p1, h1, hl1⟩ := initialPlacement_legal hw
  have ha1 : Apart p1.rows := apart_of_sameRows (apart_of_separated hs) (placeAll_sameRows h1)
  obtain ⟨p2, h2, hl2, hiff⟩ := optimizePlacement_legal hl1 ha1
  exact ⟨p1, p2, h1, h2, by simp only [legalize, h1]; exact h2, hl1, hl2, hiff⟩

theorem optimizeBlock_sameRows {p : Placement} {j : ℕ} {p' : Placement} {moved : Bool}
    (h : optimizeBlock p j = some (p', moved)) : SameRows p.rows p'.rows := by
  rcases optimizeBlock_cases h with ⟨_, rfl⟩ | ⟨best, ri, si, s, n, _, _, _, hc⟩
  · exact sameRows_refl _
  · have h1 : SameRows p.rows (moveTo (removeAt p j ri si s n) j best.x best.y).rows :=
      removeAt_sameRows _ _ _ _ _ _
    rcases hc with ⟨_, _, rfl⟩ | ⟨_, si', s', n', _, rfl⟩
    · exact h1
    · exact sameRows_trans h1 (insertAt_sameRows _ _ _ _ _ _)

theorem optimizeBlocks_sameRows {order : List ℕ} {p p' : Placement} {imp imp' : Bool}
    (h : optimizeBlocks order p imp = some (p', imp')) : SameRows p.rows p'.rows := by
  induction order generalizing p imp with
  | nil =>
    simp only [optimizeBlocks, Option.some.injEq, Prod.mk.injEq] at h
    rw [← h.1]; exact sameRows_refl _
  | cons j rest ih =>
    simp only [optimizeBlocks] at h
    split at h
    · cases h
    · rename_i p1 m hm
      exact sameRows_trans (optimizeBlock_sameRows hm) (ih h)

/-! ## The states of the concrete inputs

Each state that a pass computes from a concrete input, evaluated once and
written out; the evaluations below rewrite with these equations. -/

/-- The state of `nearInput` after the initial placer, written out. -/
theorem nearMid_eq :
    nearMid =
      ⟨[⟨"a", 1, 10, 0, 0, 0, 0, false⟩,
        ⟨"b", 1, 10, 1, 0, 0, 0, false⟩,
        ⟨"c", 1, 10, 0, (1 / 2000000), 2, (1 / 2000000), false⟩],
       [⟨0, 10, 1, 1,
          [⟨0, 4, 1, 4, [true, true, false, false], [0, 1]⟩]⟩,
        ⟨(1 / 2000000), 10, 1, 1,
          [⟨0, 2, 1, 2, [true, false], [2]⟩]⟩],
       4, 10⟩ := by
  decide!

/-- The state of `nearInput` after both passes, written out. -/
theorem nearOut_eq :
    nearOut =
      ⟨[⟨"a", 1, 10, 0, 0, 0, 0, false⟩,
        ⟨"b", 1, 10, 0, 0, 0, 0, false⟩,
        ⟨"c", 1, 10, 2, 0, 2, (1 / 2000000), false⟩],
       [⟨0, 10, 1, 1,
          [⟨0, 4, 1, 4, [true, false, true, false], [0, 1, 2]⟩]⟩,
        ⟨(1 / 2000000), 10, 1, 1,
          [⟨0, 2, 1, 2, [true, false], [2]⟩]⟩],
       4, 10⟩ := by
  decide!

/-- The state of `fixedInput` after the initial placer, written out. -/
theorem fixedMid_eq :
    fixedMid =
      ⟨[⟨"t", 4, 10, 5, 10, 5, 10, true⟩,
        ⟨"a", 3, 10, 0, 10, (27 / 5), 10, false⟩],
       [⟨0, 10, 1, 1,
          [⟨0, 8, 1, 8, [false, false, false, false, false, false, false, false], []⟩]⟩,
        ⟨10, 10, 1, 1,
          [⟨0, 5, 1, 5, [true, true, true, false, false], [1]⟩,
           ⟨9, 13, 1, 4, [false, false, false, false], []⟩]⟩],
       13, 20⟩ := by
  decide!

/-- The state of `fixedInput` after both passes, written out. -/
theorem fixedOut_eq :
    fixedOut =
      ⟨[⟨"t", 4, 10, 5, 10, 5, 10, true⟩,
        ⟨"a", 3, 10, 2, 10, (27 / 5), 10, false⟩],
       [⟨0, 10, 1, 1,
          [⟨0, 8, 1, 8, [false, false, false, false, false, false, false, false], []⟩]⟩,
        ⟨10, 10, 1, 1,
          [⟨0, 5, 1, 5, [false, false, true, true, true], [1]⟩,
           ⟨9, 13, 1, 4, [false, false, false, false], []⟩]⟩],
       13, 20⟩ := by
  decide!

/-- The state of `tightInput` after the initial placer, written out. -/
theorem tightMid_eq :
    tightMid =
      ⟨[⟨"big", 4, 10, 0, 0, 0, 0, false⟩,
        ⟨"small", 2, 10, 0, 0, 1, 0, false⟩],
       [⟨0, 10, 1, 1,
          [⟨0, 3, 1, 3, [true, true, false], [1]⟩]⟩],
       3, 10⟩ := by
  decide!

/-- The state of `tightInput` after both passes, written out. -/
theorem tightOut_eq :
    tightOut =
      ⟨[⟨"big", 4, 10, 0, 0, 0, 0, false⟩,
        ⟨"small", 2, 10, 0, 0, 1, 0, false⟩],
       [⟨0, 10, 1, 1,
          [⟨0, 3, 1, 3, [true, true, false], [1]⟩]⟩],
       3, 10⟩ := by
  decide!

/-- The state of `singleInput` after the initial placer, written out. -/
theorem singleMid_eq :
    singleMid =
      ⟨[⟨"a", 3, 10, 0, 0, (27 / 5), 0, false⟩],
       [⟨0, 10, 1, 1,
          [⟨0, 100, 1, 100, List.replicate 3 true ++ List.replicate 97 false, [0]⟩]⟩],
       100, 10⟩ := by
  decide!

/-- The state of `singleInput` after both passes, written out. -/
theorem singleOut_eq :
    singleOut =
      ⟨[⟨"a", 3, 10, 5, 0, (27 / 5), 0, false⟩],
       [⟨0, 10, 1, 1,
          [⟨0, 100, 1, 100,
              List.replicate 5 false ++ List.replicate 3 true ++ List.replicate 92 false, [0]⟩]⟩],
       100, 10⟩ := by
  decide!

/-- The state of `strayInput` after the initial placer, written out. -/
theorem strayMid_eq :
    strayMid =
      ⟨[⟨"a", 3, 10, 0, 0, (12 / 5), 0, false⟩,
        ⟨"c", 1, 10, (1 / 2), (1 / 2000000), (11 / 2), (1 / 2000000), false⟩],
       [⟨0, 10, 1, 1,
          [⟨0, 8, 1, 8, [true, true, true, false, false, false, false, false], [0]⟩]⟩,
        ⟨(1 / 2000000), 10, 1, 1,
          [⟨(1 / 2), (17 / 2), 1, 8,
              [true, false, false, false, false, false, false, false], [1]⟩]⟩],
       9, 10⟩ := by
  decide!

/-- The state of `strayInput` after the first cell step of the refinement, written out. -/
theorem strayStep_eq :
    strayStep =
      ⟨[⟨"a", 3, 10, 0, 0, (12 / 5), 0, false⟩,
        ⟨"c", 1, 10, (11 / 2), (1 / 2000000), (11 / 2), (1 / 2000000), false⟩],
       [⟨0, 10, 1, 1,
          [⟨0, 8, 1, 8, [false, true, true, false, false, false, false, false], [0]⟩]⟩,
        ⟨(1 / 2000000), 10, 1, 1,
          [⟨(1 / 2), (17 / 2), 1, 8,
              [true, false, false, false, false, true, false, false], [1, 1]⟩]⟩],
       9, 10⟩ := by
  decide!

/-- The state of `windowInput` after the initial placer, written out. -/
theorem windowMid_eq :
    windowMid =
      ⟨[⟨"x", 25, 10, 0, -10, 0, 0, false⟩,
        ⟨"y", 10, 10, 6, 0, 40, -4, false⟩],
       [⟨0, 10, 1, 1,
          [⟨6, 40, 1, 34, List.replicate 10 true ++ List.replicate 24 false, [1]⟩]⟩,
        ⟨-10, 10, 1, 1,
          [⟨0, 50, 1, 50, List.replicate 25 true ++ List.replicate 25 false, [0]⟩]⟩],
       50, 10⟩ := by
  decide!

/-- The state of `windowInput` after both passes, written out. -/
theorem windowOut_eq :
    windowOut =
      ⟨[⟨"x", 25, 10, 0, -10, 0, 0, false⟩, ⟨"y", 10, 10, 40, -10, 40, -4, false⟩],
       [⟨0, 10, 1, 1, [⟨6, 40, 1, 34, List.replicate 34 false, []⟩]⟩,
        ⟨-10, 10, 1, 1,
          [⟨0, 50, 1, 50,
            List.replicate 25 true ++ List.replicate 15 false ++ List.replicate 10 true,
            [0, 1]⟩]⟩],
       50, 10⟩ := by
  decide!

/-- The state of `overlapInput` after the initial placer, written out. -/
theorem overlapMid_eq :
    overlapMid =
      ⟨[⟨"a", 2, 10, 0, 0, 1, 0, false⟩,
        ⟨"c", 2, 10, 0, (1 / 2000000), 5, (1 / 2000000), false⟩],
       [⟨0, 10, 1, 1,
          [⟨0, 8, 1, 8, [true, true, false, false, false, false, false, false], [0]⟩]⟩,
        ⟨(1 / 2000000), 10, 1, 1,
          [⟨0, 8, 1, 8, [true, true, false, false, false, false, false, false], [1]⟩]⟩],
       8, 10⟩ := by
  decide!

/-- The state of `overlapInput` after the first cell step of the refinement, written out. -/
theorem overlapStep_eq :
    overlapStep =
      ⟨[⟨"a", 2, 10, 0, 0, 1, 0, false⟩,
        ⟨"c", 2, 10, 5, 0, 5, (1 / 2000000), false⟩],
       [⟨0, 10, 1, 1,
          [⟨0, 8, 1, 8, [false, false, false, false, false, true, true, false], [0, 1]⟩]⟩,
        ⟨(1 / 2000000), 10, 1, 1,
          [⟨0, 8, 1, 8, [true, true, false, false, false, false, false, false], [1]⟩]⟩],
       8, 10⟩ := by
  decide!

/-- The state of `overlapInput` after the second cell step of the refinement, written out. -/
theorem overlapOut_eq :
    overlapOut =
      ⟨[⟨"a", 2, 10, 1, 0, 1, 0, false⟩,
        ⟨"c", 2, 10, 5, 0, 5, (1 / 2000000), false⟩],
       [⟨0, 10, 1, 1,
          [⟨0, 8, 1, 8, [false, true, true, false, false, true, true, false], [0, 0, 1]⟩]⟩,
        ⟨(1 / 2000000), 10, 1, 1,
          [⟨0, 8, 1, 8, [false, false, false, false, false, false, false, false], [1]⟩]⟩],
       8, 10⟩ := by
  decide!

/-- The state of `shiftedInput` after the initial placer, written out. -/
theorem shiftedMid_eq :
    shiftedMid =
      ⟨[⟨"a", 2, 10, 0, 0, 1, 0, false⟩],
       [⟨0, 10, 1, 1,
          [⟨0, 10, 1, 10,
              [true, true, false, false, false, false, false, false, false, false], [0]⟩]⟩],
       10, 10⟩ := by
  decide!

/-- The state of `tinyInput` after the initial placer, written out. -/
theorem tinyMid_eq :
    tinyMid =
      ⟨[⟨"c", (1 / 10000000), 1, 0, 0, 12, (49 / 10), false⟩,
        ⟨"a", (1 / 10000000), 1, (120000001 / 10000000), 10, (120000001 / 10000000), 10, false⟩],
       [⟨0, 1, 1, 1,
          [⟨0, 3, 1, 3, [true, false, false], [0]⟩]⟩,
        ⟨10, 1, (1 / 10000000), (1 / 10000000),
          [⟨(120000001 / 10000000), (60000001 / 5000000), (1 / 10000000), 1, [true], [1]⟩,
           ⟨12, (120000001 / 10000000), (1 / 10000000), 1, [false], []⟩]⟩],
       13, 11⟩ := by
  decide!

/-- The state of `tinyInput` after the removal and the move of the first cell step, written out. -/
theorem tinyGone_eq :
    tinyGone =
      ⟨[⟨"c", (1 / 10000000), 1, 12, 10, 12, (49 / 10), false⟩,
        ⟨"a", (1 / 10000000), 1, (120000001 / 10000000), 10, (120000001 / 10000000), 10, false⟩],
       [⟨0, 1, 1, 1,
          [⟨0, 3, 1, 3, [false, false, false], []⟩]⟩,
        ⟨10, 1, (1 / 10000000), (1 / 10000000),
          [⟨(120000001 / 10000000), (60000001 / 5000000), (1 / 10000000), 1, [true], [1]⟩,
           ⟨12, (120000001 / 10000000), (1 / 10000000), 1, [false], []⟩]⟩],
       13, 11⟩ := by
  decide!

/-- The state of `crowdedInput` after the initial placer, written out. -/
theorem crowdedMid_eq :
    crowdedMid =
      ⟨[⟨"a", 5, 10, 0, 0, 3, 0, false⟩,
        ⟨"b", 5, 10, 5, 0, 4, 0, false⟩],
       [⟨0, 10, 1, 1,
          [⟨0, 20, 1, 20, List.replicate 10 true ++ List.replicate 10 false, [0, 1]⟩]⟩],
       20, 10⟩ := by
  decide!

/-- The state of `crowdedInput` after both passes, written out. -/
theorem crowdedOut_eq :
    crowdedOut =
      ⟨[⟨"a", 5, 10, 0, 0, 3, 0, false⟩,
        ⟨"b", 5, 10, 5, 0, 4, 0, false⟩],
       [⟨0, 10, 1, 1,
          [⟨0, 20, 1, 20, List.replicate 10 true ++ List.replicate 10 false, [0, 1]⟩]⟩],
       20, 10⟩ := by
  decide!

/-- The state of `lowRowInput` after the initial placer, written out. -/
theorem lowRowMid_eq :
    lowRowMid =
      ⟨[⟨"a", 2, 10, 0, 10, 3, 1, false⟩],
       [⟨0, 8, 1, 1,
          [⟨0, 10, 1, 10,
              [false, false, false, false, false, false, false, false, false, false], []⟩]⟩,
        ⟨10, 12, 1, 1,
          [⟨0, 10, 1, 10,
              [true, true, false, false, false, false, false, false, false, false], [0]⟩]⟩],
       10, 22⟩ := by
  decide!

/-- On the well-formed input `tinyInput` the run of the two passes has no
defined result. -/
theorem tiny_run_undefined : WellFormed tinyInput ∧ legalize tinyInput = none :=
  ⟨by decide!, by decide!⟩

/-! ## From the invariant to the properties of a legal placement -/

theorem isSub_of_mem {p : Placement} {r : Row} {sr : SubRow} (hr : r ∈ p.rows)
    (hsr : sr ∈ r.subRows) : ∃ ri si, IsSub p.rows ri si r sr := by
  obtain ⟨ri, hri⟩ := List.mem_iff_getElem?.1 hr
  obtain ⟨si, hsi⟩ := List.mem_iff_getElem?.1 hsr
  exact ⟨ri, si, hri, hsi⟩

theorem siteCoord_eq {sr : SubRow} {b : Block} (hsw : 0 < sr.siteWidth)
    (hx : b.x = sr.xStart + startOf sr b * sr.siteWidth) :
    siteCoord sr b = (startOf sr b : ℚ) := by
  unfold siteCoord
  rw [hx]
  field_simp

/-- What the invariant says of one listed block, in rational site coordinates. -/
theorem placed_facts {p : Placement} (hl : Legal p) {ri si : ℕ} {r : Row} {sr : SubRow}
    (hsub : IsSub p.rows ri si r sr) {i : ℕ} (hi : i ∈ sr.placedBlocks) :
    0 < sr.siteWidth ∧ siteCoord sr (p.block i) = (startOf sr (p.block i) : ℚ) ∧
    0 ≤ startOf sr (p.block i) ∧
    startOf sr (p.block i) + sitesOf sr (p.block i) ≤ sr.numSites ∧
    (p.block i).x = sr.xStart + startOf sr (p.block i) * sr.siteWidth ∧
    (p.block i).width ≤ sitesOf sr (p.block i) * sr.siteWidth ∧
    (p.block i).y = r.yStart ∧ (p.block i).height ≤ r.height + eps ∧
    sr.xEnd = sr.xStart + sr.numSites * sr.siteWidth := by
  have hg := hl.lists.stat.geom ri si r sr hsub
  have hsw : 0 < sr.siteWidth := hg.sw_eq ▸ hg.sw_pos
  have hpl := (hl.lists.sub ri si r sr hsub).placed i hi
  have hx : (p.block i).x = sr.xStart + startOf sr (p.block i) * sr.siteWidth := hpl.2.2.2.2.2.2.2
  exact ⟨hsw, siteCoord_eq hsw hx, hpl.2.2.2.2.2.1, hpl.2.2.2.2.2.2.1, hx,
    width_le_sites hsw, hpl.2.2.2.2.1, hpl.2.2.2.1, hg.xEnd_eq⟩

theorem legal_noOverlap {p : Placement} (hl : Legal p) : NoOverlap p := by
  intro r hr sr hsr i hi j hj hij
  obtain ⟨ri, si, hsub⟩ := isSub_of_mem hr hsr
  obtain ⟨hsw, ci, _, _, xi, wi, _, _, _⟩ := placed_facts hl hsub hi
  obtain ⟨_, cj, _, _, xj, wj, _, _, _⟩ := placed_facts hl hsub hj
  have hd := (hl.lists.sub ri si r sr hsub).disjoint i hi j hj hij
  rw [ci, cj]
  rcases hd with hd | hd
  · have hd' : (startOf sr (p.block i) : ℚ) + sitesOf sr (p.block i)
        ≤ startOf sr (p.block j) := by exact_mod_cast hd
    refine ⟨Or.inl hd', Or.inl ?_⟩
    have := mul_le_mul_of_nonneg_right hd' (le_of_lt hsw)
    rw [xi, xj]
    linarith
  · have hd' : (startOf sr (p.block j) : ℚ) + sitesOf sr (p.block j)
        ≤ startOf sr (p.block i) := by exact_mod_cast hd
    refine ⟨Or.inr hd', Or.inr ?_⟩
    have := mul_le_mul_of_nonneg_right hd' (le_of_lt hsw)
    rw [xi, xj]
    linarith

theorem legal_contained {p : Placement} (hl : Legal p) : Contained p := by
  intro r hr sr hsr i hi
  obtain ⟨ri, si, hsub⟩ := isSub_of_mem hr hsr
  obtain ⟨hsw, _, s0, s1, xi, wi, _, hh, he⟩ := placed_facts hl hsub hi
  have s0' : (0 : ℚ) ≤ startOf sr (p.block i) := by exact_mod_cast s0
  have s1' : (startOf sr (p.block i) : ℚ) + sitesOf sr (p.block i) ≤ sr.numSites := by
    exact_mod_cast s1
  have h1 := mul_le_mul_of_nonneg_right s1' (le_of_lt hsw)
  have h2 := Rat.mul_nonneg s0' (le_of_lt hsw)
  have := eps_pos
  refine ⟨?_, ?_, hh⟩
  · rw [he, xi]; linarith
  · rw [xi]; linarith

theorem legal_pinned {p : Placement} (hl : Legal p) {i : ℕ} (hi : Listed p.rows i) :
    Pinned p i := by
  obtain ⟨ri, si, r, sr, hsub, hm⟩ := hi
  obtain ⟨_, ci, s0, s1, _, _, hy, _, _⟩ := placed_facts hl hsub hm
  refine ⟨ri, si, r, sr, hsub, hm, ?_, ⟨startOf sr (p.block i), ci, s0, by omega⟩, hy⟩
  intro rj sj r' sr' hsub' hm'
  exact hl.lists.unique i rj sj r' sr' ri si r sr hsub' hsub hm' hm

theorem legal_bitmapConsistent {p : Placement} (hl : Legal p) : BitmapConsistent p := by
  intro r hr sr hsr
  obtain ⟨ri, si, hsub⟩ := isSub_of_mem hr hsr
  have hg := hl.lists.stat.geom ri si r sr hsub
  have hok := hl.lists.sub ri si r sr hsub
  refine ⟨?_, hok.sorted⟩
  intro k
  have hread : sr.occupiedSites.get? k = readSite sr.occupiedSites (k : ℤ) := by
    unfold readSite
    have : ¬ ((k : ℤ) < 0) := by omega
    simp [this]
  have hcov : ∀ i ∈ sr.placedBlocks,
      (siteCoord sr (p.block i) ≤ k ∧
        (k : ℚ) < siteCoord sr (p.block i) + sitesOf sr (p.block i)) ↔
      (startOf sr (p.block i) ≤ (k : ℤ) ∧
        (k : ℤ) < startOf sr (p.block i) + sitesOf sr (p.block i)) := by
    intro i hi
    obtain ⟨_, ci, _, _, _, _, _, _, _⟩ := placed_facts hl hsub hi
    rw [ci]
    constructor
    · rintro ⟨h1, h2⟩
      exact ⟨by exact_mod_cast h1, by exact_mod_cast h2⟩
    · rintro ⟨h1, h2⟩
      exact ⟨by exact_mod_cast h1, by exact_mod_cast h2⟩
  by_cases hk : (k : ℤ) < sr.numSites
  · rw [hread, hok.bits k (by omega) hk]
    constructor
    · rintro ⟨i, hi, hc⟩
      exact ⟨i, hi, (hcov i hi).2 hc⟩
    · rintro ⟨i, hi, hc⟩
      exact ⟨i, hi, (hcov i hi).1 hc⟩
  · constructor
    · intro hc
      exfalso
      have hlen : sr.occupiedSites.length ≤ k := by
        have := hg.len
        have := hg.num_nonneg
        omega
      rw [List.get?_eq_getElem?, List.getElem?_eq_none hlen] at hc
      cases hc
    · rintro ⟨i, hi, hc⟩
      exfalso
      obtain ⟨_, _, _, s1, _, _, _, _, _⟩ := placed_facts hl hsub hi
      have := (hcov i hi).1 hc
      omega

/-! ## The single-cell scenario -/

theorem canPlaceAt_new {xs sw : ℚ} {num n : ℤ} (hn0 : 0 ≤ n) (hn : n ≤ num) :
    (SubRow.new xs num sw).canPlaceAt 0 n = some true := by
  rw [canPlaceAt_eq_true hn0]
  refine ⟨by show 0 + n ≤ num; omega, ?_⟩
  intro j hj0 hj1
  show readSite (List.replicate num.toNat false) j = some false
  unfold readSite
  have h1 : ¬ j < 0 := by omega
  have h2 : j.toNat < num.toNat := by omega
  rw [if_neg h1, List.get?_eq_getElem?, List.getElem?_replicate, if_pos h2]

theorem findSite_new {xs sw w : ℚ} {num : ℤ} (hsw : 0 < sw) (hw : 0 < w)
    (hn : ⌈w / sw⌉ ≤ num) :
    findSite (SubRow.new xs num sw) w ⌈w / sw⌉ 0 (num - ⌈w / sw⌉ + 1).toNat
      = some (some 0) := by
  have hn1 : 0 < ⌈w / sw⌉ := Int.ceil_pos.2 (div_pos hw hsw)
  have hk : (num - ⌈w / sw⌉ + 1).toNat = (num - ⌈w / sw⌉).toNat + 1 := by omega
  rw [hk]
  simp only [findSite]
  rw [canPlaceAt_new (by omega) hn]
  have hle : w ≤ ⌈w / sw⌉ * sw := by
    have := Int.le_ceil (w / sw)
    calc w = w / sw * sw := by field_simp
      _ ≤ ⌈w / sw⌉ * sw := mul_le_mul_of_nonneg_right this (le_of_lt hsw)
  have hn' : (⌈w / sw⌉ : ℚ) ≤ num := by exact_mod_cast hn
  have h2 := mul_le_mul_of_nonneg_right hn' (le_of_lt hsw)
  have he := eps_pos
  have hfit : ¬ ((SubRow.new xs num sw).xStart + ((0 : ℤ) : ℚ) * (SubRow.new xs num sw).siteWidth
      + w > (SubRow.new xs num sw).xEnd + eps) := by
    show ¬ (xs + ((0 : ℤ) : ℚ) * sw + w > xs + num * sw + eps)
    push_cast
    linarith
  simp only [hfit, if_false]

theorem single_initial {p : Placement} {r : Row} {xs : ℚ} {num : ℤ} {b : Block}
    (h : SingleCell p r xs num b) :
    initialPlacement p = some (placeAt p 0 0 0 0 ⌈b.width / r.siteWidth⌉) := by
  obtain ⟨hrows, hblocks, hsw, hnum, hsubs, hfix, hw, _, hh, hn, _, _⟩ := h
  have hb : p.block 0 = b := by simp [Placement.block, hblocks]
  have hr : p.rows.getD 0 default = r := by simp [hrows]
  have hsr : r.subRows.getD 0 default = SubRow.new xs num r.siteWidth := by simp [hsubs]
  have horder : initialOrder p = [0] := by
    have : movableBlocks p = [0] := by
      unfold movableBlocks
      rw [hblocks]
      show List.filter _ [0] = [0]
      have : (p.block 0).isFixed = false := by rw [hb]; exact hfix
      simp [this]
    unfold initialOrder
    rw [this]; rfl
  have hrowOrder : ∀ y, rowOrder p y = [0] := by
    intro y
    unfold rowOrder
    rw [hrows]; rfl
  have hsubOrder : ∀ x, subrowOrder r x = [0] := by
    intro x
    unfold subrowOrder
    rw [hsubs]; rfl
  have hnum' : (SubRow.new xs num r.siteWidth).numSites = num := rfl
  have hfind := @findSite_new xs _ _ num hsw hw hn
  unfold initialPlacement
  rw [horder]
  simp only [placeAll, placeBlock, hrowOrder, placeInRows, hr, hb, hsubOrder, placeInSubRows,
    hsr, hnum', hfind, not_lt.2 hh, if_false]

theorem wellFormed_of_single {p : Placement} {r : Row} {xs : ℚ} {num : ℤ} {b : Block}
    (h : SingleCell p r xs num b) : WellFormed p ∧ Separated p := by
  obtain ⟨hrows, hblocks, hsw, hnum, hsubs, _, hw, hh0, _, _, hx, hy⟩ := h
  refine ⟨⟨?_, ?_, ?_, ?_⟩, ?_, ?_⟩
  · intro r' hr'
    rw [hrows, List.mem_singleton] at hr'
    subst hr'
    refine ⟨hsw, ?_⟩
    intro sr hsr
    rw [hsubs, List.mem_singleton] at hsr
    subst hsr
    exact ⟨hnum, rfl⟩
  · intro r' hr'
    rw [hrows, List.mem_singleton] at hr'
    subst hr'
    rw [hsubs]
    exact List.pairwise_singleton _ _
  · rw [hrows]
    exact List.pairwise_singleton _ _
  · intro b' hb'
    rw [hblocks, List.mem_singleton] at hb'
    subst hb'
    exact ⟨hw, hh0, hx, hy⟩
  · rw [hrows]
    exact List.pairwise_singleton _ _
  · intro r' hr'
    rw [hrows, List.mem_singleton] at hr'
    subst hr'
    rw [hsubs]
    exact Or.inr (List.pairwise_singleton _ _)

theorem isSub_singleton {r r0 : Row} {sr sr0 : SubRow} {ri si : ℕ} (hsubs : r.subRows = [sr])
    (h : IsSub [r] ri si r0 sr0) : ri = 0 ∧ si = 0 ∧ r0 = r ∧ sr0 = sr := by
  obtain ⟨h1, h2⟩ := h
  have hri : ri = 0 := by
    cases ri with
    | zero => rfl
    | succ k => simp at h1
  subst hri
  have hr : r0 = r := by simpa using h1.symm
  subst hr
  rw [hsubs] at h2
  have hsi : si = 0 := by
    cases si with
    | zero => rfl
    | succ k => simp at h2
  subst hsi
  exact ⟨rfl, rfl, rfl, by simpa using h2.symm⟩

theorem optimizeLoop_trace (n : ℕ) (p p' : Placement) (c : ℕ)
    (h : optimizeLoop n p = some (p', c)) :
    c ≤ n ∧ (0 < n → 1 ≤ c) ∧ iterations c p = some p' ∧
    (∀ k, k + 1 < c →
      ∃ q q', iterations k p = some q ∧ optimizeIteration q = some (q', true)) ∧
    (c < n → ∃ q, iterations (c - 1) p = some q ∧ optimizeIteration q = some (p', false)) := by
  induction n generalizing p p' c with
  | zero =>
    simp only [optimizeLoop, Option.some.injEq, Prod.mk.injEq] at h
    obtain ⟨rfl, rfl⟩ := h
    exact ⟨le_refl _, fun h => absurd h (lt_irrefl _), rfl, fun k hk => absurd hk (by omega),
      fun h => absurd h (lt_irrefl _)⟩
  | succ n ih =>
    simp only [optimizeLoop] at h
    split at h
    · cases h
    · rename_i p1 hit
      split at h
      · cases h
      · rename_i p2 c2 hl
        simp only [Option.some.injEq, Prod.mk.injEq] at h
        obtain ⟨rfl, rfl⟩ := h
        obtain ⟨i1, i2, i3, i4, i5⟩ := ih p1 p2 c2 hl
        refine ⟨by omega, fun _ => by omega, ?_, ?_, ?_⟩
        · simp only [iterations, hit]; exact i3
        · intro k hk
          cases k with
          | zero => exact ⟨p, p1, rfl, hit⟩
          | succ k =>
            obtain ⟨q, q', hq, hq'⟩ := i4 k (by omega)
            exact ⟨q, q', by simp only [iterations, hit]; exact hq, hq'⟩
        · intro hc
          obtain ⟨q, hq, hq'⟩ := i5 (by omega)
          have hc2 : 1 ≤ c2 := i2 (by omega)
          refine ⟨q, ?_, hq'⟩
          have : c2 + 1 - 1 = (c2 - 1) + 1 := by omega
          rw [this]
          simp only [iterations, hit]; exact hq
    · rename_i p1 hit
      simp only [Option.some.injEq, Prod.mk.injEq] at h
      obtain ⟨rfl, rfl⟩ := h
      refine ⟨by omega, fun _ => le_refl _, ?_, fun k hk => absurd hk (by omega), ?_⟩
      · simp only [iterations, hit]
      · intro _
        exact ⟨p, rfl, hit⟩

theorem optimizeLoop_none (n : ℕ) (p : Placement) (h : optimizeLoop n p = none) :
    ∃ k, k < n ∧ ∃ q, iterations k p = some q ∧ optimizeIteration q = none := by
  induction n generalizing p with
  | zero => simp [optimizeLoop] at h
  | succ n ih =>
    simp only [optimizeLoop] at h
    split at h
    · rename_i hit
      exact ⟨0, by omega, p, rfl, hit⟩
    · rename_i p1 hit
      split at h
      · rename_i hl
        obtain ⟨k, hk, q, hq, hq'⟩ := ih p1 hl
        exact ⟨k + 1, by omega, q, by simp only [iterations, hit]; exact hq, hq'⟩
      · cases h
    · cases h

theorem readSite_set_gen (occ : List Bool) (i j : ℤ) (v : Bool) (hi : 0 ≤ i) :
    readSite (occ.set i.toNat v) j =
      if j = i ∧ i.toNat < occ.length then some v else readSite occ j := by
  by_cases hlen : i.toNat < occ.length
  · rw [readSite_set occ i j v hi hlen]
    by_cases hj : j = i
    · rw [if_pos hj, if_pos ⟨hj, hlen⟩]
    · rw [if_neg hj, if_neg (fun h => hj h.1)]
  · rw [List.set_eq_of_length_le (by omega), if_neg (fun h => hlen h.2)]

theorem readSite_markSites_gen (numSites : ℤ) (v : Bool) (i : ℤ) (k : ℕ) (occ : List Bool)
    (j : ℤ) :
    readSite (markSites numSites v i k occ) j =
      if i ≤ j ∧ j < i + k ∧ 0 ≤ j ∧ j < numSites ∧ j.toNat < occ.length then some v
      else readSite occ j := by
  induction k generalizing i occ with
  | zero =>
    have : ¬ (i ≤ j ∧ j < i + ((0 : ℕ) : ℤ) ∧ 0 ≤ j ∧ j < numSites ∧ j.toNat < occ.length) := by
      intro h; have := h.1; have := h.2.1; push_cast at *; omega
    rw [if_neg this]; rfl
  | succ k ih =>
    simp only [markSites]
    by_cases hi : 0 ≤ i ∧ i < numSites
    · rw [if_pos hi, ih, readSite_set_gen occ i j v hi.1, List.length_set]
      by_cases hj : j = i
      · subst hj
        by_cases hl : j.toNat < occ.length
        · have h1 : ¬ (j + 1 ≤ j ∧ j < j + 1 + (k : ℤ) ∧ 0 ≤ j ∧ j < numSites ∧
              j.toNat < occ.length) := by omega
          have h2 : (j ≤ j ∧ j < j + ((k + 1 : ℕ) : ℤ) ∧ 0 ≤ j ∧ j < numSites ∧
              j.toNat < occ.length) := by push_cast; omega
          rw [if_neg h1, if_pos ⟨rfl, hl⟩, if_pos h2]
        · have h1 : ¬ (j + 1 ≤ j ∧ j < j + 1 + (k : ℤ) ∧ 0 ≤ j ∧ j < numSites ∧
              j.toNat < occ.length) := by omega
          have h2 : ¬ (j ≤ j ∧ j < j + ((k + 1 : ℕ) : ℤ) ∧ 0 ≤ j ∧ j < numSites ∧
              j.toNat < occ.length) := fun h => hl h.2.2.2.2
          rw [if_neg h1, if_neg (fun h => hl h.2), if_neg h2]
      · have : (i + 1 ≤ j ∧ j < i + 1 + (k : ℤ) ∧ 0 ≤ j ∧ j < numSites ∧
            j.toNat < occ.length) ↔
            (i ≤ j ∧ j < i + ((k + 1 : ℕ) : ℤ) ∧ 0 ≤ j ∧ j < numSites ∧
              j.toNat < occ.length) := by
          push_cast; omega
        by_cases hc : (i + 1 ≤ j ∧ j < i + 1 + (k : ℤ) ∧ 0 ≤ j ∧ j < numSites ∧
            j.toNat < occ.length)
        · rw [if_pos hc, if_pos (this.1 hc)]
        · rw [if_neg hc, if_neg (fun h => hj h.1), if_neg (fun h => hc (this.2 h))]
    · rw [if_neg hi, ih]
      have : (i + 1 ≤ j ∧ j < i + 1 + (k : ℤ) ∧ 0 ≤ j ∧ j < numSites ∧
          j.toNat < occ.length) ↔
          (i ≤ j ∧ j < i + ((k + 1 : ℕ) : ℤ) ∧ 0 ≤ j ∧ j < numSites ∧
            j.toNat < occ.length) := by
        push_cast; omega
      by_cases hc : (i + 1 ≤ j ∧ j < i + 1 + (k : ℤ) ∧ 0 ≤ j ∧ j < numSites ∧
          j.toNat < occ.length)
      · rw [if_pos hc, if_pos (this.1 hc)]
      · rw [if_neg hc, if_neg (fun h => hc (this.2 h))]

theorem readSite_some_lt {occ : List Bool} {j : ℤ} {v : Bool} (h : readSite occ j = some v) :
    0 ≤ j ∧ j.toNat < occ.length := by
  unfold readSite at h
  by_cases hj : j < 0
  · simp [hj] at h
  · simp only [hj, if_false, List.get?_eq_getElem?] at h
    refine ⟨by omega, ?_⟩
    by_contra hl
    rw [List.getElem?_eq_none (by omega)] at h
    cases h

theorem readSite_ext {occ occ' : List Bool}
    (h : ∀ j : ℤ, 0 ≤ j → readSite occ' j = readSite occ j) : occ' = occ := by
  apply List.ext_getElem? 
  intro k
  have := h (k : ℤ) (by omega)
  unfold readSite at this
  have hk : ¬ ((k : ℤ) < 0) := by omega
  simpa [hk] using this

theorem canPlaceAt_free {sr : SubRow} {s n : ℤ} (hc : sr.canPlaceAt s n = some true) :
    s + n ≤ sr.numSites ∧
      ∀ j, s ≤ j → j < s + n → readSite sr.occupiedSites j = some false := by
  unfold SubRow.canPlaceAt at hc
  by_cases h : s + n > sr.numSites
  · simp [h] at hc
  · simp only [h, if_false, scanFree_eq_true] at hc
    refine ⟨by omega, fun j h1 h2 => hc j h1 ?_⟩
    have : ((n.toNat : ℕ) : ℤ) = n := Int.toNat_of_nonneg (by omega)
    omega

/-- C11 (code defect): `canPlaceAt` has no check of `startSite < 0`.  For a
negative start site that passes the only guard (`s + n <= numSites`) the loop is
entered at index `s`: with `n > 0` the first read is `occupiedSites[s]` outside
the vector (no defined result, `none`), and with `n <= 0` the method returns
`true`; in neither case does it return `false`. -/
theorem canPlaceAt_negative_start (sr : SubRow) (s n : ℤ) (hs : s < 0)
    (hfit : s + n ≤ sr.numSites) :
    sr.canPlaceAt s n = if 0 < n then none else some true := by
  unfold SubRow.canPlaceAt
  have h : ¬ (s + n > sr.numSites) := by omega
  rw [if_neg h]
  by_cases hn : 0 < n
  · rw [if_pos hn]
    obtain ⟨k, hk⟩ : ∃ k, n.toNat = k + 1 := ⟨n.toNat - 1, by omega⟩
    rw [hk]
    simp [scanFree, readSite, hs]
  · rw [if_neg hn]
    have : n.toNat = 0 := by omega
    rw [this]
    rfl

/-- C11 at the failing input: the call `canPlaceAt(-1, 1)` on a one-site subrow
that starts at `12 + 1e-7`, as the refinement pass makes it on the first listed
subrow of the second row of `tinyInput` for the cell it moves to `x = 12`, reads
`occupiedSites[-1]`, so the whole run on this well-formed input has no defined
result; and `canPlaceAt(-1, 0)` on an empty subrow answers `true`. -/
theorem canPlaceAt_negative_start_witness :
    (SubRow.new (12 + 1 / 10000000) 1 (1 / 10000000)).canPlaceAt (-1) 1 = none ∧
    emptySub.canPlaceAt (-1) 0 = some true ∧
    WellFormed tinyInput ∧ legalize tinyInput = none :=
  ⟨canPlaceAt_negative_start (SubRow.new (12 + 1 / 10000000) 1 (1 / 10000000)) (-1) 1
      (by decide) (by decide!),
   canPlaceAt_negative_start emptySub (-1) 0 (by decide) (by decide!),
   by decide!, by decide!⟩

/-! ## `insertBlock` and `removeBlock` -/

theorem insertBlock_bits (sr : SubRow) (blocks : List Block) (block : ℕ) (s n : ℤ)
    (hc : sr.canPlaceAt s n = some true) :
    (∀ j, s ≤ j → j < s + n →
      readSite (sr.insertBlock blocks block s n).occupiedSites j = some true) ∧
    (∀ j, ¬ (s ≤ j ∧ j < s + n) →
      readSite (sr.insertBlock blocks block s n).occupiedSites j
        = readSite sr.occupiedSites j) := by
  obtain ⟨hfit, hfree⟩ := canPlaceAt_free hc
  constructor
  · intro j h1 h2
    have hlt := readSite_some_lt (hfree j h1 h2)
    show readSite (markSites sr.numSites true s n.toNat sr.occupiedSites) j = some true
    rw [readSite_markSites_gen, if_pos]
    have : ((n.toNat : ℕ) : ℤ) = n := Int.toNat_of_nonneg (by omega)
    omega
  · intro j hj
    show readSite (markSites sr.numSites true s n.toNat sr.occupiedSites) j = _
    rw [readSite_markSites_gen, if_neg]
    intro h
    have : ((n.toNat : ℕ) : ℤ) ≤ max n 0 := by omega
    omega

/-- C12 (insert effects): for every subrow and every `(cell, s, n)` with
`canPlaceAt(s, n)` true (in particular when moreover `s >= 0` and the old list
is sorted), after `insertBlock(cell, s, n)` every bit of `[s, s+n)` is set,
every other bit is as before, `numSites`, `xStart`, `xEnd` and `siteWidth` are
unchanged, and `placedBlocks` is a permutation of the old list plus the cell,
sorted by ascending `x`. -/
theorem insertBlock_effects (sr : SubRow) (blocks : List Block) (block : ℕ) (s n : ℤ)
    (hc : sr.canPlaceAt s n = some true) :
    (∀ j, s ≤ j → j < s + n →
      readSite (sr.insertBlock blocks block s n).occupiedSites j = some true) ∧
    (∀ j, ¬ (s ≤ j ∧ j < s + n) →
      readSite (sr.insertBlock blocks block s n).occupiedSites j
        = readSite sr.occupiedSites j) ∧
    (sr.insertBlock blocks block s n).occupiedSites.length = sr.occupiedSites.length ∧
    (sr.insertBlock blocks block s n).numSites = sr.numSites ∧
    (sr.insertBlock blocks block s n).xStart = sr.xStart ∧
    (sr.insertBlock blocks block s n).xEnd = sr.xEnd ∧
    (sr.insertBlock blocks block s n).siteWidth = sr.siteWidth ∧
    (sr.insertBlock blocks block s n).placedBlocks.Perm (sr.placedBlocks ++ [block]) ∧
    (sr.insertBlock blocks block s n).placedBlocks.Pairwise
      (fun a b => (blocks.getD a default).x ≤ (blocks.getD b default).x) := by
  obtain ⟨h1, h2⟩ := insertBlock_bits sr blocks block s n hc
  exact ⟨h1, h2, markSites_length _ _ _ _ _, rfl, rfl, rfl, rfl, sortBy_perm _ _,
    sortBy_sorted (fun i => (blocks.getD i default).x) _⟩

/-- C12 witness: cell `a` inserted on sites `[0, 2)` of the subrow that holds
cell `b` on sites `[3, 5)`. -/
theorem insertBlock_effects_witness :
    (∀ j, (0 : ℤ) ≤ j → j < 0 + 2 →
      readSite (oneSub.insertBlock pairBlocks 0 0 2).occupiedSites j = some true) ∧
    (∀ j, ¬ ((0 : ℤ) ≤ j ∧ j < 0 + 2) →
      readSite (oneSub.insertBlock pairBlocks 0 0 2).occupiedSites j
        = readSite oneSub.occupiedSites j) ∧
    (oneSub.insertBlock pairBlocks 0 0 2).occupiedSites.length = oneSub.occupiedSites.length ∧
    (oneSub.insertBlock pairBlocks 0 0 2).numSites = oneSub.numSites ∧
    (oneSub.insertBlock pairBlocks 0 0 2).xStart = oneSub.xStart ∧
    (oneSub.insertBlock pairBlocks 0 0 2).xEnd = oneSub.xEnd ∧
    (oneSub.insertBlock pairBlocks 0 0 2).siteWidth = oneSub.siteWidth ∧
    (oneSub.insertBlock pairBlocks 0 0 2).placedBlocks.Perm (oneSub.placedBlocks ++ [0]) ∧
    (oneSub.insertBlock pairBlocks 0 0 2).placedBlocks.Pairwise
      (fun a b => (pairBlocks.getD a default).x ≤ (pairBlocks.getD b default).x) :=
  insertBlock_effects oneSub pairBlocks 0 0 2 (by decide!)

theorem erase_sortBy_eq (key : ℕ → ℚ) (l : List ℕ) (c : ℕ)
    (hsorted : l.Pairwise (fun a b => key a ≤ key b))
    (hdistinct : l.Pairwise (fun a b => key a ≠ key b)) :
    (sortBy (fun a b => decide (key a < key b)) (l ++ [c])).erase c = l := by
  have hperm : ((sortBy (fun a b => decide (key a < key b)) (l ++ [c])).erase c).Perm l := by
    have h1 : (sortBy (fun a b => decide (key a < key b)) (l ++ [c])).Perm (c :: l) :=
      (sortBy_perm _ _).trans (List.perm_append_comm)
    have h2 := h1.erase c
    rwa [List.erase_cons_head] at h2
  have hle : ((sortBy (fun a b => decide (key a < key b)) (l ++ [c])).erase c).Pairwise
      (fun a b => key a ≤ key b) :=
    (sortBy_sorted key (l ++ [c])).sublist (List.erase_sublist _ _)
  have hne : ((sortBy (fun a b => decide (key a < key b)) (l ++ [c])).erase c).Pairwise
      (fun a b => key a ≠ key b) :=
    (hperm.pairwise_iff (fun {a b} (h : key a ≠ key b) => Ne.symm h)).2 hdistinct
  have hlt1 : ((sortBy (fun a b => decide (key a < key b)) (l ++ [c])).erase c).Pairwise
      (fun a b => key a < key b) :=
    (hle.and hne).imp (fun h => lt_of_le_of_ne h.1 h.2)
  have hlt2 : l.Pairwise (fun a b => key a < key b) :=
    (hsorted.and hdistinct).imp (fun h => lt_of_le_of_ne h.1 h.2)
  haveI : IsAntisymm ℕ (fun a b => key a < key b) :=
    ⟨fun a b h1 h2 => absurd h1 (lt_asymm h2)⟩
  exact List.eq_of_perm_of_sorted hperm hlt1 hlt2

/-- C13 (insert/remove round trip): for every subrow whose placed-cell list is
sorted by `x` with pairwise distinct `x`, every cell that is not in the list and
every `(s, n)` with `canPlaceAt(s, n)` true (in particular when moreover
`s >= 0`), `removeBlock(cell, s, n)` after `insertBlock(cell, s, n)` gives back
the original subrow (bitmap and list included); `removeBlock` clears the bits
of `[s, s+n)`, leaves every other bit as it was, and removes that cell only. -/
theorem insert_remove_round_trip (sr : SubRow) (blocks : List Block) (block : ℕ) (s n : ℤ)
    (hsorted : sr.placedBlocks.Pairwise
      (fun a b => (blocks.getD a default).x ≤ (blocks.getD b default).x))
    (hdistinct : sr.placedBlocks.Pairwise
      (fun a b => (blocks.getD a default).x ≠ (blocks.getD b default).x))
    (hnew : block ∉ sr.placedBlocks) (hc : sr.canPlaceAt s n = some true) :
    (sr.insertBlock blocks block s n).removeBlock block s n = sr ∧
    (∀ j, s ≤ j → j < s + n →
      readSite ((sr.insertBlock blocks block s n).removeBlock block s n).occupiedSites j
        = some false) ∧
    (∀ j, ¬ (s ≤ j ∧ j < s + n) →
      readSite ((sr.insertBlock blocks block s n).removeBlock block s n).occupiedSites j
        = readSite (sr.insertBlock blocks block s n).occupiedSites j) ∧
    ((sr.insertBlock blocks block s n).removeBlock block s n).placedBlocks
      = (sr.insertBlock blocks block s n).placedBlocks.erase block ∧
    (sr.insertBlock blocks block s n).placedBlocks.Perm
      (block :: ((sr.insertBlock blocks block s n).removeBlock block s n).placedBlocks) ∧
    block ∉ ((sr.insertBlock blocks block s n).removeBlock block s n).placedBlocks := by
  obtain ⟨hfit, hfree⟩ := canPlaceAt_free hc
  have hlist : (sortBy (fun a b => decide ((blocks.getD a default).x < (blocks.getD b default).x))
      (sr.placedBlocks ++ [block])).erase block = sr.placedBlocks :=
    erase_sortBy_eq (fun i => (blocks.getD i default).x) sr.placedBlocks block hsorted hdistinct
  have hcast : ∀ j, s ≤ j → j < s + n → ((n.toNat : ℕ) : ℤ) = n :=
    fun j h1 h2 => Int.toNat_of_nonneg (by omega)
  have hbits : ∀ j, readSite (markSites sr.numSites false s n.toNat
      (markSites sr.numSites true s n.toNat sr.occupiedSites)) j
        = if s ≤ j ∧ j < s + n then some false
          else readSite (markSites sr.numSites true s n.toNat sr.occupiedSites) j := by
    intro j
    rw [readSite_markSites_gen, markSites_length]
    by_cases hj : s ≤ j ∧ j < s + n
    · have hlt := readSite_some_lt (hfree j hj.1 hj.2)
      have := hcast j hj.1 hj.2
      rw [if_pos hj, if_pos (by omega)]
    · rw [if_neg hj, if_neg]
      intro h
      have : ((n.toNat : ℕ) : ℤ) ≤ max n 0 := by omega
      omega
  have hocc : markSites sr.numSites false s n.toNat
      (markSites sr.numSites true s n.toNat sr.occupiedSites) = sr.occupiedSites := by
    apply readSite_ext
    intro j _
    rw [hbits j]
    by_cases hj : s ≤ j ∧ j < s + n
    · rw [if_pos hj, hfree j hj.1 hj.2]
    · rw [if_neg hj]
      exact (insertBlock_bits sr blocks block s n hc).2 j hj
  refine ⟨?_, ?_, ?_, rfl, ?_, ?_⟩
  · cases sr
    simp only [SubRow.insertBlock, SubRow.removeBlock] at hlist hocc ⊢
    rw [hlist, hocc]
  · intro j h1 h2
    show readSite (markSites sr.numSites false s n.toNat
      (markSites sr.numSites true s n.toNat sr.occupiedSites)) j = some false
    rw [hbits j, if_pos ⟨h1, h2⟩]
  · intro j hj
    show readSite (markSites sr.numSites false s n.toNat
      (markSites sr.numSites true s n.toNat sr.occupiedSites)) j = _
    rw [hbits j, if_neg hj]
    rfl
  · show (sortBy _ (sr.placedBlocks ++ [block])).Perm
      (block :: (sortBy _ (sr.placedBlocks ++ [block])).erase block)
    rw [hlist]
    exact (sortBy_perm _ _).trans List.perm_append_comm
  · show block ∉ (sortBy _ (sr.placedBlocks ++ [block])).erase block
    rw [hlist]
    exact hnew

/-- C13 witness: cell `a` inserted on sites `[0, 2)` next to cell `b` and
removed again. -/
theorem insert_remove_round_trip_witness :
    (oneSub.insertBlock pairBlocks 0 0 2).removeBlock 0 0 2 = oneSub ∧
    (∀ j, (0 : ℤ) ≤ j → j < 0 + 2 →
      readSite ((oneSub.insertBlock pairBlocks 0 0 2).removeBlock 0 0 2).occupiedSites j
        = some false) ∧
    (∀ j, ¬ ((0 : ℤ) ≤ j ∧ j < 0 + 2) →
      readSite ((oneSub.insertBlock pairBlocks 0 0 2).removeBlock 0 0 2).occupiedSites j
        = readSite (oneSub.insertBlock pairBlocks 0 0 2).occupiedSites j) ∧
    ((oneSub.insertBlock pairBlocks 0 0 2).removeBlock 0 0 2).placedBlocks
      = (oneSub.insertBlock pairBlocks 0 0 2).placedBlocks.erase 0 ∧
    (oneSub.insertBlock pairBlocks 0 0 2).placedBlocks.Perm
      (0 :: ((oneSub.insertBlock pairBlocks 0 0 2).removeBlock 0 0 2).placedBlocks) ∧
    0 ∉ ((oneSub.insertBlock pairBlocks 0 0 2).removeBlock 0 0 2).placedBlocks :=
  insert_remove_round_trip oneSub pairBlocks 0 0 2 (by decide!) (by decide!) (by decide!)
    (by decide!)

/-! ## The displacement reporter -/

theorem reporter_fold (l : List Block) (t m : ℚ) :
    l.foldl
      (fun acc b =>
        if !b.isFixed then (acc.1 + b.disp, if b.disp > acc.2 then b.disp else acc.2) else acc)
      (t, m)
    = (t + ((l.filter (fun b => !b.isFixed)).map Block.disp).sum,
       ((l.filter (fun b => !b.isFixed)).map Block.disp).foldl max m) := by
  induction l generalizing t m with
  | nil => simp
  | cons b l ih =>
    simp only [List.foldl_cons]
    by_cases hb : b.isFixed = true
    · simp only [hb, Bool.not_true, Bool.false_eq_true, if_false, ih]
      simp [List.filter_cons, hb]
    · have hb' : b.isFixed = false := by simpa using hb
      simp only [hb', Bool.not_false, if_true, ih]
      have hmax : (if b.disp > m then b.disp else m) = max m b.disp := by
        by_cases h : b.disp > m
        · rw [if_pos h, max_eq_right (le_of_lt h)]
        · rw [if_neg h, max_eq_left (not_lt.1 h)]
      simp [List.filter_cons, hb', hmax, add_assoc]

theorem foldl_max_ge (l : List ℚ) (m : ℚ) :
    m ≤ l.foldl max m ∧ ∀ d ∈ l, d ≤ l.foldl max m := by
  induction l generalizing m with
  | nil => simp
  | cons a l ih =>
    simp only [List.foldl_cons]
    obtain ⟨h1, h2⟩ := ih (max m a)
    refine ⟨le_trans (le_max_left _ _) h1, ?_⟩
    intro d hd
    rcases List.mem_cons.1 hd with rfl | hd
    · exact le_trans (le_max_right _ _) h1
    · exact h2 d hd

theorem foldl_max_mem (l : List ℚ) (m : ℚ) : l.foldl max m = m ∨ l.foldl max m ∈ l := by
  induction l generalizing m with
  | nil => simp
  | cons a l ih =>
    simp only [List.foldl_cons]
    rcases ih (max m a) with h | h
    · rcases max_choice m a with h' | h'
      · left; rw [h, h']
      · right; rw [h, h']; exact List.mem_cons_self _ _
    · right; exact List.mem_cons_of_mem _ h

theorem foldl_max_le_sum (l : List ℚ) (m t : ℚ) (hm : m ≤ t) (hpos : ∀ d ∈ l, 0 ≤ d)
    (ht : 0 ≤ t) : l.foldl max m ≤ t + l.sum := by
  induction l generalizing m t with
  | nil => simpa using hm
  | cons a l ih =>
    simp only [List.foldl_cons, List.sum_cons]
    have ha := hpos a (List.mem_cons_self _ _)
    have := ih (max m a) (t + a) (max_le (by linarith) (by linarith))
      (fun d hd => hpos d (List.mem_cons_of_mem _ hd)) (by linarith)
    linarith

/-- C14 (displacement reporter): for every placement `calculateTotalDisplacement`
returns the sum of `|x - origX| + |y - origY|` over the blocks with
`isFixed = false`, and its `maxDisplacement` is the maximum of that quantity over
the same blocks: an upper bound of each that one of them attains, and 0 when
there is none; fixed blocks enter neither, and `0 <= maxDisplacement <= total`. -/
theorem displacement_reporter (p : Placement) :
    (calculateTotalDisplacement p).1 = ((movableCells p).map Block.disp).sum ∧
    (∀ b ∈ movableCells p, b.disp ≤ (calculateTotalDisplacement p).2) ∧
    ((movableCells p = [] ∧ (calculateTotalDisplacement p).2 = 0) ∨
      ∃ b ∈ movableCells p, (calculateTotalDisplacement p).2 = b.disp) ∧
    0 ≤ (calculateTotalDisplacement p).2 ∧
    (calculateTotalDisplacement p).2 ≤ (calculateTotalDisplacement p).1 := by
  have h := reporter_fold p.blocks 0 0
  have e1 : (calculateTotalDisplacement p).1 = ((movableCells p).map Block.disp).sum := by
    unfold calculateTotalDisplacement movableCells
    rw [h]; simp
  have e2 : (calculateTotalDisplacement p).2 = ((movableCells p).map Block.disp).foldl max 0 := by
    unfold calculateTotalDisplacement movableCells
    rw [h]
  obtain ⟨g1, g2⟩ := foldl_max_ge ((movableCells p).map Block.disp) 0
  refine ⟨e1, ?_, ?_, by rw [e2]; exact g1, ?_⟩
  · intro b hb
    rw [e2]
    exact g2 _ (List.mem_map_of_mem _ hb)
  · rcases foldl_max_mem ((movableCells p).map Block.disp) 0 with h0 | hm
    · cases hl : movableCells p with
      | nil => left; exact ⟨rfl, by rw [e2, hl]; rfl⟩
      | cons b l =>
        right
        refine ⟨b, List.mem_cons_self _ _, ?_⟩
        have hb : b.disp ≤ 0 := by
          have := g2 b.disp (List.mem_map_of_mem _ (by rw [hl]; exact List.mem_cons_self _ _))
          rwa [h0] at this
        rw [e2, h0]
        exact le_antisymm (disp_nonneg b) hb
    · right
      obtain ⟨b, hb, hd⟩ := List.mem_map.1 hm
      exact ⟨b, hb, by rw [e2]; exact hd.symm⟩
  · rw [e1, e2]
    have := foldl_max_le_sum ((movableCells p).map Block.disp) 0 0 (le_refl _)
      (fun d hd => by
        obtain ⟨b, _, rfl⟩ := List.mem_map.1 hd
        exact disp_nonneg b) (le_refl _)
    simpa using this

/-! ## The order of the row sort -/

theorem findSite_none {sr : SubRow} {w : ℚ} {n s0 : ℤ} {k : ℕ}
    (h : findSite sr w n s0 k = some none) :
    ∀ t, s0 ≤ t → t < s0 + k →
      ¬ (sr.canPlaceAt t n = some true ∧ sr.xStart + t * sr.siteWidth + w ≤ sr.xEnd + eps) := by
  induction k generalizing s0 with
  | zero =>
    intro t h1 h2
    push_cast at h2; omega
  | succ k ih =>
    simp only [findSite] at h
    intro t h1 h2
    cases hc : sr.canPlaceAt s0 n with
    | none => simp [hc] at h
    | some v =>
      cases v with
      | false =>
        simp only [hc] at h
        by_cases ht : t = s0
        · subst ht; simp [hc]
        · exact ih h t (by omega) (by push_cast at h2; omega)
      | true =>
        simp only [hc] at h
        by_cases hfit : sr.xStart + s0 * sr.siteWidth + w > sr.xEnd + eps
        · rw [if_pos hfit] at h
          by_cases ht : t = s0
          · subst ht
            intro hh
            exact absurd hh.2 (not_le.2 hfit)
          · exact ih h t (by omega) (by push_cast at h2; omega)
        · rw [if_neg hfit] at h
          cases h

theorem not_feasible_of_findSite_none {sr : SubRow} {w : ℚ} {n : ℤ}
    (h : findSite sr w n 0 (sr.numSites - n + 1).toNat = some none) (s : ℤ) :
    ¬ Feasible sr w n s := by
  rintro ⟨h1, h2, h3, h4⟩
  exact findSite_none h s h1 (by omega) ⟨h3, h4⟩

theorem feasible_of_findSite_some {sr : SubRow} {w : ℚ} {n s : ℤ}
    (h : findSite sr w n 0 (sr.numSites - n + 1).toNat = some (some s)) :
    Feasible sr w n s ∧ ∀ t, Feasible sr w n t → s ≤ t := by
  obtain ⟨h1, h2, h3, h4, h5⟩ := findSite_some h
  refine ⟨⟨h1, by omega, h3, h4⟩, ?_⟩
  rintro t ⟨g1, _, g3, g4⟩
  by_contra hlt
  exact h5 t g1 (by omega) ⟨g3, g4⟩

theorem placeInSubRows_split {p : Placement} {j ri : ℕ} {n : ℤ} {order : List ℕ}
    {p' : Placement} (h : placeInSubRows p j ri n order = some (some p')) :
    ∃ spre si spost s, order = spre ++ si :: spost ∧
      (∀ t ∈ spre,
        findSite ((p.rows.getD ri default).subRows.getD t default) (p.block j).width n 0
          ((((p.rows.getD ri default).subRows.getD t default).numSites - n + 1).toNat)
          = some none) ∧
      findSite ((p.rows.getD ri default).subRows.getD si default) (p.block j).width n 0
        ((((p.rows.getD ri default).subRows.getD si default).numSites - n + 1).toNat)
        = some (some s) ∧ p' = placeAt p j ri si s n := by
  induction order with
  | nil => simp [placeInSubRows] at h
  | cons si rest ih =>
    simp only [placeInSubRows] at h
    split at h
    · cases h
    · rename_i s hs
      simp only [Option.some.injEq] at h
      exact ⟨[], si, rest, s, rfl, by simp, hs, h.symm⟩
    · rename_i hs
      obtain ⟨spre, si', spost, s, ho, hpre, hf, hp⟩ := ih h
      refine ⟨si :: spre, si', spost, s, by rw [ho]; rfl, ?_, hf, hp⟩
      intro t ht
      rcases List.mem_cons.1 ht with rfl | ht'
      · exact hs
      · exact hpre t ht'

theorem placeInSubRows_none {p : Placement} {j ri : ℕ} {n : ℤ} {order : List ℕ}
    (h : placeInSubRows p j ri n order = some none) :
    ∀ t ∈ order,
      findSite ((p.rows.getD ri default).subRows.getD t default) (p.block j).width n 0
        ((((p.rows.getD ri default).subRows.getD t default).numSites - n + 1).toNat)
        = some none := by
  induction order with
  | nil => simp
  | cons si rest ih =>
    simp only [placeInSubRows] at h
    split at h
    · cases h
    · cases h
    · rename_i hs
      intro t ht
      rcases List.mem_cons.1 ht with rfl | ht'
      · exact hs
      · exact ih h t ht'

theorem placeInRows_split {p : Placement} {j : ℕ} {order : List ℕ} {p' : Placement}
    (h : placeInRows p j order = some (some p')) :
    ∃ pre ri post, order = pre ++ ri :: post ∧
      (∀ t ∈ pre, (p.block j).height > (p.rows.getD t default).height + eps ∨
        placeInSubRows p j t ⌈(p.block j).width / (p.rows.getD t default).siteWidth⌉
          (subrowOrder (p.rows.getD t default) (p.block j).origX) = some none) ∧
      (p.block j).height ≤ (p.rows.getD ri default).height + eps ∧
      placeInSubRows p j ri ⌈(p.block j).width / (p.rows.getD ri default).siteWidth⌉
        (subrowOrder (p.rows.getD ri default) (p.block j).origX) = some (some p') := by
  induction order with
  | nil => simp [placeInRows] at h
  | cons ri rest ih =>
    simp only [placeInRows] at h
    split at h
    · rename_i hh
      obtain ⟨pre, ri', post, ho, hpre, hr⟩ := ih h
      refine ⟨ri :: pre, ri', post, by rw [ho]; rfl, ?_, hr⟩
      intro t ht
      rcases List.mem_cons.1 ht with rfl | ht'
      · exact Or.inl hh
      · exact hpre t ht'
    · rename_i hh
      split at h
      · cases h
      · rename_i q hq
        simp only [Option.some.injEq] at h
        subst h
        exact ⟨[], ri, rest, rfl, by simp, not_lt.1 hh, hq⟩
      · rename_i hq
        obtain ⟨pre, ri', post, ho, hpre, hr⟩ := ih h
        refine ⟨ri :: pre, ri', post, by rw [ho]; rfl, ?_, hr⟩
        intro t ht
        rcases List.mem_cons.1 ht with rfl | ht'
        · exact Or.inr hq
        · exact hpre t ht'

theorem placeInRows_none {p : Placement} {j : ℕ} {order : List ℕ}
    (h : placeInRows p j order = some none) :
    ∀ t ∈ order, (p.block j).height > (p.rows.getD t default).height + eps ∨
      placeInSubRows p j t ⌈(p.block j).width / (p.rows.getD t default).siteWidth⌉
        (subrowOrder (p.rows.getD t default) (p.block j).origX) = some none := by
  induction order with
  | nil => simp
  | cons ri rest ih =>
    simp only [placeInRows] at h
    split at h
    · rename_i hh
      intro t ht
      rcases List.mem_cons.1 ht with rfl | ht'
      · exact Or.inl hh
      · exact ih h t ht'
    · split at h
      · cases h
      · cases h
      · rename_i hq
        intro t ht
        rcases List.mem_cons.1 ht with rfl | ht'
        · exact Or.inr hq
        · exact ih h t ht'

theorem mem_subrowOrder (row : Row) (x : ℚ) (t : ℕ) :
    t ∈ subrowOrder row x ↔ t < row.subRows.length := by
  unfold subrowOrder
  rw [mem_sortBy, List.mem_range]

theorem mem_rowOrder (p : Placement) (y : ℚ) (t : ℕ) :
    t ∈ rowOrder p y ↔ t < p.rows.length := by
  unfold rowOrder
  rw [mem_sortBy, List.mem_range]

theorem not_rowTakes_of_rejected {p : Placement} {j t : ℕ}
    (h : (p.block j).height > (p.rows.getD t default).height + eps ∨
      placeInSubRows p j t ⌈(p.block j).width / (p.rows.getD t default).siteWidth⌉
        (subrowOrder (p.rows.getD t default) (p.block j).origX) = some none) :
    ¬ RowTakes p (p.block j) t := by
  rintro ⟨hh, si, hsi, s, hs⟩
  rcases h with h | h
  · exact absurd hh (not_le.2 h)
  · exact not_feasible_of_findSite_none
      (placeInSubRows_none h si ((mem_subrowOrder _ _ _).2 hsi)) s hs

theorem placed_iff_hasRoom {q : Placement} (hst : Static q.rows) {i : ℕ}
    (hwid : 0 < (q.block i).width) {q' : Placement} {placed : Bool}
    (hpb : placeBlock q i = some (q', placed)) :
    placed = true ↔ HasRoom q (q.block i) := by
  constructor
  · intro hpl
    rcases placeBlock_cases hpb with ⟨hf, _⟩ | ⟨_, ri, hri, hh, si, hsi, s, hfs, _⟩
    · rw [hpl] at hf; cases hf
    · have hsub := isSub_of_mem_order hri hsi
      obtain ⟨h1, _, h3, _, _⟩ := findSite_some hfs
      obtain ⟨g1, g2⟩ := canPlaceAt_free h3
      exact ⟨_, List.getElem?_mem hsub.1, hh, _, List.getElem?_mem hsub.2, s, h1, g1, g2⟩
  · rintro ⟨r, hr, hh, sr, hsr, s, hs0, hs1, hfree⟩
    obtain ⟨ri, si, hsub⟩ : ∃ ri si, IsSub q.rows ri si r sr := by
      obtain ⟨ri, hri⟩ := List.mem_iff_getElem?.1 hr
      obtain ⟨si, hsi⟩ := List.mem_iff_getElem?.1 hsr
      exact ⟨ri, si, hri, hsi⟩
    have hg := hst.geom ri si r sr hsub
    have er : q.rows.getD ri default = r := rowD_of_isSub hsub
    have es : (q.rows.getD ri default).subRows.getD si default = sr := subD_of_isSub hsub
    have hri : ri < q.rows.length := by
      by_contra hge
      have := hsub.1
      rw [List.getElem?_eq_none (by omega)] at this
      cases this
    have hsi : si < r.subRows.length := by
      by_contra hge
      have := hsub.2
      rw [List.getElem?_eq_none (by omega)] at this
      cases this
    have hn : 0 ≤ ⌈(q.block i).width / r.siteWidth⌉ :=
      le_of_lt (Int.ceil_pos.2 (div_pos hwid hg.sw_pos))
    have hfeas : Feasible sr (q.block i).width ⌈(q.block i).width / r.siteWidth⌉ s := by
      refine ⟨hs0, by omega, (canPlaceAt_eq_true hn).2 ⟨hs1, hfree⟩, ?_⟩
      have hwle : (q.block i).width ≤ ⌈(q.block i).width / r.siteWidth⌉ * sr.siteWidth := by
        have := @width_le_sites sr (q.block i) (by rw [hg.sw_eq]; exact hg.sw_pos)
        unfold sitesOf at this
        rw [hg.sw_eq] at this ⊢
        exact this
      have hsw : 0 < sr.siteWidth := by rw [hg.sw_eq]; exact hg.sw_pos
      have hcast : ((s + ⌈(q.block i).width / r.siteWidth⌉ : ℤ) : ℚ) ≤ (sr.numSites : ℚ) := by
        exact_mod_cast hs1
      have hmul := mul_le_mul_of_nonneg_right hcast (le_of_lt hsw)
      push_cast at hmul
      rw [hg.xEnd_eq]
      have := eps_pos
      linarith
    cases hplaced : placed with
    | true => rfl
    | false =>
      exfalso
      rw [hplaced] at hpb
      have hnone : placeInRows q i (rowOrder q (q.block i).origY) = some none := by
        unfold placeBlock at hpb
        split at hpb
        · cases hpb
        · simp at hpb
        · rename_i hq; exact hq
      rcases placeInRows_none hnone ri ((mem_rowOrder _ _ _).2 hri) with htall | hsubs
      · rw [er] at htall
        exact absurd hh (not_le.2 htall)
      · rw [er] at hsubs
        have := placeInSubRows_none hsubs si ((mem_subrowOrder _ _ _).2 hsi)
        rw [er, List.getD_eq_getElem?_getD, hsub.2] at this
        exact not_feasible_of_findSite_none this s hfeas

/-- The initial placer is exhaustive in exact arithmetic: for every well-formed
input and every movable cell `i`, the cell loop of `initialPlacement` reaches
the cell in a state `q` (after the cells `pre` before it in the processing
order), the step for the cell returns, and it leaves the cell unplaced exactly
when, with the occupancy of `q`, no row with `row.height >= cell.height - 1e-6`
has a subrow with `n = ceil(width / siteWidth)` consecutive free sites;
whenever such a run exists the cell is placed and listed in a subrow. -/
theorem placer_exhaustive_exact (p : Placement) (i : ℕ) (hw : WellFormed p)
    (hi : i ∈ movableBlocks p) :
    ∃ (pre post : List ℕ) (q q' : Placement) (placed : Bool),
      initialOrder p = pre ++ i :: post ∧ placeAll pre p = some q ∧
      placeBlock q i = some (q', placed) ∧
      initialPlacement p = placeAll post q' ∧
      (placed = false ↔ ¬ HasRoom q (q.block i)) ∧
      (HasRoom q (q.block i) → placed = true ∧ Listed q'.rows i) := by
  have hmem : i ∈ initialOrder p := (mem_sortBy _ _ _).2 hi
  obtain ⟨pre, post, ho⟩ := List.append_of_mem hmem
  have hnd := initialOrder_nodup p
  rw [ho] at hnd
  have hnd_pre : pre.Nodup := (List.nodup_append.1 hnd).1
  have hi_pre : i ∉ pre := fun hm =>
    (List.nodup_append.1 hnd).2.2 hm (List.mem_cons_self _ _)
  have hfacts : ∀ j ∈ initialOrder p, j < p.blocks.length ∧ (p.block j).isFixed = false ∧
      0 < (p.block j).width ∧ ¬ Listed p.rows j := by
    intro j hj
    obtain ⟨hlt, hmov⟩ := (mem_movableBlocks p j).1 ((mem_sortBy _ _ _).1 hj)
    refine ⟨hlt, hmov, ?_, not_listed_of_wellFormed hw j⟩
    have hb : p.block j ∈ p.blocks := by
      unfold Placement.block
      rw [List.getD_eq_getElem?_getD, List.getElem?_eq_getElem hlt]
      exact List.getElem_mem _
    exact (hw.2.2.2 _ hb).1
  obtain ⟨q, hq, hlq⟩ := placeAll_legal (legal_of_wellFormed hw) hnd_pre
    (fun j hj => hfacts j (by rw [ho]; exact List.mem_append_left _ hj))
  obtain ⟨hlt, hmov, hwid, hnl⟩ := hfacts i hmem
  have hsc := placeAll_sameCells hq
  have hu := placeAll_untouched hq i hi_pre
  have hwq : 0 < (q.block i).width := by rw [hu.1]; exact hwid
  obtain ⟨q', placed, hpb, _, hlisted⟩ := placeBlock_legal hlq (not_listed_of_untouched hu hnl)
    (by rw [hsc.1]; exact hlt) (by rw [hu.1]; exact hmov) hwq
  have hiff := placed_iff_hasRoom hlq.lists.stat hwq hpb
  refine ⟨pre, post, q, q', placed, ho, hq, hpb, ?_, ?_, ?_⟩
  · unfold initialPlacement
    rw [ho, placeAll_append, hq]
    simp only [placeAll, hpb]
  · rw [← hiff]
    cases placed <;> simp
  · intro hroom
    have := hiff.2 hroom
    exact ⟨this, hlisted this⟩

/-! ## The relocation search as a fold over the candidates -/

theorem scanSites_eq (sr : SubRow) (b : Block) (ri : ℕ) (y : ℚ) (n : ℤ) (s : ℤ) (k : ℕ)
    (best : Best) :
    scanSites sr b ri y n s k best
      = (siteCandidates sr b ri y n s k).map (fun l => l.foldl pick best) := by
  induction k generalizing s best with
  | zero => rfl
  | succ k ih =>
    simp only [scanSites, siteCandidates]
    cases hc : sr.canPlaceAt s n with
    | none => simp
    | some ok =>
      cases ok with
      | false =>
        simp only [ih]
        cases siteCandidates sr b ri y n (s + 1) k with
        | none => simp
        | some l => simp
      | true =>
        by_cases hfit : sr.xStart + s * sr.siteWidth + b.width > sr.xEnd + eps
        · simp only [if_pos hfit, ih]
          cases siteCandidates sr b ri y n (s + 1) k with
          | none => simp
          | some l => simp [hfit]
        · simp only [if_neg hfit, ih]
          cases siteCandidates sr b ri y n (s + 1) k with
          | none => simp
          | some l =>
            simp only [hfit, not_false_eq_true, and_self, if_true, Option.map_some',
              List.foldl_cons]
            rfl

theorem scanSubRows_eq (b : Block) (ri : ℕ) (y : ℚ) (n : ℤ) (minX maxX : ℚ)
    (srs : List SubRow) (best : Best) :
    scanSubRows b ri y n minX maxX srs best
      = (subRowCandidates b ri y n minX maxX srs).map (fun l => l.foldl pick best) := by
  induction srs generalizing best with
  | nil => rfl
  | cons sr rest ih =>
    simp only [scanSubRows, subRowCandidates, scanSites_eq]
    cases siteCandidates sr b ri y n (minSiteOf sr minX)
        (maxSiteOf sr b n maxX - minSiteOf sr minX + 1).toNat with
    | none => rfl
    | some l =>
      simp only [Option.map_some', ih]
      cases subRowCandidates b ri y n minX maxX rest with
      | none => rfl
      | some l' => simp [List.foldl_append]

theorem scanRows_eq (b : Block) (d : ℚ) (k : ℕ) (rows : List Row) (best : Best) :
    scanRows b d k rows best = (rowCandidates b d k rows).map (fun l => l.foldl pick best) := by
  induction rows generalizing k best with
  | nil => rfl
  | cons row rest ih =>
    simp only [scanRows, rowCandidates]
    by_cases h1 : |row.yStart - b.origY| > d + 20
    · simp only [if_pos h1, if_pos (Or.inl h1), ih]
    · have h2 : ¬ (d + 20 - |row.yStart - b.origY| < 0) := by
        intro h; apply h1; linarith
      simp only [if_neg h1, if_neg h2]
      by_cases h3 : b.height > row.height + eps
      · simp only [if_pos h3, if_pos (Or.inr h3), ih]
      · have h4 : ¬ (|row.yStart - b.origY| > d + 20 ∨ b.height > row.height + eps) := by
          rintro (h | h)
          · exact h1 h
          · exact h3 h
        simp only [if_neg h3, if_neg h4, scanSubRows_eq]
        cases subRowCandidates b k row.yStart ⌈b.width / row.siteWidth⌉
            (b.origX - (d + 20 - |row.yStart - b.origY|))
            (b.origX + (d + 20 - |row.yStart - b.origY|)) row.subRows with
        | none => rfl
        | some l =>
          simp only [Option.map_some', ih]
          cases rowCandidates b d (k + 1) rest with
          | none => rfl
          | some l' => simp [List.foldl_append]

/-- The result of the fold of `pick` over the candidates: either no candidate
beat the start value by more than `eps`, or the result is a candidate that is
strictly better than all candidates before it and is not beaten by more than
`eps` by any candidate after it. -/
theorem foldl_pick_spec (l : List Best) (best : Best) :
    (l.foldl pick best = best ∧ ∀ c ∈ l, best.disp - eps ≤ c.disp) ∨
    (∃ pre post, l = pre ++ l.foldl pick best :: post ∧
      (l.foldl pick best).disp < best.disp - eps ∧
      (∀ c ∈ pre, (l.foldl pick best).disp < c.disp) ∧
      (∀ c ∈ post, (l.foldl pick best).disp - eps ≤ c.disp)) := by
  have he := eps_pos
  induction l generalizing best with
  | nil => left; simp
  | cons c l ih =>
    simp only [List.foldl_cons]
    by_cases hc : c.disp < best.disp - eps
    · have hp : pick best c = c := by simp [pick, hc]
      rw [hp]
      right
      rcases ih c with ⟨h1, h2⟩ | ⟨pre, post, h1, h2, h3, h4⟩
      · exact ⟨[], l, by rw [h1]; rfl, by rw [h1]; exact hc, by simp, by rw [h1]; exact h2⟩
      · refine ⟨c :: pre, post, by rw [List.cons_append, ← h1], by linarith, ?_, h4⟩
        intro c' hc'
        rcases List.mem_cons.1 hc' with rfl | hc''
        · linarith
        · exact h3 c' hc''
    · have hp : pick best c = best := by simp [pick, hc]
      rw [hp]
      rcases ih best with ⟨h1, h2⟩ | ⟨pre, post, h1, h2, h3, h4⟩
      · left
        refine ⟨h1, ?_⟩
        intro c' hc'
        rcases List.mem_cons.1 hc' with rfl | hc''
        · exact not_lt.1 hc
        · exact h2 c' hc''
      · right
        refine ⟨c :: pre, post, by rw [List.cons_append, ← h1], h2, ?_, h4⟩
        intro c' hc'
        rcases List.mem_cons.1 hc' with rfl | hc''
        · have := not_lt.1 hc; linarith
        · exact h3 c' hc''

theorem foldl_pick_iff (l : List Best) (best : Best) :
    (l.foldl pick best).disp < best.disp - eps ↔ ∃ c ∈ l, c.disp < best.disp - eps := by
  have he := eps_pos
  rcases foldl_pick_spec l best with ⟨h1, h2⟩ | ⟨pre, post, h1, h2, _, _⟩
  · rw [h1]
    constructor
    · intro h; linarith
    · rintro ⟨c, hc, hlt⟩
      have := h2 c hc
      linarith
  · constructor
    · intro _
      have hm := List.mem_append_right pre (List.mem_cons_self (l.foldl pick best) post)
      rw [← h1] at hm
      exact ⟨l.foldl pick best, hm, h2⟩
    · intro _; exact h2

/-- In a legal state with rows at least `eps` apart, a search result that beats
the current displacement by more than `eps` is followed by the relocation. -/
theorem optimizeBlock_moves {p : Placement} (hl : Legal p) (ha : Apart p.rows) (i : ℕ)
    {best : Best}
    (hscan : scanRows (p.block i) (p.block i).disp 0 p.rows
      ⟨p.rows.length, (p.block i).x, (p.block i).y, (p.block i).disp⟩ = some best)
    (hlt : best.disp < (p.block i).disp - eps) :
    ∃ p', optimizeBlock p i = some (p', true) := by
  obtain ⟨best', hscan', hcand⟩ := scan_cand hl.lists.stat i
  rw [hscan] at hscan'
  simp only [Option.some.injEq] at hscan'
  subst hscan'
  obtain ⟨sb, rb, srb, s, hsubb, hs0, hcan, hbx, hby, hbh, _⟩ := hcand hlt
  have hbinv : BestInv (p.block i) best := scanRows_bestInv (bestInv_init _ _) hscan
  have hlisted : Listed p.rows i := by
    by_contra hn
    obtain ⟨hx, hy⟩ := hl.home i hn
    have hd := disp_eq_zero hx hy
    have h0 : 0 ≤ best.disp := by rw [hbinv]; positivity
    have := eps_pos
    rw [hd] at hlt
    linarith
  obtain ⟨ri, si, r, sr, hsub, hi⟩ := hlisted
  have hloc := locateRow_found hl.lists ha hsub hi 0 p.rows (Nat.zero_le _)
    (fun j => by simp)
  obtain ⟨hre, _, _⟩ := relocate_legal (x := best.x) (y := best.y) hl ha hsub hi
    rfl rfl hsubb hs0 hcan hbx hby hbh
  refine ⟨insertAt (moveTo (removeAt p i ri si (startOf sr (p.block i)) (sitesOf sr (p.block i)))
    i best.x best.y) i best.rowIdx sb s ⌈(p.block i).width / rb.siteWidth⌉, ?_⟩
  unfold optimizeBlock
  simp only [hscan]
  rw [if_pos hlt]
  simp only [hloc, hre]

/-- The choice of the target in exact arithmetic: for every movable cell with
current displacement `D0`, with the candidates in scan order (row index, subrow
index, ascending site within the window), whenever the cell step returns: the
search ends with a target `best` that beats `D0` by more than `1e-6` iff some
candidate does; the cell is relocated only in that case, and then to the
coordinates of `best`; in a legal state with rows at least `1e-6` apart it is
relocated in exactly that case; and the chosen target is strictly better than
every candidate scanned before it, while no candidate scanned after it is
better than the target by more than `1e-6`.  In a legal state with rows at
least `1e-6` apart the cell step does return. -/
theorem target_choice_exact (p : Placement) (i : ℕ) (hi : i ∈ movableBlocks p) :
    (∀ (p' : Placement) (moved : Bool), optimizeBlock p i = some (p', moved) →
      ∃ (cands : List Best) (best : Best),
        candidatesOf p i = some cands ∧
        scanRows (p.block i) (p.block i).disp 0 p.rows
          ⟨p.rows.length, (p.block i).x, (p.block i).y, (p.block i).disp⟩ = some best ∧
        (best.disp < (p.block i).disp - eps ↔
          ∃ c ∈ cands, c.disp < (p.block i).disp - eps) ∧
        (moved = true → best.disp < (p.block i).disp - eps ∧
          (p'.block i).x = best.x ∧ (p'.block i).y = best.y) ∧
        (Legal p → Apart p.rows →
          (moved = true ↔ ∃ c ∈ cands, c.disp < (p.block i).disp - eps)) ∧
        (best.disp < (p.block i).disp - eps →
          ∃ pre post, cands = pre ++ best :: post ∧
            (∀ c ∈ pre, best.disp < c.disp) ∧ (∀ c ∈ post, best.disp - eps ≤ c.disp))) ∧
    (Legal p → Apart p.rows → ∃ (p' : Placement) (moved : Bool),
      optimizeBlock p i = some (p', moved)) := by
  refine ⟨?_, fun hl ha => ?_⟩
  swap
  · obtain ⟨p', moved, h, _⟩ := optimizeBlock_legal hl ha i
    exact ⟨p', moved, h⟩
  intro p' moved h
  have hlen : i < p.blocks.length := ((mem_movableBlocks p i).1 hi).1
  cases hscan : scanRows (p.block i) (p.block i).disp 0 p.rows
      ⟨p.rows.length, (p.block i).x, (p.block i).y, (p.block i).disp⟩ with
  | none =>
    unfold optimizeBlock at h
    simp [hscan] at h
  | some best =>
    have heq := scanRows_eq (p.block i) (p.block i).disp 0 p.rows
      ⟨p.rows.length, (p.block i).x, (p.block i).y, (p.block i).disp⟩
    rw [hscan] at heq
    cases hcands : rowCandidates (p.block i) (p.block i).disp 0 p.rows with
    | none => rw [hcands] at heq; cases heq
    | some cands =>
      rw [hcands] at heq
      simp only [Option.map_some', Option.some.injEq] at heq
      have hiff : best.disp < (p.block i).disp - eps ↔
          ∃ c ∈ cands, c.disp < (p.block i).disp - eps := by
        rw [heq]
        exact foldl_pick_iff cands _
      have hmoved : moved = true → best.disp < (p.block i).disp - eps ∧
          (p'.block i).x = best.x ∧ (p'.block i).y = best.y := by
        intro hm
        rcases optimizeBlock_cases h with ⟨hf, _⟩ | ⟨best', ri, si, s, n, hscan', hlt, _, hc⟩
        · rw [hm] at hf; cases hf
        · rw [hscan] at hscan'
          simp only [Option.some.injEq] at hscan'
          subst hscan'
          rcases hc with ⟨hf, _, _⟩ | ⟨_, si', s', n', _, hp'⟩
          · rw [hm] at hf; cases hf
          · have hb : p'.block i = { p.block i with x := best.x, y := best.y } := by
              rw [hp', insertAt_block, moveTo_block, if_pos ⟨rfl, hlen⟩, removeAt_block]
            exact ⟨hlt, by rw [hb], by rw [hb]⟩
      refine ⟨cands, best, hcands, rfl, hiff, hmoved, ?_, ?_⟩
      · intro hl ha
        rw [← hiff]
        constructor
        · exact fun hm => (hmoved hm).1
        · intro hlt
          obtain ⟨p'', hp''⟩ := optimizeBlock_moves hl ha i hscan hlt
          rw [h] at hp''
          simp only [Option.some.injEq, Prod.mk.injEq] at hp''
          exact hp''.2
      · intro hlt
        rcases foldl_pick_spec cands
            ⟨p.rows.length, (p.block i).x, (p.block i).y, (p.block i).disp⟩ with
          ⟨h1, _⟩ | ⟨pre, post, h1, _, h3, h4⟩
        · exfalso
          rw [← heq] at h1
          rw [h1] at hlt
          have := eps_pos
          simp only at hlt
          linarith
        · rw [← heq] at h1 h3 h4
          exact ⟨pre, post, h1, h3, h4⟩

/-! ## The window of the relocation search -/

theorem mem_siteCandidates {sr : SubRow} {b : Block} {ri : ℕ} {y : ℚ} {n s0 : ℤ} {k : ℕ}
    {l : List Best} (h : siteCandidates sr b ri y n s0 k = some l) {s : ℤ}
    (h1 : s0 ≤ s) (h2 : s < s0 + k) (hcan : sr.canPlaceAt s n = some true)
    (hfit : sr.xStart + s * sr.siteWidth + b.width ≤ sr.xEnd + eps) :
    candidateAt sr b ri y s ∈ l := by
  induction k generalizing s0 l with
  | zero => push_cast at h2; omega
  | succ k ih =>
    simp only [siteCandidates] at h
    cases hc : sr.canPlaceAt s0 n with
    | none => simp [hc] at h
    | some ok =>
      cases hr : siteCandidates sr b ri y n (s0 + 1) k with
      | none => simp [hc, hr] at h
      | some l' =>
        simp only [hc, hr] at h
        by_cases hs : s = s0
        · subst hs
          rw [hcan] at hc
          simp only [Option.some.injEq] at hc
          subst hc
          rw [if_pos ⟨rfl, not_lt.2 hfit⟩] at h
          simp only [Option.some.injEq] at h
          rw [← h]
          exact List.mem_cons_self _ _
        · have hm := ih hr (by omega) (by push_cast at h2; omega)
          split at h
          · simp only [Option.some.injEq] at h
            rw [← h]
            exact List.mem_cons_of_mem _ hm
          · simp only [Option.some.injEq] at h
            rw [← h]
            exact hm

theorem mem_subRowCandidates {b : Block} {ri : ℕ} {y : ℚ} {n : ℤ} {minX maxX : ℚ}
    {srs : List SubRow} {l : List Best}
    (h : subRowCandidates b ri y n minX maxX srs = some l) {sr : SubRow} (hsr : sr ∈ srs)
    {s : ℤ} (h1 : minSiteOf sr minX ≤ s) (h2 : s ≤ maxSiteOf sr b n maxX)
    (hcan : sr.canPlaceAt s n = some true)
    (hfit : sr.xStart + s * sr.siteWidth + b.width ≤ sr.xEnd + eps) :
    candidateAt sr b ri y s ∈ l := by
  induction srs generalizing l with
  | nil => cases hsr
  | cons a rest ih =>
    simp only [subRowCandidates] at h
    cases ha : siteCandidates a b ri y n (minSiteOf a minX)
        (maxSiteOf a b n maxX - minSiteOf a minX + 1).toNat with
    | none => simp [ha] at h
    | some la =>
      cases hr : subRowCandidates b ri y n minX maxX rest with
      | none => simp [ha, hr] at h
      | some lr =>
        simp only [ha, hr, Option.some.injEq] at h
        rw [← h]
        rcases List.mem_cons.1 hsr with rfl | hmem
        · exact List.mem_append_left _ (mem_siteCandidates ha h1 (by omega) hcan hfit)
        · exact List.mem_append_right _ (ih hr hmem)

theorem mem_rowCandidates {b : Block} {d : ℚ} {k : ℕ} {rows : List Row} {l : List Best}
    (h : rowCandidates b d k rows = some l) {j : ℕ} {row : Row} (hrow : rows[j]? = some row)
    (hv : |row.yStart - b.origY| ≤ d + 20) (hh : b.height ≤ row.height + eps)
    {sr : SubRow} (hsr : sr ∈ row.subRows) {s : ℤ}
    (h1 : minSiteOf sr (b.origX - (d + 20 - |row.yStart - b.origY|)) ≤ s)
    (h2 : s ≤ maxSiteOf sr b ⌈b.width / row.siteWidth⌉
      (b.origX + (d + 20 - |row.yStart - b.origY|)))
    (hcan : sr.canPlaceAt s ⌈b.width / row.siteWidth⌉ = some true)
    (hfit : sr.xStart + s * sr.siteWidth + b.width ≤ sr.xEnd + eps) :
    candidateAt sr b (k + j) row.yStart s ∈ l := by
  induction rows generalizing k j l with
  | nil => simp at hrow
  | cons a rest ih =>
    simp only [rowCandidates] at h
    cases j with
    | zero =>
      simp only [List.getElem?_cons_zero, Option.some.injEq] at hrow
      subst hrow
      have hskip : ¬ (|a.yStart - b.origY| > d + 20 ∨ b.height > a.height + eps) := by
        rintro (hc | hc)
        · exact absurd hv (not_le.2 hc)
        · exact absurd hh (not_le.2 hc)
      rw [if_neg hskip] at h
      cases hs : subRowCandidates b k a.yStart ⌈b.width / a.siteWidth⌉
          (b.origX - (d + 20 - |a.yStart - b.origY|))
          (b.origX + (d + 20 - |a.yStart - b.origY|)) a.subRows with
      | none => simp [hs] at h
      | some ls =>
        cases hr : rowCandidates b d (k + 1) rest with
        | none => simp [hs, hr] at h
        | some lr =>
          simp only [hs, hr, Option.some.injEq] at h
          rw [← h]
          exact List.mem_append_left _ (mem_subRowCandidates hs hsr h1 h2 hcan hfit)
    | succ j =>
      simp only [List.getElem?_cons_succ] at hrow
      have e : k + (j + 1) = k + 1 + j := by omega
      rw [e]
      split at h
      · exact ih h hrow
      · cases hs : subRowCandidates b k a.yStart ⌈b.width / a.siteWidth⌉
            (b.origX - (d + 20 - |a.yStart - b.origY|))
            (b.origX + (d + 20 - |a.yStart - b.origY|)) a.subRows with
        | none => simp [hs] at h
        | some ls =>
          cases hr : rowCandidates b d (k + 1) rest with
          | none => simp [hs, hr] at h
          | some lr =>
            simp only [hs, hr, Option.some.injEq] at h
            rw [← h]
            exact List.mem_append_right _ (ih hr hrow)

theorem minSiteOf_le {sr : SubRow} {minX : ℚ} {s : ℤ} (hsw : 0 < sr.siteWidth) (hs : 0 ≤ s)
    (hx : minX ≤ sr.xStart + s * sr.siteWidth) : minSiteOf sr minX ≤ s := by
  unfold minSiteOf
  refine max_le ?_ hs
  have ht : (minX - sr.xStart) / sr.siteWidth ≤ s := by
    rw [div_le_iff₀ hsw]; linarith
  have he := eps_lt_one
  have : ⌊(minX - sr.xStart) / sr.siteWidth + eps⌋ < s + 1 := by
    rw [Int.floor_lt]; push_cast; linarith
  omega

theorem le_maxSiteOf {sr : SubRow} {b : Block} {n : ℤ} {maxX : ℚ} {s : ℤ}
    (hsw : 0 < sr.siteWidth) (hs : s ≤ sr.numSites - n)
    (hx : sr.xStart + s * sr.siteWidth + b.width ≤ maxX) : s ≤ maxSiteOf sr b n maxX := by
  unfold maxSiteOf
  refine le_min ?_ hs
  rw [Int.le_floor]
  have ht : (s : ℚ) ≤ (maxX - sr.xStart - b.width) / sr.siteWidth := by
    rw [le_div_iff₀ hsw]; linarith
  have := eps_pos
  linarith

theorem fits_of_geom {row : Row} {sr : SubRow} (hg : SubGeom row sr) (w : ℚ) {s : ℤ}
    (hs : s ≤ sr.numSites - ⌈w / row.siteWidth⌉) :
    sr.xStart + s * sr.siteWidth + w ≤ sr.xEnd + eps := by
  have hsw : 0 < sr.siteWidth := by rw [hg.sw_eq]; exact hg.sw_pos
  have hwle : w ≤ ⌈w / row.siteWidth⌉ * sr.siteWidth := by
    rw [hg.sw_eq]
    have := Int.le_ceil (w / row.siteWidth)
    calc w = w / row.siteWidth * row.siteWidth := by
          have := hg.sw_pos; field_simp
      _ ≤ ⌈w / row.siteWidth⌉ * row.siteWidth :=
          mul_le_mul_of_nonneg_right this (le_of_lt hg.sw_pos)
  have hcast : ((s + ⌈w / row.siteWidth⌉ : ℤ) : ℚ) ≤ (sr.numSites : ℚ) := by
    exact_mod_cast (by omega : s + ⌈w / row.siteWidth⌉ ≤ sr.numSites)
  have hmul := mul_le_mul_of_nonneg_right hcast (le_of_lt hsw)
  push_cast at hmul
  rw [hg.xEnd_eq]
  have := eps_pos
  linarith

theorem foldl_pick_le (l : List Best) (best : Best) :
    ∀ c ∈ l, (l.foldl pick best).disp - eps ≤ c.disp := by
  intro c hc
  have he := eps_pos
  rcases foldl_pick_spec l best with ⟨h1, h2⟩ | ⟨pre, post, h1, _, h3, h4⟩
  · rw [h1]; exact h2 c hc
  · rw [h1] at hc
    rcases List.mem_append.1 hc with hp | hp
    · have := h3 c hp; linarith
    · rcases List.mem_cons.1 hp with rfl | hp'
      · linarith
      · exact h4 c hp'

/-- The search window in exact arithmetic: in a state whose subrow records are
as constructed, for every cell with radius `R = D0 + 20`, every row with
`V = |row.yStart - origY| <= R` that is high enough, and every subrow of it,
with `H = R - V`: every site `s` in `[0, numSites - n]` for which the whole cell
`[xStart + s * siteWidth, xStart + s * siteWidth + width]` lies in
`[origX - H, origX + H]` and that passes `canPlaceAt` is a candidate of the
search, and the search result is not beaten by it by more than `1e-6`. -/
theorem search_window_exact (p : Placement) (i : ℕ) (hst : Static p.rows)
    (ri si : ℕ) (row : Row) (sr : SubRow) (hsub : IsSub p.rows ri si row sr) (s : ℤ)
    (hwin : InWindow (p.block i) row sr s)
    (hcan : sr.canPlaceAt s ⌈(p.block i).width / row.siteWidth⌉ = some true) :
    ∃ (cands : List Best) (best : Best),
      candidatesOf p i = some cands ∧
      candidateAt sr (p.block i) ri row.yStart s ∈ cands ∧
      scanRows (p.block i) (p.block i).disp 0 p.rows
        ⟨p.rows.length, (p.block i).x, (p.block i).y, (p.block i).disp⟩ = some best ∧
      best.disp - eps ≤ (candidateAt sr (p.block i) ri row.yStart s).disp := by
  obtain ⟨hv, hh, hs0, hs1, hlo, hhi⟩ := hwin
  have hg := hst.geom ri si row sr hsub
  have hsw : 0 < sr.siteWidth := by rw [hg.sw_eq]; exact hg.sw_pos
  obtain ⟨best, hscan, _⟩ := scan_cand hst i
  have heq := scanRows_eq (p.block i) (p.block i).disp 0 p.rows
    ⟨p.rows.length, (p.block i).x, (p.block i).y, (p.block i).disp⟩
  rw [hscan] at heq
  cases hcands : rowCandidates (p.block i) (p.block i).disp 0 p.rows with
  | none => rw [hcands] at heq; cases heq
  | some cands =>
    rw [hcands] at heq
    simp only [Option.map_some', Option.some.injEq] at heq
    have hmem := mem_rowCandidates hcands hsub.1 hv hh (List.getElem?_mem hsub.2)
      (minSiteOf_le hsw hs0 hlo) (le_maxSiteOf hsw hs1 hhi) hcan
      (fits_of_geom hg (p.block i).width hs1)
    rw [Nat.zero_add] at hmem
    refine ⟨cands, best, hcands, hmem, hscan, ?_⟩
    rw [heq]
    exact foldl_pick_le cands _ _ hmem

/-! ## The `.aux` reader -/

theorem afterFirst_header (rest : List Char) :
    afterFirst [' ', ':', ' '] ("RowBasedPlacement : ".toList ++ rest) = some rest := by
  simp [afterFirst]

theorem words_append (w rest cur : List Char) (hw : ∀ c ∈ w, isSpace c = false) :
    words cur (w ++ rest) = words (w.reverse ++ cur) rest := by
  induction w generalizing cur with
  | nil => rfl
  | cons c w ih =>
    have hc : isSpace c = false := hw c (List.mem_cons_self _ _)
    simp only [List.cons_append, words, hc, Bool.false_eq_true, if_false]
    show words (c :: cur) (w ++ rest) = words ((c :: w).reverse ++ cur) rest
    rw [ih (c :: cur) (fun d hd => hw d (List.mem_cons_of_mem _ hd))]
    simp

theorem words_joinNames (names : List (List Char))
    (h : ∀ w ∈ names, w ≠ [] ∧ ∀ c ∈ w, isSpace c = false) :
    words [] (joinNames names) = names := by
  induction names with
  | nil => rfl
  | cons a rest ih =>
    obtain ⟨hne, hsp⟩ := h a (List.mem_cons_self _ _)
    have hrev : a.reverse ≠ [] := by simpa using hne
    cases rest with
    | nil =>
      have := words_append a [] [] hsp
      simp only [List.append_nil] at this
      simp only [joinNames, this, words, hrev, if_false, List.reverse_reverse]
    | cons b rest =>
      have hsep : isSpace ' ' = true := by decide
      simp only [joinNames]
      rw [words_append a _ [] hsp]
      simp only [List.append_nil, words, hsep, if_true, hrev, if_false, List.reverse_reverse]
      rw [ih (fun w hw => h w (List.mem_cons_of_mem _ hw))]

/-- A text `.xyz` occurs in `P ++ .ext` only inside `P` or as the start of the
extension, when neither `xyz` nor `ext` contains a dot. -/
theorem infix_append_ext {pt e P : List Char} (hpt : '.' ∉ pt) (he : '.' ∉ e)
    (h : ('.' :: pt) <:+: P ++ '.' :: e) :
    ('.' :: pt) <:+: P ∨ ('.' :: pt) <+: '.' :: e := by
  obtain ⟨s, t, h⟩ := h
  rw [List.append_assoc] at h
  rcases List.append_eq_append_iff.1 h with ⟨a', hP, hrest⟩ | ⟨c', _, hext⟩
  · rcases List.append_eq_append_iff.1 hrest with ⟨a'', ha', _⟩ | ⟨c', hpat, hext⟩
    · left
      exact ⟨s, a'', by rw [hP, ha', List.append_assoc]⟩
    · cases a' with
      | nil =>
        right
        simp only [List.nil_append] at hpat
        exact ⟨t, by rw [hext, hpat]⟩
      | cons x a'' =>
        cases c' with
        | nil =>
          left
          simp only [List.append_nil] at hpat
          exact ⟨s, [], by rw [hP, hpat]; simp⟩
        | cons y c'' =>
          exfalso
          simp only [List.cons_append, List.cons.injEq] at hpat hext
          apply hpt
          rw [hpat.2, ← hext.1]
          simp
  · cases c' with
    | nil =>
      right
      simp only [List.nil_append] at hext
      exact ⟨t, hext.symm⟩
    | cons x c'' =>
      exfalso
      simp only [List.cons_append, List.cons.injEq] at hext
      apply he
      rw [hext.2]
      simp

theorem not_infix_ext {pt e P : List Char} (hpt : '.' ∉ pt) (he : '.' ∉ e)
    (hP : ¬ ('.' :: pt) <:+: P) (hne : ¬ ('.' :: pt) <+: '.' :: e) :
    ¬ ('.' :: pt) <:+: P ++ '.' :: e :=
  fun h => (infix_append_ext hpt he h).elim hP hne

theorem infix_append_self (pat P : List Char) : pat <:+: P ++ pat :=
  (List.suffix_append P pat).isInfix

theorem recordFile_nodes (f : AuxFiles) (P : List Char) :
    recordFile f (P ++ dotNodes) = { f with nodes := some (P ++ dotNodes) } := by
  unfold recordFile
  rw [if_pos (infix_append_self _ _)]

theorem recordFile_pl (f : AuxFiles) {P : List Char} (h : CleanPrefix P) :
    recordFile f (P ++ dotPl) = { f with pl := some (P ++ dotPl) } := by
  have h1 : ¬ dotNodes <:+: P ++ dotPl :=
    @not_infix_ext _ _ P (by decide) (by decide) h.1 (by decide)
  unfold recordFile
  rw [if_neg h1, if_pos (infix_append_self _ _)]

theorem recordFile_scl (f : AuxFiles) {P : List Char} (h : CleanPrefix P) :
    recordFile f (P ++ dotScl) = { f with scl := some (P ++ dotScl) } := by
  have h1 : ¬ dotNodes <:+: P ++ dotScl :=
    @not_infix_ext _ _ P (by decide) (by decide) h.1 (by decide)
  have h2 : ¬ dotPl <:+: P ++ dotScl :=
    @not_infix_ext _ _ P (by decide) (by decide) h.2.1 (by decide)
  unfold recordFile
  rw [if_neg h1, if_neg h2, if_pos (infix_append_self _ _)]

theorem recordFile_nets (f : AuxFiles) {P : List Char} (h : CleanPrefix P) :
    recordFile f (P ++ dotNets) = { f with nets := some (P ++ dotNets) } := by
  have h1 : ¬ dotNodes <:+: P ++ dotNets :=
    @not_infix_ext _ _ P (by decide) (by decide) h.1 (by decide)
  have h2 : ¬ dotPl <:+: P ++ dotNets :=
    @not_infix_ext _ _ P (by decide) (by decide) h.2.1 (by decide)
  have h3 : ¬ dotScl <:+: P ++ dotNets :=
    @not_infix_ext _ _ P (by decide) (by decide) h.2.2.1 (by decide)
  unfold recordFile
  rw [if_neg h1, if_neg h2, if_neg h3, if_pos (infix_append_self _ _)]

theorem recordFile_wts (f : AuxFiles) {P : List Char} (h : CleanPrefix P) :
    recordFile f (P ++ dotWts) = { f with wts := some (P ++ dotWts) } := by
  have h1 : ¬ dotNodes <:+: P ++ dotWts :=
    @not_infix_ext _ _ P (by decide) (by decide) h.1 (by decide)
  have h2 : ¬ dotPl <:+: P ++ dotWts :=
    @not_infix_ext _ _ P (by decide) (by decide) h.2.1 (by decide)
  have h3 : ¬ dotScl <:+: P ++ dotWts :=
    @not_infix_ext _ _ P (by decide) (by decide) h.2.2.1 (by decide)
  have h4 : ¬ dotNets <:+: P ++ dotWts :=
    @not_infix_ext _ _ P (by decide) (by decide) h.2.2.2 (by decide)
  unfold recordFile
  rw [if_neg h1, if_neg h2, if_neg h3, if_neg h4, if_pos (infix_append_self _ _)]

theorem parseAuxFile_line (names : List (List Char))
    (h : ∀ w ∈ names, w ≠ [] ∧ ∀ c ∈ w, isSpace c = false) :
    parseAuxFile [auxLineOf names] = names.foldl recordFile AuxFiles.empty := by
  have h1 := afterFirst_header (joinNames names)
  have h2 : ¬ (auxLineOf names = [] ∨ (auxLineOf names).head? = some '#') := by
    simp [auxLineOf]
  unfold parseAuxFile
  simp only [List.foldl_cons, List.foldl_nil, parseAuxLine, if_neg h2]
  unfold auxLineOf
  rw [h1]
  simp only [words_joinNames names h]

theorem kind_names_ok {P : List Char} (hws : ∀ c ∈ P, isSpace c = false) (exts : List (List Char))
    (hex : ∀ e ∈ exts, e ∈ auxKinds) :
    ∀ w ∈ exts.map (fun e => P ++ e), w ≠ [] ∧ ∀ c ∈ w, isSpace c = false := by
  intro w hw
  obtain ⟨e, he, rfl⟩ := List.mem_map.1 hw
  have hk := hex e he
  have hfacts : e ≠ [] ∧ ∀ c ∈ e, isSpace c = false := by
    simp only [auxKinds, List.mem_cons, List.mem_singleton, List.not_mem_nil, or_false] at hk
    rcases hk with rfl | rfl | rfl | rfl | rfl <;> exact ⟨by decide, by decide⟩
  refine ⟨by simp [hfacts.1], ?_⟩
  intro c hc
  rcases List.mem_append.1 hc with h | h
  · exact hws c h
  · exact hfacts.2 c h

theorem fold_fields {P : List Char} (hclean : CleanPrefix P) (exts : List (List Char))
    (hex : ∀ e ∈ exts, e ∈ auxKinds) (acc : AuxFiles) :
    (((exts.map (fun e => P ++ e)).foldl recordFile acc).nodes.isSome
        = (acc.nodes.isSome || decide (dotNodes ∈ exts))) ∧
    (((exts.map (fun e => P ++ e)).foldl recordFile acc).pl.isSome
        = (acc.pl.isSome || decide (dotPl ∈ exts))) ∧
    (((exts.map (fun e => P ++ e)).foldl recordFile acc).scl.isSome
        = (acc.scl.isSome || decide (dotScl ∈ exts))) ∧
    (((exts.map (fun e => P ++ e)).foldl recordFile acc).nets.isSome
        = (acc.nets.isSome || decide (dotNets ∈ exts))) ∧
    (((exts.map (fun e => P ++ e)).foldl recordFile acc).wts.isSome
        = (acc.wts.isSome || decide (dotWts ∈ exts))) := by
  induction exts generalizing acc with
  | nil => simp
  | cons e rest ih =>
    have hk := hex e (List.mem_cons_self _ _)
    have hrest : ∀ e' ∈ rest, e' ∈ auxKinds := fun e' he' => hex e' (List.mem_cons_of_mem _ he')
    simp only [List.map_cons, List.foldl_cons]
    simp only [auxKinds, List.mem_cons, List.mem_singleton, List.not_mem_nil, or_false] at hk
    have d1 : dotNodes ≠ dotNets := by decide
    have d2 : dotNodes ≠ dotWts := by decide
    have d3 : dotNodes ≠ dotPl := by decide
    have d4 : dotNodes ≠ dotScl := by decide
    have d5 : dotNets ≠ dotWts := by decide
    have d6 : dotNets ≠ dotPl := by decide
    have d7 : dotNets ≠ dotScl := by decide
    have d8 : dotWts ≠ dotPl := by decide
    have d9 : dotWts ≠ dotScl := by decide
    have d10 : dotPl ≠ dotScl := by decide
    rcases hk with rfl | rfl | rfl | rfl | rfl
    · rw [recordFile_nodes]
      obtain ⟨h1, h2, h3, h4, h5⟩ := ih hrest { acc with nodes := some (P ++ dotNodes) }
      rw [h1, h2, h3, h4, h5]
      simp [d1.symm, d2.symm, d3.symm, d4.symm]
    · rw [recordFile_nets _ hclean]
      obtain ⟨h1, h2, h3, h4, h5⟩ := ih hrest { acc with nets := some (P ++ dotNets) }
      rw [h1, h2, h3, h4, h5]
      simp [d1, d5.symm, d6.symm, d7.symm]
    · rw [recordFile_wts _ hclean]
      obtain ⟨h1, h2, h3, h4, h5⟩ := ih hrest { acc with wts := some (P ++ dotWts) }
      rw [h1, h2, h3, h4, h5]
      simp [d2, d5, d8.symm, d9.symm]
    · rw [recordFile_pl _ hclean]
      obtain ⟨h1, h2, h3, h4, h5⟩ := ih hrest { acc with pl := some (P ++ dotPl) }
      rw [h1, h2, h3, h4, h5]
      simp [d3, d6, d8, d10.symm]
    · rw [recordFile_scl _ hclean]
      obtain ⟨h1, h2, h3, h4, h5⟩ := ih hrest { acc with scl := some (P ++ dotScl) }
      rw [h1, h2, h3, h4, h5]
      simp [d4, d7, d9, d10]

/-- C15 counterexample: with the whitespace-free prefix `chip.placed` the line
lists all five files, but `chip.placed.nets`, `chip.placed.wts`,
`chip.placed.pl` and `chip.placed.scl` all contain `.pl` and are recorded under
`pl`; `scl`, `nets` and `wts` stay absent and `main` reports the fatal error. -/
theorem prefix_containing_extension_text :
    (∀ c ∈ placedPrefix, isSpace c = false) ∧
    parseAuxFile [auxLine placedPrefix]
      = ⟨some "chip.placed.nodes".toList, some "chip.placed.scl".toList, none, none, none⟩ ∧
    auxIncomplete (parseAuxFile [auxLine placedPrefix]) = true :=
  ⟨by decide!, by decide!, by decide!⟩

/-- C15 (amended): for every whitespace-free prefix `P` that contains none of
the texts `.nodes`, `.pl`, `.scl`, `.nets`, parsing the line
`RowBasedPlacement : P.nodes P.nets P.wts P.pl P.scl` records all five kinds,
each with the listed file of that extension, and the check of `main` passes;
and for a line that lists any of these five files, the check reports the fatal
error exactly when one of the five kinds is absent from the list. -/
theorem aux_completeness (P : List Char) (hws : ∀ c ∈ P, isSpace c = false)
    (hclean : CleanPrefix P) :
    parseAuxFile [auxLine P]
      = ⟨some (P ++ dotNodes), some (P ++ dotPl), some (P ++ dotScl), some (P ++ dotNets),
          some (P ++ dotWts)⟩ ∧
    auxIncomplete (parseAuxFile [auxLine P]) = false ∧
    ∀ exts : List (List Char), (∀ e ∈ exts, e ∈ auxKinds) →
      (auxIncomplete (parseAuxFile [auxLineOf (exts.map (fun e => P ++ e))]) = true ↔
        ∃ e ∈ auxKinds, e ∉ exts) := by
  have hline : parseAuxFile [auxLine P]
      = ⟨some (P ++ dotNodes), some (P ++ dotPl), some (P ++ dotScl), some (P ++ dotNets),
          some (P ++ dotWts)⟩ := by
    unfold auxLine
    rw [parseAuxFile_line _ (kind_names_ok hws auxKinds (fun e he => he))]
    simp only [auxKinds, List.map_cons, List.map_nil, List.foldl_cons, List.foldl_nil,
      recordFile_nodes, recordFile_nets _ hclean, recordFile_wts _ hclean,
      recordFile_pl _ hclean, recordFile_scl _ hclean, AuxFiles.empty]
  refine ⟨hline, by rw [hline]; rfl, ?_⟩
  intro exts hex
  rw [parseAuxFile_line _ (kind_names_ok hws exts hex)]
  obtain ⟨h1, h2, h3, h4, h5⟩ := fold_fields hclean exts hex AuxFiles.empty
  have hn : ∀ o : Option (List Char), o.isNone = !o.isSome := by
    intro o; cases o <;> rfl
  unfold auxIncomplete
  rw [hn, hn, hn, hn, hn, h1, h2, h3, h4, h5]
  simp only [AuxFiles.empty, Option.isSome_none, Bool.false_or, auxKinds, List.mem_cons,
    List.mem_singleton, List.not_mem_nil, or_false, exists_eq_or_imp, exists_eq_left,
    Bool.or_eq_true, Bool.not_eq_true', decide_eq_false_iff_not]
  tauto

/-- C15 witness: the prefix `bench`. -/
theorem aux_completeness_witness :
    parseAuxFile [auxLine benchPrefix]
      = ⟨some (benchPrefix ++ dotNodes), some (benchPrefix ++ dotPl),
          some (benchPrefix ++ dotScl), some (benchPrefix ++ dotNets),
          some (benchPrefix ++ dotWts)⟩ ∧
    auxIncomplete (parseAuxFile [auxLine benchPrefix]) = false ∧
    ∀ exts : List (List Char), (∀ e ∈ exts, e ∈ auxKinds) →
      (auxIncomplete (parseAuxFile [auxLineOf (exts.map (fun e => benchPrefix ++ e))]) = true ↔
        ∃ e ∈ auxKinds, e ∉ exts) :=
  aux_completeness benchPrefix (by decide!) (by decide!)

/-! ## Processing order of the initial placer -/

theorem orderedInsert_sorted_gen {α : Type} (lt : α → α → Bool) (a : α) (l : List α)
    (hasym : ∀ u ∈ a :: l, ∀ v ∈ a :: l, lt u v = true → lt v u = false)
    (htrans : ∀ u ∈ a :: l, ∀ v ∈ a :: l, ∀ w ∈ a :: l,
      lt v u = false → lt w v = false → lt w u = false)
    (hl : l.Pairwise (fun u v => lt v u = false)) :
    (orderedInsert lt a l).Pairwise (fun u v => lt v u = false) := by
  induction l with
  | nil => simp [orderedInsert]
  | cons b l ih =>
    simp only [orderedInsert]
    have hb : b ∈ a :: b :: l := by simp
    have ha : a ∈ a :: b :: l := by simp
    rw [List.pairwise_cons] at hl
    by_cases hba : lt b a = true
    · rw [if_pos hba]
      refine List.pairwise_cons.2 ⟨?_, ?_⟩
      · intro c hc
        have hc' : c = a ∨ c ∈ l := by simpa using (orderedInsert_perm lt a l).mem_iff.1 hc
        rcases hc' with rfl | hc'
        · exact hasym b hb c ha hba
        · exact hl.1 c hc'
      · refine ih ?_ ?_ hl.2
        · intro u hu v hv
          exact hasym u (by simp at hu ⊢; tauto) v (by simp at hv ⊢; tauto)
        · intro u hu v hv w hw
          exact htrans u (by simp at hu ⊢; tauto) v (by simp at hv ⊢; tauto)
            w (by simp at hw ⊢; tauto)
    · rw [if_neg hba]
      have hba' : lt b a = false := by simpa using hba
      refine List.pairwise_cons.2 ⟨?_, List.pairwise_cons.2 hl⟩
      intro c hc
      rcases List.mem_cons.1 hc with rfl | hc'
      · exact hba'
      · exact htrans a ha b hb c (by simp [hc']) hba' (hl.1 c hc')

theorem sortBy_sorted_gen {α : Type} (lt : α → α → Bool) (l : List α)
    (hasym : ∀ u ∈ l, ∀ v ∈ l, lt u v = true → lt v u = false)
    (htrans : ∀ u ∈ l, ∀ v ∈ l, ∀ w ∈ l, lt v u = false → lt w v = false → lt w u = false) :
    (sortBy lt l).Pairwise (fun u v => lt v u = false) := by
  induction l with
  | nil => simp [sortBy]
  | cons a l ih =>
    simp only [sortBy]
    have hmem : ∀ u, u ∈ a :: sortBy lt l → u ∈ a :: l := by
      intro u hu
      rcases List.mem_cons.1 hu with rfl | hu
      · simp
      · exact List.mem_cons_of_mem _ ((mem_sortBy lt l u).1 hu)
    refine orderedInsert_sorted_gen lt a _ ?_ ?_ (ih ?_ ?_)
    · intro u hu v hv
      exact hasym u (hmem u hu) v (hmem v hv)
    · intro u hu v hv w hw
      exact htrans u (hmem u hu) v (hmem v hv) w (hmem w hw)
    · intro u hu v hv
      exact hasym u (List.mem_cons_of_mem _ hu) v (List.mem_cons_of_mem _ hv)
    · intro u hu v hv w hw
      exact htrans u (List.mem_cons_of_mem _ hu) v (List.mem_cons_of_mem _ hv)
        w (List.mem_cons_of_mem _ hw)

theorem sublist_pair_of_mem {a b : ℕ} {l : List ℕ} (hab : a ≠ b) (ha : a ∈ l) (hb : b ∈ l) :
    List.Sublist [a, b] l ∨ List.Sublist [b, a] l := by
  induction l with
  | nil => simp at ha
  | cons c l ih =>
    rcases List.mem_cons.1 ha with rfl | ha'
    · rcases List.mem_cons.1 hb with rfl | hb'
      · exact absurd rfl hab
      · exact Or.inl (List.Sublist.cons₂ _ (List.singleton_sublist.2 hb'))
    · rcases List.mem_cons.1 hb with rfl | hb'
      · exact Or.inr (List.Sublist.cons₂ _ (List.singleton_sublist.2 ha'))
      · rcases ih ha' hb' with h | h
        · exact Or.inl (List.Sublist.cons _ h)
        · exact Or.inr (List.Sublist.cons _ h)

theorem origLess_eq_lex {a b : Block}
    (h : a.origY = b.origY ∨ eps < |a.origY - b.origY|) :
    origLess a b = decide (LexBefore a b) := by
  unfold origLess LexBefore
  rcases h with h | h
  · have h0 : ¬ |a.origY - b.origY| > eps := by
      rw [h, sub_self, abs_zero]; exact not_lt.2 (le_of_lt eps_pos)
    rw [if_neg h0]
    simp [h]
  · rw [if_pos h]
    have hne : a.origY ≠ b.origY := by
      intro he; rw [he, sub_self, abs_zero] at h; exact absurd h (not_lt.2 (le_of_lt eps_pos))
    by_cases hlt : a.origY < b.origY
    · simp [hlt]
    · simp [hlt, hne]

theorem lexBefore_asymm {a b : Block} (h : LexBefore a b) : ¬ LexBefore b a := by
  unfold LexBefore at *
  rintro (h' | ⟨h1, h2⟩)
  · rcases h with h | ⟨h3, _⟩
    · exact absurd h (not_lt.2 (le_of_lt h'))
    · rw [h3] at h'; exact lt_irrefl _ h'
  · rcases h with h | ⟨_, h4⟩
    · rw [h1] at h; exact lt_irrefl _ h
    · exact absurd h4 (not_lt.2 (le_of_lt h2))

theorem not_lexBefore_trans {a b c : Block} (h1 : ¬ LexBefore b a) (h2 : ¬ LexBefore c b) :
    ¬ LexBefore c a := by
  unfold LexBefore at *
  push_neg at h1 h2 ⊢
  obtain ⟨h1a, h1b⟩ := h1
  obtain ⟨h2a, h2b⟩ := h2
  refine ⟨le_trans h1a h2a, ?_⟩
  intro he
  have hab : a.origY = b.origY := le_antisymm h1a (by rw [← he]; exact h2a)
  have hbc : b.origY = c.origY := by rw [← hab, ← he]
  exact le_trans (h1b hab.symm) (h2b hbc.symm)

theorem initialOrder_sorted {p : Placement} (hp : LevelsApart p) :
    (initialOrder p).Pairwise (fun i j => ¬ LexBefore (p.block j) (p.block i)) := by
  have hlt : ∀ u ∈ movableBlocks p, ∀ v ∈ movableBlocks p,
      origLess (p.block u) (p.block v) = decide (LexBefore (p.block u) (p.block v)) :=
    fun u hu v hv => origLess_eq_lex (hp u hu v hv)
  have h := sortBy_sorted_gen (fun a b => origLess (p.block a) (p.block b)) (movableBlocks p)
    (by
      intro u hu v hv huv
      simp only at huv ⊢
      rw [hlt u hu v hv] at huv
      rw [hlt v hv u hu]
      simpa using lexBefore_asymm (of_decide_eq_true huv))
    (by
      intro u hu v hv w hw h1 h2
      simp only at h1 h2 ⊢
      rw [hlt v hv u hu] at h1
      rw [hlt w hw v hv] at h2
      rw [hlt w hw u hu]
      simpa using not_lexBefore_trans (of_decide_eq_false h1) (of_decide_eq_false h2))
  refine List.Pairwise.imp_of_mem ?_ h
  intro i j hi hj hij
  have hi' := (mem_sortBy _ _ _).1 hi
  have hj' := (mem_sortBy _ _ _).1 hj
  simp only at hij
  rw [hlt j hj' i hi'] at hij
  exact of_decide_eq_false hij

theorem optimizeBlock_drop {p : Placement} {j : ℕ} {p' : Placement} {moved : Bool}
    (h : optimizeBlock p j = some (p', moved)) :
    p'.block j = p.block j ∨ (p'.block j).disp < (p.block j).disp - eps := by
  rcases optimizeBlock_cases h with ⟨_, rfl⟩ | ⟨best, ri, si, s, n, hscan, hlt, _, hc⟩
  · exact Or.inl rfl
  · have hb : BestInv (p.block j) best := scanRows_bestInv (bestInv_init _ _) hscan
    have key : (moveTo (removeAt p j ri si s n) j best.x best.y).block j = p.block j ∨
        ((moveTo (removeAt p j ri si s n) j best.x best.y).block j).disp
          < (p.block j).disp - eps := by
      by_cases hl : j < p.blocks.length
      · right
        rw [moveTo_disp _ _ _ _ (by simpa [removeAt] using hl), removeAt_block, ← hb]
        exact hlt
      · left
        rw [moveTo_block]
        have : ¬ (j = j ∧ j < (removeAt p j ri si s n).blocks.length) := by
          simpa [removeAt] using hl
        rw [if_neg this, removeAt_block]
    rcases hc with ⟨_, _, rfl⟩ | ⟨_, si', s', n', _, rfl⟩
    · exact key
    · rw [insertAt_block]; exact key

theorem iterations_sameRows {k : ℕ} {p q : Placement} (h : iterations k p = some q) :
    SameRows p.rows q.rows := by
  induction k generalizing p with
  | zero =>
    simp only [iterations, Option.some.injEq] at h
    rw [← h]; exact sameRows_refl _
  | succ k ih =>
    simp only [iterations] at h
    split at h
    · cases h
    · rename_i p1 imp hit
      exact sameRows_trans (optimizeBlocks_sameRows hit) (ih h)

theorem iterations_sameCells {k : ℕ} {p q : Placement} (h : iterations k p = some q) :
    SameCells p q := by
  induction k generalizing p with
  | zero =>
    simp only [iterations, Option.some.injEq] at h
    rw [← h]; exact sameCells_refl _
  | succ k ih =>
    simp only [iterations] at h
    split at h
    · cases h
    · rename_i p1 imp hit
      exact sameCells_trans (optimizeIteration_sameCells hit) (ih h)

theorem iterations_legal {k : ℕ} {p q : Placement} (hl : Legal p) (ha : Apart p.rows)
    (h : iterations k p = some q) : Legal q ∧ Apart q.rows := by
  induction k generalizing p with
  | zero =>
    simp only [iterations, Option.some.injEq] at h
    rw [← h]; exact ⟨hl, ha⟩
  | succ k ih =>
    simp only [iterations] at h
    split at h
    · cases h
    · rename_i p1 imp hit
      obtain ⟨p1', imp', h1, hl1, ha1, _⟩ :=
        @optimizeBlocks_legal (optimizeOrder p) p hl ha false
      have hit' : optimizeBlocks (optimizeOrder p) p false = some (p1, imp) := hit
      rw [hit'] at h1
      simp only [Option.some.injEq, Prod.mk.injEq] at h1
      obtain ⟨rfl, _⟩ := h1
      exact ih hl1 ha1 h

theorem attempts_static {p1 q : Placement} {i : ℕ} (hst : Static p1.rows)
    (h : Attempts p1 q i) :
    Static q.rows ∧ SameCells p1 q ∧ i < q.blocks.length ∧ (q.block i).isFixed = false := by
  obtain ⟨k, q0, pre, post, imp, hk, hord, hq⟩ := h
  have hr := sameRows_trans (iterations_sameRows hk) (optimizeBlocks_sameRows hq)
  have hc0 := iterations_sameCells hk
  have hc1 := optimizeBlocks_sameCells hq
  have hc := sameCells_trans hc0 hc1
  have hi : i ∈ movableBlocks q0 := by
    have : i ∈ optimizeOrder q0 := by rw [hord]; simp
    unfold optimizeOrder at this
    exact (mem_sortBy _ _ _).1 this
  obtain ⟨hlt, hmov⟩ := (mem_movableBlocks q0 i).1 hi
  refine ⟨static_of_sameRows hst hr, hc, ?_, ?_⟩
  · rw [hc1.1]; exact hlt
  · rw [(hc1.2 i).2.2.2.2.2]; exact hmov

theorem attempts_legal {p1 q : Placement} {i : ℕ} (hl : Legal p1) (ha : Apart p1.rows)
    (h : Attempts p1 q i) : Legal q ∧ Apart q.rows := by
  obtain ⟨k, q0, pre, post, imp, hk, hord, hq⟩ := h
  obtain ⟨hl0, ha0⟩ := iterations_legal hl ha hk
  obtain ⟨q', imp', h1, hl1, ha1, _⟩ := @optimizeBlocks_legal pre q0 hl0 ha0 false
  rw [hq] at h1
  simp only [Option.some.injEq, Prod.mk.injEq] at h1
  obtain ⟨rfl, _⟩ := h1
  exact ⟨hl1, ha1⟩

/-- On a well-formed input every state in which the refinement attempts a cell
has the geometry of the input and a movable cell with a positive width. -/
theorem attempts_wellFormed {p p1 q : Placement} {i : ℕ} (hw : WellFormed p)
    (h1 : initialPlacement p = some p1) (h : Attempts p1 q i) :
    Static q.rows ∧ i < q.blocks.length ∧ (q.block i).isFixed = false ∧
      0 < (q.block i).width := by
  have hst1 : Static p1.rows := static_of_sameRows (static_of_wellFormed hw) (placeAll_sameRows h1)
  obtain ⟨hst, hc, hlt, hmov⟩ := attempts_static hst1 h
  refine ⟨hst, hlt, hmov, ?_⟩
  have hc' := sameCells_trans (initialPlacement_sameCells h1) hc
  have hlt0 : i < p.blocks.length := by rw [← hc'.1]; exact hlt
  have hb : p.block i ∈ p.blocks := by
    unfold Placement.block
    rw [List.getD_eq_getElem?_getD, List.getElem?_eq_getElem hlt0]
    exact List.getElem_mem _
  rw [(hc'.2 i).2.1]
  exact (hw.2.2.2 _ hb).1

/-- On a well-formed input whose rows and sites respect the tolerances every
state in which the refinement attempts a cell is legal. -/
theorem attempts_separated {p p1 q : Placement} {i : ℕ} (hw : WellFormed p)
    (hs : Separated p) (h1 : initialPlacement p = some p1) (h : Attempts p1 q i) :
    Legal q ∧ Apart q.rows := by
  obtain ⟨p1', h1', hl1⟩ := initialPlacement_legal hw
  rw [h1] at h1'
  simp only [Option.some.injEq] at h1'
  subst h1'
  exact attempts_legal hl1 (apart_of_sameRows (apart_of_separated hs) (placeAll_sameRows h1)) h

/-! ## The removal search of the refinement -/

/-- A cell with a candidate that beats its displacement by more than `eps` is
in a placed-cell list of a legal state. -/
theorem listed_of_candidate {q : Placement} {i : ℕ} (hl : Legal q) {cands : List Best}
    (hc : candidatesOf q i = some cands)
    (hex : ∃ c ∈ cands, c.disp < (q.block i).disp - eps) : Listed q.rows i := by
  have heq := scanRows_eq (q.block i) (q.block i).disp 0 q.rows
    ⟨q.rows.length, (q.block i).x, (q.block i).y, (q.block i).disp⟩
  unfold candidatesOf at hc
  rw [hc] at heq
  simp only [Option.map_some'] at heq
  have hb := scanRows_bestInv (bestInv_init (q.block i) q.rows.length) heq
  have hlt := (foldl_pick_iff cands
    ⟨q.rows.length, (q.block i).x, (q.block i).y, (q.block i).disp⟩).2 hex
  by_contra hn
  obtain ⟨hx, hy⟩ := hl.home i hn
  have hd := disp_eq_zero hx hy
  have h0 : 0 ≤ (cands.foldl pick
      ⟨q.rows.length, (q.block i).x, (q.block i).y, (q.block i).disp⟩).disp := by
    rw [hb]; positivity
  have := eps_pos
  simp only [hd] at hlt h0
  linarith

/-- The search for the current location in exact arithmetic: for every
well-formed input whose rows are at least `1e-6` apart and whose rows have a
site width above `1e-6` or list their subrows from left to right, in every
state in which `optimizePlacement`, run on the state produced by
`initialPlacement`, attempts a cell that has a candidate with
`D' < D0 - 1e-6`, the search for the current location succeeds: the cell is in
the list of exactly one subrow, the row of that subrow passes
`|row.yStart - cell.y| < 1e-6`, the subrow contains the extent of the cell and
its bit at `floor((cell.x - xStart) / siteWidth + 1e-6)` is set, the search
returns that row and subrow, and the computed start site and site count are the
range the cell occupies. -/
theorem location_found_exact (p p1 q : Placement) (i : ℕ) (hw : WellFormed p)
    (hs : Separated p) (h1 : initialPlacement p = some p1) (hq : Attempts p1 q i)
    (cands : List Best) (hc : candidatesOf q i = some cands)
    (hex : ∃ c ∈ cands, c.disp < (q.block i).disp - eps) :
    ∃ (ri si : ℕ) (r : Row) (sr : SubRow),
      IsSub q.rows ri si r sr ∧ i ∈ sr.placedBlocks ∧
      (∀ rj sj r' sr', IsSub q.rows rj sj r' sr' → i ∈ sr'.placedBlocks → rj = ri ∧ sj = si) ∧
      |r.yStart - (q.block i).y| < eps ∧
      (q.block i).x ≥ sr.xStart - eps ∧ (q.block i).x + (q.block i).width ≤ sr.xEnd + eps ∧
      readSite sr.occupiedSites ⌊((q.block i).x - sr.xStart) / sr.siteWidth + eps⌋ = some true ∧
      locateRow (q.block i) 0 q.rows
        = some (some (ri, si, ⌊((q.block i).x - sr.xStart) / sr.siteWidth + eps⌋,
            ⌈(q.block i).width / sr.siteWidth⌉)) ∧
      (q.block i).x
        = sr.xStart + ⌊((q.block i).x - sr.xStart) / sr.siteWidth + eps⌋ * sr.siteWidth ∧
      0 ≤ ⌊((q.block i).x - sr.xStart) / sr.siteWidth + eps⌋ ∧
      ⌊((q.block i).x - sr.xStart) / sr.siteWidth + eps⌋ + ⌈(q.block i).width / sr.siteWidth⌉
        ≤ sr.numSites ∧
      ∀ k, ⌊((q.block i).x - sr.xStart) / sr.siteWidth + eps⌋ ≤ k →
        k < ⌊((q.block i).x - sr.xStart) / sr.siteWidth + eps⌋
            + ⌈(q.block i).width / sr.siteWidth⌉ →
        readSite sr.occupiedSites k = some true := by
  obtain ⟨hl, ha⟩ := attempts_separated hw hs h1 hq
  obtain ⟨ri, si, r, sr, hsub, hi⟩ := listed_of_candidate hl hc hex
  have hg : SubGeom r sr := hl.lists.stat.geom ri si r sr hsub
  have hok : SubOK q.blocks r sr := hl.lists.sub ri si r sr hsub
  obtain ⟨_, _, hwpos, _, hy, hs0, hfit, hx⟩ := hok.placed i hi
  have hsw : 0 < sr.siteWidth := by rw [hg.sw_eq]; exact hg.sw_pos
  have hloc := locateRow_found hl.lists ha hsub hi 0 q.rows (Nat.zero_le _) (fun j => by simp)
  have hb : q.blocks.getD i default = q.block i := rfl
  rw [hb] at hy hs0 hfit hx hwpos
  have hfl : ⌊((q.block i).x - sr.xStart) / sr.siteWidth + eps⌋ = startOf sr (q.block i) :=
    floor_site hsw hx
  have hn : ⌈(q.block i).width / sr.siteWidth⌉ = sitesOf sr (q.block i) := rfl
  have hn1 : 1 ≤ sitesOf sr (q.block i) := sitesOf_pos hsw hwpos
  have hwle := @width_le_sites sr (q.block i) hsw
  have hbits : ∀ k, startOf sr (q.block i) ≤ k →
      k < startOf sr (q.block i) + sitesOf sr (q.block i) →
      readSite sr.occupiedSites k = some true := by
    intro k hk1 hk2
    exact (hok.bits k (by omega) (by omega)).2 ⟨i, hi, hk1, hk2⟩
  refine ⟨ri, si, r, sr, ?_⟩
  rw [hfl, hn]
  refine ⟨hsub, hi, ?_, ?_, ?_, ?_, ?_, hloc, hx, hs0, hfit, hbits⟩
  · intro rj sj r' sr' hsub' hi'
    exact hl.lists.unique i rj sj r' sr' ri si r sr hsub' hsub hi' hi
  · rw [hy, sub_self, abs_zero]; exact eps_pos
  · have h0 : (0 : ℚ) ≤ (startOf sr (q.block i) : ℚ) * sr.siteWidth :=
      Rat.mul_nonneg (by exact_mod_cast hs0) (le_of_lt hsw)
    have := eps_pos
    rw [ge_iff_le]
    linarith
  · have hnum : ((startOf sr (q.block i) : ℚ) + sitesOf sr (q.block i)) * sr.siteWidth
        ≤ (sr.numSites : ℚ) * sr.siteWidth :=
      mul_le_mul_of_nonneg_right (by exact_mod_cast hfit) (le_of_lt hsw)
    have := eps_pos
    rw [hg.xEnd_eq]
    linarith
  · exact hbits _ (le_refl _) (by omega)

/-! ## The footprint of a cell during its own candidate scan -/

/-- A site range that `canPlaceAt` accepts starts at a nonnegative site. -/
theorem canPlaceAt_start_nonneg {sr : SubRow} {s n : ℤ} (hn : 1 ≤ n)
    (h : sr.canPlaceAt s n = some true) : 0 ≤ s := by
  have h2 := ((canPlaceAt_eq_true (by omega)).1 h).2 s (le_refl _) (by omega)
  exact (readSite_some_lt h2).1

/-- In a legal state a site range that `canPlaceAt` accepts in the subrow of a
listed cell is disjoint from the range of that cell. -/
theorem free_range_avoids {q : Placement} (hl : Legal q) {i ri si : ℕ} {r : Row}
    {sr : SubRow} (hsub : IsSub q.rows ri si r sr) (hi : i ∈ sr.placedBlocks) {s : ℤ}
    (hcan : sr.canPlaceAt s ⌈(q.block i).width / r.siteWidth⌉ = some true) :
    s + sitesOf sr (q.block i) ≤ startOf sr (q.block i) ∨
      startOf sr (q.block i) + sitesOf sr (q.block i) ≤ s := by
  have hg : SubGeom r sr := hl.lists.stat.geom ri si r sr hsub
  have hok : SubOK q.blocks r sr := hl.lists.sub ri si r sr hsub
  have hsw : 0 < sr.siteWidth := by rw [hg.sw_eq]; exact hg.sw_pos
  have hwpos : 0 < (q.block i).width := (hok.placed i hi).2.2.1
  have hn1 : 1 ≤ sitesOf sr (q.block i) := sitesOf_pos hsw hwpos
  have hn : ⌈(q.block i).width / r.siteWidth⌉ = sitesOf sr (q.block i) := by
    unfold sitesOf; rw [hg.sw_eq]
  rw [hn] at hcan
  have hs0 := canPlaceAt_start_nonneg hn1 hcan
  obtain ⟨hfit, hfree⟩ := (canPlaceAt_eq_true (by omega)).1 hcan
  exact free_range_disjoint hg hok hs0 hn1 hfit hfree i hi

/-- A point on a site of a subrow, with room for at least one site after it,
lies in the half-open extent of the subrow. -/
theorem site_in_extent {r : Row} {sr : SubRow} (hg : SubGeom r sr) {x : ℚ} {s n : ℤ}
    (hx : x = sr.xStart + s * sr.siteWidth) (hs : 0 ≤ s) (hn : 1 ≤ n)
    (hfit : s + n ≤ sr.numSites) : sr.xStart ≤ x ∧ x < sr.xEnd := by
  have hsw : 0 < sr.siteWidth := by rw [hg.sw_eq]; exact hg.sw_pos
  have h0 : (0 : ℚ) ≤ (s : ℚ) * sr.siteWidth := Rat.mul_nonneg (by exact_mod_cast hs) (le_of_lt hsw)
  have h1 : ((s : ℚ) + 1) * sr.siteWidth ≤ (sr.numSites : ℚ) * sr.siteWidth :=
    mul_le_mul_of_nonneg_right (by exact_mod_cast (by omega : s + 1 ≤ sr.numSites))
      (le_of_lt hsw)
  rw [hg.xEnd_eq, hx]
  constructor
  · linarith
  · linarith

/-- In a legal state with separated rows, a relocated cell that is listed after
the move in the subrow that listed it before occupies there a site range
disjoint from the one it had. -/
theorem relocation_disjoint {q : Placement} (hl : Legal q) (ha : Apart q.rows) {i ri si : ℕ}
    {r : Row} {sr : SubRow} (hsub : IsSub q.rows ri si r sr) (hi : i ∈ sr.placedBlocks)
    {q' : Placement} (h : optimizeBlock q i = some (q', true)) :
    Listed q'.rows i ∧
    ∀ r' sr', IsSub q'.rows ri si r' sr' → i ∈ sr'.placedBlocks →
      startOf sr' (q'.block i) + sitesOf sr (q.block i) ≤ startOf sr (q.block i) ∨
      startOf sr (q.block i) + sitesOf sr (q.block i) ≤ startOf sr' (q'.block i) := by
  obtain ⟨p', moved', h', hl', _, hiff⟩ := optimizeBlock_legal hl ha i
  rw [h] at h'
  simp only [Option.some.injEq, Prod.mk.injEq] at h'
  obtain ⟨rfl, rfl⟩ := h'
  refine ⟨(hiff i).2 ⟨ri, si, r, sr, hsub, hi⟩, ?_⟩
  intro r' sr' hsub' hi'
  have hilt : i < q.blocks.length := ((hl.lists.sub ri si r sr hsub).placed i hi).1
  have hwpos : 0 < (q.block i).width := ((hl.lists.sub ri si r sr hsub).placed i hi).2.2.1
  rcases optimizeBlock_cases h with ⟨hm, _⟩ | ⟨best, rk, sk, s0, n0, hscan, hlt, _, hc⟩
  · cases hm
  obtain ⟨best', hscan', hcand⟩ := scan_cand hl.lists.stat i
  rw [hscan] at hscan'
  simp only [Option.some.injEq] at hscan'
  subst hscan'
  obtain ⟨sb, rb, srb, s, hsubb, hs0, hcan, hbx, hby, _, _⟩ := hcand hlt
  -- the record of the cell after the step
  have hblk : q'.block i = { q.block i with x := best.x, y := best.y } := by
    rcases hc with ⟨hm, _, _⟩ | ⟨_, si', s', n', _, rfl⟩
    · cases hm
    · rw [insertAt_block, moveTo_block,
        if_pos ⟨rfl, by simpa [removeAt] using hilt⟩, removeAt_block]
  -- the subrow after the step has the geometry of the subrow before it
  obtain ⟨r0, sr0, hsub0, hy0, _, _, hsame⟩ := (optimizeBlock_sameRows h).2 ri si r' sr' hsub'
  obtain ⟨rfl, rfl⟩ := isSub_unique hsub0 hsub
  obtain ⟨hxs, _, hsws, hnum, _⟩ := hsame
  have hg : SubGeom r0 sr0 := hl.lists.stat.geom ri si r0 sr0 hsub
  have hsw : 0 < sr0.siteWidth := by rw [hg.sw_eq]; exact hg.sw_pos
  obtain ⟨_, _, _, _, hy', ht0, htfit, hx'⟩ := (hl'.lists.sub ri si r' sr' hsub').placed i hi'
  have hb' : q'.blocks.getD i default = q'.block i := rfl
  rw [hb'] at hy' ht0 htfit hx'
  -- the target row is the row of the subrow
  have hrow : best.rowIdx = ri := by
    by_contra hne
    have := ha.rowsApart best.rowIdx ri rb r0 hsubb.1 hsub.1 hne
    have hyy : rb.yStart = r0.yStart := by
      rw [← hby, hy0, ← hy', hblk]
    rw [hyy, sub_self, abs_zero] at this
    exact absurd this (not_le.2 eps_pos)
  subst hrow
  have hrb : rb = r0 := by
    have := hsubb.1.symm.trans hsub.1
    simpa using this
  subst hrb
  have hgb : SubGeom rb srb := hl.lists.stat.geom _ sb rb srb hsubb
  have hn1 : 1 ≤ ⌈(q.block i).width / rb.siteWidth⌉ := by
    have := Int.ceil_pos.2 (div_pos hwpos hgb.sw_pos)
    omega
  have hbfit : s + ⌈(q.block i).width / rb.siteWidth⌉ ≤ srb.numSites :=
    ((canPlaceAt_eq_true (by omega)).1 hcan).1
  have hn1' : 1 ≤ sitesOf sr' (q'.block i) := by
    have : 0 < (q'.block i).width := by rw [hblk]; exact hwpos
    exact sitesOf_pos (by rw [hsws]; exact hsw) this
  have hxq : (q'.block i).x = best.x := by rw [hblk]
  -- the target subrow is the subrow of the cell
  have hsbi : sb = si := by
    by_contra hne
    have he1 := site_in_extent hgb hbx hs0 hn1 hbfit
    have hx2 : best.x = sr0.xStart + startOf sr' (q'.block i) * sr0.siteWidth := by
      rw [← hxq, hx', hxs, hsws]
    have he2 := site_in_extent hg hx2 ht0 hn1' (by rw [← hnum]; exact htfit)
    rcases hl.lists.stat.apart _ sb si rb srb sr0 hsubb hsub hne with hd | hd
    · linarith [he1.2, he2.1]
    · linarith [he1.1, he2.2]
  subst hsbi
  obtain ⟨_, rfl⟩ := isSub_unique hsubb hsub
  have hst : startOf sr' (q'.block i) = s :=
    startOf_eq (by rw [hsws]; exact hsw) (by rw [hxq, hbx, hxs, hsws])
  rw [hst]
  exact free_range_avoids hl hsub hi hcan

/-- In a legal state, a listed cell is not moved when every site that would
bring it nearer to its origin overlaps the range it occupies. -/
theorem overlapping_not_moved {q : Placement} (hl : Legal q) {i ri si : ℕ}
    {r : Row} {sr : SubRow} (hsub : IsSub q.rows ri si r sr) (hi : i ∈ sr.placedBlocks)
    (hov : OnlyOverlapping q i ri si) : optimizeBlock q i = some (q, false) := by
  obtain ⟨best, hscan, hcand⟩ := scan_cand hl.lists.stat i
  have hnot : ¬ best.disp < (q.block i).disp - eps := by
    intro hlt
    obtain ⟨sb, rb, srb, s, hsubb, hs0, hcan, hbx, hby, _, _⟩ := hcand hlt
    have hbinv : BestInv (q.block i) best := scanRows_bestInv (bestInv_init _ _) hscan
    have hwpos : 0 < (q.block i).width := ((hl.lists.sub ri si r sr hsub).placed i hi).2.2.1
    have hgb : SubGeom rb srb := hl.lists.stat.geom _ sb rb srb hsubb
    have hn1 : 1 ≤ ⌈(q.block i).width / rb.siteWidth⌉ := by
      have := Int.ceil_pos.2 (div_pos hwpos hgb.sw_pos)
      omega
    have hbfit : s + ⌈(q.block i).width / rb.siteWidth⌉ ≤ srb.numSites :=
      ((canPlaceAt_eq_true (by omega)).1 hcan).1
    have hrlt : best.rowIdx < q.rows.length := by
      have := hsubb.1
      by_contra hge
      rw [List.getElem?_eq_none (by omega)] at this
      cases this
    have hslt : sb < rb.subRows.length := by
      have := hsubb.2
      by_contra hge
      rw [List.getElem?_eq_none (by omega)] at this
      cases this
    have hrD := rowD_of_isSub hsubb
    have hsD : rb.subRows.getD sb default = srb := by
      rw [← hrD]; exact subD_of_isSub hsubb
    have hsD' := subD_of_isSub hsub
    have hcast : ((s.toNat : ℕ) : ℤ) = s := Int.toNat_of_nonneg hs0
    have hmem : s.toNat ∈ List.range srb.numSites.toNat := by
      rw [List.mem_range]; omega
    have hd : (candidateAt srb (q.block i) best.rowIdx rb.yStart s).disp = best.disp := by
      unfold candidateAt
      simp only
      rw [hbinv, hbx, hby]
    have := hov best.rowIdx (List.mem_range.2 hrlt) sb
      (by rw [hrD]; exact List.mem_range.2 hslt) s.toNat (by rw [hrD, hsD]; exact hmem)
      (by rw [hrD, hsD, hcast, hd]; exact hlt)
    obtain ⟨hr, hs, h1, h2⟩ := this
    rw [hsD', hcast] at h1 h2
    subst hr
    subst hs
    obtain ⟨rfl, rfl⟩ := isSub_unique hsubb hsub
    rcases free_range_avoids hl hsub hi hcan with h | h
    · have hn : 1 ≤ sitesOf srb (q.block i) := by
        unfold sitesOf; rw [hgb.sw_eq]; exact hn1
      omega
    · omega
  unfold optimizeBlock
  simp only [hscan]
  rw [if_neg hnot]

/-- The footprint of a cell in exact arithmetic: for every well-formed input
whose rows are at least `1e-6` apart and whose rows have a site width above
`1e-6` or list their subrows from left to right, in every state in which
`optimizePlacement`, run after `initialPlacement`, attempts a cell `i` that is
in the list of a subrow: the bitmap of that subrow holds the bits of the cell,
so every start site that `canPlaceAt` accepts there for the
`n = ceil(width / siteWidth)` sites of the cell gives a range disjoint from the
range the cell occupies; when the cell is relocated and ends up in the same
subrow, its new start site is at least `n` sites before or after the old one;
and when every site that would bring the cell more than `1e-6` nearer to its
origin overlaps the range it occupies, the cell step leaves the state as it
is. -/
theorem footprint_exact (p p1 q : Placement) (i : ℕ) (hw : WellFormed p)
    (hs : Separated p) (h1 : initialPlacement p = some p1) (hq : Attempts p1 q i)
    (ri si : ℕ) (r : Row) (sr : SubRow) (hsub : IsSub q.rows ri si r sr)
    (hi : i ∈ sr.placedBlocks) :
    (∀ k, startOf sr (q.block i) ≤ k → k < startOf sr (q.block i) + sitesOf sr (q.block i) →
      readSite sr.occupiedSites k = some true) ∧
    (∀ s, sr.canPlaceAt s ⌈(q.block i).width / r.siteWidth⌉ = some true →
      s + sitesOf sr (q.block i) ≤ startOf sr (q.block i) ∨
      startOf sr (q.block i) + sitesOf sr (q.block i) ≤ s) ∧
    (∀ q', optimizeBlock q i = some (q', true) →
      Listed q'.rows i ∧
      ∀ r' sr', IsSub q'.rows ri si r' sr' → i ∈ sr'.placedBlocks →
        startOf sr' (q'.block i) + sitesOf sr (q.block i) ≤ startOf sr (q.block i) ∨
        startOf sr (q.block i) + sitesOf sr (q.block i) ≤ startOf sr' (q'.block i)) ∧
    (OnlyOverlapping q i ri si → optimizeBlock q i = some (q, false)) := by
  obtain ⟨hl, ha⟩ := attempts_separated hw hs h1 hq
  refine ⟨?_, fun s hcan => free_range_avoids hl hsub hi hcan,
    fun q' h => relocation_disjoint hl ha hsub hi h,
    fun hov => overlapping_not_moved hl hsub hi hov⟩
  intro k hk1 hk2
  have hok : SubOK q.blocks r sr := hl.lists.sub ri si r sr hsub
  obtain ⟨_, _, _, _, _, hs0, hfit, _⟩ := hok.placed i hi
  have hb : q.blocks.getD i default = q.block i := rfl
  rw [hb] at hs0 hfit
  exact (hok.bits k (by omega) (by omega)).2 ⟨i, hi, hk1, hk2⟩

/-! ## The re-insertion search of the refinement -/

/-- On a subrow disjoint from the subrow of the chosen site, `canPlaceAt` does
not accept the start site computed for the moved block. -/
theorem canPlaceAt_other_subrow {r : Row} {a sr : SubRow} {b : Block} {s : ℤ}
    (hga : SubGeom r a) (hg : SubGeom r sr) (hw : 0 < b.width)
    (hx : b.x = sr.xStart + s * sr.siteWidth) (hs : 0 ≤ s)
    (hfit : s + sitesOf sr b ≤ sr.numSites)
    (hdis : a.xEnd ≤ sr.xStart ∨ sr.xEnd ≤ a.xStart) :
    a.canPlaceAt ⌊(b.x - a.xStart) / a.siteWidth + eps⌋ ⌈b.width / a.siteWidth⌉ ≠ some true := by
  have hsw : 0 < sr.siteWidth := hg.sw_eq ▸ hg.sw_pos
  have hswa : a.siteWidth = sr.siteWidth := by rw [hga.sw_eq, hg.sw_eq]
  have hn1 := @sitesOf_pos sr b hsw hw
  intro hc
  have hna : ⌈b.width / a.siteWidth⌉ = sitesOf sr b := by unfold sitesOf; rw [hswa]
  rw [hna] at hc
  obtain ⟨hfa, hfree⟩ := canPlaceAt_free hc
  have h0 := (readSite_some_lt (hfree _ (le_refl _) (by omega))).1
  rw [hswa] at h0 hfa
  have hae : a.xEnd = a.xStart + a.numSites * sr.siteWidth := by rw [hga.xEnd_eq, hswa]
  exact floor_site_other hsw hx hs hn1 hfit hae hg.xEnd_eq hdis ⟨h0, by omega⟩

/-- The re-insertion search over the subrows of the target row has no defined
result or stops at the subrow of the chosen site, with that site. -/
theorem reinsertSubRow_target {r : Row} {b : Block} {sb : ℕ} {sr : SubRow} {s : ℤ}
    (hgeom : ∀ (sj : ℕ) (a : SubRow), r.subRows[sj]? = some a → SubGeom r a)
    (hapart : ∀ (sj : ℕ) (a : SubRow), r.subRows[sj]? = some a → sj ≠ sb →
      a.xEnd ≤ sr.xStart ∨ sr.xEnd ≤ a.xStart)
    (hsr : r.subRows[sb]? = some sr) (hw : 0 < b.width)
    (hx : b.x = sr.xStart + s * sr.siteWidth) (hs : 0 ≤ s)
    (hcan : sr.canPlaceAt s (sitesOf sr b) = some true)
    (k : ℕ) (rest : List SubRow) (hk : k ≤ sb)
    (hrest : ∀ j, rest[j]? = r.subRows[k + j]?) :
    reinsertSubRow b k rest = none ∨
      reinsertSubRow b k rest = some (some (sb, s, sitesOf sr b)) := by
  have hg := hgeom sb sr hsr
  have hsw : 0 < sr.siteWidth := hg.sw_eq ▸ hg.sw_pos
  have hn1 := @sitesOf_pos sr b hsw hw
  obtain ⟨hfit, _⟩ := (canPlaceAt_eq_true (by omega)).1 hcan
  induction rest generalizing k with
  | nil =>
    have := hrest (sb - k)
    rw [show k + (sb - k) = sb by omega, hsr] at this
    simp at this
  | cons a rest ih =>
    have ha : r.subRows[k]? = some a := by
      have := hrest 0
      simpa using this.symm
    have htail : ∀ j, rest[j]? = r.subRows[k + 1 + j]? := by
      intro j
      have := hrest (j + 1)
      rw [show k + 1 + j = k + (j + 1) by omega]
      simpa using this
    rcases Nat.lt_or_ge k sb with hlt | hge
    · have hno := canPlaceAt_other_subrow (hgeom k a ha) hg hw hx hs hfit
        (hapart k a ha (by omega))
      by_cases hext : b.x ≥ a.xStart - eps ∧ b.x + b.width ≤ a.xEnd + eps
      · cases hc : a.canPlaceAt ⌊(b.x - a.xStart) / a.siteWidth + eps⌋ ⌈b.width / a.siteWidth⌉ with
        | none =>
          left
          simp only [reinsertSubRow, if_pos hext, hc]
        | some v =>
          cases v with
          | true => exact absurd hc hno
          | false =>
            have : reinsertSubRow b k (a :: rest) = reinsertSubRow b (k + 1) rest := by
              simp only [reinsertSubRow, if_pos hext, hc]
            rw [this]
            exact ih (k + 1) (by omega) htail
      · have : reinsertSubRow b k (a :: rest) = reinsertSubRow b (k + 1) rest := by
          simp only [reinsertSubRow, if_neg hext]
        rw [this]
        exact ih (k + 1) (by omega) htail
    · right
      have hks : k = sb := by omega
      subst hks
      have hasr : a = sr := by
        have := ha.symm.trans hsr
        simpa using this
      subst hasr
      have hfl := @floor_site _ _ a.xStart _ hsw hx
      have hwle := @width_le_sites a b hsw
      have he0 := eps_pos
      have hs' : (0 : ℚ) ≤ s := by exact_mod_cast hs
      have hfit' : (s : ℚ) + sitesOf a b ≤ a.numSites := by exact_mod_cast hfit
      have hmul : ((s : ℚ) + sitesOf a b) * a.siteWidth ≤ a.numSites * a.siteWidth :=
        mul_le_mul_of_nonneg_right hfit' (le_of_lt hsw)
      have hext : b.x ≥ a.xStart - eps ∧ b.x + b.width ≤ a.xEnd + eps := by
        constructor
        · have : 0 ≤ (s : ℚ) * a.siteWidth := Rat.mul_nonneg hs' (le_of_lt hsw)
          linarith
        · rw [hg.xEnd_eq]
          linarith
      simp only [reinsertSubRow]
      rw [if_pos hext, hfl]
      have : a.canPlaceAt s ⌈b.width / a.siteWidth⌉ = some true := hcan
      rw [this]
      rfl

/-- After the removal step of a cell with a placeable target, the target subrow
still accepts the chosen site, and the re-insertion search has no defined
result or returns that subrow and site. -/
theorem reinsert_after_removal {q : Placement} (hst : Static q.rows) {i : ℕ}
    (hilt : i < q.blocks.length) (hw : 0 < (q.block i).width) {best : Best}
    (hscan : scanRows (q.block i) (q.block i).disp 0 q.rows
      ⟨q.rows.length, (q.block i).x, (q.block i).y, (q.block i).disp⟩ = some best)
    (hlt : best.disp < (q.block i).disp - eps) (rk sk : ℕ) (s0 n0 : ℤ) :
    ∃ (sb : ℕ) (s : ℤ) (rb : Row) (srb : SubRow),
      IsSub (moveTo (removeAt q i rk sk s0 n0) i best.x best.y).rows best.rowIdx sb rb srb ∧
      0 ≤ s ∧ best.x = srb.xStart + s * srb.siteWidth ∧ best.y = rb.yStart ∧
      srb.canPlaceAt s ⌈(q.block i).width / srb.siteWidth⌉ = some true ∧
      (reinsertSubRow ((moveTo (removeAt q i rk sk s0 n0) i best.x best.y).block i) 0
          ((moveTo (removeAt q i rk sk s0 n0) i best.x best.y).rows.getD
            best.rowIdx default).subRows = none ∨
       reinsertSubRow ((moveTo (removeAt q i rk sk s0 n0) i best.x best.y).block i) 0
          ((moveTo (removeAt q i rk sk s0 n0) i best.x best.y).rows.getD
            best.rowIdx default).subRows
          = some (some (sb, s, ⌈(q.block i).width / srb.siteWidth⌉))) := by
  obtain ⟨best', hscan', hcand⟩ := scan_cand hst i
  rw [hscan] at hscan'
  simp only [Option.some.injEq] at hscan'
  subst hscan'
  obtain ⟨sb, rb, srb, s, hsubb, hs0, hcan, hbx, hby, _, _⟩ := hcand hlt
  have hgb : SubGeom rb srb := hst.geom _ sb rb srb hsubb
  have hn0 : 0 ≤ ⌈(q.block i).width / rb.siteWidth⌉ := by
    have := Int.ceil_pos.2 (div_pos hw hgb.sw_pos)
    omega
  generalize hp2 : moveTo (removeAt q i rk sk s0 n0) i best.x best.y = p2
  have hrows2 : p2.rows = setSubRow q.rows rk sk
      (((q.rows.getD rk default).subRows.getD sk default).removeBlock i s0 n0) := by
    rw [← hp2]; rfl
  have hb2 : p2.block i = { q.block i with x := best.x, y := best.y } := by
    rw [← hp2, moveTo_block, if_pos ⟨rfl, by simpa [removeAt] using hilt⟩, removeAt_block]
  have hst2 : Static p2.rows := by
    rw [← hp2]
    exact static_of_sameRows hst (removeAt_sameRows _ _ _ _ _ _)
  obtain ⟨rb', e1, _, e3, hsubb'⟩ := isSub_setSubRow_of rk sk
    (((q.rows.getD rk default).subRows.getD sk default).removeBlock i s0 n0) hsubb
  rw [← hrows2] at hsubb'
  generalize hdef : (if best.rowIdx = rk ∧ sb = sk then
      ((q.rows.getD rk default).subRows.getD sk default).removeBlock i s0 n0 else srb) = srb'
    at hsubb'
  have hsame : srb'.xStart = srb.xStart ∧ srb'.siteWidth = srb.siteWidth ∧
      srb'.canPlaceAt s ⌈(q.block i).width / rb.siteWidth⌉ = some true := by
    by_cases hc : best.rowIdx = rk ∧ sb = sk
    · rw [if_pos hc] at hdef
      obtain ⟨hr, hs⟩ := hc
      have hD := subD_of_isSub hsubb
      rw [hr, hs] at hD
      rw [← hdef, hD]
      exact ⟨rfl, rfl, canPlaceAt_removeBlock _ _ _ hn0 hgb.len hcan⟩
    · rw [if_neg hc] at hdef
      rw [← hdef]
      exact ⟨rfl, rfl, hcan⟩
  obtain ⟨hxs, hsws, hcan'⟩ := hsame
  have hsweq : srb'.siteWidth = rb.siteWidth := by rw [hsws, hgb.sw_eq]
  have hx2 : (p2.block i).x = srb'.xStart + s * srb'.siteWidth := by
    rw [hb2, hxs, hsws]; exact hbx
  have hn2 : sitesOf srb' (p2.block i) = ⌈(q.block i).width / rb.siteWidth⌉ := by
    unfold sitesOf
    rw [hb2, hsweq]
  have hw2 : 0 < (p2.block i).width := by rw [hb2]; exact hw
  have hre := @reinsertSubRow_target rb' (p2.block i) sb srb' s
    (fun sj a hsa => hst2.geom best.rowIdx sj rb' a ⟨hsubb'.1, hsa⟩)
    (fun sj a hsa hne => hst2.apart best.rowIdx sj sb rb' a srb' ⟨hsubb'.1, hsa⟩ hsubb' hne)
    hsubb'.2 hw2 hx2 hs0 (by rw [hn2]; exact hcan') 0 rb'.subRows (Nat.zero_le _)
    (fun j => by simp)
  rw [hn2] at hre
  refine ⟨sb, s, rb', srb', hsubb', hs0, by rw [hxs, hsws]; exact hbx, by rw [← e1]; exact hby,
    by rw [hsweq]; exact hcan', ?_⟩
  rw [rowD_of_isSub hsubb', hsweq]
  exact hre

/-- After `insertBlock` on subrow `sb` of row `rbi` the block is in the list of
that subrow and the bits of the inserted range are set. -/
theorem insertAt_listed {p2 : Placement} {i rbi sb : ℕ} {rb : Row} {srb : SubRow} {s n : ℤ}
    (hsub : IsSub p2.rows rbi sb rb srb) (hcan : srb.canPlaceAt s n = some true) :
    ∃ r' sr', IsSub (insertAt p2 i rbi sb s n).rows rbi sb r' sr' ∧ i ∈ sr'.placedBlocks ∧
      ∀ k, s ≤ k → k < s + n → readSite sr'.occupiedSites k = some true := by
  obtain ⟨r', _, _, _, h⟩ := isSub_setSubRow_of rbi sb (srb.insertBlock p2.blocks i s n) hsub
  rw [if_pos ⟨rfl, rfl⟩, ← insertAt_rows s n hsub] at h
  exact ⟨r', _, h, mem_insertBlock.2 (Or.inr rfl), (insertBlock_bits srb p2.blocks i s n hcan).1⟩

theorem scanSites_split (sr : SubRow) (b : Block) (ri : ℕ) (y : ℚ) (n : ℤ) (s : ℤ)
    (k1 k2 : ℕ) (best : Best) :
    scanSites sr b ri y n s (k1 + k2) best =
      (scanSites sr b ri y n s k1 best).bind
        (fun b' => scanSites sr b ri y n (s + k1) k2 b') := by
  induction k1 generalizing s best with
  | zero => simp [scanSites]
  | succ k ih =>
    have hk : k + 1 + k2 = (k + k2) + 1 := by omega
    have hs : s + 1 + (k : ℤ) = s + ((k + 1 : ℕ) : ℤ) := by push_cast; ring
    rw [hk]
    simp only [scanSites]
    cases hv : sr.canPlaceAt s n with
    | none => rfl
    | some v =>
      cases v with
      | false =>
        simp only
        rw [ih, hs]
      | true =>
        simp only
        split
        · rw [ih, hs]
        · rw [ih, hs]

theorem scanSites_noop {sr : SubRow} {b : Block} {ri : ℕ} {y : ℚ} {n : ℤ} (s : ℤ) (k : ℕ)
    (best : Best)
    (hdef : ∀ t, s ≤ t → t < s + k → sr.canPlaceAt t n ≠ none)
    (hno : ∀ t, s ≤ t → t < s + k → sr.canPlaceAt t n = some true →
      best.disp - eps ≤ |sr.xStart + t * sr.siteWidth - b.origX| + |y - b.origY|) :
    scanSites sr b ri y n s k best = some best := by
  induction k generalizing s with
  | zero => rfl
  | succ k ih =>
    have hrec : scanSites sr b ri y n (s + 1) k best = some best := by
      apply ih
      · intro t h1 h2; exact hdef t (by omega) (by push_cast; omega)
      · intro t h1 h2; exact hno t (by omega) (by push_cast; omega)
    simp only [scanSites]
    cases hv : sr.canPlaceAt s n with
    | none => exact absurd hv (hdef s (le_refl _) (by push_cast; omega))
    | some v =>
      cases v with
      | false => exact hrec
      | true =>
        simp only
        split
        · exact hrec
        · have := hno s (le_refl _) (by push_cast; omega) hv
          rw [if_neg (not_lt.2 this)]
          exact hrec

theorem scanSites_le {sr : SubRow} {b : Block} {ri : ℕ} {y : ℚ} {n : ℤ} {s : ℤ} {k : ℕ}
    {best best' : Best} (h : scanSites sr b ri y n s k best = some best') :
    best'.disp ≤ best.disp := by
  induction k generalizing s best with
  | zero =>
    simp only [scanSites, Option.some.injEq] at h
    rw [h]
  | succ k ih =>
    simp only [scanSites] at h
    cases hv : sr.canPlaceAt s n with
    | none => rw [hv] at h; cases h
    | some v =>
      rw [hv] at h
      cases v with
      | false => exact ih h
      | true =>
        simp only at h
        split at h
        · exact ih h
        · have := ih h
          split at this
          · rename_i hlt
            simp only at this
            have := eps_pos
            linarith
          · exact this

/-- Scanning all sites of a subrow gives the result of scanning a window of
sites that holds every accepted site beating `D0` by more than `eps`. -/
theorem scanSites_window {r : Row} {sr : SubRow} (hg : SubGeom r sr) (b : Block) (ri : ℕ)
    (y : ℚ) (n : ℤ) (hn : 1 ≤ n) (a c : ℤ) (ha : 0 ≤ a) (hc : c ≤ sr.numSites - n)
    (best : Best) (D0 : ℚ) (hbest : best.disp ≤ D0)
    (hin : ∀ t, 0 ≤ t → sr.canPlaceAt t n = some true →
      |sr.xStart + t * sr.siteWidth - b.origX| + |y - b.origY| < D0 - eps → a ≤ t ∧ t ≤ c) :
    scanSites sr b ri y n 0 sr.numSites.toNat best
      = scanSites sr b ri y n a (c - a + 1).toNat best := by
  have hdef : ∀ t, 0 ≤ t → sr.canPlaceAt t n ≠ none :=
    fun t ht => canPlaceAt_ne_none sr t n ht hg.num_nonneg hg.len
  have hno : ∀ best' : Best, best'.disp ≤ D0 → ∀ t, 0 ≤ t → ¬ (a ≤ t ∧ t ≤ c) →
      sr.canPlaceAt t n = some true →
      best'.disp - eps ≤ |sr.xStart + t * sr.siteWidth - b.origX| + |y - b.origY| := by
    intro best' hb' t ht hout hcan
    by_contra hlt
    exact hout (hin t ht hcan (by linarith [not_le.1 hlt]))
  by_cases hac : c < a
  · have h0 : (c - a + 1).toNat = 0 := by omega
    rw [h0]
    simp only [scanSites]
    exact scanSites_noop 0 _ best (fun t h1 _ => hdef t h1)
      (fun t h1 _ hcan => hno best hbest t h1 (by omega) hcan)
  · have hnum := hg.num_nonneg
    have hsplit : sr.numSites.toNat
        = a.toNat + ((c - a + 1).toNat + (sr.numSites - c - 1).toNat) := by omega
    have ha' : (0 : ℤ) + (a.toNat : ℤ) = a := by omega
    rw [hsplit, scanSites_split, scanSites_noop 0 a.toNat best (fun t h1 _ => hdef t h1)
      (fun t h1 h2 hcan => hno best hbest t h1 (by omega) hcan)]
    simp only [Option.some_bind]
    rw [ha', scanSites_split]
    cases h2 : scanSites sr b ri y n a (c - a + 1).toNat best with
    | none => rfl
    | some best' =>
      simp only [Option.some_bind]
      have hb' : best'.disp ≤ D0 := le_trans (scanSites_le h2) hbest
      exact scanSites_noop _ _ best' (fun t h1 _ => hdef t (by omega))
        (fun t h1 h2 hcan => hno best' hb' t (by omega) (by omega) hcan)

/-- An accepted site at which a cell of width at most 20 would be more than
`eps` nearer to its origin than `D0` lies in a row within the radius and in the
window of its subrow. -/
theorem improving_in_window {row : Row} {sr : SubRow} (hg : SubGeom row sr) (b : Block)
    (hw20 : b.width ≤ 20) (D0 : ℚ) {t : ℤ} (ht : 0 ≤ t)
    (hfit : t + ⌈b.width / row.siteWidth⌉ ≤ sr.numSites)
    (himp : |sr.xStart + t * sr.siteWidth - b.origX| + |row.yStart - b.origY| < D0 - eps) :
    |row.yStart - b.origY| ≤ D0 + 20 ∧
    minSiteOf sr (b.origX - (D0 + 20 - |row.yStart - b.origY|)) ≤ t ∧
    t ≤ maxSiteOf sr b ⌈b.width / row.siteWidth⌉
      (b.origX + (D0 + 20 - |row.yStart - b.origY|)) := by
  have hsw : 0 < sr.siteWidth := by rw [hg.sw_eq]; exact hg.sw_pos
  have he := eps_pos
  have h1 := abs_nonneg (sr.xStart + t * sr.siteWidth - b.origX)
  have h2 := abs_nonneg (row.yStart - b.origY)
  have h3 := neg_abs_le (sr.xStart + t * sr.siteWidth - b.origX)
  have h4 := le_abs_self (sr.xStart + t * sr.siteWidth - b.origX)
  refine ⟨by linarith, minSiteOf_le hsw ht (by linarith),
    le_maxSiteOf hsw (by omega) (by linarith)⟩

theorem scanSubRowsAll_le {b : Block} {ri : ℕ} {y : ℚ} {n : ℤ} {subs : List SubRow}
    {best best' : Best} (h : scanSubRowsAll b ri y n subs best = some best') :
    best'.disp ≤ best.disp := by
  induction subs generalizing best with
  | nil =>
    simp only [scanSubRowsAll, Option.some.injEq] at h
    rw [h]
  | cons sr rest ih =>
    simp only [scanSubRowsAll] at h
    split at h
    · cases h
    · rename_i b1 h1
      exact le_trans (ih h) (scanSites_le h1)

/-- In a row within the radius the unrestricted scan of the subrows gives the
result of the windowed scan. -/
theorem scanSubRows_all {row : Row} (b : Block) (ri : ℕ) (hw : 0 < b.width)
    (hw20 : b.width ≤ 20) (D0 : ℚ) (subs : List SubRow) (hsubs : ∀ sr ∈ subs, SubGeom row sr)
    (best : Best) (hbest : best.disp ≤ D0) :
    scanSubRowsAll b ri row.yStart ⌈b.width / row.siteWidth⌉ subs best
      = scanSubRows b ri row.yStart ⌈b.width / row.siteWidth⌉
          (b.origX - (D0 + 20 - |row.yStart - b.origY|))
          (b.origX + (D0 + 20 - |row.yStart - b.origY|)) subs best := by
  induction subs generalizing best with
  | nil => rfl
  | cons sr rest ih =>
    have hg := hsubs sr (List.mem_cons_self _ _)
    have hn1 : 1 ≤ ⌈b.width / row.siteWidth⌉ := by
      have := Int.ceil_pos.2 (div_pos hw hg.sw_pos)
      omega
    have hwin := scanSites_window hg b ri row.yStart ⌈b.width / row.siteWidth⌉ hn1
      (minSiteOf sr (b.origX - (D0 + 20 - |row.yStart - b.origY|)))
      (maxSiteOf sr b ⌈b.width / row.siteWidth⌉ (b.origX + (D0 + 20 - |row.yStart - b.origY|)))
      (le_max_right _ _) (min_le_right _ _) best D0 hbest
      (fun t ht hcan himp =>
        (improving_in_window hg b hw20 D0 ht
          ((canPlaceAt_eq_true (by omega)).1 hcan).1 himp).2)
    simp only [scanSubRowsAll, scanSubRows]
    rw [hwin]
    cases h1 : scanSites sr b ri row.yStart ⌈b.width / row.siteWidth⌉
        (minSiteOf sr (b.origX - (D0 + 20 - |row.yStart - b.origY|)))
        (maxSiteOf sr b ⌈b.width / row.siteWidth⌉
          (b.origX + (D0 + 20 - |row.yStart - b.origY|))
          - minSiteOf sr (b.origX - (D0 + 20 - |row.yStart - b.origY|)) + 1).toNat best with
    | none => rfl
    | some b1 =>
      simp only
      exact ih (fun sr' h' => hsubs sr' (List.mem_cons_of_mem _ h')) b1
        (le_trans (scanSites_le h1) hbest)

/-- In a row beyond the radius the unrestricted scan of the subrows changes nothing. -/
theorem scanSubRowsAll_far {row : Row} (b : Block) (ri : ℕ) (n : ℤ) (D0 : ℚ)
    (hfar : D0 + 20 < |row.yStart - b.origY|) (subs : List SubRow)
    (hsubs : ∀ sr ∈ subs, SubGeom row sr) (best : Best) (hbest : best.disp ≤ D0) :
    scanSubRowsAll b ri row.yStart n subs best = some best := by
  induction subs with
  | nil => rfl
  | cons sr rest ih =>
    have hg := hsubs sr (List.mem_cons_self _ _)
    have h1 : scanSites sr b ri row.yStart n 0 sr.numSites.toNat best = some best := by
      apply scanSites_noop
      · intro t ht _
        exact canPlaceAt_ne_none sr t n ht hg.num_nonneg hg.len
      · intro t _ _ _
        have := abs_nonneg (sr.xStart + t * sr.siteWidth - b.origX)
        have := eps_pos
        linarith
    simp only [scanSubRowsAll, h1]
    exact ih (fun sr' h' => hsubs sr' (List.mem_cons_of_mem _ h'))

/-- The windowed search gives the result of the unrestricted search for a cell
of width at most 20. -/
theorem scanRows_all (b : Block) (hw : 0 < b.width) (hw20 : b.width ≤ 20) (D0 : ℚ) (k : ℕ)
    (rows : List Row) (hrows : ∀ row ∈ rows, ∀ sr ∈ row.subRows, SubGeom row sr)
    (best : Best) (hbest : best.disp ≤ D0) :
    scanRows b D0 k rows best = scanRowsAll b k rows best := by
  induction rows generalizing k best with
  | nil => rfl
  | cons row rest ih =>
    have hrest : ∀ row' ∈ rest, ∀ sr ∈ row'.subRows, SubGeom row' sr :=
      fun row' h' => hrows row' (List.mem_cons_of_mem _ h')
    have hsubs := hrows row (List.mem_cons_self _ _)
    simp only [scanRows, scanRowsAll]
    by_cases hh : b.height > row.height + eps
    · rw [if_pos hh]
      simp only [if_pos hh, ite_self]
      exact ih (k + 1) hrest best hbest
    · rw [if_neg hh]
      simp only [if_neg hh]
      by_cases hfar : |row.yStart - b.origY| > D0 + 20
      · rw [if_pos hfar, scanSubRowsAll_far b k _ D0 hfar row.subRows hsubs best hbest]
        exact ih (k + 1) hrest best hbest
      · rw [if_neg hfar, if_neg (by linarith [not_lt.1 hfar]),
          ← scanSubRows_all b k hw hw20 D0 row.subRows hsubs best hbest]
        cases h1 : scanSubRowsAll b k row.yStart ⌈b.width / row.siteWidth⌉ row.subRows best with
        | none => rfl
        | some b1 =>
          simp only
          exact ih (k + 1) hrest b1 (le_trans (scanSubRowsAll_le h1) hbest)

theorem subGeom_of_static {rows : List Row} (hst : Static rows) :
    ∀ row ∈ rows, ∀ sr ∈ row.subRows, SubGeom row sr := by
  intro row hrow sr hsr
  obtain ⟨ri, hri⟩ := List.mem_iff_getElem?.1 hrow
  obtain ⟨si, hsi⟩ := List.mem_iff_getElem?.1 hsr
  exact hst.geom ri si row sr ⟨hri, hsi⟩

/-- The window is lossless in exact arithmetic: in every state whose subrow
records are as constructed, for every cell of positive width at most 20 with
current displacement `D0`: every site of every subrow of every row that passes
`canPlaceAt` and has displacement `D' < D0 - 1e-6` lies in a row within the
radius (`V <= D0 + 20`) and inside the scanned range `[minSite, maxSite]` of
its subrow; the windowed search ends with the same target as the unrestricted
search over all sites of all subrows of all rows high enough; and the cell step
with the windowed search gives the same result as the cell step with the
unrestricted search. -/
theorem lossless_exact (p : Placement) (i : ℕ) (hst : Static p.rows)
    (hw : 0 < (p.block i).width) (hw20 : (p.block i).width ≤ 20) :
    (∀ (ri si : ℕ) (row : Row) (sr : SubRow) (s : ℤ), IsSub p.rows ri si row sr →
      sr.canPlaceAt s ⌈(p.block i).width / row.siteWidth⌉ = some true →
      (candidateAt sr (p.block i) ri row.yStart s).disp < (p.block i).disp - eps →
      |row.yStart - (p.block i).origY| ≤ (p.block i).disp + 20 ∧
      minSiteOf sr ((p.block i).origX
          - ((p.block i).disp + 20 - |row.yStart - (p.block i).origY|)) ≤ s ∧
      s ≤ maxSiteOf sr (p.block i) ⌈(p.block i).width / row.siteWidth⌉
          ((p.block i).origX + ((p.block i).disp + 20 - |row.yStart - (p.block i).origY|))) ∧
    scanRows (p.block i) (p.block i).disp 0 p.rows
        ⟨p.rows.length, (p.block i).x, (p.block i).y, (p.block i).disp⟩
      = scanRowsAll (p.block i) 0 p.rows
          ⟨p.rows.length, (p.block i).x, (p.block i).y, (p.block i).disp⟩ ∧
    optimizeBlock p i = optimizeBlockAll p i := by
  have hscan := scanRows_all (p.block i) hw hw20 (p.block i).disp 0 p.rows
    (subGeom_of_static hst)
    ⟨p.rows.length, (p.block i).x, (p.block i).y, (p.block i).disp⟩ (le_refl _)
  refine ⟨?_, hscan, ?_⟩
  · intro ri si row sr s hsub hcan himp
    have hg := hst.geom ri si row sr hsub
    have hn1 : 1 ≤ ⌈(p.block i).width / row.siteWidth⌉ := by
      have := Int.ceil_pos.2 (div_pos hw hg.sw_pos)
      omega
    exact improving_in_window hg (p.block i) hw20 (p.block i).disp
      (canPlaceAt_start_nonneg hn1 hcan) ((canPlaceAt_eq_true (by omega)).1 hcan).1 himp
  · have e : optimizeBlock p i
        = (scanRows (p.block i) (p.block i).disp 0 p.rows
            ⟨p.rows.length, (p.block i).x, (p.block i).y, (p.block i).disp⟩).bind
            (relocateTo p i) := by
      unfold optimizeBlock relocateTo
      dsimp only
      cases scanRows (p.block i) (p.block i).disp 0 p.rows
        ⟨p.rows.length, (p.block i).x, (p.block i).y, (p.block i).disp⟩ <;> rfl
    rw [e, hscan]
    rfl

/-! ## Inputs on the grid -/

/-- On the grid a well-formed input of the run in `double` arithmetic is a
well-formed input of the exact run, and its rows and sites respect the `1e-6`
tolerances. -/
theorem wellFormed_of_grid {rd : ℚ → ℚ} (hrd : IsRounding rd) {p : Placement} (hg : OnGrid p)
    (hw : Fp.WellFormed rd p) : WellFormed p ∧ Separated p := by
  obtain ⟨h1, h2, h3, h4⟩ := hw
  have heps : eps = 1 / 1000000 := rfl
  refine ⟨⟨?_, h2, h3, h4⟩, ?_, ?_⟩
  · intro r hr
    obtain ⟨hsw, hsub⟩ := h1 r hr
    refine ⟨hsw, fun sr hsr => ?_⟩
    obtain ⟨hn, he⟩ := hsub sr hsr
    refine ⟨hn, ?_⟩
    obtain ⟨_, _, gsw, g1, g2, gsub⟩ := hg.2 r hr
    obtain ⟨gxs, _, _, _, _, n0, n1⟩ := gsub sr hsr
    have wn : ((sr.numSites : ℤ) : ℚ).den = 1 := Rat.den_intCast _
    have wprod := (whole_ops wn gsw.1).2.2.1
    have hnq0 : (0 : ℚ) ≤ (sr.numSites : ℚ) := by exact_mod_cast n0
    have hnq1 : (sr.numSites : ℚ) ≤ 2097152 := by exact_mod_cast n1
    have p0 : 0 ≤ (sr.numSites : ℚ) * r.siteWidth := Rat.mul_nonneg hnq0 (by linarith)
    have p1 : (sr.numSites : ℚ) * r.siteWidth ≤ 2097152 * 524288 := by
      have a1 := mul_le_mul_of_nonneg_right hnq1 (by linarith : (0 : ℚ) ≤ r.siteWidth)
      have a2 := mul_le_mul_of_nonneg_left g2 (by norm_num : (0 : ℚ) ≤ 2097152)
      linarith
    have e1 : rd ((sr.numSites : ℚ) * r.siteWidth) = (sr.numSites : ℚ) * r.siteWidth :=
      rd_whole hrd wprod (abs_le.2 ⟨by linarith, by linarith⟩)
    have bx := abs_le.1 gxs.2
    have e2 : rd (sr.xStart + (sr.numSites : ℚ) * r.siteWidth)
        = sr.xStart + (sr.numSites : ℚ) * r.siteWidth :=
      rd_whole hrd (whole_ops gxs.1 wprod).1 (abs_le.2 ⟨by linarith, by linarith⟩)
    have e3 : Fp.newSubRow rd sr.xStart sr.numSites r.siteWidth
        = SubRow.new sr.xStart sr.numSites r.siteWidth := by
      unfold Fp.newSubRow SubRow.new
      rw [e1, e2]
    rw [← e3]
    exact he
  · refine h3.imp_of_mem ?_
    intro a b ha hb hne
    have ga := (hg.2 a ha).1
    have gb := (hg.2 b hb).1
    have hw1 := (whole_ops ga.1 gb.1).2.1
    have hw2 := (whole_ops hw1 hw1).2.2.2
    have hpos : (0 : ℚ) < |a.yStart - b.yStart| := abs_pos.2 (sub_ne_zero.2 hne)
    have h0 : (0 : ℚ).den = 1 := rfl
    have := whole_lt h0 hw2 hpos
    rw [heps]
    linarith
  · intro r hr
    have g1 := (hg.2 r hr).2.2.2.1
    left
    rw [heps]
    linarith

/-- On the grid the states in which the refinement in `double` arithmetic
attempts a cell are the states in which the exact refinement attempts it, and
they are on the grid. -/
theorem fp_attempts {rd : ℚ → ℚ} (hrd : IsRounding rd) {p1 q : Placement} {i : ℕ}
    (hg : OnGrid p1) (h : Fp.Attempts rd p1 q i) : Attempts p1 q i ∧ OnGrid q := by
  have hit : ∀ (k : ℕ) (p : Placement), OnGrid p →
      Fp.iterations rd k p = iterations k p ∧ ∀ q0, iterations k p = some q0 → OnGrid q0 := by
    intro k
    induction k with
    | zero =>
      intro p hp
      refine ⟨rfl, fun q0 h0 => ?_⟩
      simp only [iterations, Option.some.injEq] at h0
      rw [← h0]; exact hp
    | succ k ih =>
      intro p hp
      have e1 : Fp.optimizeIteration rd p = optimizeIteration p := by
        unfold Fp.optimizeIteration optimizeIteration
        rw [(fp_orders hrd hp).2.2.2, (fp_optimizeBlocks hrd _ p false hp).1]
      have hpres := (fp_optimizeBlocks hrd (optimizeOrder p) p false hp).2
      simp only [Fp.iterations, iterations, e1]
      cases hit : optimizeIteration p with
      | none => exact ⟨rfl, fun q0 h0 => by cases h0⟩
      | some res =>
        obtain ⟨p', imp⟩ := res
        have hp' : OnGrid p' := hpres p' imp hit
        exact ih p' hp'
  obtain ⟨k, q0, pre, post, imp, h1, h2, h3⟩ := h
  rw [(hit k p1 hg).1] at h1
  have hq0 := (hit k p1 hg).2 q0 h1
  rw [(fp_orders hrd hq0).2.2.2] at h2
  rw [(fp_optimizeBlocks hrd pre q0 false hq0).1] at h3
  exact ⟨⟨k, q0, pre, post, imp, h1, h2, h3⟩,
    (fp_optimizeBlocks hrd pre q0 false hq0).2 q imp h3⟩

/-! ## The states of the runs in `double` arithmetic, written out -/

/-- The state of `driftInput` after the initial placer, written out. -/
theorem driftMid_eq :
    driftMid =
      ⟨[⟨"a", (5902958103587057 / 590295810358705651712), 10, 250000, 0,
        (1073741824128849 / 4294967296), (-1), false⟩,
        ⟨"b", (5902958103587057 / 590295810358705651712), 10, (8589934592343597 / 34359738368), 0,
          250000, 0, false⟩],
       [⟨0, 10, (5902958103587057 / 590295810358705651712), 1,
          [⟨250000, (4294967296687195 / 17179869184), (5902958103587057 / 590295810358705651712),
            4, [true, true, false, false], [0, 1]⟩]⟩],
       0, 10⟩ := by
  decide!

/-- The state of `driftInput` after the cell step of cell `a`, written out. -/
theorem driftStep_eq :
    driftStep =
      ⟨[⟨"a", (5902958103587057 / 590295810358705651712), 10, (1073741824128849 / 4294967296), 0,
        (1073741824128849 / 4294967296), (-1), false⟩,
        ⟨"b", (5902958103587057 / 590295810358705651712), 10, (8589934592343597 / 34359738368), 0,
          250000, 0, false⟩],
       [⟨0, 10, (5902958103587057 / 590295810358705651712), 1,
          [⟨250000, (4294967296687195 / 17179869184), (5902958103587057 / 590295810358705651712),
            4, [false, true, false, true], [1, 0]⟩]⟩],
       0, 10⟩ := by
  decide!

/-- The state of `slipInput` after the initial placer, written out. -/
theorem slipMid_eq :
    slipMid =
      ⟨[⟨"f", (4427218577690293 / 36893488147419103232), 10, 250000, 0, 250000, 0, false⟩,
        ⟨"c", (5902958103587057 / 295147905179352825856), 10, (8589934596123169 / 34359738368), 0,
          (4294967298233383 / 17179869184), 0, false⟩,
        ⟨"n", (5902958103587057 / 295147905179352825856), 10, (8589934596810363 / 34359738368), 0,
          (8589934598184753 / 34359738368), 0, false⟩],
       [⟨0, 10, (5902958103587057 / 590295810358705651712), 1,
          [⟨250000, (2147483649717987 / 8589934592), (5902958103587057 / 590295810358705651712),
            20, List.replicate 16 true ++ List.replicate 4 false, [0, 1, 2]⟩]⟩],
       0, 10⟩ := by
  decide!

/-- The state of `slipInput` after the cell step of cell `n`, written out. -/
theorem slipStep_eq :
    slipStep =
      ⟨[⟨"f", (4427218577690293 / 36893488147419103232), 10, 250000, 0, 250000, 0, false⟩,
        ⟨"c", (5902958103587057 / 295147905179352825856), 10, (8589934596123169 / 34359738368), 0,
          (4294967298233383 / 17179869184), 0, false⟩,
        ⟨"n", (5902958103587057 / 295147905179352825856), 10, (8589934598184753 / 34359738368), 0,
          (8589934598184753 / 34359738368), 0, false⟩],
       [⟨0, 10, (5902958103587057 / 590295810358705651712), 1,
          [⟨250000, (2147483649717987 / 8589934592), (5902958103587057 / 590295810358705651712),
            20,
            List.replicate 13 true ++ List.replicate 2 false ++ List.replicate 1 true ++ List.replicate 2 false ++ List.replicate 2 true,
            [0, 1, 2]⟩]⟩],
       0, 10⟩ := by
  decide!

/-- The state of `slipInput` after the cell step of cell `c`, written out. -/
theorem slipOut_eq :
    slipOut =
      ⟨[⟨"f", (4427218577690293 / 36893488147419103232), 10, 250000, 0, 250000, 0, false⟩,
        ⟨"c", (5902958103587057 / 295147905179352825856), 10, (4294967298233383 / 17179869184), 0,
          (4294967298233383 / 17179869184), 0, false⟩,
        ⟨"n", (5902958103587057 / 295147905179352825856), 10, (8589934598184753 / 34359738368), 0,
          (8589934598184753 / 34359738368), 0, false⟩],
       [⟨0, 10, (5902958103587057 / 590295810358705651712), 1,
          [⟨250000, (2147483649717987 / 8589934592), (5902958103587057 / 590295810358705651712),
            20,
            List.replicate 12 true ++ List.replicate 1 false ++ List.replicate 3 true ++ List.replicate 2 false ++ List.replicate 2 true,
            [0, 1, 2]⟩]⟩],
       0, 10⟩ := by
  decide!

/-- The state of `farInput` after the step of cell `a`, written out. -/
theorem farMid_eq :
    farMid =
      ⟨[⟨"a", (3602879701896397 / 36028797018963968), 10, 68719476736, 0, 68719476736, 0, false⟩,
        ⟨"b", (3602879701896397 / 36028797018963968), 10, 68719476736, 0, 68719476736, 0, false⟩],
       [⟨0, 10, (3602879701896397 / 36028797018963968), 1,
          [⟨68719476736, (4503599627383603 / 65536), (3602879701896397 / 36028797018963968), 2,
            [true, false], [0]⟩]⟩],
       0, 10⟩ := by
  decide!

/-- The state of `castInput` after the initial placer, written out. -/
theorem castMid_eq :
    castMid =
      ⟨[⟨"a", 1, 10, 0, 0, 5000000000, 0, false⟩],
       [⟨0, 10, 1, 1,
          [⟨0, 10, 1, 10, [true, false, false, false, false, false, false, false, false, false],
            [0]⟩]⟩],
       10, 10⟩ := by
  decide!

/-- The state of `hopInput` after the initial placer, written out. -/
theorem hopMid_eq :
    hopMid =
      ⟨[⟨"a", 3, 10, 0, 0, 5, 0, false⟩],
       [⟨0, 10, 1, 1,
          [⟨0, 12, 1, 12, [true, true, true, false, false, false, false, false, false, false,
            false, false], [0]⟩]⟩],
       12, 10⟩ := by
  decide!

/-- The state of `hopInput` after both passes, written out. -/
theorem hopOut_eq :
    hopOut =
      ⟨[⟨"a", 3, 10, 5, 0, 5, 0, false⟩],
       [⟨0, 10, 1, 1,
          [⟨0, 12, 1, 12, [false, false, false, false, false, true, true, true, false, false,
            false, false], [0]⟩]⟩],
       12, 10⟩ := by
  decide!

theorem near_initial : initialPlacement nearInput = some nearMid := by
  rw [nearMid_eq]; decide!

theorem near_refined : optimizePlacement nearMid = some nearOut := by
  rw [nearMid_eq, nearOut_eq]; decide!

theorem near_run : legalize nearInput = some nearOut := by
  simp only [legalize, near_initial]
  exact near_refined

/-- The state of `roundedInput` after both passes, written out. -/
theorem roundedOut_eq :
    roundedOut =
      ⟨[⟨"a", (8106479329266893 / 18014398509481984), 10, 0, 0, 0, 0, false⟩,
        ⟨"b", (8106479329266893 / 18014398509481984), 10,
          (2026619832316723 / 4503599627370496), 0, 0, 0, false⟩],
       [⟨0, 10, (5404319552844595 / 36028797018963968), 1,
          [⟨0, (5404319552844595 / 4503599627370496), (5404319552844595 / 36028797018963968),
            8, [true, true, true, true, true, true, false, false], [0, 1]⟩]⟩],
       2, 10⟩ := by
  decide!

/-- The run of `roundedInput` in `double` arithmetic: the initial placer
returns `roundedOut` and the refinement leaves it as it is. -/
theorem rounded_run :
    Fp.WellFormed fl roundedInput ∧ Separated roundedInput ∧
    Fp.initialPlacement fl roundedInput = some roundedOut ∧
    Fp.optimizePlacement fl roundedOut = some roundedOut := by
  refine ⟨by decide!, by decide!, ?_, ?_⟩
  · rw [roundedOut_eq]; decide!
  · rw [roundedOut_eq]; decide!

theorem nearOut_sub0 : IsSub nearOut.rows 0 0 (nearOut.rows.getD 0 default)
    ((nearOut.rows.getD 0 default).subRows.getD 0 default) := by
  rw [nearOut_eq]
  exact And.intro (by decide!) (by decide!)

theorem nearOut_sub1 : IsSub nearOut.rows 1 0 (nearOut.rows.getD 1 default)
    ((nearOut.rows.getD 1 default).subRows.getD 0 default) := by
  rw [nearOut_eq]
  exact And.intro (by decide!) (by decide!)

/-- The only subrow of `roundedOut`. -/
theorem roundedOut_sub {ri si : ℕ} {r : Row} {sr : SubRow}
    (h : IsSub roundedOut.rows ri si r sr) :
    sr = (roundedOut.rows.getD 0 default).subRows.getD 0 default := by
  obtain ⟨h1, h2⟩ := h
  rw [roundedOut_eq] at h1 ⊢
  have hri : ri = 0 := by
    cases ri with
    | zero => rfl
    | succ k => simp at h1
  subst hri
  have hr := Option.some.inj h1
  subst hr
  have hsi : si = 0 := by
    cases si with
    | zero => rfl
    | succ k => simp at h2
  subst hsi
  exact (Option.some.inj h2).symm

/-- On the grid the relocation search in `double` arithmetic is the exact one. -/
theorem fp_searchOf {rd : ℚ → ℚ} (hrd : IsRounding rd) {p : Placement} (hg : OnGrid p) (i : ℕ) :
    Fp.searchOf rd p i = scanRows (p.block i) (p.block i).disp 0 p.rows
      ⟨p.rows.length, (p.block i).x, (p.block i).y, (p.block i).disp⟩ := by
  have hb := (grid_access hg).1 i
  obtain ⟨ed, hdw, hd0, hd1⟩ := fp_disp hrd hb
  have hbest0 : GridBest ⟨p.rows.length, (p.block i).x, (p.block i).y, (p.block i).disp⟩ :=
    ⟨hb.2.2.2.1, hb.2.2.2.2.1, hdw, by rw [abs_of_nonneg hd0]; exact hd1⟩
  unfold Fp.searchOf
  rw [ed]
  exact (fp_scanRows hrd hb ⟨hdw, hd0, hd1⟩ p.rows hg.2 0 _ hbest0).1

/-- The run of `driftInput` in `double` arithmetic: the initial placer puts
cell `a` on site 0 and cell `b` on site 1; the first sweep of the refinement
moves `a` to site 3; for `b`, at `x = fl(250000 + 1e-5)`, the search ends with
the target `(250000, 0)` at displacement 0, the start site of `b` is computed
as `floor(0.99999988 + 1e-6) = 0`, whose bit is clear, so the search for the
current location finds no subrow and the cell step leaves `b` where it is. -/
theorem drift_run :
    Fp.WellFormed fl driftInput ∧ Separated driftInput ∧
    Fp.initialPlacement fl driftInput = some driftMid ∧
    Fp.optimizeOrder fl driftMid = [0, 1] ∧
    Fp.optimizeBlock fl driftMid 0 = some (driftStep, true) ∧
    Fp.searchOf fl driftStep 1 = some ⟨0, 250000, 0, 0⟩ ∧
    (0 : ℚ) < fl (Fp.disp fl (driftStep.block 1) - fl eps) ∧
    Fp.locateRow fl (driftStep.block 1) 0 driftStep.rows = some none ∧
    Fp.optimizeBlock fl driftStep 1 = some (driftStep, false) := by
  refine ⟨by decide!, by decide!, ?_, ?_, ?_, ?_, ?_, ?_, ?_⟩
  · rw [driftMid_eq]; decide!
  · rw [driftMid_eq]; decide!
  · rw [driftMid_eq, driftStep_eq]; decide!
  · rw [driftStep_eq]; decide!
  · rw [driftStep_eq]; decide!
  · rw [driftStep_eq]; decide!
  · rw [driftStep_eq]; decide!

/-- C18 counterexample: on the well-formed input `strayInput` (two rows `5e-7`
apart) the first iteration of the refinement attempts cell `c` and then cell
`a`.  The removal step for `c` clears the first bit of `a` in the other row, so
when `a` is attempted there are candidates that beat its displacement by more
than `1e-6`, yet the removal step does not find `a` and the cell is not
relocated.  On the well-formed input `driftInput` (one row of site width
`1e-5` from `x = 250000`) the run in `double` arithmetic moves cell `a` away
from site 0; for cell `b` on site 1 the search then ends with a target at
displacement 0, which passes the test `bestDisp < originalDisp - 1e-6`, but the
start site of `b` is computed as 0 and the cell is not relocated. -/
theorem candidate_without_relocation :
    (WellFormed strayInput ∧ initialPlacement strayInput = some strayMid ∧
      optimizeOrder strayMid = [1, 0] ∧
      optimizeBlock strayMid 1 = some (strayStep, true) ∧
      (∃ cands, candidatesOf strayStep 0 = some cands ∧
        ∃ c ∈ cands, c.disp < (strayStep.block 0).disp - eps) ∧
      optimizeBlock strayStep 0 = some (strayStep, false)) ∧
    (Fp.WellFormed fl driftInput ∧ Separated driftInput ∧
      Fp.initialPlacement fl driftInput = some driftMid ∧
      Fp.optimizeOrder fl driftMid = [0, 1] ∧
      Fp.optimizeBlock fl driftMid 0 = some (driftStep, true) ∧
      (∃ best, Fp.searchOf fl driftStep 1 = some best ∧
        best.disp < fl (Fp.disp fl (driftStep.block 1) - fl eps)) ∧
      Fp.optimizeBlock fl driftStep 1 = some (driftStep, false)) := by
  obtain ⟨d1, d2, d3, d4, d5, d6, d7, _, d9⟩ := drift_run
  refine ⟨?_, d1, d2, d3, d4, d5, ⟨_, d6, d7⟩, d9⟩
  rw [strayMid_eq, strayStep_eq]
  exact ⟨by decide!, by decide!, by decide!, by decide!,
    ⟨(candidatesOf strayStep 0).getD [], by rw [strayStep_eq]; decide!,
      by rw [strayStep_eq]; decide!⟩, by decide!⟩

/-- C18 (amended): in every state on the integer grid (every coordinate and
size an integer of magnitude at most `2^20`, site widths between 1 and `2^19`,
at most `2^21` sites in a subrow), for every movable cell attempted in an
iteration of `optimizePlacement` in `double` arithmetic with current
displacement `D0`, with the candidates in scan order (row index, subrow index,
ascending site within the window), whenever the cell step returns: the search
ends with a target `best` that beats `D0` by more than `1e-6` iff some
candidate does; the cell is relocated only in that case, and then to the
coordinates of `best`; in a legal state with rows at least `1e-6` apart it is
relocated in exactly that case; and the chosen target is strictly better than
every candidate scanned before it, while no candidate scanned after it is
better than the target by more than `1e-6`.  In a legal state with rows at
least `1e-6` apart the cell step does return. -/
theorem refinement_target_choice (p : Placement) (i : ℕ) (hg : OnGrid p)
    (hi : i ∈ movableBlocks p) :
    (∀ (p' : Placement) (moved : Bool), Fp.optimizeBlock fl p i = some (p', moved) →
      ∃ (cands : List Best) (best : Best),
        candidatesOf p i = some cands ∧
        Fp.searchOf fl p i = some best ∧
        (best.disp < (p.block i).disp - eps ↔
          ∃ c ∈ cands, c.disp < (p.block i).disp - eps) ∧
        (moved = true → best.disp < (p.block i).disp - eps ∧
          (p'.block i).x = best.x ∧ (p'.block i).y = best.y) ∧
        (Legal p → Apart p.rows →
          (moved = true ↔ ∃ c ∈ cands, c.disp < (p.block i).disp - eps)) ∧
        (best.disp < (p.block i).disp - eps →
          ∃ pre post, cands = pre ++ best :: post ∧
            (∀ c ∈ pre, best.disp < c.disp) ∧ (∀ c ∈ post, best.disp - eps ≤ c.disp))) ∧
    (Legal p → Apart p.rows → ∃ (p' : Placement) (moved : Bool),
      Fp.optimizeBlock fl p i = some (p', moved)) := by
  rw [(fp_optimizeBlock fl_isRounding hg i).1, fp_searchOf fl_isRounding hg i]
  exact target_choice_exact p i hi

/-- C18 witness: the cell of `hopInput` (width 3, origin `(5, 0)`), placed at
`x = 0`, is attempted and relocated. -/
theorem refinement_target_choice_witness :
    ∃ (cands : List Best) (best : Best),
      candidatesOf hopMid 0 = some cands ∧
      Fp.searchOf fl hopMid 0 = some best ∧
      (best.disp < (hopMid.block 0).disp - eps ↔
        ∃ c ∈ cands, c.disp < (hopMid.block 0).disp - eps) ∧
      (true = true → best.disp < (hopMid.block 0).disp - eps ∧
        (hopOut.block 0).x = best.x ∧ (hopOut.block 0).y = best.y) ∧
      (Legal hopMid → Apart hopMid.rows →
        (true = true ↔ ∃ c ∈ cands, c.disp < (hopMid.block 0).disp - eps)) ∧
      (best.disp < (hopMid.block 0).disp - eps →
        ∃ pre post, cands = pre ++ best :: post ∧
          (∀ c ∈ pre, best.disp < c.disp) ∧ (∀ c ∈ post, best.disp - eps ≤ c.disp)) :=
  (refinement_target_choice hopMid 0 (by rw [hopMid_eq]; decide!)
    (by rw [hopMid_eq]; decide!)).1 hopOut true
    (by rw [hopMid_eq, hopOut_eq]; decide!)

/-- On the grid the ends of the window and the first and last candidate site of
a subrow are computed in `double` arithmetic as in exact arithmetic. -/
theorem fp_window {rd : ℚ → ℚ} (hrd : IsRounding rd) {b : Block} (hb : GridBlock b)
    {row : Row} (hrow : GridRow row) {sr : SubRow} (hsr : GridSubRow sr) (n : ℤ) :
    Fp.minSiteOf rd sr (Fp.minXOf rd b row)
      = some (minSiteOf sr (b.origX - (b.disp + 20 - |row.yStart - b.origY|))) ∧
    Fp.maxSiteOf rd sr b n (Fp.maxXOf rd b row)
      = some (maxSiteOf sr b n (b.origX + (b.disp + 20 - |row.yStart - b.origY|))) := by
  obtain ⟨ed, hdw, hd0, hd1⟩ := fp_disp hrd hb
  obtain ⟨hw, hw0, hh, _, _, hox, hoy⟩ := hb
  obtain ⟨hys, _, _, _, _, _⟩ := hrow
  obtain ⟨hxs, hxe, hsw, hsw1, hsw2, hn0, hn1⟩ := hsr
  have h20 : (20 : ℚ).den = 1 := rfl
  have hDw : (b.disp + 20).den = 1 := (whole_ops hdw h20).1
  have eD : rd (b.disp + 20) = b.disp + 20 :=
    rd_whole hrd hDw (abs_le.2 ⟨by linarith, by linarith⟩)
  have box := abs_le.1 hox.2
  have bxs := abs_le.1 hxs.2
  have bw := abs_le.1 hw.2
  obtain ⟨eV, _, _⟩ := cmp_abs hrd hys hoy
  have hVw : |row.yStart - b.origY|.den = 1 := by
    have := (whole_ops hys.1 hoy.1).2.1
    exact (whole_ops this this).2.2.2
  have hV0 := abs_nonneg (row.yStart - b.origY)
  have hV1 : |row.yStart - b.origY| ≤ 2097152 := by
    have := abs_sub row.yStart b.origY
    linarith [hys.2, hoy.2]
  have hRw : (b.disp + 20 - |row.yStart - b.origY|).den = 1 := (whole_ops hDw hVw).2.1
  have eR : rd (b.disp + 20 - |row.yStart - b.origY|) = b.disp + 20 - |row.yStart - b.origY| :=
    rd_whole hrd hRw (abs_le.2 ⟨by linarith, by linarith⟩)
  have hminw : (b.origX - (b.disp + 20 - |row.yStart - b.origY|)).den = 1 :=
    (whole_ops hox.1 hRw).2.1
  have hmaxw : (b.origX + (b.disp + 20 - |row.yStart - b.origY|)).den = 1 :=
    (whole_ops hox.1 hRw).1
  have hminb : |b.origX - (b.disp + 20 - |row.yStart - b.origY|)| ≤ 6291456 :=
    abs_le.2 ⟨by linarith, by linarith⟩
  have hmaxb : |b.origX + (b.disp + 20 - |row.yStart - b.origY|)| ≤ 6291456 :=
    abs_le.2 ⟨by linarith, by linarith⟩
  have bmin := abs_le.1 hminb
  have bmax := abs_le.1 hmaxb
  obtain ⟨e1, _⟩ := fp_siteOf hrd hminw hxs.1
    (abs_le.2 ⟨by linarith, by linarith⟩) hsw hsw1 hsw2
  have hw1 : (b.origX + (b.disp + 20 - |row.yStart - b.origY|) - sr.xStart).den = 1 :=
    (whole_ops hmaxw hxs.1).2.1
  have hw2 : (b.origX + (b.disp + 20 - |row.yStart - b.origY|) - sr.xStart - b.width).den = 1 :=
    (whole_ops hw1 hw.1).2.1
  have hb2 : |b.origX + (b.disp + 20 - |row.yStart - b.origY|) - sr.xStart - b.width|
      ≤ 16777216 := abs_le.2 ⟨by linarith, by linarith⟩
  obtain ⟨e2, _, f2, _⟩ := quot_grid hrd hw2 hsw.1 hb2 hsw1 hsw2
  constructor
  · unfold Fp.minSiteOf minSiteOf Fp.minXOf
    rw [ed, eD, eV, eR, rd_whole hrd hminw (le_trans hminb (by norm_num)), e1]
    rfl
  · unfold Fp.maxSiteOf maxSiteOf Fp.maxXOf
    rw [ed, eD, eV, eR, rd_whole hrd hmaxw (le_trans hmaxb (by norm_num)),
      rd_whole hrd hw1 (abs_le.2 ⟨by linarith, by linarith⟩),
      rd_whole hrd hw2 (le_trans hb2 (by norm_num)), e2, toInt_small f2]
    rfl

/-- The relocation search on `castMid`: the conversion of
`floor((maxX - xStart - width) / siteWidth + 1e-6) = 10000000019` to `int` has
no defined value, and neither have the search and the cell step. -/
theorem cast_run :
    Fp.WellFormed fl castInput ∧ Separated castInput ∧
    Fp.initialPlacement fl castInput = some castMid ∧
    Fp.maxXOf fl (castMid.block 0) (castMid.rows.getD 0 default) = 10000000020 ∧
    Fp.maxSiteOf fl ((castMid.rows.getD 0 default).subRows.getD 0 default) (castMid.block 0) 1
      (Fp.maxXOf fl (castMid.block 0) (castMid.rows.getD 0 default)) = none ∧
    Fp.searchOf fl castMid 0 = none ∧ Fp.optimizeBlock fl castMid 0 = none := by
  refine ⟨by decide!, by decide!, ?_, ?_, ?_, ?_, ?_⟩
  all_goals (rw [castMid_eq]; decide!)

/-- An element whose key is strictly below the keys of the others is the head
of the sorted list. -/
theorem sortBy_head (key : ℕ → ℚ) (a : ℕ) :
    ∀ l : List ℕ, a ∈ l → (∀ t ∈ l, t ≠ a → key a < key t) →
      ∃ rest, sortBy (fun u v => decide (key u < key v)) l = a :: rest := by
  intro l
  induction l with
  | nil => intro h; cases h
  | cons x xs ih =>
    intro ha hmin
    simp only [sortBy]
    by_cases hx : x = a
    · subst hx
      cases hs : sortBy (fun u v => decide (key u < key v)) xs with
      | nil => exact ⟨[], rfl⟩
      | cons b l' =>
        have hb : b ∈ xs := by
          rw [← mem_sortBy (fun u v => decide (key u < key v)) xs b, hs]
          exact List.mem_cons_self _ _
        have hnot : ¬ key b < key x := by
          by_cases hbx : b = x
          · rw [hbx]; exact lt_irrefl _
          · exact not_lt.2 (le_of_lt (hmin b (List.mem_cons_of_mem _ hb) hbx))
        refine ⟨b :: l', ?_⟩
        simp only [orderedInsert, decide_eq_true_eq, if_neg hnot]
    · have ha' : a ∈ xs := by
        rcases List.mem_cons.1 ha with h | h
        · exact absurd h.symm hx
        · exact h
      obtain ⟨rest, hr⟩ := ih ha' (fun t ht hta => hmin t (List.mem_cons_of_mem _ ht) hta)
      rw [hr]
      have hlt : key a < key x := hmin x (List.mem_cons_self _ _) hx
      exact ⟨orderedInsert (fun u v => decide (key u < key v)) x rest, by
        simp only [orderedInsert, decide_eq_true_eq, if_pos hlt]⟩

/-- The site loop of the initial placer returns the first site that
`canPlaceAt` accepts when its right edge fits. -/
theorem findSite_first {sr : SubRow} {w : ℚ} {n k : ℤ}
    (hcan : sr.canPlaceAt k n = some true)
    (hfit : sr.xStart + k * sr.siteWidth + w ≤ sr.xEnd + eps) :
    ∀ (fuel : ℕ) (s0 : ℤ), s0 ≤ k → k < s0 + fuel →
      (∀ t, s0 ≤ t → t < k → sr.canPlaceAt t n = some false) →
      findSite sr w n s0 fuel = some (some k) := by
  intro fuel
  induction fuel with
  | zero => intro s0 h1 h2; push_cast at h2; omega
  | succ f ih =>
    intro s0 h1 h2 hocc
    by_cases hk : s0 = k
    · subst hk
      simp only [findSite, hcan]
      rw [if_neg (not_lt.2 hfit)]
    · have hlt : s0 < k := lt_of_le_of_ne h1 hk
      simp only [findSite, hocc s0 (le_refl _) hlt]
      exact ih (s0 + 1) (by omega) (by push_cast at h2 ⊢; omega)
        (fun t ht1 ht2 => hocc t (by omega) ht2)

/-- A start site whose bit is set is rejected by `canPlaceAt`. -/
theorem canPlaceAt_occupied {sr : SubRow} {t n : ℤ} (hn : 1 ≤ n)
    (hbit : readSite sr.occupiedSites t = some true) : sr.canPlaceAt t n = some false := by
  unfold SubRow.canPlaceAt
  by_cases h : t + n > sr.numSites
  · rw [if_pos h]
  · rw [if_neg h]
    obtain ⟨m, hm⟩ : ∃ m : ℕ, n.toNat = m + 1 := ⟨n.toNat - 1, by omega⟩
    rw [hm]
    simp only [scanFree, hbit]

theorem isSub_getD {rows : List Row} {ri si : ℕ} (h1 : ri < rows.length)
    (h2 : si < (rows.getD ri default).subRows.length) :
    IsSub rows ri si (rows.getD ri default) ((rows.getD ri default).subRows.getD si default) := by
  constructor
  · rw [List.getD_eq_getElem?_getD, List.getElem?_eq_getElem h1]; rfl
  · rw [List.getD_eq_getElem?_getD (l := (rows.getD ri default).subRows),
      List.getElem?_eq_getElem h2]; rfl

theorem getD_setSubRow (rows : List Row) (ri si : ℕ) (new : SubRow) (rj : ℕ) :
    (setSubRow rows ri si new).getD rj default =
      if rj = ri ∧ ri < rows.length then
        { (rows.getD ri default) with subRows := (rows.getD ri default).subRows.set si new }
      else rows.getD rj default := by
  rw [List.getD_eq_getElem?_getD, getElem?_setSubRow]
  by_cases hj : rj = ri
  · subst hj
    by_cases hl : rj < rows.length
    · rw [if_pos rfl, if_pos ⟨rfl, hl⟩, List.getD_eq_getElem?_getD,
        List.getElem?_eq_getElem hl]
      rfl
    · rw [if_pos rfl, if_neg (fun h => hl h.2), List.getD_eq_getElem?_getD,
        List.getElem?_eq_none (not_lt.1 hl)]
      rfl
  · rw [if_neg hj, if_neg (fun h => hj h.1), List.getD_eq_getElem?_getD]

theorem getD_set_subRows (l : List SubRow) (si : ℕ) (new : SubRow) (sj : ℕ) :
    (l.set si new).getD sj default = if sj = si ∧ si < l.length then new else l.getD sj default := by
  rw [List.getD_eq_getElem?_getD, List.getElem?_set, List.getD_eq_getElem?_getD]
  by_cases hj : si = sj
  · subst hj
    by_cases hl : si < l.length
    · simp [hl]
    · simp [hl, List.getElem?_eq_none (not_lt.1 hl)]
  · have : ¬ sj = si := fun e => hj e.symm
    simp [hj, this]

theorem sameGeom_refl (p : Placement) : SameGeom p p :=
  ⟨rfl, fun _ => ⟨rfl, rfl, rfl, rfl, fun _ => sameSub_refl _⟩⟩

/-- A placement step keeps the geometry of the rows. -/
theorem sameGeom_placeAt {p q : Placement} (h : SameGeom p q) (i ri si : ℕ) (s n : ℤ) :
    SameGeom p (placeAt q i ri si s n) := by
  obtain ⟨hlen, hrow⟩ := h
  have hrows : (placeAt q i ri si s n).rows = setSubRow q.rows ri si
      (((q.rows.getD ri default).subRows.getD si default).insertBlock
        (moveTo q i (((q.rows.getD ri default).subRows.getD si default).xStart
          + s * ((q.rows.getD ri default).subRows.getD si default).siteWidth)
          (q.rows.getD ri default).yStart).blocks i s n) := rfl
  refine ⟨by rw [hrows, length_setSubRow]; exact hlen, fun rj => ?_⟩
  obtain ⟨e1, e2, e3, e4, e5⟩ := hrow rj
  rw [hrows, getD_setSubRow]
  by_cases hc : rj = ri ∧ ri < q.rows.length
  · rw [if_pos hc]
    obtain ⟨hj, _⟩ := hc
    subst hj
    refine ⟨e1, e2, e3, by rw [← e4]; exact List.length_set _ _ _, fun sj => ?_⟩
    show SameSub _ (((q.rows.getD rj default).subRows.set si _).getD sj default)
    rw [getD_set_subRows]
    by_cases hs : sj = si ∧ si < (q.rows.getD rj default).subRows.length
    · rw [if_pos hs]
      obtain ⟨hsj, _⟩ := hs
      subst hsj
      obtain ⟨a1, a2, a3, a4, a5⟩ := e5 sj
      obtain ⟨b1, b2, b3, b4, b5⟩ := sameSub_insertBlock
        ((q.rows.getD rj default).subRows.getD sj default)
        (moveTo q i (((q.rows.getD rj default).subRows.getD sj default).xStart
          + s * ((q.rows.getD rj default).subRows.getD sj default).siteWidth)
          (q.rows.getD rj default).yStart).blocks i s n
      exact ⟨b1.trans a1, b2.trans a2, b3.trans a3, b4.trans a4, b5.trans a5⟩
    · rw [if_neg hs]
      exact e5 sj
  · rw [if_neg hc]
    exact ⟨e1, e2, e3, e4, e5⟩

/-- A cell already listed stays listed after a placement step. -/
theorem listed_placeAt {q : Placement} {j : ℕ} (h : Listed q.rows j) (i ri si : ℕ) (s n : ℤ) :
    Listed (placeAt q i ri si s n).rows j := by
  obtain ⟨rj, sj, r, sr, hs, hm⟩ := h
  have hrows : (placeAt q i ri si s n).rows = setSubRow q.rows ri si
      (((q.rows.getD ri default).subRows.getD si default).insertBlock
        (moveTo q i (((q.rows.getD ri default).subRows.getD si default).xStart
          + s * ((q.rows.getD ri default).subRows.getD si default).siteWidth)
          (q.rows.getD ri default).yStart).blocks i s n) := rfl
  obtain ⟨r', _, _, _, hs'⟩ := isSub_setSubRow_of ri si
    (((q.rows.getD ri default).subRows.getD si default).insertBlock
      (moveTo q i (((q.rows.getD ri default).subRows.getD si default).xStart
        + s * ((q.rows.getD ri default).subRows.getD si default).siteWidth)
        (q.rows.getD ri default).yStart).blocks i s n) hs
  rw [← hrows] at hs'
  refine ⟨rj, sj, r', _, hs', ?_⟩
  by_cases hc : rj = ri ∧ sj = si
  · rw [if_pos hc]
    obtain ⟨h1, h2⟩ := hc
    subst h1; subst h2
    rw [subD_of_isSub hs]
    exact mem_insertBlock.2 (Or.inl hm)
  · rw [if_neg hc]
    exact hm

theorem block_mem_blocks {p : Placement} {i : ℕ} (h : i < p.blocks.length) :
    p.block i ∈ p.blocks := by
  unfold Placement.block
  rw [List.getD_eq_getElem?_getD, List.getElem?_eq_getElem h]
  exact List.getElem_mem _

/-- Record form of `HomeAt`. -/
theorem homeAt_iff {p : Placement} {i ri si : ℕ} :
    HomeAt p i ri si ↔ ∃ r sr, IsSub p.rows ri si r sr ∧
      (p.block i).y = r.yStart ∧ (p.block i).height ≤ r.height + eps ∧
      0 ≤ startOf sr (p.block i) ∧
      startOf sr (p.block i) + sitesOf sr (p.block i) ≤ sr.numSites ∧
      (p.block i).x = sr.xStart + startOf sr (p.block i) * sr.siteWidth := by
  constructor
  · rintro ⟨h1, h2, h3, h4, h5, h6, h7⟩
    exact ⟨_, _, isSub_getD h1 h2, h3, h4, h5, h6, h7⟩
  · rintro ⟨r, sr, hs, h3, h4, h5, h6, h7⟩
    obtain ⟨e1, e2⟩ := getD_of_isSub hs
    have l1 : ri < p.rows.length := (List.getElem?_eq_some.1 hs.1).1
    have l2 : si < r.subRows.length := (List.getElem?_eq_some.1 hs.2).1
    unfold HomeAt
    rw [e2, e1]
    exact ⟨l1, l2, h3, h4, h5, h6, h7⟩

/-- A cell sitting on a subrow has its left edge inside the subrow. -/
theorem home_extent {r : Row} {sr : SubRow} {b : Block} (hg : SubGeom r sr) (hw : 0 < b.width)
    (h0 : 0 ≤ startOf sr b) (h1 : startOf sr b + sitesOf sr b ≤ sr.numSites)
    (hx : b.x = sr.xStart + startOf sr b * sr.siteWidth) :
    sr.xStart ≤ b.x ∧ b.x < sr.xEnd := by
  have hsw : 0 < sr.siteWidth := by rw [hg.sw_eq]; exact hg.sw_pos
  have hn := sitesOf_pos hsw hw
  have hk : ((startOf sr b : ℤ) : ℚ) + 1 ≤ (sr.numSites : ℚ) := by
    exact_mod_cast (by omega : startOf sr b + 1 ≤ sr.numSites)
  have hk0 : (0 : ℚ) ≤ ((startOf sr b : ℤ) : ℚ) := by exact_mod_cast h0
  have a1 := Rat.mul_nonneg hk0 (le_of_lt hsw)
  have a2 := mul_le_mul_of_nonneg_right hk (le_of_lt hsw)
  rw [hx, hg.xEnd_eq]
  constructor
  · linarith
  · linarith

/-- On a well-formed input a cell sits on at most one subrow. -/
theorem homeAt_unique {p : Placement} (hw : WellFormed p) {j ri si rj sj : ℕ}
    (hwid : 0 < (p.block j).width) (h1 : HomeAt p j ri si) (h2 : HomeAt p j rj sj) :
    ri = rj ∧ si = sj := by
  obtain ⟨r, sr, hs, a3, _, a5, a6, a7⟩ := homeAt_iff.1 h1
  obtain ⟨r', sr', hs', b3, _, b5, b6, b7⟩ := homeAt_iff.1 h2
  have hst := static_of_wellFormed hw
  have hrow : ri = rj := by
    by_contra hne
    rcases Nat.lt_or_gt_of_ne hne with h | h
    · exact pairwise_getElem? hw.2.2.1 hs.1 hs'.1 h (by rw [← a3, ← b3])
    · exact pairwise_getElem? hw.2.2.1 hs'.1 hs.1 h (by rw [← a3, ← b3])
  subst hrow
  have hr : r = r' := Option.some.inj (hs.1.symm.trans hs'.1)
  subst hr
  refine ⟨rfl, ?_⟩
  by_contra hne
  have e1 := home_extent (hst.geom _ _ _ _ hs) hwid a5 a6 a7
  have e2 := home_extent (hst.geom _ _ _ _ hs') hwid b5 b6 b7
  rcases hst.apart ri si sj r sr sr' hs hs' hne with h | h
  · linarith [e1.1, e1.2, e2.1, e2.2]
  · linarith [e1.1, e1.2, e2.1, e2.2]

/-- On the grid two `origY` are equal or at least one unit apart. -/
theorem levelsApart_of_grid {p : Placement} (hg : OnGrid p) : LevelsApart p := by
  intro a ha b hb
  have ga := hg.1 _ (block_mem_blocks ((mem_movableBlocks p a).1 ha).1)
  have gb := hg.1 _ (block_mem_blocks ((mem_movableBlocks p b).1 hb).1)
  by_cases he : (p.block a).origY = (p.block b).origY
  · exact Or.inl he
  · right
    have wa := ga.2.2.2.2.2.2.1
    have wb := gb.2.2.2.2.2.2.1
    have hw1 := (whole_ops wa wb).2.1
    have hw2 := (whole_ops hw1 hw1).2.2.2
    have hpos : (0 : ℚ) < |(p.block a).origY - (p.block b).origY| :=
      abs_pos.2 (sub_ne_zero.2 he)
    have h0 : (0 : ℚ).den = 1 := rfl
    have := whole_lt h0 hw2 hpos
    have heps : eps = 1 / 1000000 := rfl
    rw [heps]
    linarith

/-- The records of `q` at a position of `p`, when the geometry is the same. -/
theorem isSub_of_sameGeom {p q : Placement} (h : SameGeom p q) {ri si : ℕ} {r : Row} {sr : SubRow}
    (hs : IsSub p.rows ri si r sr) :
    ∃ r' sr', IsSub q.rows ri si r' sr' ∧ r'.yStart = r.yStart ∧ r'.height = r.height ∧
      r'.siteWidth = r.siteWidth ∧ SameSub sr sr' := by
  obtain ⟨hlen, hrow⟩ := h
  obtain ⟨e1, e2, e3, e4, e5⟩ := hrow ri
  obtain ⟨d1, d2⟩ := getD_of_isSub hs
  have l1 : ri < p.rows.length := (List.getElem?_eq_some.1 hs.1).1
  have l2 : si < r.subRows.length := (List.getElem?_eq_some.1 hs.2).1
  rw [d1] at e1 e2 e3 e4
  have e6 := e5 si
  rw [d2] at e6
  exact ⟨_, _, isSub_getD (by rw [hlen]; exact l1) (by rw [e4]; exact l2), e1, e2, e3, e6⟩

/-- The records of `p` at a position of `q`, when the geometry is the same. -/
theorem isSub_to_sameGeom {p q : Placement} (h : SameGeom p q) {ri si : ℕ} {r' : Row}
    {sr' : SubRow} (hs : IsSub q.rows ri si r' sr') :
    ∃ r sr, IsSub p.rows ri si r sr ∧ r'.yStart = r.yStart ∧ r'.height = r.height ∧
      r'.siteWidth = r.siteWidth ∧ SameSub sr sr' := by
  obtain ⟨hlen, hrow⟩ := h
  obtain ⟨e1, e2, e3, e4, e5⟩ := hrow ri
  obtain ⟨d1, d2⟩ := getD_of_isSub hs
  have l1 : ri < q.rows.length := (List.getElem?_eq_some.1 hs.1).1
  have l2 : si < r'.subRows.length := (List.getElem?_eq_some.1 hs.2).1
  rw [d1] at e1 e2 e3 e4
  have e6 := e5 si
  rw [d2] at e6
  exact ⟨_, _, isSub_getD (by rw [← hlen]; exact l1) (by rw [← e4]; exact l2), e1, e2, e3, e6⟩

/-- One cell step of the initial placer on a packed input: when the cells
before cell `i` in the processing order are listed on their sites and no record
has changed, the step lists cell `i` on its own site and changes no record. -/
theorem packed_step {p q : Placement} (hw : WellFormed p) (hlev : LevelsApart p) (hp : Packed p)
    {pre post : List ℕ} {i : ℕ} (ho : initialOrder p = pre ++ i :: post)
    (hq : placeAll pre p = some q) (hb : q.blocks = p.blocks) (hl : Legal q)
    (hgeo : SameGeom p q) (hlist : ∀ j ∈ pre, Listed q.rows j) :
    ∃ q', placeBlock q i = some (q', true) ∧ q'.blocks = p.blocks ∧ Legal q' ∧
      SameGeom p q' ∧ ∀ j ∈ pre ++ [i], Listed q'.rows j := by
  have hnd := initialOrder_nodup p
  rw [ho] at hnd
  have hipre : i ∉ pre := fun h => (List.nodup_append.1 hnd).2.2 h (List.mem_cons_self _ _)
  have hmem : i ∈ initialOrder p := by
    rw [ho]; exact List.mem_append_right _ (List.mem_cons_self _ _)
  have hmov : i ∈ movableBlocks p := (mem_sortBy _ _ _).1 hmem
  obtain ⟨hlt, hfix⟩ := (mem_movableBlocks p i).1 hmov
  obtain ⟨hwid, _, hx0, hy0⟩ := hw.2.2.2 _ (block_mem_blocks hlt)
  obtain ⟨ri, hri, si, hsi, hhome, hnear, hcover, hdisj⟩ := hp i hmov
  obtain ⟨r, sr, hs, c3, c4, c5, c6, c7⟩ := homeAt_iff.1 hhome
  rw [subD_of_isSub hs] at hcover hdisj
  rw [rowD_of_isSub hs] at hnear
  obtain ⟨rq, sq, hsq, g1, g2, g3, s1, s2, s3, s4, s5⟩ := isSub_of_sameGeom hgeo hs
  have hblock : ∀ j, q.block j = p.block j := fun j => by unfold Placement.block; rw [hb]
  have hgq := hl.lists.stat.geom ri si rq sq hsq
  have hok := hl.lists.sub ri si rq sq hsq
  have hstat := static_of_wellFormed hw
  have hgp := hstat.geom ri si r sr hs
  have est : ∀ b, startOf sq b = startOf sr b := fun b => by unfold startOf; rw [s1, s3]
  have esi : ∀ b, sitesOf sq b = sitesOf sr b := fun b => by unfold sitesOf; rw [s3]
  have hsw : 0 < sr.siteWidth := by rw [hgp.sw_eq]; exact hgp.sw_pos
  have hn1 := sitesOf_pos hsw hwid
  have hnq : ⌈(q.block i).width / rq.siteWidth⌉ = sitesOf sr (p.block i) := by
    rw [hblock, g3, ← hgp.sw_eq]; rfl
  have hunl : ∀ j, j ∉ pre → ¬ Listed q.rows j := fun j hj =>
    not_listed_of_untouched (placeAll_untouched hq j hj) (not_listed_of_wellFormed hw j)
  have hhomeq : ∀ j rj sj r' sr', IsSub q.rows rj sj r' sr' → j ∈ sr'.placedBlocks →
      HomeAt p j rj sj := by
    intro j rj sj r' sr' hs' hm
    obtain ⟨r0, sr0, hs0, f1, f2, f3, t1, t2, t3, t4, t5⟩ := isSub_to_sameGeom hgeo hs'
    obtain ⟨_, _, _, d4, d5, d6, d7, d8⟩ := (hl.lists.sub rj sj r' sr' hs').placed j hm
    have hbj : q.blocks.getD j default = p.block j := hblock j
    rw [hbj] at d4 d5 d6 d7 d8
    have est0 : startOf sr' (p.block j) = startOf sr0 (p.block j) := by
      unfold startOf; rw [t1, t3]
    have esi0 : sitesOf sr' (p.block j) = sitesOf sr0 (p.block j) := by
      unfold sitesOf; rw [t3]
    rw [est0] at d6 d7 d8
    rw [esi0, t4] at d7
    rw [t1, t3] at d8
    rw [f1] at d5
    rw [f2] at d4
    exact homeAt_iff.2 ⟨r0, sr0, hs0, d5, d4, d6, d7, d8⟩
  have hjmov : ∀ j ∈ pre, j ∈ movableBlocks p := by
    intro j hj
    have hj' : j ∈ initialOrder p := by rw [ho]; exact List.mem_append_left _ hj
    exact (mem_sortBy _ _ _).1 hj'
  have hclear : ∀ t, startOf sr (p.block i) ≤ t →
      t < startOf sr (p.block i) + sitesOf sr (p.block i) →
      readSite sq.occupiedSites t = some false := by
    intro t ht1 ht2
    obtain ⟨v, hv⟩ := readSite_isSome sq.occupiedSites t (by omega) (by rw [hgq.len]; omega)
    cases v with
    | false => exact hv
    | true =>
      exfalso
      obtain ⟨j, hj, hj1, hj2⟩ := (hok.bits t (by omega) (by omega)).1 hv
      have hjpre : j ∈ pre := by
        by_contra hn
        exact hunl j hn ⟨ri, si, rq, sq, hsq, hj⟩
      have hji : j ≠ i := fun e => hipre (e ▸ hjpre)
      have hhj := hhomeq j ri si rq sq hsq hj
      have hbj : q.blocks.getD j default = p.block j := hblock j
      rw [hbj, est] at hj1
      rw [hbj, est, esi] at hj2
      rcases hdisj j (hjmov j hjpre) hji hhj with h | h <;> omega
  have hset : ∀ t, 0 ≤ t → t < startOf sr (p.block i) →
      readSite sq.occupiedSites t = some true := by
    intro t ht0 ht1
    obtain ⟨j, hjm, hji, hhj, d1, d2⟩ := hcover t.toNat (List.mem_range.2 (by omega))
    rw [Int.toNat_of_nonneg ht0] at d1 d2
    have hjord : j ∈ initialOrder p := (mem_sortBy _ _ _).2 hjm
    obtain ⟨hjlt, _⟩ := (mem_movableBlocks p j).1 hjm
    obtain ⟨hwj, _, hxj, hyj⟩ := hw.2.2.2 _ (block_mem_blocks hjlt)
    have hhj' := hhj
    unfold HomeAt at hhj'
    rw [subD_of_isSub hs, rowD_of_isSub hs] at hhj'
    obtain ⟨_, _, k3, _, k5, k6, k7⟩ := hhj'
    have hjpre : j ∈ pre := by
      rw [ho] at hjord
      rcases List.mem_append.1 hjord with h | h
      · exact h
      · rcases List.mem_cons.1 h with h | h
        · exact absurd h hji
        · exfalso
          have hsrt := initialOrder_sorted hlev
          rw [ho] at hsrt
          have h2 := (List.pairwise_append.1 hsrt).2.1
          have h3 := (List.pairwise_cons.1 h2).1 j h
          apply h3
          right
          refine ⟨by rw [← hyj, ← hy0, k3, c3], ?_⟩
          rw [← hxj, ← hx0, k7, c7]
          have hc : ((startOf sr (p.block j) : ℤ) : ℚ) + 1 ≤ ((startOf sr (p.block i) : ℤ) : ℚ) := by
            exact_mod_cast (by omega : startOf sr (p.block j) + 1 ≤ startOf sr (p.block i))
          have := mul_le_mul_of_nonneg_right hc (le_of_lt hsw)
          linarith
    obtain ⟨rj, sj, r', sr', hs', hm'⟩ := hlist j hjpre
    obtain ⟨u1, u2⟩ := homeAt_unique hw hwj (hhomeq j rj sj r' sr' hs' hm') hhj
    rw [u1, u2] at hs'
    have er : r' = rq := Option.some.inj (hs'.1.symm.trans hsq.1)
    rw [er] at hs'
    have es : sr' = sq := Option.some.inj (hs'.2.symm.trans hsq.2)
    rw [es] at hm'
    have hbj : q.blocks.getD j default = p.block j := hblock j
    refine (hok.bits t ht0 (by omega)).2 ⟨j, hm', ?_, ?_⟩
    · rw [hbj, est]; exact d1
    · rw [hbj, est, esi]; exact d2
  have hcan : sq.canPlaceAt (startOf sr (p.block i)) ⌈(q.block i).width / rq.siteWidth⌉
      = some true := by
    rw [hnq]
    exact (canPlaceAt_eq_true (by omega)).2 ⟨by omega, hclear⟩
  have hfit : sq.xStart + (startOf sr (p.block i) : ℤ) * sq.siteWidth + (q.block i).width
      ≤ sq.xEnd + eps :=
    fits_of_geom hgq (q.block i).width (by rw [hnq]; omega)
  have hocc : ∀ t, 0 ≤ t → t < startOf sr (p.block i) →
      sq.canPlaceAt t ⌈(q.block i).width / rq.siteWidth⌉ = some false := by
    intro t h0 h1
    rw [hnq]
    exact canPlaceAt_occupied hn1 (hset t h0 h1)
  have hfind : findSite sq (q.block i).width ⌈(q.block i).width / rq.siteWidth⌉ 0
      (sq.numSites - ⌈(q.block i).width / rq.siteWidth⌉ + 1).toNat
      = some (some (startOf sr (p.block i))) :=
    findSite_first hcan hfit _ 0 c5 (by rw [hnq]; omega) hocc
  have hrowhead : ∃ rest, rowOrder q (q.block i).origY = ri :: rest := by
    have hriq : ri < q.rows.length := (List.getElem?_eq_some.1 hsq.1).1
    have h0 : rowDist q (q.block i).origY ri = 0 := by
      unfold rowDist
      rw [rowD_of_isSub hsq, g1, hblock, ← hy0, c3]
      simp
    show ∃ rest, sortBy (fun u v => decide (rowDist q (q.block i).origY u
      < rowDist q (q.block i).origY v)) (List.range q.rows.length) = ri :: rest
    refine sortBy_head (rowDist q (q.block i).origY) ri _ (List.mem_range.2 hriq) ?_
    intro t ht hne
    rw [h0]
    unfold rowDist
    apply abs_pos.2
    rw [List.mem_range] at ht
    have e := (hgeo.2 t).1
    rw [e, hblock, ← hy0, c3]
    apply sub_ne_zero.2
    have htp : t < p.rows.length := by rw [← hgeo.1]; exact ht
    have hgt : p.rows[t]? = some (p.rows.getD t default) := by
      rw [List.getD_eq_getElem?_getD, List.getElem?_eq_getElem htp]; rfl
    rcases Nat.lt_or_gt_of_ne hne with h | h
    · exact pairwise_getElem? hw.2.2.1 hgt hs.1 h
    · exact fun e' => pairwise_getElem? hw.2.2.1 hs.1 hgt h e'.symm
  have hsubhead : ∃ rest, subrowOrder rq (q.block i).origX = si :: rest := by
    have hsiq : si < rq.subRows.length := (List.getElem?_eq_some.1 hsq.2).1
    show ∃ rest, sortBy (fun u v => decide (subDist rq (q.block i).origX u
      < subDist rq (q.block i).origX v)) (List.range rq.subRows.length) = si :: rest
    refine sortBy_head (subDist rq (q.block i).origX) si _ (List.mem_range.2 hsiq) ?_
    intro t ht hne
    have hrowq := hgeo.2 ri
    rw [rowD_of_isSub hs, rowD_of_isSub hsq] at hrowq
    obtain ⟨_, _, _, hlenq, e5⟩ := hrowq
    have hkey : ∀ u, subDist rq (q.block i).origX u = subDist r (p.block i).origX u := by
      intro u
      unfold subDist
      obtain ⟨a1, a2, _, _, _⟩ := e5 u
      rw [a1, a2, hblock]
    rw [hkey, hkey]
    exact hnear t (by rw [← hlenq]; exact ht) hne
  obtain ⟨rest, hro⟩ := hrowhead
  obtain ⟨rest', hso⟩ := hsubhead
  have hhq : ¬ (q.block i).height > rq.height + eps := by
    rw [hblock, g2]; exact not_lt.2 c4
  have hpb : placeBlock q i = some (placeAt q i ri si (startOf sr (p.block i))
      ⌈(q.block i).width / rq.siteWidth⌉, true) := by
    unfold placeBlock
    rw [hro]
    simp only [placeInRows]
    rw [rowD_of_isSub hsq, if_neg hhq, hso]
    simp only [placeInSubRows]
    rw [subD_of_isSub hsq, hfind]
  have hunli : ¬ Listed q.rows i := hunl i hipre
  have hltq : i < q.blocks.length := by rw [hb]; exact hlt
  have hmovq : (q.block i).isFixed = false := by rw [hblock]; exact hfix
  have hwq : 0 < (q.block i).width := by rw [hblock]; exact hwid
  obtain ⟨hleg, hlisted⟩ := legal_placeAt hl hunli hsq hltq hmovq hwq (not_lt.1 hhq) c5 hcan
  refine ⟨_, hpb, ?_, hleg, sameGeom_placeAt hgeo _ _ _ _ _, ?_⟩
  · show (q.blocks.set i { q.block i with
        x := ((q.rows.getD ri default).subRows.getD si default).xStart
          + (startOf sr (p.block i) : ℤ) * ((q.rows.getD ri default).subRows.getD si default).siteWidth,
        y := (q.rows.getD ri default).yStart }) = p.blocks
    rw [subD_of_isSub hsq, rowD_of_isSub hsq]
    have ex : sq.xStart + (startOf sr (p.block i) : ℤ) * sq.siteWidth = (q.block i).x := by
      rw [s1, s3, hblock]; exact c7.symm
    have ey : rq.yStart = (q.block i).y := by rw [g1, hblock]; exact c3.symm
    rw [ex, ey]
    have hself : ({ q.block i with x := (q.block i).x, y := (q.block i).y } : Block)
        = q.block i := rfl
    rw [hself, ← hb]
    unfold Placement.block
    rw [List.getD_eq_getElem?_getD, List.getElem?_eq_getElem hltq]
    apply List.ext_getElem (List.length_set _ _ _)
    intro n h1 h2
    rw [List.getElem_set]
    split
    · rename_i hin
      subst hin
      rfl
    · rfl
  · intro j hj
    rcases List.mem_append.1 hj with h | h
    · exact listed_placeAt (hlist j h) _ _ _ _ _
    · rw [List.mem_singleton.1 h]; exact hlisted

/-- The cell loop of the initial placer on a packed input, from any point of
the processing order on: it returns and changes no record. -/
theorem packed_placeAll {p : Placement} (hw : WellFormed p) (hlev : LevelsApart p)
    (hp : Packed p) :
    ∀ (post pre : List ℕ), initialOrder p = pre ++ post →
      ∀ q, placeAll pre p = some q → q.blocks = p.blocks → Legal q → SameGeom p q →
        (∀ j ∈ pre, Listed q.rows j) →
        ∃ q', placeAll post q = some q' ∧ q'.blocks = p.blocks := by
  intro post
  induction post with
  | nil =>
    intro pre _ q _ hb _ _ _
    exact ⟨q, rfl, hb⟩
  | cons i post ih =>
    intro pre ho q hq hb hl hgeo hlist
    obtain ⟨q', hpb, hb', hl', hgeo', hlist'⟩ := packed_step hw hlev hp ho hq hb hl hgeo hlist
    have hq' : placeAll (pre ++ [i]) p = some q' := by
      rw [placeAll_append, hq]
      simp only [placeAll, hpb]
    obtain ⟨q'', h1, h2⟩ := ih (pre ++ [i]) (by rw [ho, List.append_assoc]; rfl) q' hq' hb' hl'
      hgeo' hlist'
    exact ⟨q'', by simp only [placeAll, hpb]; exact h1, h2⟩

/-- In exact arithmetic both passes return a packed input with the records of
its blocks unchanged. -/
theorem packed_exact {p : Placement} (hw : WellFormed p) (hs : Separated p)
    (hlev : LevelsApart p) (hp : Packed p) :
    Returns (initialPlacement p) (SameCoordinates p) ∧
    Returns (legalize p) (SameCoordinates p) := by
  obtain ⟨p1, h1, hb1⟩ := packed_placeAll hw hlev hp (initialOrder p) [] rfl p rfl rfl
    (legal_of_wellFormed hw) (sameGeom_refl p) (fun j hj => absurd hj (List.not_mem_nil j))
  obtain ⟨p1', p2, h1', h2, h3, _⟩ := legalize_legal hw hs
  have h1'' : initialPlacement p = some p1 := h1
  have e : p1' = p1 := Option.some.inj (h1'.symm.trans h1'')
  rw [e] at h2
  have hblock : ∀ j, p1.block j = p.block j := fun j => by unfold Placement.block; rw [hb1]
  refine ⟨⟨p1, h1'', fun i => by rw [hblock]; exact ⟨rfl, rfl⟩⟩, p2, h3, fun i => ?_⟩
  have hd : (p1.block i).disp = 0 := by
    rw [hblock]
    by_cases hlt : i < p.blocks.length
    · obtain ⟨_, _, hx, hy⟩ := hw.2.2.2 _ (block_mem_blocks hlt)
      exact disp_eq_zero hx hy
    · have hdef : p.block i = default := by
        unfold Placement.block
        rw [List.getD_eq_getElem?_getD, List.getElem?_eq_none (not_lt.1 hlt)]
        rfl
      rw [hdef]
      exact disp_eq_zero rfl rfl
  have u := optimizePlacement_untouched i (Or.inr hd) h2
  rw [u.1, hblock]
  exact ⟨rfl, rfl⟩

/-! ## C9: legal inputs as fixed points of the two passes -/

/-- C9 counterexample: `shiftedInput` is well formed, on the integer grid and
already legal (one cell of width 2 on site 1 of an empty subrow), yet the two
passes in `double` arithmetic return it on site 0: the initial placer takes the
leftmost free site, and the refinement cannot move the cell back onto sites
that overlap its own footprint. -/
theorem legal_input_not_fixed_point :
    Fp.WellFormed fl shiftedInput ∧ OnGrid shiftedInput ∧ AlreadyLegal shiftedInput ∧
    Returns (Fp.legalize fl shiftedInput) (fun p => (p.block 0).x = 0) ∧
    ¬ Returns (Fp.legalize fl shiftedInput) (SameCoordinates shiftedInput) := by
  have e : Fp.legalize fl shiftedInput = legalize shiftedInput :=
    (fp_legalize fl_isRounding (by decide! : OnGrid shiftedInput)).2.2.2.2.1
  rw [e]
  refine ⟨by decide!, by decide!, ⟨?_, ?_⟩, by decide!, ?_⟩
  · intro i hi
    have hi0 : i = 0 := by
      have : i ∈ [0] := by
        have e : movableBlocks shiftedInput = [0] := by decide!
        rw [e] at hi; exact hi
      simpa using this
    subst hi0
    refine ⟨⟨0, 10, 1, 1, [SubRow.new 0 10 1]⟩, by simp [shiftedInput], SubRow.new 0 10 1,
      by simp, by decide!, by decide!, 1, by norm_num, by decide!, by decide!⟩
  · intro i hi j hj hij
    have e : movableBlocks shiftedInput = [0] := by decide!
    rw [e] at hi hj
    simp only [List.mem_singleton] at hi hj
    exact absurd (hi.trans hj.symm) hij
  · intro h
    have h0 : Returns (legalize shiftedInput) (fun p => (p.block 0).x = 0) := by decide!
    obtain ⟨p, hP, hQ⟩ := returns_both h h0
    have := (hP 0).1
    rw [hQ] at this
    revert this
    decide!

/-- C9 (amended): on every well-formed input on the integer grid whose
placement is legal and packed to the left (`Packed`: every movable cell sits
site-aligned on the `yStart` of a row, inside one subrow and fitting the row
height; the centre of that subrow is strictly nearer to the cell than the centre
of any other subrow of the row; every site of the subrow to the left of the
cell is covered by another movable cell of the subrow; the site ranges of the
movable cells of a subrow are disjoint), `initialPlacement` returns with every
block at its input `(x, y)`, and `initialPlacement` followed by
`optimizePlacement` returns with every block at its input `(x, y)`, in `double`
arithmetic. -/
theorem packed_input_fixed_point (p : Placement) (hw : Fp.WellFormed fl p) (hg : OnGrid p)
    (hp : Packed p) :
    Returns (Fp.initialPlacement fl p) (SameCoordinates p) ∧
    Returns (Fp.legalize fl p) (SameCoordinates p) := by
  obtain ⟨hw', hs⟩ := wellFormed_of_grid fl_isRounding hg hw
  obtain ⟨e1, _, _, _, e5, _⟩ := fp_legalize fl_isRounding hg
  rw [e1, e5]
  exact packed_exact hw' hs (levelsApart_of_grid hg) hp

/-- C9 witness: `packedInput`, two cells of width 2 on sites 0 and 2 of one
subrow, is a packed input on the grid, and both passes return it unchanged. -/
theorem packed_input_fixed_point_witness :
    Returns (Fp.initialPlacement fl packedInput) (SameCoordinates packedInput) ∧
    Returns (Fp.legalize fl packedInput) (SameCoordinates packedInput) :=
  packed_input_fixed_point packedInput (by decide!) (by decide!) (by decide!)

/-! ## The run on the single-cell scenario -/

/-- Outcome of the candidate-site loop over the sites `s0 .. s0 + k - 1`: the
running best is kept when no site that passes `canPlaceAt` and the right-edge
check beats it by more than `1e-6`; otherwise the result is the first such site
that is better than all sites before it, and no later site beats it by more
than `1e-6`. -/
theorem scanSites_first_min {sr : SubRow} {b : Block} {ri : ℕ} {y : ℚ} {n : ℤ} :
    ∀ (k : ℕ) (s0 : ℤ) (best best' : Best), scanSites sr b ri y n s0 k best = some best' →
      (best' = best ∧ ∀ t, s0 ≤ t → t < s0 + k → sr.canPlaceAt t n = some true →
          sr.xStart + t * sr.siteWidth + b.width ≤ sr.xEnd + eps →
          best.disp - eps ≤ (candidateAt sr b ri y t).disp) ∨
      ∃ s, s0 ≤ s ∧ s < s0 + k ∧ sr.canPlaceAt s n = some true ∧
        best' = candidateAt sr b ri y s ∧
        (candidateAt sr b ri y s).disp < best.disp - eps ∧
        (∀ t, s0 ≤ t → t < s → sr.canPlaceAt t n = some true →
          sr.xStart + t * sr.siteWidth + b.width ≤ sr.xEnd + eps →
          (candidateAt sr b ri y s).disp < (candidateAt sr b ri y t).disp) ∧
        (∀ t, s < t → t < s0 + k → sr.canPlaceAt t n = some true →
          sr.xStart + t * sr.siteWidth + b.width ≤ sr.xEnd + eps →
          (candidateAt sr b ri y s).disp - eps ≤ (candidateAt sr b ri y t).disp) := by
  intro k
  induction k with
  | zero =>
    intro s0 best best' h
    simp only [scanSites, Option.some.injEq] at h
    exact Or.inl ⟨h.symm, fun t h1 h2 => by push_cast at h2; omega⟩
  | succ k ih =>
    intro s0 best best' h
    have heps := eps_pos
    have hd : ∀ t, (candidateAt sr b ri y t).disp
        = |sr.xStart + t * sr.siteWidth - b.origX| + |y - b.origY| := fun t => rfl
    have hskip : scanSites sr b ri y n (s0 + 1) k best = some best' →
        (¬ (sr.canPlaceAt s0 n = some true ∧
          sr.xStart + s0 * sr.siteWidth + b.width ≤ sr.xEnd + eps) ∨
          best.disp - eps ≤ (candidateAt sr b ri y s0).disp) →
        ((best' = best ∧ ∀ t, s0 ≤ t → t < s0 + (k + 1 : ℕ) → sr.canPlaceAt t n = some true →
          sr.xStart + t * sr.siteWidth + b.width ≤ sr.xEnd + eps →
          best.disp - eps ≤ (candidateAt sr b ri y t).disp) ∨
        ∃ s, s0 ≤ s ∧ s < s0 + (k + 1 : ℕ) ∧ sr.canPlaceAt s n = some true ∧
          best' = candidateAt sr b ri y s ∧
          (candidateAt sr b ri y s).disp < best.disp - eps ∧
          (∀ t, s0 ≤ t → t < s → sr.canPlaceAt t n = some true →
            sr.xStart + t * sr.siteWidth + b.width ≤ sr.xEnd + eps →
            (candidateAt sr b ri y s).disp < (candidateAt sr b ri y t).disp) ∧
          (∀ t, s < t → t < s0 + (k + 1 : ℕ) → sr.canPlaceAt t n = some true →
            sr.xStart + t * sr.siteWidth + b.width ≤ sr.xEnd + eps →
            (candidateAt sr b ri y s).disp - eps ≤ (candidateAt sr b ri y t).disp)) := by
      intro h' hno
      rcases ih (s0 + 1) best best' h' with ⟨e, hall⟩ | ⟨s, h1, h2, h3, h4, h5, h6, h7⟩
      · refine Or.inl ⟨e, fun t ht1 ht2 hcan hfit => ?_⟩
        by_cases hts : t = s0
        · rcases hno with hno | hno
          · exact absurd ⟨hts ▸ hcan, hts ▸ hfit⟩ hno
          · rw [hts]; exact hno
        · exact hall t (by omega) (by push_cast at ht2 ⊢; omega) hcan hfit
      · refine Or.inr ⟨s, by omega, by push_cast at h2 ⊢; omega, h3, h4, h5, ?_, ?_⟩
        · intro t ht1 ht2 hcan hfit
          by_cases hts : t = s0
          · rcases hno with hno | hno
            · exact absurd ⟨hts ▸ hcan, hts ▸ hfit⟩ hno
            · rw [hts]; linarith
          · exact h6 t (by omega) ht2 hcan hfit
        · intro t ht1 ht2 hcan hfit
          exact h7 t ht1 (by push_cast at ht2 ⊢; omega) hcan hfit
    simp only [scanSites] at h
    cases hc : sr.canPlaceAt s0 n with
    | none => rw [hc] at h; cases h
    | some v =>
      cases v with
      | false =>
        rw [hc] at h
        exact hskip h (Or.inl (fun hh => by rw [hc] at hh; cases hh.1))
      | true =>
        rw [hc] at h
        simp only at h
        by_cases hfit0 : sr.xStart + s0 * sr.siteWidth + b.width > sr.xEnd + eps
        · rw [if_pos hfit0] at h
          exact hskip h (Or.inl (fun hh => absurd hh.2 (not_le.2 hfit0)))
        · rw [if_neg hfit0] at h
          by_cases hpick : |sr.xStart + s0 * sr.siteWidth - b.origX| + |y - b.origY|
              < best.disp - eps
          · rw [if_pos hpick] at h
            rcases ih (s0 + 1) (candidateAt sr b ri y s0) best' h with
              ⟨e, hall⟩ | ⟨s, h1, h2, h3, h4, h5, h6, h7⟩
            · refine Or.inr ⟨s0, le_refl _, by push_cast; omega, hc, e, hpick, ?_, ?_⟩
              · intro t ht1 ht2; omega
              · intro t ht1 ht2 hcan hfit
                exact hall t (by omega) (by push_cast at ht2 ⊢; omega) hcan hfit
            · have h5' : (candidateAt sr b ri y s).disp
                  < (candidateAt sr b ri y s0).disp - eps := h5
              rw [hd s0] at h5'
              refine Or.inr ⟨s, by omega, by push_cast at h2 ⊢; omega, h3, h4, by linarith,
                ?_, ?_⟩
              · intro t ht1 ht2 hcan hfit
                by_cases hts : t = s0
                · rw [hts, hd s0]; linarith
                · exact h6 t (by omega) ht2 hcan hfit
              · intro t ht1 ht2 hcan hfit
                exact h7 t ht1 (by push_cast at ht2 ⊢; omega) hcan hfit
          · rw [if_neg hpick] at h
            exact hskip h (Or.inr (by rw [hd s0]; exact not_lt.1 hpick))

/-- A state with the rows of a one-row, one-subrow state at the same positions
that lists a block has one row and one subrow too. -/
theorem single_rows {rows rows' : List Row} {rq : Row} {sq : SubRow} (hr : rows = [rq])
    (hs : rq.subRows = [sq]) (hsame : SameRows rows rows') {i : ℕ} (hl : Listed rows' i) :
    ∃ rq' sq', rows' = [rq'] ∧ rq'.subRows = [sq'] ∧ rq'.yStart = rq.yStart ∧
      rq'.height = rq.height ∧ rq'.siteWidth = rq.siteWidth ∧ SameSub sq sq' ∧
      i ∈ sq'.placedBlocks := by
  obtain ⟨ri, si, r', sr', hsub', hm⟩ := hl
  obtain ⟨r0, sr0, hsub0, ey, eh, ew, hss⟩ := hsame.2 ri si r' sr' hsub'
  rw [hr] at hsub0
  obtain ⟨hri, hsi, hr0, hsr0⟩ := isSub_singleton hs hsub0
  subst hri
  subst hsi
  rw [hr0] at ey eh ew
  rw [hsr0] at hss
  have hrows' : rows' = [r'] := by
    cases hrw : rows' with
    | nil =>
      have := hsub'.1
      rw [hrw] at this
      simp at this
    | cons x tl =>
      have hx : x = r' := by
        have := hsub'.1
        rw [hrw] at this
        simpa using this
      cases tl with
      | nil => rw [hx]
      | cons z tl' =>
        exfalso
        obtain ⟨r1, h1, _⟩ := hsame.1 1 z (by rw [hrw]; simp)
        rw [hr] at h1
        simp at h1
  have hsubs' : r'.subRows = [sr'] := by
    cases hsw : r'.subRows with
    | nil =>
      have := hsub'.2
      rw [hsw] at this
      simp at this
    | cons x tl =>
      have hx : x = sr' := by
        have := hsub'.2
        rw [hsw] at this
        simpa using this
      cases tl with
      | nil => rw [hx]
      | cons z tl' =>
        exfalso
        have hz : IsSub rows' 0 1 r' z := ⟨hsub'.1, by rw [hsw]; simp⟩
        obtain ⟨r1, sr1, h1, _⟩ := hsame.2 0 1 r' z hz
        rw [hr] at h1
        obtain ⟨_, _, e1, _⟩ := isSub_singleton hs h1
        have := h1.2
        rw [e1, hs] at this
        simp at this
  exact ⟨r', sr', hrows', hsubs', ey.symm, eh.symm, ew.symm, hss, hm⟩

/-- In a state of the single-cell scenario `canPlaceAt` accepts exactly the
start sites whose range lies in the subrow and does not meet the range of the
cell. -/
theorem single_can {q : Placement} {r : Row} {xs : ℚ} {num : ℤ} {b : Block} {rq : Row}
    {sq : SubRow} {a : ℤ} (h : SingleAt q r xs num b rq sq a) (hsw : 0 < r.siteWidth)
    (hw : 0 < b.width) (t : ℤ) :
    sq.canPlaceAt t ⌈b.width / r.siteWidth⌉ = some true ↔
      0 ≤ t ∧ t + ⌈b.width / r.siteWidth⌉ ≤ num ∧
        (t + ⌈b.width / r.siteWidth⌉ ≤ a ∨ a + ⌈b.width / r.siteWidth⌉ ≤ t) := by
  have hsub : IsSub q.rows 0 0 rq sq := ⟨by rw [h.rows]; rfl, by rw [h.subs]; rfl⟩
  have hg := h.legal.lists.stat.geom 0 0 rq sq hsub
  have hok := h.legal.lists.sub 0 0 rq sq hsub
  have hn : 1 ≤ ⌈b.width / r.siteWidth⌉ := by
    have : 0 < ⌈b.width / r.siteWidth⌉ := Int.ceil_pos.2 (div_pos hw hsw)
    omega
  have hsites : sitesOf sq (q.block 0) = ⌈b.width / r.siteWidth⌉ := by
    unfold sitesOf
    rw [h.cell.2.1, hg.sw_eq, h.rowWidth]
  have hnq : ⌈(q.block 0).width / rq.siteWidth⌉ = ⌈b.width / r.siteWidth⌉ := by
    rw [h.cell.2.1, h.rowWidth]
  constructor
  · intro hcan
    have h0 := canPlaceAt_start_nonneg hn hcan
    have h1 := ((canPlaceAt_eq_true (by omega)).1 hcan).1
    rw [h.numSites] at h1
    have h2 := free_range_avoids h.legal hsub h.listed (by rw [hnq]; exact hcan)
    rw [hsites, h.site] at h2
    exact ⟨h0, h1, h2⟩
  · rintro ⟨h0, h1, h2⟩
    refine (canPlaceAt_eq_true (by omega)).2 ⟨by rw [h.numSites]; exact h1, ?_⟩
    intro j hj1 hj2
    obtain ⟨v, hv⟩ := readSite_isSome sq.occupiedSites j (by omega)
      (by rw [hg.len, h.numSites]; omega)
    cases v with
    | false => exact hv
    | true =>
      exfalso
      obtain ⟨i, hi, c1, c2⟩ := (hok.bits j (by omega) (by rw [h.numSites]; omega)).1 hv
      have hi0 : i = 0 := by
        have := (hok.placed i hi).1
        rw [h.blocks] at this
        omega
      subst hi0
      have hb0 : q.blocks.getD 0 default = q.block 0 := rfl
      rw [hb0, h.site] at c1
      rw [hb0, hsites, h.site] at c2
      omega

/-- With one movable block the refinement sweeps over that block only. -/
theorem single_order {q : Placement} (hlen : q.blocks.length = 1)
    (hfix : (q.block 0).isFixed = false) : optimizeOrder q = [0] := by
  have hm : movableBlocks q = [0] := by
    unfold movableBlocks
    rw [hlen]
    show List.filter _ [0] = [0]
    simp [hfix]
  unfold optimizeOrder
  rw [hm]
  rfl

/-- One cell step of the refinement in a state of the single-cell scenario with
a cell of width at most 20 on site `a`: either no site whose range avoids the
range of the cell is nearer to `origX` by more than `1e-6` and nothing changes,
or the cell moves to the first site `s` among the nearest of them. -/
theorem single_step {q : Placement} {r : Row} {xs : ℚ} {num : ℤ} {b : Block} {rq : Row}
    {sq : SubRow} {a : ℤ} (h : SingleAt q r xs num b rq sq a) (hsw : 0 < r.siteWidth)
    (hw : 0 < b.width) (hw20 : b.width ≤ 20) (hfix : b.isFixed = false) :
    (optimizeBlock q 0 = some (q, false) ∧
      ∀ t, 0 ≤ t → t + ⌈b.width / r.siteWidth⌉ ≤ num →
        (t + ⌈b.width / r.siteWidth⌉ ≤ a ∨ a + ⌈b.width / r.siteWidth⌉ ≤ t) →
        |xs + a * r.siteWidth - b.origX| - eps ≤ |xs + t * r.siteWidth - b.origX|) ∨
    ∃ (q' : Placement) (rq' : Row) (sq' : SubRow) (s : ℤ),
      optimizeBlock q 0 = some (q', true) ∧ SingleAt q' r xs num b rq' sq' s ∧
      0 ≤ s ∧ s + ⌈b.width / r.siteWidth⌉ ≤ num ∧
      (s + ⌈b.width / r.siteWidth⌉ ≤ a ∨ a + ⌈b.width / r.siteWidth⌉ ≤ s) ∧
      |xs + s * r.siteWidth - b.origX| < |xs + a * r.siteWidth - b.origX| - eps ∧
      (∀ t, 0 ≤ t → t < s → t + ⌈b.width / r.siteWidth⌉ ≤ num →
        (t + ⌈b.width / r.siteWidth⌉ ≤ a ∨ a + ⌈b.width / r.siteWidth⌉ ≤ t) →
        |xs + s * r.siteWidth - b.origX| < |xs + t * r.siteWidth - b.origX|) ∧
      (∀ t, s < t → t + ⌈b.width / r.siteWidth⌉ ≤ num →
        (t + ⌈b.width / r.siteWidth⌉ ≤ a ∨ a + ⌈b.width / r.siteWidth⌉ ≤ t) →
        |xs + s * r.siteWidth - b.origX| - eps ≤ |xs + t * r.siteWidth - b.origX|) := by
  have heps := eps_pos
  have hsub : IsSub q.rows 0 0 rq sq := ⟨by rw [h.rows]; rfl, by rw [h.subs]; rfl⟩
  have hg := h.legal.lists.stat.geom 0 0 rq sq hsub
  obtain ⟨hcn, hcw, hch, hcx, hcy, hcf⟩ := h.cell
  obtain ⟨_, _, _, _, px, _, py, ph, _⟩ := placed_facts h.legal hsub h.listed
  have hn : 1 ≤ ⌈b.width / r.siteWidth⌉ := by
    have : 0 < ⌈b.width / r.siteWidth⌉ := Int.ceil_pos.2 (div_pos hw hsw)
    omega
  have hnq : ⌈(q.block 0).width / rq.siteWidth⌉ = ⌈b.width / r.siteWidth⌉ := by
    rw [hcw, h.rowWidth]
  have hsq : sq.siteWidth = r.siteWidth := by rw [hg.sw_eq, h.rowWidth]
  have hdisp : (q.block 0).disp
      = |xs + a * r.siteWidth - b.origX| + |r.yStart - b.origY| := by
    unfold Block.disp
    rw [px, py, h.site, h.xStart, hsq, hcx, hcy, h.yStart]
  have hcand : ∀ t, (candidateAt sq (q.block 0) 0 rq.yStart t).disp
      = |xs + t * r.siteWidth - b.origX| + |r.yStart - b.origY| := by
    intro t
    show |sq.xStart + t * sq.siteWidth - (q.block 0).origX| + |rq.yStart - (q.block 0).origY| = _
    rw [h.xStart, hsq, hcx, hcy, h.yStart]
  have hfit : ∀ t, t + ⌈b.width / r.siteWidth⌉ ≤ num →
      sq.xStart + t * sq.siteWidth + (q.block 0).width ≤ sq.xEnd + eps := by
    intro t ht
    exact fits_of_geom hg (q.block 0).width (by rw [hnq, h.numSites]; omega)
  obtain ⟨best, hscan, _⟩ := scan_cand h.legal.lists.stat 0
  have hss : scanSites sq (q.block 0) 0 rq.yStart ⌈b.width / r.siteWidth⌉ 0 sq.numSites.toNat
      ⟨q.rows.length, (q.block 0).x, (q.block 0).y, (q.block 0).disp⟩ = some best := by
    have hall := scanRows_all (q.block 0) (by rw [hcw]; exact hw) (by rw [hcw]; exact hw20)
      (q.block 0).disp 0 q.rows (subGeom_of_static h.legal.lists.stat)
      ⟨q.rows.length, (q.block 0).x, (q.block 0).y, (q.block 0).disp⟩ (le_refl _)
    rw [hall] at hscan
    have hrows : q.rows = [rq] := h.rows
    rw [hrows] at hscan
    simp only [scanRowsAll] at hscan
    rw [if_neg (not_lt.2 ph), h.subs] at hscan
    simp only [scanSubRowsAll] at hscan
    rw [hnq] at hscan
    rw [← hrows] at hscan
    cases hc : scanSites sq (q.block 0) 0 rq.yStart ⌈b.width / r.siteWidth⌉ 0 sq.numSites.toNat
        ⟨q.rows.length, (q.block 0).x, (q.block 0).y, (q.block 0).disp⟩ with
    | none => rw [hc] at hscan; cases hscan
    | some v => rw [hc] at hscan; exact hscan
  have hrange : ∀ t, 0 ≤ t → t + ⌈b.width / r.siteWidth⌉ ≤ num →
      t < 0 + (sq.numSites.toNat : ℤ) := by
    intro t h0 h1
    rw [h.numSites]
    omega
  rcases scanSites_first_min _ 0 _ best hss with ⟨e, hallc⟩ | ⟨s, s0, s1, hcan, e, hlt, hpre, hpost⟩
  · left
    constructor
    · unfold optimizeBlock
      simp only [hscan]
      rw [if_neg]
      rw [e]
      show ¬ (q.block 0).disp < (q.block 0).disp - eps
      linarith
    · intro t h0 h1 h2
      have := hallc t h0 (hrange t h0 h1) ((single_can h hsw hw t).2 ⟨h0, h1, h2⟩) (hfit t h1)
      rw [hcand] at this
      have e2 : (⟨q.rows.length, (q.block 0).x, (q.block 0).y, (q.block 0).disp⟩ : Best).disp
          = (q.block 0).disp := rfl
      rw [e2, hdisp] at this
      linarith
  · right
    have e2 : (⟨q.rows.length, (q.block 0).x, (q.block 0).y, (q.block 0).disp⟩ : Best).disp
        = (q.block 0).disp := rfl
    rw [e2] at hlt
    have hlt' : best.disp < (q.block 0).disp - eps := by rw [e]; exact hlt
    obtain ⟨q', hob⟩ := optimizeBlock_moves h.legal h.apart 0 hscan hlt'
    obtain ⟨p', moved', hob', hl', ha', hiff⟩ := optimizeBlock_legal h.legal h.apart 0
    rw [hob] at hob'
    have hpq : q' = p' := (Prod.mk.inj (Option.some.inj hob')).1
    rw [← hpq] at hl' ha' hiff
    have hi : 0 ∈ movableBlocks q :=
      (mem_movableBlocks q 0).2 ⟨by rw [h.blocks]; omega, by rw [hcf]; exact hfix⟩
    obtain ⟨cands, best2, _, hscan2, _, hmv, _⟩ := (target_choice_exact q 0 hi).1 q' true hob
    rw [hscan] at hscan2
    have hb2 : best = best2 := Option.some.inj hscan2
    rw [← hb2] at hmv
    obtain ⟨_, hx', hy'⟩ := hmv rfl
    have hsame := optimizeBlock_sameRows hob
    have hsc := optimizeBlock_sameCells hob
    have hlisted : Listed q'.rows 0 := (hiff 0).2 ⟨0, 0, rq, sq, hsub, h.listed⟩
    obtain ⟨rq', sq', hr', hs', ey, eh, ew, ⟨t1, t2, t3, t4, t5⟩, hm'⟩ :=
      single_rows h.rows h.subs hsame hlisted
    have hswq : 0 < sq.siteWidth := by rw [hsq]; exact hsw
    have hsite : startOf sq' (q'.block 0) = s := by
      unfold startOf
      rw [hx', e, t1, t3]
      show ⌊(sq.xStart + s * sq.siteWidth - sq.xStart) / sq.siteWidth⌋ = s
      have : (sq.xStart + (s : ℚ) * sq.siteWidth - sq.xStart) / sq.siteWidth = (s : ℚ) := by
        field_simp
      rw [this]
      exact Int.floor_intCast s
    obtain ⟨f0, f1, f2⟩ := (single_can h hsw hw s).1 hcan
    refine ⟨q', rq', sq', s, hob, ?_, f0, f1, f2, ?_, ?_, ?_⟩
    · exact ⟨hl', ha', hr', hs', ey.trans h.yStart, eh.trans h.height, ew.trans h.rowWidth,
        t1.trans h.xStart, t4.trans h.numSites, hsc.1.trans h.blocks,
        sameCell_trans h.cell (hsc.2 0), hm', hsite⟩
    · rw [hcand, hdisp] at hlt
      linarith
    · intro t h0 hts h1 h2
      have := hpre t h0 hts ((single_can h hsw hw t).2 ⟨h0, h1, h2⟩) (hfit t h1)
      rw [hcand, hcand] at this
      linarith
    · intro t hts h1 h2
      have h0 : 0 ≤ t := by omega
      have := hpost t hts (hrange t h0 h1) ((single_can h hsw hw t).2 ⟨h0, h1, h2⟩) (hfit t h1)
      rw [hcand, hcand] at this
      linarith

/-- Coordinates of the cell in a state of the single-cell scenario. -/
theorem single_result {q : Placement} {r : Row} {xs : ℚ} {num : ℤ} {b : Block} {rq : Row}
    {sq : SubRow} {a : ℤ} (h : SingleAt q r xs num b rq sq a) :
    (q.block 0).y = r.yStart ∧ (q.block 0).x = xs + a * r.siteWidth := by
  have hsub : IsSub q.rows 0 0 rq sq := ⟨by rw [h.rows]; rfl, by rw [h.subs]; rfl⟩
  have hg := h.legal.lists.stat.geom 0 0 rq sq hsub
  obtain ⟨_, _, _, _, px, _, py, _, _⟩ := placed_facts h.legal hsub h.listed
  refine ⟨py.trans h.yStart, ?_⟩
  rw [px, h.site, h.xStart, hg.sw_eq, h.rowWidth]

/-- The state after the initial placer in the single-cell scenario: the cell
is listed on site 0. -/
theorem single_placed {p : Placement} {r : Row} {xs : ℚ} {num : ℤ} {b : Block}
    (h : SingleCell p r xs num b) :
    ∃ p1 rq sq, initialPlacement p = some p1 ∧ SingleAt p1 r xs num b rq sq 0 := by
  obtain ⟨hwf, hsep⟩ := wellFormed_of_single h
  obtain ⟨p1, h1, hl1⟩ := initialPlacement_legal hwf
  have hinit := single_initial h
  obtain ⟨hrows, hblocks, hsw, hnum, hsubs, hfix, hw, _, hh, hn, _, _⟩ := h
  have hb : p.block 0 = b := by simp [Placement.block, hblocks]
  have hsub : IsSub p.rows 0 0 r (SubRow.new xs num r.siteWidth) := by
    constructor
    · rw [hrows]; rfl
    · rw [hsubs]; rfl
  have hn0 : 0 < ⌈b.width / r.siteWidth⌉ := Int.ceil_pos.2 (div_pos hw hsw)
  have hp1 : p1 = placeAt p 0 0 0 0 ⌈b.width / r.siteWidth⌉ := by
    rw [h1] at hinit
    exact Option.some.inj hinit
  have hlisted1 : Listed p1.rows 0 := by
    rw [hp1, ← hb]
    exact (legal_placeAt (legal_of_wellFormed hwf) (not_listed_of_wellFormed hwf 0) hsub
      (by rw [hblocks]; simp) (by rw [hb]; exact hfix) (by rw [hb]; exact hw)
      (by rw [hb]; exact hh) (le_refl _)
      (by rw [hb]; exact canPlaceAt_new (le_of_lt hn0) hn)).2
  have hblock1 : p1.block 0 = { b with x := xs + ((0 : ℤ) : ℚ) * r.siteWidth, y := r.yStart } := by
    rw [hp1]
    unfold placeAt
    rw [insertAt_block, moveTo_block, if_pos ⟨rfl, by rw [hblocks]; simp⟩, hb,
      rowD_of_isSub hsub]
    have : r.subRows.getD 0 default = SubRow.new xs num r.siteWidth := by simp [hsubs]
    rw [this]
    rfl
  have hsame := placeAll_sameRows h1
  obtain ⟨rq, sq, hr', hs', ey, eh, ew, ⟨t1, t2, t3, t4, t5⟩, hm'⟩ :=
    single_rows hrows hsubs hsame hlisted1
  have hsc := initialPlacement_sameCells h1
  have hcell : SameCell b (p1.block 0) := by
    have := hsc.2 0
    rw [hb] at this
    exact this
  refine ⟨p1, rq, sq, h1, hl1, apart_of_sameRows (apart_of_separated hsep) hsame, hr', hs',
    ey, eh, ew, t1, t4, by rw [hsc.1, hblocks]; rfl, hcell, hm', ?_⟩
  unfold startOf
  rw [hblock1, t1, t3]
  show ⌊(xs + ((0 : ℤ) : ℚ) * r.siteWidth - xs) / r.siteWidth⌋ = 0
  have : (xs + ((0 : ℤ) : ℚ) * r.siteWidth - xs) / r.siteWidth = ((0 : ℤ) : ℚ) := by
    push_cast
    ring_nf
  rw [this]
  exact Int.floor_intCast 0

/-- The refinement on a state of the single-cell scenario in which a cell step
changes nothing returns that state. -/
theorem single_stop {q : Placement} {r : Row} {xs : ℚ} {num : ℤ} {b : Block} {rq : Row}
    {sq : SubRow} {a : ℤ} (h : SingleAt q r xs num b rq sq a) (hfix : b.isFixed = false)
    (hob : optimizeBlock q 0 = some (q, false)) (k : ℕ) :
    optimizeLoop (k + 1) q = some (q, 1) := by
  have ho := single_order h.blocks (by rw [h.cell.2.2.2.2.2]; exact hfix)
  simp only [optimizeLoop, optimizeIteration, ho, optimizeBlocks, hob, Bool.or_false]

/-- The first sweep of the refinement on a state of the single-cell scenario
in which the cell step moves the cell. -/
theorem single_sweep {q q' : Placement} {r : Row} {xs : ℚ} {num : ℤ} {b : Block} {rq : Row}
    {sq : SubRow} {a : ℤ} (h : SingleAt q r xs num b rq sq a) (hfix : b.isFixed = false)
    (hob : optimizeBlock q 0 = some (q', true)) :
    optimizeIteration q = some (q', true) := by
  have ho := single_order h.blocks (by rw [h.cell.2.2.2.2.2]; exact hfix)
  simp only [optimizeIteration, ho, optimizeBlocks, hob, Bool.or_true]

/-- The single-cell scenario in exact arithmetic, for a cell of width at most
20 and distances to `origX` that are equal or more than `1e-6` apart: both
passes return the cell on the site nearest to `origX` among site 0 and the
sites of `[n, num - n]`, the lower site winning a tie. -/
theorem single_exact {p : Placement} {r : Row} {xs : ℚ} {num : ℤ} {b : Block}
    (h : SingleCell p r xs num b) (hw20 : b.width ≤ 20)
    (hint : ∀ s t : ℤ,
      |xs + s * r.siteWidth - b.origX| - eps ≤ |xs + t * r.siteWidth - b.origX| →
      |xs + s * r.siteWidth - b.origX| ≤ |xs + t * r.siteWidth - b.origX|) :
    Returns (legalize p) (fun p' => OnNearestFreeSite r xs num (p'.block 0)) := by
  have heps := eps_pos
  obtain ⟨p1, rq, sq, h1, hS1⟩ := single_placed h
  obtain ⟨_, _, hsw, _, _, hfix, hw, _, _, hnum, _, _⟩ := h
  have hn : 1 ≤ ⌈b.width / r.siteWidth⌉ := by
    have : 0 < ⌈b.width / r.siteWidth⌉ := Int.ceil_pos.2 (div_pos hw hsw)
    omega
  have hfinal : ∀ (q : Placement) (rq' : Row) (sq' : SubRow) (s : ℤ),
      SingleAt q r xs num b rq' sq' s → optimizePlacement p1 = some q →
      (s = 0 ∨ ⌈b.width / r.siteWidth⌉ ≤ s) → s ≤ num - ⌈b.width / r.siteWidth⌉ →
      (∀ t : ℤ, (t = 0 ∨ ⌈b.width / r.siteWidth⌉ ≤ t) → t ≤ num - ⌈b.width / r.siteWidth⌉ →
        |xs + s * r.siteWidth - b.origX| < |xs + t * r.siteWidth - b.origX| ∨
        (|xs + s * r.siteWidth - b.origX| = |xs + t * r.siteWidth - b.origX| ∧ s ≤ t)) →
      Returns (legalize p) (fun p' => OnNearestFreeSite r xs num (p'.block 0)) := by
    intro q rq' sq' s hS hopt hs0 hs1 hmin
    obtain ⟨hy, hx⟩ := single_result hS
    refine ⟨q, by simp only [legalize, h1]; exact hopt, hy, s, ?_, ?_, hx, ?_⟩
    · rw [hS.cell.2.1]; exact hs0
    · rw [hS.cell.2.1]; exact hs1
    · rw [hS.cell.2.1, hS.cell.2.2.2.1]; exact hmin
  rcases single_step hS1 hsw hw hw20 hfix with
    ⟨hob, hmin⟩ | ⟨q', rq', sq', s, hob, hS2, f0, f1, f2, hlt, hpre, hpost⟩
  · refine hfinal p1 rq sq 0 hS1 ?_ (Or.inl rfl) (by omega) ?_
    · unfold optimizePlacement
      rw [single_stop hS1 hfix hob 5]
      rfl
    · intro t ht0 ht1
      rcases ht0 with ht0 | ht0
      · right
        rw [ht0]
        exact ⟨rfl, le_refl _⟩
      · have := hint 0 t (hmin t (by omega) (by omega) (Or.inr (by omega)))
        rcases lt_or_eq_of_le this with h' | h'
        · exact Or.inl h'
        · exact Or.inr ⟨h', by omega⟩
  · have hns : ⌈b.width / r.siteWidth⌉ ≤ s := by omega
    have hstay : optimizeBlock q' 0 = some (q', false) := by
      rcases single_step hS2 hsw hw hw20 hfix with
        ⟨hob2, _⟩ | ⟨_, _, _, s2, _, _, g0, g1, g2, hlt2, _, _⟩
      · exact hob2
      · exfalso
        by_cases hs2n : ⌈b.width / r.siteWidth⌉ ≤ s2
        · rcases lt_trichotomy s2 s with hlt3 | heq3 | hgt3
          · have := hpre s2 g0 hlt3 g1 (Or.inr (by omega))
            linarith
          · omega
          · have := hpost s2 hgt3 g1 (Or.inr (by omega))
            linarith
        · have hs2s : s2 + ⌈b.width / r.siteWidth⌉ ≤ s := by omega
          by_cases hsn : s = ⌈b.width / r.siteWidth⌉
          · have hs20 : s2 = 0 := by omega
            rw [hs20] at hlt2
            linarith
          · have hn1 := hpre ⌈b.width / r.siteWidth⌉ (by omega) (by omega) (by omega)
              (Or.inr (by omega))
            have c1 : ((s2 : ℤ) : ℚ) < ((⌈b.width / r.siteWidth⌉ : ℤ) : ℚ) := by
              exact_mod_cast (by omega : s2 < ⌈b.width / r.siteWidth⌉)
            have c2 : ((⌈b.width / r.siteWidth⌉ : ℤ) : ℚ) < ((s : ℤ) : ℚ) := by
              exact_mod_cast (by omega : ⌈b.width / r.siteWidth⌉ < s)
            have m1 := mul_lt_mul_of_pos_right c1 hsw
            have m2 := mul_lt_mul_of_pos_right c2 hsw
            have hu : xs + ((⌈b.width / r.siteWidth⌉ : ℤ) : ℚ) * r.siteWidth - b.origX < 0 := by
              by_contra hu
              push_neg at hu
              have a1 := abs_of_nonneg hu
              have a2 := le_abs_self (xs + (s : ℚ) * r.siteWidth - b.origX)
              linarith
            have a1 := abs_of_neg hu
            have a2 := neg_le_abs (xs + (s2 : ℚ) * r.siteWidth - b.origX)
            linarith
    refine hfinal q' rq' sq' s hS2 ?_ (Or.inr hns) (by omega) ?_
    · unfold optimizePlacement
      have hloop : optimizeLoop 6 p1 = some (q', 2) := by
        simp only [optimizeLoop, single_sweep hS1 hfix hob]
        have := single_stop hS2 hfix hstay 4
        simp only [optimizeLoop] at this
        rw [this]
      rw [hloop]
      rfl
    · intro t ht0 ht1
      rcases ht0 with ht0 | ht0
      · left
        rw [ht0]
        linarith
      · rcases lt_trichotomy t s with hlt3 | heq3 | hgt3
        · exact Or.inl (hpre t (by omega) hlt3 (by omega) (Or.inr (by omega)))
        · right
          rw [heq3]
          exact ⟨rfl, le_refl _⟩
        · have := hint s t (hpost t hgt3 (by omega) (Or.inr (by omega)))
          rcases lt_or_eq_of_le this with h' | h'
          · exact Or.inl h'
          · exact Or.inr ⟨h', by omega⟩

/-! ## C10: the single-cell scenario -/

/-- Scenarios S1 and S2 of the specification in `double` arithmetic: width 3 at
`origX = 5.4` ends at `x = 5, y = 0` with a displacement within `1e-9` of
`0.4`; width 2 at `origX = 10.5` ends at `x = 10` (not 11), `y = 0`, with
displacement `0.5`. -/
theorem scenarios_S1_S2 :
    Returns (Fp.legalize fl nearestInput) (fun p' =>
      (p'.block 0).x = 5 ∧ (p'.block 0).y = 0 ∧
      |Fp.disp fl (p'.block 0) - 2 / 5| ≤ 1 / 1000000000) ∧
    Returns (Fp.legalize fl halfwayInput) (fun p' =>
      (p'.block 0).x = 10 ∧ (p'.block 0).y = 0 ∧ Fp.disp fl (p'.block 0) = 1 / 2) := by
  decide!

end Legalizer
